import Mathlib

/-!
# FuseDrive: cache nodes, chunked file contents and the file handle API

A shallow embedding of `gdrive-file-contents.c`, `gdrive-cache-node.c`,
`gdrive-cache.c`, `gdrive-fileid-cache-node.c`, `gdrive-fileinfo-array.c`, the
retry loop of `gdrive-download-buffer.c` and the permission helpers of
`gdrive-info.c` and `gdrive-fileinfo.c`.

Conventions of the embedding.

* `size_t` values are `Nat`, `off_t` and `int` values are `Int`. Values are
  taken to stay inside the range of their C type, apart from the conversion
  named below; the two places where the
  source subtracts in `size_t` and may go below zero (`maxSize` in
  `gdrive_fcontents_read` and `gdrive_fcontents_write`) wrap modulo `2^64`.
* A `FILE*` temporary file is the list of bytes it holds (`none` for a NULL
  stream). Local storage is reliable: `tmpfile`, `fseek`, `fread`, `fwrite`
  and `ftruncate` do what POSIX says and report no error, and `malloc` does
  not fail. The list is the file with its stream flushed; the source resizes
  a temporary file through its descriptor without flushing the stream, and
  for the bytes read back after that the chunk is also embedded with the
  buffer of its stream (`FILE`, namespace `Buffered`).
* `gdrive_file_read` and `gdrive_file_write` return `int`: their results are
  converted with `toInt`. A division of the source traps at a divisor 0,
  where `Int.tdiv` and `Int.tmod` give a value; `createChunkDividesByZero`
  tells where the chunk size is computed that way.
* A linked list of chunks is a `List`; a pointer to a chunk of the list is the
  index of that chunk.
* The cache tree is an inductive binary tree; the parent of a node is the
  node above it. A pointer to a node of the tree (which is also what a
  `Gdrive_File*` handle is) is the way down from the root to that node.
* `gdrive_cnode_free` has no result in the source; the functions that reach
  it return the list of the nodes they free.
* Everything that crosses the network is a parameter: `Remote` answers the
  ranged downloads and the uploads, `Gdrive_Json_File` is a parsed file
  resource, `Gdrive_Change` a parsed item of the change feed. The retry loop
  takes the answers of the server and of `gdrive_auth` as functions of the
  number of the request, and returns the requests, waits and credential
  refreshes it made, in order.
* The clock (`time(NULL)`) is a parameter `now`, read once per call (the
  clock does not advance inside a call), and the value of `rand()` is a
  parameter of `gdrive_exponential_wait`.
* For the pointer surgery of `gdrive_cnode_delete` and `gdrive_cnode_swap`
  and for the node `gdrive_cnode_get` creates, the tree is also embedded as
  it lies in memory (`Gdrive_Cache_Memory`): the members `pParent`, `pLeft`
  and `pRight` are maps from the address of a node, a `Gdrive_Cache_Node**`
  is a `Gdrive_Link`, and the address `malloc` returns is a parameter.
* Loops and recursions of the source that Lean cannot see to terminate take a
  bound on their turns; the theorems say which bound is enough.
-/

namespace FuseDrive

/-! ## Constants of the C library and of `gdrive.h` -/

def ENOENT : Int := 2
def EIO : Int := 5
def ENOMEM : Int := 12
def EACCES : Int := 13
def EISDIR : Int := 21
def EINVAL : Int := 22

def O_RDONLY : Nat := 0
def O_WRONLY : Nat := 1
def O_RDWR : Nat := 2

def S_IROTH : Nat := 4
def S_IWOTH : Nat := 2
def S_IXOTH : Nat := 1

def GDRIVE_ACCESS_META : Nat := 1
def GDRIVE_ACCESS_READ : Nat := 2
def GDRIVE_ACCESS_WRITE : Nat := 4

/-- Settings held by `Gdrive_Info`: the access mode bits and the chunk-size
configuration returned by `gdrive_get_minchunksize` and `gdrive_get_maxchunks`. -/
structure Gdrive_Info where
  mode : Nat
  minChunkSize : Nat
  maxChunks : Nat
  deriving DecidableEq, Repr

/-! ## Data model -/

inductive Gdrive_Filetype where
  | GDRIVE_FILETYPE_FILE
  | GDRIVE_FILETYPE_FOLDER
  deriving DecidableEq, Repr

structure Timespec where
  tv_sec : Int
  tv_nsec : Int
  deriving DecidableEq, Repr

structure Gdrive_Fileinfo where
  id : Option String
  filename : Option String
  type : Gdrive_Filetype
  size : Nat
  basePermission : Nat
  creationTime : Timespec
  modificationTime : Timespec
  accessTime : Timespec
  nParents : Int
  nChildren : Int
  dirtyMetainfo : Bool
  deriving DecidableEq, Repr

/-- One chunk: `start` and `end_` are the inclusive byte offsets (`end` in
the source), `fh` the temporary file. -/
structure Gdrive_File_Contents where
  start : Int
  end_ : Int
  fh : Option (List Nat)
  deriving DecidableEq, Repr

structure Gdrive_Cache_Node where
  lastUpdateTime : Int
  openCount : Int
  openWrites : Int
  dirty : Bool
  deleted : Bool
  fileinfo : Gdrive_Fileinfo
  pContents : List Gdrive_File_Contents
  deriving DecidableEq, Repr

/-! ## What comes from the network -/

/-- A parsed file resource, as `gdrive_finfo_read_json` reads it: each field
is `none` when the key is missing or has the wrong type; the three dates are
`none` also when they do not parse. `parents` holds, for each entry of the
`parents` array, the `id` of that entry. -/
structure Gdrive_Json_File where
  title : Option String
  id : Option String
  fileSize : Option Nat
  mimeType : Option String
  role : Option String
  createdDate : Option Timespec
  modifiedDate : Option Timespec
  lastViewedByMeDate : Option Timespec
  parents : Option (List (Option String))
  deriving DecidableEq, Repr

/-- One item of the `items` array of the change feed. -/
structure Gdrive_Change where
  fileId : Option String
  file : Option Gdrive_Json_File
  deriving DecidableEq, Repr

/-- The parsed answer of the change feed; an item that cannot be fetched from
the array is `none`. -/
structure Gdrive_Changes where
  items : List (Option Gdrive_Change)
  largestChangeId : Option Int
  deriving DecidableEq, Repr

/-- What the remote side answers. `download fileId first last` is the body of
the ranged GET `Range: bytes=first-last` on the file, `none` when the transfer
returns no buffer or an HTTP status of 400 or above. `uploadStatus` is the
HTTP status of the upload issued by `gdrive_file_sync` (`none`: no buffer),
and `uploadReads` lists the `(offset, size)` requests the transfer makes to
the upload callback. `patchOk` tells whether the metadata PATCH of
`gdrive_file_sync_metadata` succeeds. `fileGet` answers the metadata GET of
`gdrive_cnode_get`, `fileGetFields` the one of `gdrive_finfo_get_by_id`
(`none`: failed transfer, status of 400 or above, or unparsable body),
`folderCount` is the number of entries `gdrive_folder_list` returns, and
`changes` answers the change feed request of `gdrive_cache_update`. -/
structure Remote where
  download : String → Int → Int → Option (List Nat)
  uploadStatus : Option Nat
  uploadReads : List (Int × Nat)
  patchOk : Bool
  fileGet : String → Option Gdrive_Json_File
  fileGetFields : String → Option Gdrive_Json_File
  folderCount : String → Option Int
  changes : Option Gdrive_Changes

/-! ## Temporary files -/

/-- `fseek(f, pos, SEEK_SET)` followed by `fwrite` of `buf`: a gap between
the old end of file and `pos` reads as zero bytes. -/
def fwriteAt (file : List Nat) (pos : Nat) (buf : List Nat) : List Nat :=
  (file ++ List.replicate (pos - file.length) 0).take pos ++ buf
    ++ file.drop (pos + buf.length)

/-- `fseek(f, pos, SEEK_SET)` followed by `fread` of up to `size` bytes. -/
def freadAt (file : List Nat) (pos size : Nat) : List Nat :=
  (file.drop pos).take size

/-- `ftruncate` to `len` bytes on the file behind a descriptor: cuts, or
extends with zero bytes. -/
def ftruncateTo (file : List Nat) (len : Nat) : List Nat :=
  file.take len ++ List.replicate (len - file.length) 0

/-! ## `gdrive-util.c` -/

/-- The quotient rounded up. The source divides with `%` and `/` on `long`,
which trap at `divisor = 0`; the value given here for that case is not a
value the source returns. -/
def gdrive_divide_round_up (dividend divisor : Int) : Int :=
  if dividend.tmod divisor = 0 then dividend.tdiv divisor
  else dividend.tdiv divisor + 1

/-! ## `gdrive-file-contents.c` -/

/-- The chunk `gdrive_fcontents_create` returns: zeroed, with a fresh empty
temporary file. -/
def gdrive_fcontents_create : Gdrive_File_Contents :=
  { start := 0, end_ := 0, fh := some [] }

/-- Appends a new chunk at the end of the list. -/
def gdrive_fcontents_add (pHead : List Gdrive_File_Contents) :
    List Gdrive_File_Contents :=
  pHead ++ [gdrive_fcontents_create]

/-- Takes the chunk at index `i` out of the list. -/
def gdrive_fcontents_delete (i : Nat) (pHead : List Gdrive_File_Contents) :
    List Gdrive_File_Contents :=
  pHead.eraseIdx i

/-- Deletes every chunk whose start lies after `offset`. -/
def gdrive_fcontents_delete_after_offset (pHead : List Gdrive_File_Contents)
    (offset : Int) : List Gdrive_File_Contents :=
  pHead.filter (fun pContents => ¬ (pContents.start > offset))

def gdrive_fcontents_free_all (_pHead : List Gdrive_File_Contents) :
    List Gdrive_File_Contents :=
  []

/-- Index of the first chunk that holds `offset`; the scan stops at a chunk
without a temporary file. -/
def gdrive_fcontents_find_chunk :
    List Gdrive_File_Contents → Int → Option Nat
  | [], _ => none
  | pHead :: pNext, offset =>
    if pHead.fh = none then none
    else if offset ≥ pHead.start ∧ offset ≤ pHead.end_ then some 0
    else if offset = pHead.start ∧ pHead.end_ < pHead.start then some 0
    else (gdrive_fcontents_find_chunk pNext offset).map (· + 1)

/-- Downloads `size` bytes from `start` into the chunk. Returns `0` and the
filled chunk, or `-1` with the chunk as it was. -/
def gdrive_fcontents_fill_chunk (remote : Remote)
    (pContents : Gdrive_File_Contents) (fileId : String) (start : Int)
    (size : Nat) : Gdrive_File_Contents × Int :=
  let end_ : Int := start + size - 1
  match remote.download fileId start end_ with
  | some body =>
    ({ start := start, end_ := start + size - 1,
       fh := some (fwriteAt (pContents.fh.getD []) 0 body) }, 0)
  | none => (pContents, -1)

/-- Returns the count and the bytes placed in the buffer. With
`destBuf = false` (a NULL buffer) only the count that would be read. -/
def gdrive_fcontents_read (pContents : Gdrive_File_Contents) (destBuf : Bool)
    (offset : Int) (size : Nat) : Int × List Nat :=
  if destBuf = false then
    let maxSize : Nat := ((pContents.end_ - offset + 1) % 2 ^ 64).toNat
    (((if size > maxSize then maxSize else size : Nat) : Int), [])
  else
    let data := freadAt (pContents.fh.getD [])
      (offset - pContents.start).toNat size
    ((data.length : Int), data)

/-- Writes `size` bytes of `buf` at `offset`. `ferror` is `0` on the reliable
store, so the count `fwrite` returns is the return value. -/
def gdrive_fcontents_write (pContents : Gdrive_File_Contents)
    (buf : List Nat) (offset : Int) (size : Nat) (extendChunk : Bool) :
    Gdrive_File_Contents × Int :=
  let maxSize : Nat := ((pContents.end_ - offset) % 2 ^ 64).toNat
  let realSize : Nat := if extendChunk ∨ size ≤ maxSize then size else maxSize
  let file := fwriteAt (pContents.fh.getD [])
    (offset - pContents.start).toNat (buf.take size)
  let bytesWritten : Nat := size
  let newEnd : Int :=
    if offset + bytesWritten - 1 > pContents.end_ then offset + bytesWritten - 1
    else pContents.end_
  let err : Int := 0
  if bytesWritten < realSize ∧ err ≠ 0 then
    ({ pContents with end_ := newEnd, fh := some file }, -err)
  else
    ({ pContents with end_ := newEnd, fh := some file }, bytesWritten)

/-- Resizes the temporary file to `size - start` bytes; `ftruncate` rejects a
negative length with `EINVAL`. The list is the file with its stream flushed.
The source resizes through the descriptor and does not flush the stream
before, so bytes that are still in the buffer of the stream come back behind
the cut: the range and the return value given here are those of the source,
the bytes are those of the source only for a flushed stream
(`Buffered.gdrive_fcontents_truncate` is the function with the buffer). -/
def gdrive_fcontents_truncate (pContents : Gdrive_File_Contents) (size : Nat) :
    Gdrive_File_Contents × Int :=
  let newSize : Int := size - pContents.start
  if newSize < 0 then (pContents, -EINVAL)
  else
    let file := ftruncateTo (pContents.fh.getD []) newSize.toNat
    let newEnd : Int :=
      if pContents.end_ - pContents.start < newSize then
        pContents.start + newSize - 1
      else pContents.end_
    ({ pContents with end_ := newEnd, fh := some file }, 0)

/-! ## Permissions (`gdrive-info.c`, `gdrive-fileinfo.c`) -/

def gdrive_get_filesystem_perms (info : Gdrive_Info) (type : Gdrive_Filetype) :
    Nat :=
  let perms : Nat := 0
  let perms := if info.mode &&& GDRIVE_ACCESS_READ ≠ 0 then perms ||| S_IROTH
    else perms
  let perms := if info.mode &&& GDRIVE_ACCESS_WRITE ≠ 0 then perms ||| S_IWOTH
    else perms
  if type = Gdrive_Filetype.GDRIVE_FILETYPE_FOLDER then
    perms ||| S_IROTH ||| S_IXOTH
  else perms

def gdrive_finfo_real_perms (info : Gdrive_Info) (pFileinfo : Gdrive_Fileinfo) :
    Nat :=
  gdrive_get_filesystem_perms info pFileinfo.type &&& pFileinfo.basePermission

/-- The complement `~x` of an `unsigned int`. -/
def bitNot32 (x : Nat) : Nat := (2 ^ 32 - 1) ^^^ (x % 2 ^ 32)

def gdrive_file_check_perm (info : Gdrive_Info) (pNode : Gdrive_Cache_Node)
    (accessFlags : Nat) : Bool :=
  let perms := gdrive_finfo_real_perms info pNode.fileinfo
  let neededPerms : Nat := 0
  let neededPerms :=
    if O_RDONLY = 0 ∨ accessFlags &&& O_RDONLY ≠ 0 ∨ accessFlags &&& O_RDWR ≠ 0
    then neededPerms ||| S_IROTH else neededPerms
  let neededPerms :=
    if accessFlags &&& O_WRONLY ≠ 0 ∨ accessFlags &&& O_RDWR ≠ 0
    then neededPerms ||| S_IWOTH else neededPerms
  decide (neededPerms &&& bitNot32 perms = 0)

/-! ## Chunks of a cache node (`gdrive-cache-node.c`) -/

/-- The chunk at index `i` of a chunk list. -/
def chunkAt (pContents : List Gdrive_File_Contents) (i : Nat) :
    Gdrive_File_Contents :=
  pContents.getD i gdrive_fcontents_create

/-- Adds a chunk to the node; returns the node and the index of the chunk. -/
def gdrive_cnode_add_contents (pNode : Gdrive_Cache_Node) :
    Gdrive_Cache_Node × Nat :=
  ({ pNode with pContents := gdrive_fcontents_add pNode.pContents },
   pNode.pContents.length)

def gdrive_cnode_delete_file_contents (pNode : Gdrive_Cache_Node) (i : Nat) :
    Gdrive_Cache_Node :=
  { pNode with pContents := gdrive_fcontents_delete i pNode.pContents }

/-- The chunk size for the node's file: the smallest multiple of
`minChunkSize` that gives `maxChunks` or fewer chunks. -/
def chunkSizeOf (info : Gdrive_Info) (pNode : Gdrive_Cache_Node) : Int :=
  let fileSize : Int := if pNode.fileinfo.size > 0 then pNode.fileinfo.size else 1
  let perfectChunkSize := gdrive_divide_round_up fileSize info.maxChunks
  gdrive_divide_round_up perfectChunkSize info.minChunkSize * info.minChunkSize

/-- Does `gdrive_cnode_create_chunk` divide by zero on the way to the window
of the chunk. Its divisors are `maxChunks` and `minChunkSize` (inside
`gdrive_divide_round_up`) and the chunk size itself (`offset / chunkSize`,
`offset % chunkSize` and the last `gdrive_divide_round_up`). The C operators
`/` and `%` on `long` trap at a divisor 0 and the call does not return;
`Int.tdiv` and `Int.tmod` give a value there, so the definitions that follow
say what the source does only where this is `false`. -/
def createChunkDividesByZero (info : Gdrive_Info) (pNode : Gdrive_Cache_Node) : Bool :=
  decide (info.maxChunks = 0 ∨ info.minChunkSize = 0 ∨ chunkSizeOf info pNode = 0)

/-- Creates a chunk for the read of `size` bytes at `offset` and, with
`fillChunk`, downloads it. Returns the node and the index of the new chunk,
`none` when the download failed (the new chunk is then removed again). -/
def gdrive_cnode_create_chunk (info : Gdrive_Info) (remote : Remote)
    (pNode : Gdrive_Cache_Node) (offset : Int) (size : Nat) (fillChunk : Bool) :
    Gdrive_Cache_Node × Option Nat :=
  let chunkSize := chunkSizeOf info pNode
  let chunkStart : Int := (offset / chunkSize) * chunkSize
  let chunkOffset : Int := offset % chunkSize
  let endChunkOffset : Int := chunkOffset + size - 1
  let realChunkSize : Int := gdrive_divide_round_up endChunkOffset chunkSize * chunkSize
  let (pNode1, i) := gdrive_cnode_add_contents pNode
  if fillChunk then
    match gdrive_fcontents_fill_chunk remote (chunkAt pNode1.pContents i)
        (pNode.fileinfo.id.getD "") chunkStart realChunkSize.toNat with
    | (pContents, 0) =>
      ({ pNode1 with pContents := pNode1.pContents.set i pContents }, some i)
    | (_, _) => (gdrive_cnode_delete_file_contents pNode1 i, none)
  else (pNode1, some i)

def gdrive_file_read_next_chunk (info : Gdrive_Info) (remote : Remote)
    (pFile : Gdrive_Cache_Node) (destBuf : Bool) (offset : Int) (size : Nat) :
    Gdrive_Cache_Node × Int × List Nat :=
  match gdrive_fcontents_find_chunk pFile.pContents offset with
  | some i => (pFile, gdrive_fcontents_read (chunkAt pFile.pContents i) destBuf offset size)
  | none =>
    match gdrive_cnode_create_chunk info remote pFile offset size true with
    | (pNode, none) => (pNode, - EIO, [])
    | (pNode, some i) =>
      (pNode, gdrive_fcontents_read (chunkAt pNode.pContents i) destBuf offset size)

def gdrive_file_write_next_chunk (info : Gdrive_Info) (remote : Remote)
    (pFile : Gdrive_Cache_Node) (buf : List Nat) (offset : Int) (size : Nat) :
    Gdrive_Cache_Node × Int :=
  let extendChunk : Bool := decide (offset = (pFile.fileinfo.size : Int))
  let searchOffset : Int := if extendChunk ∧ offset > 0 then offset - 1 else offset
  let (pNode, pChunkContents) :=
    match gdrive_fcontents_find_chunk pFile.pContents searchOffset with
    | some i => (pFile, some i)
    | none =>
      if pFile.fileinfo.size = 0 then
        let pNode := (gdrive_cnode_create_chunk info remote pFile 0 1 false).1
        (pNode, gdrive_fcontents_find_chunk pNode.pContents searchOffset)
      else (pFile, none)
  match pChunkContents with
  | none => (pNode, -EINVAL)
  | some i =>
    let (pContents, bytesWritten) :=
      gdrive_fcontents_write (chunkAt pNode.pContents i) buf offset size extendChunk
    let pNode := { pNode with pContents := pNode.pContents.set i pContents }
    if bytesWritten > 0 then
      let pNode := { pNode with dirty := true }
      if offset + bytesWritten > (pNode.fileinfo.size : Int) then
        ({ pNode with fileinfo :=
            { pNode.fileinfo with size := (offset + bytesWritten).toNat } },
         bytesWritten)
      else (pNode, bytesWritten)
    else (pNode, bytesWritten)

/-! ## The file handle API: read, write, truncate, sync -/

/-- Conversion of an `off_t` or `size_t` value to `int` (32 bits, two's
complement): the value modulo `2^32` that lies in `[-2^31, 2^31)`. -/
def toInt (x : Int) : Int := (x + 2147483648) % 4294967296 - 2147483648

/-- The `while (bytesRemaining > 0)` loop of `gdrive_file_read`. Every turn
that continues consumes at least one byte, so `bytesRemaining` turns are
enough; the first argument counts the turns left. Returns the node, the
return value and the bytes placed in the buffer. -/
def gdrive_file_read_loop (info : Gdrive_Info) (remote : Remote) :
    Nat → Gdrive_Cache_Node → Bool → Int → Nat → Nat → List Nat →
    Gdrive_Cache_Node × Int × List Nat
  | 0, fh, _, _, _, realSize, buf => (fh, (realSize : Int), buf)
  | turns + 1, fh, destBuf, nextOffset, bytesRemaining, realSize, buf =>
    if bytesRemaining > 0 then
      match gdrive_file_read_next_chunk info remote fh destBuf nextOffset bytesRemaining with
      | (fh1, bytesRead, data) =>
        if bytesRead < 0 then (fh1, bytesRead, buf ++ data)
        else if bytesRead = 0 then (fh1, (realSize : Int) - bytesRemaining, buf ++ data)
        else
          gdrive_file_read_loop info remote turns fh1 destBuf (nextOffset + bytesRead)
            (bytesRemaining - bytesRead.toNat) realSize (buf ++ data)
    else (fh, (realSize : Int), buf)

/-- Reads up to `size` bytes at `offset`. `destBuf = false` stands for a NULL
buffer. Returns the node (its chunk list may have grown), the return value
and the bytes placed in the buffer. The function returns `int`: the `off_t`
and `size_t` values its `return` statements hand back are converted. -/
def gdrive_file_read (info : Gdrive_Info) (remote : Remote)
    (fh : Gdrive_Cache_Node) (destBuf : Bool) (size : Nat) (offset : Int) :
    Gdrive_Cache_Node × Int × List Nat :=
  if gdrive_file_check_perm info fh O_RDONLY = false then (fh, -EACCES, [])
  else if offset ≥ (fh.fileinfo.size : Int) then (fh, 0, [])
  else
    let realSize : Nat :=
      if (size : Int) + offset ≤ (fh.fileinfo.size : Int) then size
      else ((fh.fileinfo.size : Int) - offset).toNat
    let result := gdrive_file_read_loop info remote realSize fh destBuf offset realSize realSize []
    (result.1, toInt result.2.1, result.2.2)

/-- The values `gdrive_file_read_next_chunk` hands to the loop of
`gdrive_file_read`, turn by turn: the loop of `gdrive_file_read_loop` once
more, keeping these values instead of the result. -/
def gdrive_file_read_loop_chunk_reads (info : Gdrive_Info) (remote : Remote) :
    Nat → Gdrive_Cache_Node → Bool → Int → Nat → List Int
  | 0, _, _, _, _ => []
  | turns + 1, fh, destBuf, nextOffset, bytesRemaining =>
    if bytesRemaining > 0 then
      match gdrive_file_read_next_chunk info remote fh destBuf nextOffset bytesRemaining with
      | (fh1, bytesRead, _) =>
        if bytesRead < 0 then [bytesRead]
        else if bytesRead = 0 then [bytesRead]
        else
          bytesRead :: gdrive_file_read_loop_chunk_reads info remote turns fh1 destBuf
            (nextOffset + bytesRead) (bytesRemaining - bytesRead.toNat)
    else []

/-- The chunk-level reads one call of `gdrive_file_read` makes: the values
`gdrive_file_read_next_chunk` returns during the call, in order. -/
def gdrive_file_read_chunk_reads (info : Gdrive_Info) (remote : Remote)
    (fh : Gdrive_Cache_Node) (destBuf : Bool) (size : Nat) (offset : Int) : List Int :=
  if gdrive_file_check_perm info fh O_RDONLY = false then []
  else if offset ≥ (fh.fileinfo.size : Int) then []
  else
    let realSize : Nat :=
      if (size : Int) + offset ≤ (fh.fileinfo.size : Int) then size
      else ((fh.fileinfo.size : Int) - offset).toNat
    gdrive_file_read_loop_chunk_reads info remote realSize fh destBuf offset realSize

/-- The `while (bytesRemaining > 0)` loop of `gdrive_file_write`; the first
argument counts the turns left. -/
def gdrive_file_write_loop (info : Gdrive_Info) (remote : Remote) :
    Nat → Gdrive_Cache_Node → List Nat → Int → Nat → Nat → Nat →
    Gdrive_Cache_Node × Int
  | 0, fh, _, _, _, _, size => (fh, (size : Int))
  | turns + 1, fh, buf, nextOffset, bufferOffset, bytesRemaining, size =>
    if bytesRemaining > 0 then
      match gdrive_file_write_next_chunk info remote fh (buf.drop bufferOffset)
          nextOffset bytesRemaining with
      | (fh1, bytesWritten) =>
        if bytesWritten < 0 then (fh1, bytesWritten)
        else
          gdrive_file_write_loop info remote turns fh1 buf (nextOffset + bytesWritten)
            (bufferOffset + bytesWritten.toNat) (bytesRemaining - bytesWritten.toNat) size
    else (fh, (size : Int))

/-- Writes `size` bytes of `buf` at `offset`. Returns the node and the
return value, an `int` converted from the `off_t` or `size_t` value of the
`return` statement. -/
def gdrive_file_write (info : Gdrive_Info) (remote : Remote)
    (fh : Gdrive_Cache_Node) (buf : List Nat) (size : Nat) (offset : Int) :
    Gdrive_Cache_Node × Int :=
  if gdrive_file_check_perm info fh O_RDWR = false then (fh, -EACCES)
  else
    let atEnd : Bool := decide (offset = (fh.fileinfo.size : Int))
    let readOffset : Int := if atEnd ∧ offset > 0 then offset - 1 else offset
    let readSize : Nat := if atEnd then size + 1 else size
    let fh1 := (gdrive_file_read info remote fh false readSize readOffset).1
    let result := gdrive_file_write_loop info remote size fh1 buf offset 0 size size
    (result.1, toInt result.2)

/-- Cases C and D of `gdrive_file_truncate`, after the final chunk has been
looked up: truncates that chunk and, on success, sets the size. -/
def gdrive_file_truncate_final (fh : Gdrive_Cache_Node) (pFinalChunk : Option Nat)
    (size : Int) : Gdrive_Cache_Node × Int :=
  match pFinalChunk with
  | none => (fh, - EIO)
  | some i =>
    let (pContents, returnVal) := gdrive_fcontents_truncate (chunkAt fh.pContents i) size.toNat
    let fh1 := { fh with pContents := fh.pContents.set i pContents }
    if returnVal = 0 then
      ({ fh1 with fileinfo := { fh1.fileinfo with size := size.toNat }, dirty := true },
       returnVal)
    else (fh1, returnVal)

def gdrive_file_truncate (info : Gdrive_Info) (remote : Remote)
    (fh : Gdrive_Cache_Node) (size : Int) : Gdrive_Cache_Node × Int :=
  if gdrive_file_check_perm info fh O_RDWR = false then (fh, -EACCES)
  else if (fh.fileinfo.size : Int) = size then (fh, 0)
  else if size = 0 then
    ({ fh with pContents := gdrive_fcontents_free_all fh.pContents,
               fileinfo := { fh.fileinfo with size := 0 }, dirty := true }, 0)
  else if (fh.fileinfo.size : Int) < size then
    if fh.fileinfo.size > 0 then
      match gdrive_file_read info remote fh false 1 ((fh.fileinfo.size : Int) - 1) with
      | (fh1, r, _) =>
        if r < 0 then (fh1, - EIO)
        else
          gdrive_file_truncate_final fh1
            (gdrive_fcontents_find_chunk fh1.pContents ((fh1.fileinfo.size : Int) - 1)) size
    else
      match gdrive_fcontents_find_chunk fh.pContents 0 with
      | some i => gdrive_file_truncate_final fh (some i) size
      | none =>
        match gdrive_cnode_create_chunk info remote fh 0 size.toNat false with
        | (fh1, pFinalChunk) => gdrive_file_truncate_final fh1 pFinalChunk size
  else
    match gdrive_file_read info remote fh false 1 (size - 1) with
    | (fh1, r, _) =>
      if r < 0 then (fh1, - EIO)
      else
        match gdrive_fcontents_find_chunk fh1.pContents (size - 1) with
        | none =>
          ({ fh1 with pContents :=
              gdrive_fcontents_delete_after_offset fh1.pContents (size - 1) }, - EIO)
        | some i =>
          -- the final chunk starts at or before `size - 1`, so it is kept and
          -- only chunks behind it in the list can move up
          let kept := gdrive_fcontents_delete_after_offset fh1.pContents (size - 1)
          let j := ((fh1.pContents.take i).filter
            (fun pContents => ¬ (pContents.start > size - 1))).length
          gdrive_file_truncate_final { fh1 with pContents := kept } (some j) size

/-- Uploads the file when it is dirty. The upload callback reads the file
through `gdrive_file_read` for each request of the transfer. -/
def gdrive_file_sync (info : Gdrive_Info) (remote : Remote)
    (fh : Gdrive_Cache_Node) : Gdrive_Cache_Node × Int :=
  if fh.dirty = false then (fh, 0)
  else if gdrive_file_check_perm info fh O_RDWR = false then (fh, -EACCES)
  else
    let pNode := remote.uploadReads.foldl
      (fun pNode req => (gdrive_file_read info remote pNode true req.2 req.1).1) fh
    let returnVal : Int :=
      match remote.uploadStatus with
      | none => 1
      | some status => if status ≥ 400 then 1 else 0
    if returnVal = 0 then ({ pNode with dirty := false }, returnVal)
    else (pNode, returnVal)

/-- Sends changed timestamps to the remote file when `dirtyMetainfo` is set. -/
def gdrive_file_sync_metadata (info : Gdrive_Info) (remote : Remote)
    (fh : Gdrive_Cache_Node) : Gdrive_Cache_Node × Int :=
  if fh.fileinfo.dirtyMetainfo = false then (fh, 0)
  else if gdrive_file_check_perm info fh O_RDWR = false then (fh, -EACCES)
  else if remote.patchOk then
    ({ fh with fileinfo := { fh.fileinfo with dirtyMetainfo := false } }, 0)
  else (fh, EIO)

/-! ## File information (`gdrive-fileinfo.c`) -/

def GDRIVE_MIMETYPE_FOLDER : String := "application/vnd.google-apps.folder"

/-- Clears the members; `basePermission` is not among those the source resets. -/
def gdrive_finfo_cleanup (pFileinfo : Gdrive_Fileinfo) : Gdrive_Fileinfo :=
  { pFileinfo with
    id := none, filename := none, type := Gdrive_Filetype.GDRIVE_FILETYPE_FILE,
    size := 0, creationTime := ⟨0, 0⟩, modificationTime := ⟨0, 0⟩,
    accessTime := ⟨0, 0⟩, nParents := 0, nChildren := 0, dirtyMetainfo := false }

def gdrive_finfo_read_json (pFileinfo : Gdrive_Fileinfo) (pObj : Gdrive_Json_File) :
    Gdrive_Fileinfo :=
  let filename := match pObj.title with
    | some title => some title
    | none => pFileinfo.filename
  let id := match pObj.id with
    | some id => some id
    | none => pFileinfo.id
  let size := match pObj.fileSize with
    | some fileSize => fileSize
    | none => 0
  let type := match pObj.mimeType with
    | some mimeType =>
      if mimeType = GDRIVE_MIMETYPE_FOLDER then Gdrive_Filetype.GDRIVE_FILETYPE_FOLDER
      else Gdrive_Filetype.GDRIVE_FILETYPE_FILE
    | none => pFileinfo.type
  let basePermission := match pObj.role with
    | some role =>
      let basePerm : Nat :=
        if role = "owner" then S_IWOTH ||| S_IROTH
        else if role = "writer" then S_IWOTH ||| S_IROTH
        else if role = "reader" then S_IROTH
        else 0
      if type = Gdrive_Filetype.GDRIVE_FILETYPE_FOLDER then S_IROTH ||| S_IWOTH ||| S_IXOTH
      else basePerm
    | none => pFileinfo.basePermission
  { id := id, filename := filename, type := type, size := size,
    basePermission := basePermission,
    creationTime := pObj.createdDate.getD ⟨0, 0⟩,
    modificationTime := pObj.modifiedDate.getD ⟨0, 0⟩,
    accessTime := pObj.lastViewedByMeDate.getD ⟨0, 0⟩,
    nParents := match pObj.parents with
      | some parents => (parents.length : Int)
      | none => -1,
    nChildren := pFileinfo.nChildren,
    dirtyMetainfo := false }

/-! ## The tree of cache nodes (`gdrive-cache-node.c`) -/

inductive Gdrive_Cache_Tree where
  | nil
  | node (pLeft : Gdrive_Cache_Tree) (pNode : Gdrive_Cache_Node)
      (pRight : Gdrive_Cache_Tree)
  deriving DecidableEq, Repr

/-- A pointer to a node of the tree: the way down from the root, `false` for
`pLeft` and `true` for `pRight`. -/
abbrev NodePtr := List Bool

/-- The node a pointer designates. -/
def nodeAt : Gdrive_Cache_Tree → NodePtr → Option Gdrive_Cache_Node
  | .nil, _ => none
  | .node _ pNode _, [] => some pNode
  | .node pLeft _ _, false :: p => nodeAt pLeft p
  | .node _ _ pRight, true :: p => nodeAt pRight p

/-- Assignment through a pointer. -/
def modifyAt (f : Gdrive_Cache_Node → Gdrive_Cache_Node) :
    Gdrive_Cache_Tree → NodePtr → Gdrive_Cache_Tree
  | .nil, _ => .nil
  | .node pLeft pNode pRight, [] => .node pLeft (f pNode) pRight
  | .node pLeft pNode pRight, false :: p => .node (modifyAt f pLeft p) pNode pRight
  | .node pLeft pNode pRight, true :: p => .node pLeft pNode (modifyAt f pRight p)

/-- Sign of the byte-wise comparison of two strings. -/
def strcmpChars : List Char → List Char → Int
  | [], [] => 0
  | [], _ :: _ => -1
  | _ :: _, [] => 1
  | a :: as, b :: bs =>
    if a = b then strcmpChars as bs else if a < b then -1 else 1

def strcmp (a b : String) : Int := strcmpChars a.data b.data

/-- The node `gdrive_cnode_create` returns: all members zero. -/
def gdrive_cnode_create : Gdrive_Cache_Node :=
  { lastUpdateTime := 0, openCount := 0, openWrites := 0, dirty := false,
    deleted := false,
    fileinfo :=
      { id := none, filename := none, type := Gdrive_Filetype.GDRIVE_FILETYPE_FILE,
        size := 0, basePermission := 0, creationTime := ⟨0, 0⟩,
        modificationTime := ⟨0, 0⟩, accessTime := ⟨0, 0⟩, nParents := 0,
        nChildren := 0, dirtyMetainfo := false },
    pContents := [] }

def gdrive_cnode_update_from_json (pNode : Gdrive_Cache_Node)
    (pObj : Option Gdrive_Json_File) (now : Int) : Gdrive_Cache_Node :=
  match pObj with
  | none => pNode
  | some pObj =>
    { pNode with
      fileinfo := gdrive_finfo_read_json (gdrive_finfo_cleanup pNode.fileinfo) pObj,
      lastUpdateTime := now }

/-- Finds the node with the given identifier, creating it when it is missing
and `addIfDoesntExist` is set. Returns the tree, the pointer to the node
(`none` for NULL) and the value left in `*pAlreadyExists`. A node whose own
identifier is NULL cannot be compared (the source passes NULL to `strcmp`);
the search ends there without a result. -/
def gdrive_cnode_get (remote : Remote) (now : Int) :
    Gdrive_Cache_Tree → String → Bool → Gdrive_Cache_Tree × Option NodePtr × Bool
  | .nil, fileId, addIfDoesntExist =>
    if addIfDoesntExist = false then (.nil, none, false)
    else
      match remote.fileGet fileId with
      | none => (.node .nil gdrive_cnode_create .nil, none, false)
      | some pObj =>
        (.node .nil (gdrive_cnode_update_from_json gdrive_cnode_create (some pObj) now) .nil,
         some [], false)
  | .node pLeft pNode pRight, fileId, addIfDoesntExist =>
    match pNode.fileinfo.id with
    | none => (.node pLeft pNode pRight, none, false)
    | some id =>
      let cmp := strcmp fileId id
      if cmp = 0 then (.node pLeft pNode pRight, some [], true)
      else if cmp < 0 then
        match gdrive_cnode_get remote now pLeft fileId addIfDoesntExist with
        | (pLeft1, found, alreadyExists) =>
          (.node pLeft1 pNode pRight, found.map (false :: ·), alreadyExists)
      else
        match gdrive_cnode_get remote now pRight fileId addIfDoesntExist with
        | (pRight1, found, alreadyExists) =>
          (.node pLeft pNode pRight1, found.map (true :: ·), alreadyExists)

/-- Takes the leftmost node out of a subtree: returns that node and the
subtree with the node's right child promoted into its place. -/
def popLeftmost : Gdrive_Cache_Tree → Option (Gdrive_Cache_Node × Gdrive_Cache_Tree)
  | .nil => none
  | .node pLeft pNode pRight =>
    match popLeftmost pLeft with
    | none => some (pNode, pRight)
    | some (pSwap, pLeft1) => some (pSwap, .node pLeft1 pNode pRight)

/-- Takes the rightmost node out of a subtree: returns that node and the
subtree with the node's left child promoted into its place. -/
def popRightmost : Gdrive_Cache_Tree → Option (Gdrive_Cache_Node × Gdrive_Cache_Tree)
  | .nil => none
  | .node pLeft pNode pRight =>
    match popRightmost pRight with
    | none => some (pNode, pLeft)
    | some (pSwap, pRight1) => some (pSwap, .node pLeft pNode pRight1)

/-- Deletion of the node at the root of a subtree; `fromRight` tells whether
the node hangs from the right side of its parent (the root of the whole tree
counts as hanging from the left). With two children the node is swapped with
`pSwap`, the leftmost node of the right subtree or the rightmost node of the
left subtree, and then deleted from its new place, where it has at most one
child: `pSwap` ends in the place of the node and the child of `pSwap` in the
old place of `pSwap`. -/
def gdrive_cnode_delete_here (fromRight : Bool) :
    Gdrive_Cache_Tree → Gdrive_Cache_Tree
  | .nil => .nil
  | .node .nil _ .nil => .nil
  | .node .nil _ pRight => pRight
  | .node pLeft _ .nil => pLeft
  | .node pLeft pNode pRight =>
    if fromRight then
      match popLeftmost pRight with
      | some (pSwap, pRight1) => .node pLeft pSwap pRight1
      | none => .node pLeft pNode pRight
    else
      match popRightmost pLeft with
      | some (pSwap, pLeft1) => .node pLeft1 pSwap pRight
      | none => .node pLeft pNode pRight

/-- Deletes the node `p` points to (first argument: does the current subtree
hang from the right of its parent). Returns the tree and the nodes passed to
`gdrive_cnode_free`. -/
def gdrive_cnode_delete_from (fromRight : Bool) :
    Gdrive_Cache_Tree → NodePtr → Gdrive_Cache_Tree × List Gdrive_Cache_Node
  | .nil, _ => (.nil, [])
  | .node pLeft pNode pRight, [] =>
    (gdrive_cnode_delete_here fromRight (.node pLeft pNode pRight), [pNode])
  | .node pLeft pNode pRight, false :: p =>
    match gdrive_cnode_delete_from false pLeft p with
    | (pLeft1, freed) => (.node pLeft1 pNode pRight, freed)
  | .node pLeft pNode pRight, true :: p =>
    match gdrive_cnode_delete_from true pRight p with
    | (pRight1, freed) => (.node pLeft pNode pRight1, freed)

def gdrive_cnode_delete (pToRoot : Gdrive_Cache_Tree) (pNode : NodePtr) :
    Gdrive_Cache_Tree × List Gdrive_Cache_Node :=
  gdrive_cnode_delete_from false pToRoot pNode

/-- Sets the tombstone; deletes the node at once when no handle is open. -/
def gdrive_cnode_mark_deleted (pToRoot : Gdrive_Cache_Tree) (pNode : NodePtr) :
    Gdrive_Cache_Tree × List Gdrive_Cache_Node :=
  let pToRoot1 := modifyAt (fun n => { n with deleted := true }) pToRoot pNode
  match nodeAt pToRoot1 pNode with
  | some n =>
    if n.openCount = 0 then gdrive_cnode_delete pToRoot1 pNode else (pToRoot1, [])
  | none => (pToRoot1, [])

/-! ## The cache (`gdrive-cache.c`) and the path cache -/

structure Gdrive_Fileid_Cache_Node where
  lastUpdateTime : Int
  path : Option String
  fileId : Option String
  deriving DecidableEq, Repr

/-- Removes every entry of the path list whose identifier is `fileId`. This
is the list the loop of the source leaves when every entry has an identifier
(`gdrive_fidnode_remove_walk` is the loop itself, `fidnode_remove_walk_fst`
relates the two); an entry without identifier is not looked at here. -/
def gdrive_fidnode_remove_by_id (pHead : List Gdrive_Fileid_Cache_Node)
    (fileId : String) : List Gdrive_Fileid_Cache_Node :=
  pHead.filter (fun pNext =>
    match pNext.fileId with
    | some id => ¬ (strcmp fileId id = 0)
    | none => true)

structure Gdrive_Cache where
  cacheTTL : Int
  lastUpdateTime : Int
  nextChangeId : Int
  pCacheHead : Gdrive_Cache_Tree
  pFileIdCacheHead : List Gdrive_Fileid_Cache_Node
  deriving DecidableEq, Repr

def gdrive_cache_get_node (remote : Remote) (now : Int) (pCache : Gdrive_Cache)
    (fileId : String) (addIfDoesntExist : Bool) :
    Gdrive_Cache × Option NodePtr × Bool :=
  match gdrive_cnode_get remote now pCache.pCacheHead fileId addIfDoesntExist with
  | (pCacheHead, found, alreadyExists) =>
    ({ pCache with pCacheHead := pCacheHead }, found, alreadyExists)

def gdrive_cache_delete_node (pCache : Gdrive_Cache) (pNode : NodePtr) :
    Gdrive_Cache × List Gdrive_Cache_Node :=
  match gdrive_cnode_delete pCache.pCacheHead pNode with
  | (pCacheHead, freed) => ({ pCache with pCacheHead := pCacheHead }, freed)

/-- Deletes the node of `fileId`, when there is one, whatever its state. -/
def gdrive_cache_remove_id (remote : Remote) (now : Int) (pCache : Gdrive_Cache)
    (fileId : String) : Gdrive_Cache × List Gdrive_Cache_Node :=
  match gdrive_cnode_get remote now pCache.pCacheHead fileId false with
  | (_, none, _) => (pCache, [])
  | (_, some pNode, _) =>
    match gdrive_cnode_delete pCache.pCacheHead pNode with
    | (pCacheHead, freed) => ({ pCache with pCacheHead := pCacheHead }, freed)

def gdrive_cache_delete_id (remote : Remote) (now : Int) (pCache : Gdrive_Cache)
    (fileId : String) : Gdrive_Cache × List Gdrive_Cache_Node :=
  let pCache1 := { pCache with
    pFileIdCacheHead := gdrive_fidnode_remove_by_id pCache.pFileIdCacheHead fileId }
  match gdrive_cnode_get remote now pCache1.pCacheHead fileId false with
  | (_, none, _) => (pCache1, [])
  | (_, some pNode, _) =>
    match gdrive_cnode_mark_deleted pCache1.pCacheHead pNode with
    | (pCacheHead, freed) => ({ pCache1 with pCacheHead := pCacheHead }, freed)

/-- The parents loop of `gdrive_cache_update`: removes each parent that has
an identifier from the cache. -/
def gdrive_cache_update_parents (remote : Remote) (now : Int) :
    Gdrive_Cache → List (Option String) → Gdrive_Cache × List Gdrive_Cache_Node
  | pCache, [] => (pCache, [])
  | pCache, none :: rest => gdrive_cache_update_parents remote now pCache rest
  | pCache, some parentId :: rest =>
    match gdrive_cache_remove_id remote now pCache parentId with
    | (pCache1, freed) =>
      match gdrive_cache_update_parents remote now pCache1 rest with
      | (pCache2, freed2) => (pCache2, freed ++ freed2)

/-- The body of the loop of `gdrive_cache_update` for one change item. -/
def gdrive_cache_update_item (remote : Remote) (now : Int) (pCache : Gdrive_Cache)
    (pItem : Option Gdrive_Change) : Gdrive_Cache × List Gdrive_Cache_Node :=
  match pItem with
  | none => (pCache, [])
  | some item =>
    match item.fileId with
    | none => (pCache, [])
    | some fileId =>
      let pCache1 := { pCache with
        pFileIdCacheHead := gdrive_fidnode_remove_by_id pCache.pFileIdCacheHead fileId }
      let pCache2 :=
        match gdrive_cnode_get remote now pCache1.pCacheHead fileId false with
        | (_, some pCacheNode, _) =>
          match nodeAt pCache1.pCacheHead pCacheNode with
          | some n =>
            if n.dirty = false then
              { pCache1 with
                pCacheHead := (modifyAt
                  (fun pNode => gdrive_cnode_update_from_json pNode item.file now)
                  pCache1.pCacheHead pCacheNode) }
            else pCache1
          | none => pCache1
        | (_, none, _) => pCache1
      let parents : List (Option String) :=
        match item.file with
        | some file => file.parents.getD []
        | none => []
      gdrive_cache_update_parents remote now pCache2 parents

def gdrive_cache_update_items (remote : Remote) (now : Int) :
    Gdrive_Cache → List (Option Gdrive_Change) → Gdrive_Cache × List Gdrive_Cache_Node
  | pCache, [] => (pCache, [])
  | pCache, pItem :: rest =>
    match gdrive_cache_update_item remote now pCache pItem with
    | (pCache1, freed) =>
      match gdrive_cache_update_items remote now pCache1 rest with
      | (pCache2, freed2) => (pCache2, freed ++ freed2)

/-- Pulls the change feed. Returns the cache, the return value and the nodes
passed to `gdrive_cnode_free`. -/
def gdrive_cache_update (remote : Remote) (now : Int) (pCache : Gdrive_Cache) :
    Gdrive_Cache × Int × List Gdrive_Cache_Node :=
  match remote.changes with
  | none => ({ pCache with lastUpdateTime := now }, -1, [])
  | some pObj =>
    match gdrive_cache_update_items remote now pCache pObj.items with
    | (pCache1, freed) =>
      match pObj.largestChangeId with
      | some largestChangeId =>
        ({ pCache1 with nextChangeId := largestChangeId + 1, lastUpdateTime := now }, 0, freed)
      | none => ({ pCache1 with lastUpdateTime := now }, -1, freed)

/-- Looks the node up (creating it when asked to) and refreshes the cache
when the node is stale. The first argument bounds the depth of the recursion
taken for a stale folder. Returns the cache, the pointer to the node whose
`fileinfo` is handed out (`none` for NULL), `*pAlreadyExists` and the nodes
passed to `gdrive_cnode_free`. After an update the node is looked up again by
its identifier to follow it to its new place; the old pointer is kept when
that finds nothing. The source reads the clock for the expiry test after the
node has been stamped by `gdrive_cnode_get`; both readings are `now` here. -/
def gdrive_cache_get_item (remote : Remote) (now : Int) :
    Nat → Gdrive_Cache → String → Bool →
    Gdrive_Cache × Option NodePtr × Bool × List Gdrive_Cache_Node
  | 0, pCache, _, _ => (pCache, none, false, [])
  | depth + 1, pCache, fileId, addIfDoesntExist =>
    match gdrive_cnode_get remote now pCache.pCacheHead fileId addIfDoesntExist with
    | (pCacheHead, none, alreadyExists) =>
      ({ pCache with pCacheHead := pCacheHead }, none, alreadyExists, [])
    | (pCacheHead, some pNode, alreadyExists) =>
      let pCache1 := { pCache with pCacheHead := pCacheHead }
      match nodeAt pCacheHead pNode with
      | none => (pCache1, some pNode, alreadyExists, [])
      | some n =>
        let cacheUpdated := pCache1.lastUpdateTime
        let nodeUpdated := n.lastUpdateTime
        let expireTime :=
          (if nodeUpdated > cacheUpdated then nodeUpdated else cacheUpdated) + pCache1.cacheTTL
        if expireTime < now ∨ nodeUpdated = 0 then
          let isFolder : Bool :=
            decide (n.fileinfo.type = Gdrive_Filetype.GDRIVE_FILETYPE_FOLDER)
          match gdrive_cache_update remote now pCache1 with
          | (pCache2, _, freed) =>
            if isFolder then
              match gdrive_cache_get_item remote now depth pCache2 fileId addIfDoesntExist with
              | (pCache3, found, alreadyExists3, freed3) =>
                (pCache3, found, alreadyExists3, freed ++ freed3)
            else
              let moved := (gdrive_cnode_get remote now pCache2.pCacheHead fileId false).2.1
              (pCache2, some (moved.getD pNode), alreadyExists, freed)
        else (pCache1, some pNode, alreadyExists, [])

/-- Returns the cache, whether the result is non-NULL, and the nodes passed
to `gdrive_cnode_free`. -/
def gdrive_finfo_get_by_id (remote : Remote) (now : Int) (depth : Nat)
    (pCache : Gdrive_Cache) (fileId : String) :
    Gdrive_Cache × Bool × List Gdrive_Cache_Node :=
  match gdrive_cache_get_item remote now depth pCache fileId true with
  | (pCache1, none, _, freed) => (pCache1, false, freed)
  | (pCache1, some pFileinfo, alreadyCached, freed) =>
    if alreadyCached then (pCache1, true, freed)
    else
      match remote.fileGetFields fileId with
      | none => (pCache1, false, freed)
      | some pObj =>
        let fill : Gdrive_Cache_Node → Gdrive_Cache_Node := fun pNode =>
          let fileinfo := gdrive_finfo_read_json pNode.fileinfo pObj
          if fileinfo.type = Gdrive_Filetype.GDRIVE_FILETYPE_FOLDER then
            match remote.folderCount fileId with
            | some count => { pNode with fileinfo := { fileinfo with nChildren := count } }
            | none => { pNode with fileinfo := fileinfo }
          else { pNode with fileinfo := fileinfo }
        ({ pCache1 with pCacheHead := modifyAt fill pCache1.pCacheHead pFileinfo }, true, freed)

/-! ## Opening and closing a file (`gdrive-cache-node.c`) -/

/-- Does `flags` ask for writing: `(flags & O_WRONLY) || (flags & O_RDWR)`. -/
def opensForWriting (flags : Nat) : Bool :=
  decide (flags &&& O_WRONLY ≠ 0 ∨ flags &&& O_RDWR ≠ 0)

/-- The part of `gdrive_file_open` that follows the lookup of the node:
either the error stored in `*pError`, or the node with its counters raised. -/
def gdrive_file_open_node (info : Gdrive_Info) (pNode : Gdrive_Cache_Node)
    (flags : Nat) : Except Int Gdrive_Cache_Node :=
  if pNode.deleted then .error ENOENT
  else if pNode.fileinfo.type = Gdrive_Filetype.GDRIVE_FILETYPE_FOLDER then .error EISDIR
  else if gdrive_file_check_perm info pNode flags = false then .error EACCES
  else
    let pNode1 := { pNode with openCount := pNode.openCount + 1 }
    if opensForWriting flags then
      .ok { pNode1 with openWrites := pNode1.openWrites + 1 }
    else .ok pNode1

/-- Opens the file. The first argument bounds the number of turns of the
`while` loop that fetches a node missing from the cache (and the depth of
`gdrive_cache_get_item`). Returns the cache, the handle (`none` for NULL),
the value stored in `*pError` (`none` when nothing is stored) and the nodes
passed to `gdrive_cnode_free`. -/
def gdrive_file_open (info : Gdrive_Info) (remote : Remote) (now : Int) :
    Nat → Gdrive_Cache → String → Nat →
    Gdrive_Cache × Option NodePtr × Option Int × List Gdrive_Cache_Node
  | 0, pCache, _, _ => (pCache, none, none, [])
  | turns + 1, pCache, fileId, flags =>
    match gdrive_cache_get_node remote now pCache fileId false with
    | (pCache1, some pNode, _) =>
      match nodeAt pCache1.pCacheHead pNode with
      | none => (pCache1, none, none, [])
      | some n =>
        match gdrive_file_open_node info n flags with
        | .error e => (pCache1, none, some e, [])
        | .ok n1 =>
          ({ pCache1 with pCacheHead := modifyAt (fun _ => n1) pCache1.pCacheHead pNode },
           some pNode, none, [])
    | (pCache1, none, _) =>
      match gdrive_finfo_get_by_id remote now (turns + 1) pCache1 fileId with
      | (pCache2, false, freed) => (pCache2, none, some ENOENT, freed)
      | (pCache2, true, freed) =>
        match gdrive_file_open info remote now turns pCache2 fileId flags with
        | (pCache3, fh, pError, freed3) => (pCache3, fh, pError, freed ++ freed3)

/-- The first half of `gdrive_file_close` on the node of the handle: when the
handle was opened for writing, the content and the metadata are synchronised
and `openWrites` is lowered; then `openCount` is lowered. -/
def gdrive_file_close_counts (info : Gdrive_Info) (remote : Remote)
    (pNode : Gdrive_Cache_Node) (flags : Nat) : Gdrive_Cache_Node :=
  let pNode1 :=
    if opensForWriting flags then
      let synced := (gdrive_file_sync info remote pNode).1
      let synced := (gdrive_file_sync_metadata info remote synced).1
      { synced with openWrites := synced.openWrites - 1 }
    else pNode
  { pNode1 with openCount := pNode1.openCount - 1 }

/-- Closes the handle `pFile`. Returns the cache and the nodes passed to
`gdrive_cnode_free`. -/
def gdrive_file_close (info : Gdrive_Info) (remote : Remote)
    (pCache : Gdrive_Cache) (pFile : NodePtr) (flags : Nat) :
    Gdrive_Cache × List Gdrive_Cache_Node :=
  match nodeAt pCache.pCacheHead pFile with
  | none => (pCache, [])
  | some pNode =>
    let pNode2 := gdrive_file_close_counts info remote pNode flags
    if pNode2.openCount = 0 then
      let pNode3 := { pNode2 with pContents := gdrive_fcontents_free_all pNode2.pContents }
      let pCache1 := { pCache with
        pCacheHead := modifyAt (fun _ => pNode3) pCache.pCacheHead pFile }
      if pNode3.deleted then gdrive_cache_delete_node pCache1 pFile
      else (pCache1, [])
    else
      ({ pCache with pCacheHead := modifyAt (fun _ => pNode2) pCache.pCacheHead pFile }, [])

/-! ## Auxiliary definitions for the statements -/

/-- The node after the first write of `N` bytes of `buf` to an empty file
without chunks: one chunk `[0, N-1]` that holds the bytes, the size set and
the node dirty. -/
def writtenNode (fh : Gdrive_Cache_Node) (buf : List Nat) (N : Nat) :
    Gdrive_Cache_Node :=
  { fh with
    pContents := [{ start := 0, end_ := (N : Int) - 1, fh := some (buf.take N) }],
    dirty := true,
    fileinfo := { fh.fileinfo with size := N } }

/-! ## Concrete inputs -/

/-- Read-write access with the default chunk settings of the driver
(four base chunks of 262144 bytes, at most 15 chunks). -/
def exampleInfo : Gdrive_Info :=
  { mode := 7, minChunkSize := 1048576, maxChunks := 15 }

/-- A remote side on which every request fails. -/
def failingRemote : Remote :=
  { download := fun _ _ _ => none, uploadStatus := none, uploadReads := [],
    patchOk := false, fileGet := fun _ => none, fileGetFields := fun _ => none,
    folderCount := fun _ => none, changes := none }

/-- The file information of a regular file the user may read and write. -/
def exampleFileinfo (id : String) (size : Nat) : Gdrive_Fileinfo :=
  { id := some id, filename := some "notes.txt",
    type := Gdrive_Filetype.GDRIVE_FILETYPE_FILE, size := size,
    basePermission := 6, creationTime := ⟨0, 0⟩, modificationTime := ⟨0, 0⟩,
    accessTime := ⟨0, 0⟩, nParents := 1, nChildren := 0, dirtyMetainfo := false }

/-- A clean cache node without chunks for a file of the given size. -/
def exampleNode (id : String) (size : Nat) : Gdrive_Cache_Node :=
  { lastUpdateTime := 1, openCount := 0, openWrites := 0, dirty := false,
    deleted := false, fileinfo := exampleFileinfo id size, pContents := [] }

/-! ## Predicates on the cache tree -/

/-- The nodes of the tree, from left to right. -/
def Gdrive_Cache_Tree.nodes : Gdrive_Cache_Tree → List Gdrive_Cache_Node
  | .nil => []
  | .node pLeft pNode pRight => pLeft.nodes ++ pNode :: pRight.nodes

/-- Does `p` hold for every node of the tree. -/
def Gdrive_Cache_Tree.all (p : Gdrive_Cache_Node → Bool) : Gdrive_Cache_Tree → Bool
  | .nil => true
  | .node pLeft pNode pRight => pLeft.all p && p pNode && pRight.all p

/-- The node has an identifier and it compares below `id`. -/
def idBelow (id : String) (pNode : Gdrive_Cache_Node) : Bool :=
  match pNode.fileinfo.id with
  | some nodeId => decide (strcmp nodeId id < 0)
  | none => false

/-- The node has an identifier and it compares above `id`. -/
def idAbove (id : String) (pNode : Gdrive_Cache_Node) : Bool :=
  match pNode.fileinfo.id with
  | some nodeId => decide (strcmp nodeId id > 0)
  | none => false

/-- The tree is a binary search tree under `strcmp` on the identifiers: every
node has an identifier, the identifiers of its left subtree compare below it
and those of its right subtree above it. -/
def isSearchTree : Gdrive_Cache_Tree → Bool
  | .nil => true
  | .node pLeft pNode pRight =>
    match pNode.fileinfo.id with
    | none => false
    | some id =>
      pLeft.all (idBelow id) && pRight.all (idAbove id)
        && isSearchTree pLeft && isSearchTree pRight

/-- A cache tree with the three files `"A"`, `"B"` and `"C"`, `"B"` at the root. -/
def exampleTree : Gdrive_Cache_Tree :=
  .node (.node .nil (exampleNode "A" 0) .nil) (exampleNode "B" 300000)
    (.node .nil (exampleNode "C" 5) .nil)

def exampleCache : Gdrive_Cache :=
  { cacheTTL := 30, lastUpdateTime := 1, nextChangeId := 1, pCacheHead := exampleTree,
    pFileIdCacheHead := [] }

/-- The node with its counters raised as a successful `gdrive_file_open`
with `flags` raises them. -/
def openedNode (pNode : Gdrive_Cache_Node) (flags : Nat) : Gdrive_Cache_Node :=
  { pNode with
    openCount := pNode.openCount + 1,
    openWrites := pNode.openWrites + (if opensForWriting flags then 1 else 0) }

/-- The two node states agree on the open counters, the tombstone and the
identifier. -/
def sameCounts (a b : Gdrive_Cache_Node) : Prop :=
  b.openCount = a.openCount ∧ b.openWrites = a.openWrites ∧ b.deleted = a.deleted ∧
    b.fileinfo.id = a.fileinfo.id

/-! ## The change feed -/

/-- The parent identifiers one change item makes `gdrive_cache_update` remove
from the cache. -/
def itemParents (pItem : Option Gdrive_Change) : List String :=
  match pItem with
  | none => []
  | some item =>
    match item.fileId, item.file with
    | some _, some file => (file.parents.getD []).reduceOption
    | _, _ => []

/-- All parent identifiers the change feed names. -/
def changeParents (changes : Option Gdrive_Changes) : List String :=
  match changes with
  | none => []
  | some pObj => (pObj.items.map itemParents).flatten

/-- The file `"B"` with one handle open for writing and unsynced content. -/
def busyNode : Gdrive_Cache_Node :=
  { exampleNode "B" 300000 with openCount := 1, openWrites := 1, dirty := true }

/-- The cache of `exampleCache` with `busyNode` in the place of `"B"`. -/
def busyCache : Gdrive_Cache :=
  { exampleCache with
    pCacheHead := .node (.node .nil (exampleNode "A" 0) .nil) busyNode
      (.node .nil (exampleNode "C" 5) .nil) }

/-- A file resource with the given identifier and parents. -/
def exampleJsonFile (id : String) (parents : List String) : Gdrive_Json_File :=
  { title := some "report.txt", id := some id, fileSize := some 12,
    mimeType := some "text/plain", role := some "owner", createdDate := none,
    modifiedDate := none, lastViewedByMeDate := none, parents := some (parents.map some) }

/-- A remote side whose change feed reports one changed file `"X"` that
names `"B"` as its parent. -/
def parentFeedRemote : Remote :=
  { failingRemote with
    changes := some
      { items := [some { fileId := some "X", file := some (exampleJsonFile "X" ["B"]) }],
        largestChangeId := some 41 } }

/-- A remote side whose change feed reports the changed file `"C"` with the
parent `"A"`. -/
def siblingFeedRemote : Remote :=
  { failingRemote with
    changes := some
      { items := [some { fileId := some "C", file := some (exampleJsonFile "C" ["A"]) }],
        largestChangeId := some 41 } }

/-- A remote side that knows the file `"D"`: a regular file the user owns. -/
def knownFileRemote : Remote :=
  { failingRemote with
    fileGet := fun fileId => if fileId = "D" then some (exampleJsonFile "D" ["root"]) else none,
    fileGetFields := fun fileId =>
      if fileId = "D" then some (exampleJsonFile "D" ["root"]) else none }

/-- The node of `"D"` as the fetch from `knownFileRemote` at time 100 leaves
it in the cache. -/
def fetchedNode : Gdrive_Cache_Node :=
  { exampleNode "D" 12 with
    lastUpdateTime := 100,
    fileinfo := { exampleFileinfo "D" 12 with filename := some "report.txt" } }

/-! ## Sequences of cache operations -/

/-- The operations on the cache that the statements about sequences range
over. A handle is closed through the pointer to its node. -/
inductive CacheOp where
  | fileOpen (fileId : String) (flags : Nat)
  | fileClose (pFile : NodePtr) (flags : Nat)
  | deleteId (fileId : String)
  | update

/-- What the outside world contributes to one operation: the answers of the
remote side, the clock, and the bound on the turns of the loop of
`gdrive_file_open`. -/
structure StepEnv where
  remote : Remote
  now : Int
  turns : Nat

/-- One operation: the cache afterwards and the nodes passed to
`gdrive_cnode_free`. -/
def applyOp (info : Gdrive_Info) (env : StepEnv) (pCache : Gdrive_Cache) :
    CacheOp → Gdrive_Cache × List Gdrive_Cache_Node
  | .fileOpen fileId flags =>
    match gdrive_file_open info env.remote env.now env.turns pCache fileId flags with
    | (pCache1, _, _, freed) => (pCache1, freed)
  | .fileClose pFile flags => gdrive_file_close info env.remote pCache pFile flags
  | .deleteId fileId => gdrive_cache_delete_id env.remote env.now pCache fileId
  | .update =>
    match gdrive_cache_update env.remote env.now pCache with
    | (pCache1, _, freed) => (pCache1, freed)

/-- A sequence of operations: the cache at the end and all nodes freed on the
way, in order. -/
def runOps (info : Gdrive_Info) :
    Gdrive_Cache → List (StepEnv × CacheOp) → Gdrive_Cache × List Gdrive_Cache_Node
  | pCache, [] => (pCache, [])
  | pCache, (env, op) :: rest =>
    match applyOp info env pCache op with
    | (pCache1, freed) =>
      match runOps info pCache1 rest with
      | (pCache2, freed2) => (pCache2, freed ++ freed2)

/-- The file record of the change item, when there is one, carries the
identifier of the item. -/
def itemWellFormed (pItem : Option Gdrive_Change) : Prop :=
  match pItem with
  | none => True
  | some item =>
    match item.fileId, item.file with
    | some fileId, some file => file.id = some fileId
    | _, _ => True

instance (pItem : Option Gdrive_Change) : Decidable (itemWellFormed pItem) := by
  unfold itemWellFormed
  split
  · infer_instance
  · split <;> infer_instance

/-- Every file record of the change feed carries the identifier of its
change item. -/
def feedWellFormed (changes : Option Gdrive_Changes) : Prop :=
  match changes with
  | none => True
  | some pObj => ∀ pItem ∈ pObj.items, itemWellFormed pItem

instance (changes : Option Gdrive_Changes) : Decidable (feedWellFormed changes) := by
  unfold feedWellFormed
  split <;> infer_instance

/-- No node of the tree that carries one of the identifiers `ids` has open
handles. -/
def idleIds (ids : List String) (t : Gdrive_Cache_Tree) : Prop :=
  ∀ id ∈ ids, ∀ n ∈ t.nodes, n.fileinfo.id = some id → n.openCount = 0

instance (ids : List String) (t : Gdrive_Cache_Tree) : Decidable (idleIds ids t) := by
  unfold idleIds
  infer_instance

/-- No identifier the change feed names as a parent belongs to a node of the
tree with open handles. -/
def parentsIdle (changes : Option Gdrive_Changes) (t : Gdrive_Cache_Tree) : Prop :=
  idleIds (changeParents changes) t

instance (changes : Option Gdrive_Changes) (t : Gdrive_Cache_Tree) :
    Decidable (parentsIdle changes t) := by
  unfold parentsIdle
  infer_instance

/-- A condition under which the embedding frees a node only with
`openCount = 0`: an open runs with a TTL that is not negative and a clock
after the epoch (with the clock read once per call it then pulls no change
feed; the source reads the clock a second time for the expiry test, so there
an open may still pull one), and a change feed is well formed and names as
parents only nodes without open handles. -/
def stepAllowed (pCache : Gdrive_Cache) (env : StepEnv) : CacheOp → Prop
  | .fileOpen _ _ => 0 ≤ pCache.cacheTTL ∧ env.now ≠ 0
  | .fileClose _ _ => True
  | .deleteId _ => True
  | .update => feedWellFormed env.remote.changes ∧
      parentsIdle env.remote.changes pCache.pCacheHead

instance (pCache : Gdrive_Cache) (env : StepEnv) (op : CacheOp) :
    Decidable (stepAllowed pCache env op) := by
  cases op <;> unfold stepAllowed <;> infer_instance

def runAllowed (info : Gdrive_Info) : Gdrive_Cache → List (StepEnv × CacheOp) → Prop
  | _, [] => True
  | pCache, (env, op) :: rest =>
    stepAllowed pCache env op ∧ runAllowed info (applyOp info env pCache op).1 rest


/-- Open `"B"` for writing, delete it while the handle is open, close the
handle, then pull a change feed that names the idle node `"A"` as a parent. -/
def tombstoneRun : List (StepEnv × CacheOp) :=
  [(⟨failingRemote, 100, 1⟩, CacheOp.fileOpen "B" O_RDWR),
   (⟨failingRemote, 101, 1⟩, CacheOp.deleteId "B"),
   (⟨failingRemote, 102, 1⟩, CacheOp.fileClose [] O_RDWR),
   (⟨siblingFeedRemote, 103, 1⟩, CacheOp.update)]

/-- The tombstone invariant at one node: the open counter is not negative,
and a tombstoned node has open handles. -/
def tombstoneOk (n : Gdrive_Cache_Node) : Prop :=
  0 ≤ n.openCount ∧ (n.deleted = true → 0 < n.openCount)

instance (n : Gdrive_Cache_Node) : Decidable (tombstoneOk n) := by
  unfold tombstoneOk
  infer_instance

/-- The tombstone invariant of the tree: it holds at every node. -/
def treeTombstoneOk (t : Gdrive_Cache_Tree) : Prop :=
  ∀ n ∈ t.nodes, tombstoneOk n

instance (t : Gdrive_Cache_Tree) : Decidable (treeTombstoneOk t) := by
  unfold treeTombstoneOk
  infer_instance

/-- Calls are balanced: a close is made through a handle that is open, that
is, on a node of the tree whose `openCount` is positive. -/
def stepBalanced (pCache : Gdrive_Cache) : CacheOp → Prop
  | .fileClose pFile _ =>
    match nodeAt pCache.pCacheHead pFile with
    | some n => 0 < n.openCount
    | none => False
  | .fileOpen _ _ => True
  | .deleteId _ => True
  | .update => True

instance (pCache : Gdrive_Cache) (op : CacheOp) : Decidable (stepBalanced pCache op) := by
  cases op with
  | fileOpen _ _ => exact isTrue trivial
  | fileClose pFile _ =>
    simp only [stepBalanced]
    cases nodeAt pCache.pCacheHead pFile <;> infer_instance
  | deleteId _ => exact isTrue trivial
  | update => exact isTrue trivial

def runBalanced (info : Gdrive_Info) : Gdrive_Cache → List (StepEnv × CacheOp) → Prop
  | _, [] => True
  | pCache, (env, op) :: rest =>
    stepBalanced pCache op ∧ runBalanced info (applyOp info env pCache op).1 rest

/-- The cache of `busyCache` after `"B"` was deleted while its handle is open. -/
def tombstonedCache : Gdrive_Cache :=
  { exampleCache with
    pCacheHead := .node (.node .nil (exampleNode "A" 0) .nil) { busyNode with deleted := true }
      (.node .nil (exampleNode "C" 5) .nil) }

/-! ## Chunk ranges -/

/-- No two chunks of the list have byte ranges `[start, end]` that overlap. -/
def chunksDisjoint (l : List Gdrive_File_Contents) : Prop :=
  l.Pairwise (fun a b => a.end_ < b.start ∨ b.end_ < a.start)

instance (l : List Gdrive_File_Contents) : Decidable (chunksDisjoint l) := by
  unfold chunksDisjoint
  infer_instance

/-- A read of `size` bytes at `offset` that stays inside one window of
`chunkSize` bytes. -/
def readInWindow (chunkSize : Int) (size : Nat) (offset : Int) : Prop :=
  0 ≤ offset ∧ offset % chunkSize + size ≤ chunkSize

instance (chunkSize : Int) (size : Nat) (offset : Int) :
    Decidable (readInWindow chunkSize size offset) := by
  unfold readInWindow
  infer_instance

/-- One `gdrive_file_read` call: the answers of the remote side, whether a
buffer is passed, the size and the offset. -/
structure ReadCall where
  remote : Remote
  destBuf : Bool
  size : Nat
  offset : Int

/-- A sequence of `gdrive_file_read` calls on one node. -/
def runReads (info : Gdrive_Info) :
    Gdrive_Cache_Node → List ReadCall → Gdrive_Cache_Node
  | fh, [] => fh
  | fh, call :: rest =>
    runReads info
      (gdrive_file_read info call.remote fh call.destBuf call.size call.offset).1 rest

/-- A remote side that answers every download request, with an empty body. -/
def downloadingRemote : Remote :=
  { failingRemote with download := fun _ _ _ => some [] }

/-- Every chunk of the list has a temporary file, starts at a multiple of
`chunkSize` and is either one whole window of `chunkSize` bytes or empty. -/
def chunksInWindows (chunkSize : Int) (l : List Gdrive_File_Contents) : Prop :=
  ∀ c ∈ l, c.fh ≠ none ∧ chunkSize ∣ c.start ∧
    (c.end_ = c.start + chunkSize - 1 ∨ c.end_ = c.start - 1)

/-- The test of `gdrive_fcontents_find_chunk` on one chunk: the chunk holds
`offset`, or it is a zero-length chunk that starts at `offset`. -/
def chunkHolds (pContents : Gdrive_File_Contents) (offset : Int) : Prop :=
  (offset ≥ pContents.start ∧ offset ≤ pContents.end_) ∨
    (offset = pContents.start ∧ pContents.end_ < pContents.start)

instance (pContents : Gdrive_File_Contents) (offset : Int) :
    Decidable (chunkHolds pContents offset) := by
  unfold chunkHolds
  infer_instance

/-- A file of six bytes held in two chunks of three bytes. -/
def twoChunkNode : Gdrive_Cache_Node :=
  { exampleNode "B" 6 with
    pContents := [{ start := 0, end_ := 2, fh := some [7, 8, 9] },
                  { start := 3, end_ := 5, fh := some [1, 2, 3] }] }

/-- A remote side that answers the upload with the HTTP status 200. -/
def uploadingRemote : Remote :=
  { failingRemote with uploadStatus := some 200 }

/-- A remote side that answers the upload with the HTTP status 503. -/
def overloadedRemote : Remote :=
  { failingRemote with uploadStatus := some 503 }

/-! ## Transfers with retry (`gdrive-download-buffer.c`) -/

inductive Gdrive_Retry_Method where
  | GDRIVE_RETRY_NORETRY
  | GDRIVE_RETRY_RETRY
  | GDRIVE_RETRY_RENEWAUTH
  deriving DecidableEq, Repr

def CURLE_OK : Nat := 0

def GDRIVE_RETRY_LIMIT : Int := 5

def GDRIVE_403_RATELIMIT : String := "rateLimitExceeded"

def GDRIVE_403_USERRATELIMIT : String := "userRateLimitExceeded"

/-- What one `gdrive_dlbuf_download` leaves in the buffer: the result code of
curl, the HTTP status, and the text `gdrive_json_get_string` finds under
`reason` in the `error/errors` object of the body (empty when there is
none). -/
structure Gdrive_Download_Result where
  resultCode : Nat
  httpResp : Int
  reason : String
  deriving DecidableEq, Repr

/-- What a transfer does to the outside world, in order: a request sent, a
backoff wait `gdrive_exponential_wait(tryNum)`, a call of `gdrive_auth`. -/
inductive Gdrive_Transfer_Event where
  | request
  | wait (tryNum : Int)
  | auth
  deriving DecidableEq, Repr

def gdrive_dlbuf_retry_on_error (pBuf : Gdrive_Download_Result) (httpResp : Int) :
    Gdrive_Retry_Method :=
  if httpResp ≥ 500 then .GDRIVE_RETRY_RETRY
  else if httpResp = 401 then .GDRIVE_RETRY_RENEWAUTH
  else if httpResp = 403 then
    if strcmp pBuf.reason GDRIVE_403_RATELIMIT = 0 ∨
        strcmp pBuf.reason GDRIVE_403_USERRATELIMIT = 0 then
      .GDRIVE_RETRY_RENEWAUTH
    else .GDRIVE_RETRY_NORETRY
  else .GDRIVE_RETRY_NORETRY

/-- The download with retries. `downloads n` is what the request number `n`
brings (counted from 0), `auths n` what the call number `n` of `gdrive_auth`
returns. The first argument bounds the depth of the recursion; then come the
number of requests sent and of `gdrive_auth` calls made so far, `tryNum` and
`maxTries`. Returns the return value and the events in order. -/
def gdrive_dlbuf_download_with_retry (downloads : Nat → Gdrive_Download_Result)
    (auths : Nat → Int) (retryOnAuthError : Bool) :
    Nat → Nat → Nat → Int → Int → Int × List Gdrive_Transfer_Event
  | 0, _, _, _, _ => (-1, [])
  | depth + 1, nRequests, nAuths, tryNum, maxTries =>
    let pBuf := downloads nRequests
    if pBuf.resultCode ≠ CURLE_OK then (-1, [.request])
    else if pBuf.httpResp ≥ 400 then
      if tryNum = maxTries then (-1, [.request])
      else
        match gdrive_dlbuf_retry_on_error pBuf pBuf.httpResp with
        | .GDRIVE_RETRY_RETRY =>
          match gdrive_dlbuf_download_with_retry downloads auths retryOnAuthError depth
              (nRequests + 1) nAuths (tryNum + 1) maxTries with
          | (returnVal, events) => (returnVal, .request :: .wait tryNum :: events)
        | .GDRIVE_RETRY_RENEWAUTH =>
          if retryOnAuthError then
            if auths nAuths = 0 then
              match gdrive_dlbuf_download_with_retry downloads auths retryOnAuthError depth
                  (nRequests + 1) (nAuths + 1) (tryNum + 1) maxTries with
              | (returnVal, events) => (returnVal, .request :: .auth :: events)
            else (-1, [.request, .auth])
          else (-1, [.request])
        | .GDRIVE_RETRY_NORETRY => (-1, [.request])
    else (0, [.request])

/-- The number of requests among the events. -/
def requestCount (events : List Gdrive_Transfer_Event) : Nat :=
  events.count .request

/-- A server that answers every request with the HTTP status 500. -/
def brokenServer : Nat → Gdrive_Download_Result :=
  fun _ => { resultCode := CURLE_OK, httpResp := 500, reason := "" }

/-- A server that answers the first request with the HTTP status 401 and
every later one with 200. -/
def expiredTokenServer : Nat → Gdrive_Download_Result :=
  fun n => { resultCode := CURLE_OK, httpResp := if n = 0 then 401 else 200, reason := "" }

/-- A remote side whose change feed has an item that cannot be read, an item
without a file identifier and the changed file `"C"`, with the largest
change identifier 41. -/
def gappyFeedRemote : Remote :=
  { failingRemote with
    changes := some
      { items := [none, some { fileId := none, file := none },
          some { fileId := some "C", file := some (exampleJsonFile "C" ["A"]) }],
        largestChangeId := some 41 } }

/-- A remote side whose change feed carries no readable largest change
identifier. -/
def cursorlessFeedRemote : Remote :=
  { failingRemote with
    changes := some
      { items := [some { fileId := some "C", file := some (exampleJsonFile "C" ["A"]) }],
        largestChangeId := none } }

/-! ## The path cache (`gdrive-fileid-cache-node.c`) -/

/-- A new entry of the path list, stamped with the current time. -/
def gdrive_fidnode_create (now : Int) (filename fileId : Option String) :
    Gdrive_Fileid_Cache_Node :=
  { lastUpdateTime := now, path := filename, fileId := fileId }

/-- Stamps the entry and stores `fileId` in it when it differs from the one
the entry has. -/
def gdrive_fidnode_update_item (now : Int) (pNode : Gdrive_Fileid_Cache_Node)
    (fileId : String) : Gdrive_Fileid_Cache_Node × Int :=
  let pNode1 := { pNode with lastUpdateTime := now }
  match pNode1.fileId with
  | none => ({ pNode1 with fileId := some fileId }, 0)
  | some oldId =>
    if strcmp fileId oldId ≠ 0 then ({ pNode1 with fileId := some fileId }, 0)
    else (pNode1, 0)

/-- Adds the pair to the path list, or updates the entry of `path`. Returns
the list and the return value. An entry whose own path is NULL cannot be
compared (the source passes NULL to `strcmp`); the walk ends there with -1. -/
def gdrive_fidnode_add (now : Int) :
    List Gdrive_Fileid_Cache_Node → String → String →
    List Gdrive_Fileid_Cache_Node × Int
  | [], path, fileId => ([gdrive_fidnode_create now (some path) (some fileId)], 0)
  | pNext :: rest, path, fileId =>
    match pNext.path with
    | none => (pNext :: rest, -1)
    | some nextPath =>
      let cmp := strcmp path nextPath
      if cmp = 0 then
        match gdrive_fidnode_update_item now pNext fileId with
        | (pNext1, returnVal) => (pNext1 :: rest, returnVal)
      else if cmp < 0 then
        (gdrive_fidnode_create now (some path) (some fileId) :: pNext :: rest, 0)
      else
        match gdrive_fidnode_add now rest path fileId with
        | (rest1, returnVal) => (pNext :: rest1, returnVal)

/-- The entry of `path`, `none` for NULL. The walk stops at the first entry
whose path compares above `path`. -/
def gdrive_fidnode_get_node :
    List Gdrive_Fileid_Cache_Node → String → Option Gdrive_Fileid_Cache_Node
  | [], _ => none
  | pNode :: rest, path =>
    match pNode.path with
    | none => none
    | some nodePath =>
      let cmp := strcmp path nodePath
      if cmp = 0 then some pNode
      else if cmp < 0 then none
      else gdrive_fidnode_get_node rest path

def gdrive_fidnode_get_fileid (pNode : Gdrive_Fileid_Cache_Node) : Option String :=
  pNode.fileId

/-- The cached identifier of `path`; a stale entry makes the cache pull the
change feed and the lookup start again. The first argument bounds the depth
of that recursion. Returns the cache, the identifier (`none` for NULL) and
the number of `gdrive_cache_update` calls made. -/
def gdrive_cache_get_fileid (remote : Remote) (now : Int) :
    Nat → Gdrive_Cache → String → Gdrive_Cache × Option String × Nat
  | 0, pCache, _ => (pCache, none, 0)
  | depth + 1, pCache, path =>
    match gdrive_fidnode_get_node pCache.pFileIdCacheHead path with
    | none => (pCache, none, 0)
    | some pNode =>
      let cacheUpdateTime := pCache.lastUpdateTime
      let nodeUpdateTime := pNode.lastUpdateTime
      let cacheTTL := pCache.cacheTTL
      let expireTime :=
        (if nodeUpdateTime > cacheUpdateTime then nodeUpdateTime else cacheUpdateTime)
          + cacheTTL
      if now > expireTime then
        match gdrive_cache_get_fileid remote now depth
            (gdrive_cache_update remote now pCache).1 path with
        | (pCache1, result, updates) => (pCache1, result, updates + 1)
      else (pCache, gdrive_fidnode_get_fileid pNode, 0)

/-- Both entries have a path and the path of the first compares below the
path of the second. -/
def pathBelow (a b : Gdrive_Fileid_Cache_Node) : Prop :=
  match a.path, b.path with
  | some pa, some pb => strcmp pa pb < 0
  | _, _ => False

instance (a b : Gdrive_Fileid_Cache_Node) : Decidable (pathBelow a b) := by
  unfold pathBelow
  split <;> infer_instance

/-- The paths of the list ascend strictly under `strcmp`; every entry has a
path. -/
def pathsAscending (l : List Gdrive_Fileid_Cache_Node) : Prop :=
  l.Pairwise pathBelow ∧ ∀ a ∈ l, a.path ≠ none

instance (l : List Gdrive_Fileid_Cache_Node) : Decidable (pathsAscending l) := by
  unfold pathsAscending
  infer_instance

/-- A path list with the entries `/a` and `/c`, stamped at time 50. -/
def examplePaths : List Gdrive_Fileid_Cache_Node :=
  [{ lastUpdateTime := 50, path := some "/a", fileId := some "A" },
   { lastUpdateTime := 50, path := some "/c", fileId := some "C" }]

/-- The cache of `exampleCache` with the path list `examplePaths`. -/
def pathCache : Gdrive_Cache :=
  { exampleCache with pFileIdCacheHead := examplePaths }

/-- The cache of `pathCache` with a negative TTL. -/
def negativeTtlCache : Gdrive_Cache :=
  { pathCache with cacheTTL := -1 }

/-! ## Arrays of file information (`gdrive-fileinfo-array.c`) -/

/-- The array: `pArray` holds `nMax` slots, of which the first `nItems` have
been filled. A pointer to a slot is its index. -/
structure Gdrive_Fileinfo_Array where
  nItems : Nat
  nMax : Nat
  pArray : List Gdrive_Fileinfo
  deriving DecidableEq, Repr

/-- A new array of `maxSize` zeroed slots. -/
def gdrive_finfoarray_create (maxSize : Nat) : Gdrive_Fileinfo_Array :=
  { nItems := 0, nMax := maxSize,
    pArray := List.replicate maxSize gdrive_cnode_create.fileinfo }

def gdrive_finfoarray_get_first (pArray : Gdrive_Fileinfo_Array) : Option Nat :=
  if pArray.nItems > 0 then some 0 else none

def gdrive_finfoarray_get_next (pArray : Gdrive_Fileinfo_Array) (pPrev : Option Nat) :
    Option Nat :=
  match pPrev with
  | none => none
  | some prev =>
    let pEnd := pArray.nMax
    let pNext := prev + 1
    if pNext < pEnd then some pNext else none

def gdrive_finfoarray_get_count (pArray : Gdrive_Fileinfo_Array) : Nat :=
  pArray.nItems

/-- Reads the file resource into the next free slot; `pObj = none` stands for
a NULL object. Returns the array and the return value. -/
def gdrive_finfoarray_add_from_json (pArray : Gdrive_Fileinfo_Array)
    (pObj : Option Gdrive_Json_File) : Gdrive_Fileinfo_Array × Int :=
  match pObj with
  | none => (pArray, -1)
  | some obj =>
    if pArray.nItems ≥ pArray.nMax then (pArray, -1)
    else
      ({ pArray with
          pArray := pArray.pArray.set pArray.nItems
            (gdrive_finfo_read_json
              (pArray.pArray.getD pArray.nItems gdrive_cnode_create.fileinfo) obj),
          nItems := pArray.nItems + 1 }, 0)

/-- The slots a caller visits with
`for (p = get_first(a); p != NULL; p = get_next(a, p))`, in order. The first
argument bounds the turns of the loop. -/
def finfoarrayVisitFrom (pArray : Gdrive_Fileinfo_Array) : Nat → Option Nat → List Nat
  | 0, _ => []
  | _ + 1, none => []
  | turns + 1, some p =>
    p :: finfoarrayVisitFrom pArray turns (gdrive_finfoarray_get_next pArray (some p))

/-- The whole iteration; `nMax + 1` turns are enough for every array. -/
def finfoarrayVisit (pArray : Gdrive_Fileinfo_Array) : List Nat :=
  finfoarrayVisitFrom pArray (pArray.nMax + 1) (gdrive_finfoarray_get_first pArray)

/-- An array made for three files into which the two files `"A"` and `"B"`
were added. -/
def partlyFilledArray : Gdrive_Fileinfo_Array :=
  (gdrive_finfoarray_add_from_json
    (gdrive_finfoarray_add_from_json (gdrive_finfoarray_create 3)
      (some (exampleJsonFile "A" ["R"]))).1
    (some (exampleJsonFile "B" ["R"]))).1

/-! ## The cache tree in memory: links between nodes (`gdrive-cache-node.c`) -/

/-- The memory that holds the nodes of the cache tree, one map per member of
`struct Gdrive_Cache_Node` that matters for the shape of the tree, indexed by
the address of the node (`none` is NULL); `node` holds the other members.
`pRoot` is the pointer `*ppToRoot`, and `freed` lists the addresses passed to
`gdrive_cnode_free`, in order. -/
structure Gdrive_Cache_Memory where
  pRoot : Option Nat
  pParent : Nat → Option Nat
  pLeft : Nat → Option Nat
  pRight : Nat → Option Nat
  node : Nat → Gdrive_Cache_Node
  freed : List Nat

/-- A `Gdrive_Cache_Node**`: the address of the root pointer, or of the
`pLeft` or `pRight` member of a node. -/
inductive Gdrive_Link where
  | toRoot
  | leftOf (pNode : Nat)
  | rightOf (pNode : Nat)
  deriving DecidableEq, Repr

namespace Gdrive_Cache_Memory

def setParent (m : Gdrive_Cache_Memory) (pNode : Nat) (v : Option Nat) :
    Gdrive_Cache_Memory :=
  { m with pParent := Function.update m.pParent pNode v }

def setLeft (m : Gdrive_Cache_Memory) (pNode : Nat) (v : Option Nat) :
    Gdrive_Cache_Memory :=
  { m with pLeft := Function.update m.pLeft pNode v }

def setRight (m : Gdrive_Cache_Memory) (pNode : Nat) (v : Option Nat) :
    Gdrive_Cache_Memory :=
  { m with pRight := Function.update m.pRight pNode v }

/-- Reads through a `Gdrive_Cache_Node**`. -/
def readLink (m : Gdrive_Cache_Memory) : Gdrive_Link → Option Nat
  | .toRoot => m.pRoot
  | .leftOf pNode => m.pLeft pNode
  | .rightOf pNode => m.pRight pNode

/-- Writes through a `Gdrive_Cache_Node**`. -/
def writeLink (m : Gdrive_Cache_Memory) (link : Gdrive_Link) (v : Option Nat) :
    Gdrive_Cache_Memory :=
  match link with
  | .toRoot => { m with pRoot := v }
  | .leftOf pNode => m.setLeft pNode v
  | .rightOf pNode => m.setRight pNode v

/-- Sets `pParent` of the node `child` points to, when `child` is not NULL. -/
def setParentOf (m : Gdrive_Cache_Memory) (child : Option Nat) (v : Option Nat) :
    Gdrive_Cache_Memory :=
  match child with
  | some c => m.setParent c v
  | none => m

/-- The effect of `gdrive_cnode_free` on the links: the node's `pLeft` and
`pRight` are cleared and the address goes to the list of freed nodes. -/
def gdrive_cnode_free (m : Gdrive_Cache_Memory) (pNode : Nat) : Gdrive_Cache_Memory :=
  let m := m.setLeft pNode none
  let m := m.setRight pNode none
  { m with freed := m.freed ++ [pNode] }

/-- Exchanges the places of two nodes, of which the second may be a child of
the first. The loop of assertions at the start of the source (that `pNodeOne`
is not below `pNodeTwo`) writes nothing and is left out. -/
def gdrive_cnode_swap (m : Gdrive_Cache_Memory) (ppFromParentOne : Gdrive_Link)
    (pNodeOne : Nat) (ppFromParentTwo : Gdrive_Link) (pNodeTwo : Nat) :
    Gdrive_Cache_Memory :=
  let pTempParent := m.pParent pNodeOne
  let pTempLeft := m.pLeft pNodeOne
  let pTempRight := m.pRight pNodeOne
  let m :=
    if m.pLeft pNodeOne = some pNodeTwo ∨ m.pRight pNodeOne = some pNodeTwo then
      let m := m.setLeft pNodeOne (m.pLeft pNodeTwo)
      let m := m.setRight pNodeOne (m.pRight pNodeTwo)
      if pTempLeft = some pNodeTwo then
        let m := m.setLeft pNodeTwo (some pNodeOne)
        m.setRight pNodeTwo pTempRight
      else
        let m := m.setLeft pNodeTwo pTempLeft
        m.setRight pNodeTwo (some pNodeOne)
    else
      let m := m.setParent pNodeOne (m.pParent pNodeTwo)
      let m := m.setLeft pNodeOne (m.pLeft pNodeTwo)
      let m := m.setRight pNodeOne (m.pRight pNodeTwo)
      let m := m.setLeft pNodeTwo pTempLeft
      let m := m.setRight pNodeTwo pTempRight
      m.writeLink ppFromParentTwo (some pNodeOne)
  let m := m.setParent pNodeTwo pTempParent
  let m := m.writeLink ppFromParentOne (some pNodeTwo)
  let m := m.setParentOf (m.pLeft pNodeOne) (some pNodeOne)
  let m := m.setParentOf (m.pRight pNodeOne) (some pNodeOne)
  let m := m.setParentOf (m.pLeft pNodeTwo) (some pNodeTwo)
  m.setParentOf (m.pRight pNodeTwo) (some pNodeTwo)

/-- The loop `while (pSwap->pLeft != NULL)`: walks to the leftmost node below
`pSwap`; the first argument bounds the turns. Returns `ppToSwap` and `pSwap`. -/
def findLeftmost (m : Gdrive_Cache_Memory) : Nat → Gdrive_Link → Nat → Gdrive_Link × Nat
  | 0, ppToSwap, pSwap => (ppToSwap, pSwap)
  | turns + 1, ppToSwap, pSwap =>
    match m.pLeft pSwap with
    | some next => findLeftmost m turns (.leftOf pSwap) next
    | none => (ppToSwap, pSwap)

/-- The loop `while (pSwap->pRight != NULL)`. -/
def findRightmost (m : Gdrive_Cache_Memory) : Nat → Gdrive_Link → Nat → Gdrive_Link × Nat
  | 0, ppToSwap, pSwap => (ppToSwap, pSwap)
  | turns + 1, ppToSwap, pSwap =>
    match m.pRight pSwap with
    | some next => findRightmost m turns (.rightOf pSwap) next
    | none => (ppToSwap, pSwap)

/-- Deletes the node at the address `pNode` from the tree in memory. The
first argument bounds the turns of the loops that look for `pSwap`, the
second the depth of the recursion (the source recurses once, after the
swap). The assertion that the node hangs from one side of its parent is left
out: when it does not hold the source takes `&pParent->pRight`, as here. -/
def gdrive_cnode_delete (turns : Nat) :
    Nat → Gdrive_Cache_Memory → Nat → Gdrive_Cache_Memory
  | 0, m, _ => m
  | depth + 1, m, pNode =>
    let ppFromParent : Gdrive_Link :=
      match m.pParent pNode with
      | none => .toRoot
      | some parent =>
        if m.pLeft parent = some pNode then .leftOf parent else .rightOf parent
    match m.pLeft pNode, m.pRight pNode with
    | none, none =>
      (m.writeLink ppFromParent none).gdrive_cnode_free pNode
    | none, some right =>
      let m := m.writeLink ppFromParent (some right)
      let m := m.setParent right (m.pParent pNode)
      m.gdrive_cnode_free pNode
    | some left, none =>
      let m := m.writeLink ppFromParent (some left)
      let m := m.setParent left (m.pParent pNode)
      m.gdrive_cnode_free pNode
    | some left, some right =>
      let hangsRight : Bool :=
        match m.pParent pNode with
        | none => false
        | some parent => decide (m.pRight parent = some pNode)
      let (ppToSwap, pSwap) :=
        if hangsRight then m.findLeftmost turns (.rightOf pNode) right
        else m.findRightmost turns (.leftOf pNode) left
      gdrive_cnode_delete turns depth
        (m.gdrive_cnode_swap ppFromParent pNode ppToSwap pSwap) pNode

end Gdrive_Cache_Memory

/-- The shape of a tree in memory: which address sits where. -/
inductive Gdrive_Shape where
  | nil
  | node (pLeft : Gdrive_Shape) (pNode : Nat) (pRight : Gdrive_Shape)
  deriving DecidableEq, Repr

/-- The pointer to a tree of the given shape: the address at its root, NULL
for the empty tree. -/
def Gdrive_Shape.root : Gdrive_Shape → Option Nat
  | .nil => none
  | .node _ pNode _ => some pNode

/-- The addresses of the shape, from left to right. -/
def Gdrive_Shape.addrs : Gdrive_Shape → List Nat
  | .nil => []
  | .node pLeft pNode pRight => pLeft.addrs ++ pNode :: pRight.addrs

/-- The memory holds a tree of the shape `t` below a node `parent` (`none`
at the root of the whole tree): at every node of the shape `pLeft` and
`pRight` point to the roots of its subtrees, and `pParent` points back to the
node above. -/
def Gdrive_Cache_Memory.holds (m : Gdrive_Cache_Memory) :
    Option Nat → Gdrive_Shape → Prop
  | _, .nil => True
  | parent, .node pLeft pNode pRight =>
    m.pParent pNode = parent ∧ m.pLeft pNode = pLeft.root ∧ m.pRight pNode = pRight.root ∧
      m.holds (some pNode) pLeft ∧ m.holds (some pNode) pRight

/-- The memory holds the tree of shape `t` at its root pointer, every address
once, with consistent parent pointers. -/
def Gdrive_Cache_Memory.isTree (m : Gdrive_Cache_Memory) (t : Gdrive_Shape) : Prop :=
  m.pRoot = t.root ∧ m.holds none t ∧ t.addrs.Nodup

/-- The identifier of the first node compares below that of the second. -/
def idLess (a b : Gdrive_Cache_Node) : Prop :=
  match a.fileinfo.id, b.fileinfo.id with
  | some x, some y => strcmp x y < 0
  | _, _ => False

instance (a b : Gdrive_Cache_Node) : Decidable (idLess a b) := by
  unfold idLess
  split <;> infer_instance

/-- The tree of shape `t` is a binary search tree by identifier: at every
node the identifiers of the left subtree compare below the node's and those
of the right subtree above it. -/
def Gdrive_Cache_Memory.isSearchTree (m : Gdrive_Cache_Memory) : Gdrive_Shape → Prop
  | .nil => True
  | .node pLeft pNode pRight =>
    (∀ a ∈ pLeft.addrs, idLess (m.node a) (m.node pNode)) ∧
    (∀ a ∈ pRight.addrs, idLess (m.node pNode) (m.node a)) ∧
    m.isSearchTree pLeft ∧ m.isSearchTree pRight

/-- The node at `x` hangs from `parent` through `link`: `link` is the root
pointer when there is no parent, and otherwise the one of the `pLeft` and
`pRight` members of the parent that points to `x`. -/
def Gdrive_Cache_Memory.hangsFrom (m : Gdrive_Cache_Memory) (link : Gdrive_Link)
    (parent : Option Nat) (x : Nat) : Prop :=
  match parent with
  | none => link = .toRoot ∧ m.pRoot = some x
  | some p =>
    (link = .leftOf p ∧ m.pLeft p = some x ∧ m.pRight p ≠ some x) ∨
      (link = .rightOf p ∧ m.pRight p = some x ∧ m.pLeft p ≠ some x)

/-- The last address of the tree `node _ x t` from left to right: the node
the loop `while (pSwap->pRight != NULL)` ends at when it starts at `x`. -/
def Gdrive_Shape.last : Gdrive_Shape → Nat → Nat
  | .nil, x => x
  | .node _ z zr, _ => zr.last z

/-- The link through which the last node of `node _ x t` hangs, where `x`
hangs through `link`. -/
def Gdrive_Shape.lastLink : Gdrive_Shape → Gdrive_Link → Nat → Gdrive_Link
  | .nil, link, _ => link
  | .node _ z zr, _, x => zr.lastLink (.rightOf x) z

/-- The tree without its last node, whose left subtree takes its place. -/
def Gdrive_Shape.dropLast : Gdrive_Shape → Gdrive_Shape
  | .nil => .nil
  | .node l _ .nil => l
  | .node l x (.node rl z rr) => .node l x (Gdrive_Shape.node rl z rr).dropLast

/-- The first address of the tree `node t x _` from left to right. -/
def Gdrive_Shape.first : Gdrive_Shape → Nat → Nat
  | .nil, x => x
  | .node zl z _, _ => zl.first z

/-- The link through which the first node of `node t x _` hangs. -/
def Gdrive_Shape.firstLink : Gdrive_Shape → Gdrive_Link → Nat → Gdrive_Link
  | .nil, link, _ => link
  | .node zl z _, _, x => zl.firstLink (.leftOf x) z

/-- The tree without its first node, whose right subtree takes its place. -/
def Gdrive_Shape.dropFirst : Gdrive_Shape → Gdrive_Shape
  | .nil => .nil
  | .node .nil _ r => r
  | .node (.node ll z lr) x r => .node (Gdrive_Shape.node ll z lr).dropFirst x r

/-- What the deletion of the node `a` from the subtree of shape `t` that
hangs from `parent` through `link` leaves: the memory `m1` holds a subtree of
shape `t1` there whose addresses are those of `t` without `a`, in the same
order; the other members of all nodes are as before, `a` has been freed, and
outside the subtree only `link` has changed. -/
def Gdrive_Cache_Memory.deletedFrom (m m1 : Gdrive_Cache_Memory) (link : Gdrive_Link)
    (parent : Option Nat) (t t1 : Gdrive_Shape) (a : Nat) : Prop :=
  m1.holds parent t1 ∧ m1.readLink link = t1.root ∧
  (∃ A B, t.addrs = A ++ a :: B ∧ t1.addrs = A ++ B) ∧
  m1.node = m.node ∧ m1.freed = m.freed ++ [a] ∧
  (∀ b, b ∉ t.addrs → m1.pParent b = m.pParent b ∧
    (link ≠ .leftOf b → m1.pLeft b = m.pLeft b) ∧
    (link ≠ .rightOf b → m1.pRight b = m.pRight b)) ∧
  (link ≠ .toRoot → m1.pRoot = m.pRoot)

/-- The identifiers of the nodes of the tree of shape `t`, from left to
right. -/
def Gdrive_Cache_Memory.ids (m : Gdrive_Cache_Memory) (t : Gdrive_Shape) :
    List (Option String) :=
  t.addrs.map (fun b => (m.node b).fileinfo.id)

def Gdrive_Cache_Memory.decHolds (m : Gdrive_Cache_Memory) :
    ∀ (parent : Option Nat) (t : Gdrive_Shape), Decidable (m.holds parent t)
  | _, .nil => isTrue trivial
  | parent, .node pLeft pNode pRight =>
    let _ := decHolds m (some pNode) pLeft
    let _ := decHolds m (some pNode) pRight
    inferInstanceAs (Decidable (m.pParent pNode = parent ∧ m.pLeft pNode = pLeft.root ∧
      m.pRight pNode = pRight.root ∧ m.holds (some pNode) pLeft ∧ m.holds (some pNode) pRight))

instance (m : Gdrive_Cache_Memory) (parent : Option Nat) (t : Gdrive_Shape) :
    Decidable (m.holds parent t) :=
  m.decHolds parent t

instance (m : Gdrive_Cache_Memory) (t : Gdrive_Shape) : Decidable (m.isTree t) :=
  inferInstanceAs (Decidable (m.pRoot = t.root ∧ m.holds none t ∧ t.addrs.Nodup))

def Gdrive_Cache_Memory.decSearchTree (m : Gdrive_Cache_Memory) :
    ∀ (t : Gdrive_Shape), Decidable (m.isSearchTree t)
  | .nil => isTrue trivial
  | .node pLeft pNode pRight =>
    let _ := decSearchTree m pLeft
    let _ := decSearchTree m pRight
    inferInstanceAs (Decidable ((∀ a ∈ pLeft.addrs, idLess (m.node a) (m.node pNode)) ∧
      (∀ a ∈ pRight.addrs, idLess (m.node pNode) (m.node a)) ∧
      m.isSearchTree pLeft ∧ m.isSearchTree pRight))

instance (m : Gdrive_Cache_Memory) (t : Gdrive_Shape) : Decidable (m.isSearchTree t) :=
  m.decSearchTree t

/-- A tree of five nodes in memory, at the addresses 1 to 5 with the
identifiers `"a"` to `"e"`: the root 4 has the children 2 and 5, and 2 has
the children 1 and 3. -/
def exampleTreeMemory : Gdrive_Cache_Memory :=
  { pRoot := some 4
    pParent := fun b =>
      if b = 2 ∨ b = 5 then some 4 else if b = 1 ∨ b = 3 then some 2 else none
    pLeft := fun b => if b = 4 then some 2 else if b = 2 then some 1 else none
    pRight := fun b => if b = 4 then some 5 else if b = 2 then some 3 else none
    node := fun b => exampleNode (String.mk [Char.ofNat (96 + b)]) 0
    freed := [] }

/-- The shape of the tree in `exampleTreeMemory`. -/
def exampleTreeShape : Gdrive_Shape :=
  .node (.node (.node .nil 1 .nil) 2 (.node .nil 3 .nil)) 4 (.node .nil 5 .nil)

/-! ## Definitions for the chunk count, the rate limit answers and the backoff -/

/-- The first loop of `gdrive_fcontents_delete_after_offset`: it walks the
list and stores every chunk that starts after `offset` in
`deleteArray[index++]`. Returns the final value of `index`, the number of
slots of `deleteArray` written; the array has `gdrive_get_maxchunks()`
slots. -/
def deleteArrayIndex : List Gdrive_File_Contents → Int → Nat → Nat
  | [], _, index => index
  | pContents :: pNext, offset, index =>
    if pContents.start > offset then deleteArrayIndex pNext offset (index + 1)
    else deleteArrayIndex pNext offset index

/-- Settings with the smallest chunk size `gdrive_init` accepts
(`GDRIVE_BASE_CHUNK_SIZE`) and at most three chunks per file. -/
def threeChunksInfo : Gdrive_Info :=
  { mode := 7, minChunkSize := 262144, maxChunks := 3 }

/-- Four reads of one byte each, at the first two bytes of the second and of
the third window of 262144 bytes. -/
def windowStartReads : List ReadCall :=
  [{ remote := downloadingRemote, destBuf := true, size := 1, offset := 262144 },
   { remote := downloadingRemote, destBuf := true, size := 1, offset := 262145 },
   { remote := downloadingRemote, destBuf := true, size := 1, offset := 524288 },
   { remote := downloadingRemote, destBuf := true, size := 1, offset := 524289 }]

/-- A chunk that holds the bytes 0 to 9 of a file, all zero. -/
def tenByteChunk : Gdrive_File_Contents :=
  { start := 0, end_ := 9, fh := some (List.replicate 10 0) }

/-- A chunk list whose first chunk has lost its temporary file. -/
def chunksWithoutFile : List Gdrive_File_Contents :=
  [{ start := 0, end_ := 2, fh := none }, { start := 3, end_ := 5, fh := some [1, 2, 3] }]

/-- A server that answers the first request with the HTTP status 403 and the
given reason, and every later one with 200. -/
def forbiddenOnceServer (reason : String) : Nat → Gdrive_Download_Result :=
  fun n => { resultCode := CURLE_OK, httpResp := if n = 0 then 403 else 200,
             reason := reason }

/-- A server that answers the first request with the HTTP status 500 and
every later one with 200. -/
def failingOnceServer : Nat → Gdrive_Download_Result :=
  fun n => { resultCode := CURLE_OK, httpResp := if n = 0 then 500 else 200, reason := "" }

/-- The loop `for (i = 0, waitTime = 1000; i < tryNum; i++, waitTime *= 2)`
of `gdrive_exponential_wait`; the first argument counts the turns left,
`tryNum - i`. -/
def exponentialWaitLoop : Nat → Int → Int
  | 0, waitTime => waitTime
  | turns + 1, waitTime => exponentialWaitLoop turns (waitTime * 2)

/-- The time `gdrive_exponential_wait(tryNum)` passes to `nanosleep`, where
`rand` is the value `rand()` returns. -/
def gdrive_exponential_wait (rand : Nat) (tryNum : Int) : Timespec :=
  let waitTime : Int := exponentialWaitLoop tryNum.toNat 1000
  let waitTime : Int := waitTime + (Int.tmod rand 1000 + 1)
  { tv_sec := Int.tdiv waitTime 1000, tv_nsec := Int.tmod waitTime 1000 * 1000000 }

/-- The length of a `struct timespec` in milliseconds. -/
def timespecMillis (t : Timespec) : Int :=
  t.tv_sec * 1000 + t.tv_nsec / 1000000

/-- The loop of `gdrive_fidnode_remove_by_id`. `kept` holds the entries in
front of `*ppFromPrev`, the list argument starts at `pNext`. An entry whose
identifier compares equal is unlinked and freed, `*ppFromPrev` then points to
the entry behind it; otherwise `ppFromPrev` moves on. Returns the list left
and the entries freed. The loop hands the identifier of every entry it
reaches to `strcmp` without a test; for an entry whose identifier is NULL the
call has no defined result, and the walk has none (`none`). -/
def gdrive_fidnode_remove_walk (fileId : String) :
    List Gdrive_Fileid_Cache_Node → List Gdrive_Fileid_Cache_Node →
    Option (List Gdrive_Fileid_Cache_Node × List Gdrive_Fileid_Cache_Node)
  | kept, [] => some (kept, [])
  | kept, pNext :: rest =>
    match pNext.fileId with
    | none => none
    | some id =>
      if strcmp fileId id = 0 then
        match gdrive_fidnode_remove_walk fileId kept rest with
        | some (pHead, freed) => some (pHead, pNext :: freed)
        | none => none
      else gdrive_fidnode_remove_walk fileId (kept ++ [pNext]) rest

/-- A path list in which the identifier `"A"` is reached by two paths. -/
def sharedIdPaths : List Gdrive_Fileid_Cache_Node :=
  [{ lastUpdateTime := 50, path := some "/a", fileId := some "A" },
   { lastUpdateTime := 51, path := some "/b", fileId := some "B" },
   { lastUpdateTime := 52, path := some "/c/a", fileId := some "A" }]

/-! ## The cache tree in memory: looking up and adding a node -/

/-- Stores the members of the node at `pNode` that are not links. -/
def Gdrive_Cache_Memory.setNode (m : Gdrive_Cache_Memory) (pNode : Nat)
    (v : Gdrive_Cache_Node) : Gdrive_Cache_Memory :=
  { m with node := Function.update m.node pNode v }

/-- The effect of `gdrive_cnode_create(pParent)` when `malloc` returns the
address `pNew`: every member of the new node is zero, then `pParent` is
set. -/
def Gdrive_Cache_Memory.gdrive_cnode_create (m : Gdrive_Cache_Memory) (pNew : Nat)
    (pParent : Option Nat) : Gdrive_Cache_Memory :=
  (((m.setNode pNew FuseDrive.gdrive_cnode_create).setLeft pNew none).setRight pNew
    none).setParent pNew pParent

/-- The function `gdrive_cnode_get` on the tree in memory: `pParent` and
`ppNode` are its first two arguments, `pNew` is the address `malloc` returns
when a node is created. The first argument bounds the depth of the recursion.
Returns the memory, the pointer returned (`none` for NULL) and the value left
in `*pAlreadyExists`. A node whose own identifier is NULL cannot be compared
(the source passes NULL to `strcmp`); the search ends there without a
result. -/
def Gdrive_Cache_Memory.gdrive_cnode_get (remote : Remote) (now : Int) (pNew : Nat) :
    Nat → Gdrive_Cache_Memory → Option Nat → Gdrive_Link → String → Bool →
    Gdrive_Cache_Memory × Option Nat × Bool
  | 0, m, _, _, _, _ => (m, none, false)
  | depth + 1, m, pParent, ppNode, fileId, addIfDoesntExist =>
    match m.readLink ppNode with
    | none =>
      if addIfDoesntExist = false then (m, none, false)
      else
        let m := (m.gdrive_cnode_create pNew pParent).writeLink ppNode (some pNew)
        match remote.fileGet fileId with
        | none => (m, none, false)
        | some pObj =>
          (m.setNode pNew (gdrive_cnode_update_from_json (m.node pNew) (some pObj) now),
           some pNew, false)
    | some pNode =>
      match (m.node pNode).fileinfo.id with
      | none => (m, none, false)
      | some id =>
        let cmp := strcmp fileId id
        if cmp = 0 then (m, some pNode, true)
        else if cmp < 0 then
          Gdrive_Cache_Memory.gdrive_cnode_get remote now pNew depth m (some pNode)
            (.leftOf pNode) fileId addIfDoesntExist
        else
          Gdrive_Cache_Memory.gdrive_cnode_get remote now pNew depth m (some pNode)
            (.rightOf pNode) fileId addIfDoesntExist

/-- The identifier of the node at `a` compares below `fileId`. -/
def Gdrive_Cache_Memory.idBelow (m : Gdrive_Cache_Memory) (a : Nat) (fileId : String) :
    Prop :=
  match (m.node a).fileinfo.id with
  | some x => strcmp x fileId < 0
  | none => False

/-- The identifier of the node at `a` compares above `fileId`. -/
def Gdrive_Cache_Memory.idAbove (m : Gdrive_Cache_Memory) (a : Nat) (fileId : String) :
    Prop :=
  match (m.node a).fileinfo.id with
  | some x => strcmp fileId x < 0
  | none => False

/-- A remote side that answers the metadata request for a file with the file
resource of that file. -/
def metadataRemote : Remote :=
  { failingRemote with fileGet := fun fileId => some (exampleJsonFile fileId ["A"]) }

/-- A remote side that answers every metadata request with the file resource
of the file `"z"`. -/
def otherFileRemote : Remote :=
  { failingRemote with fileGet := fun _ => some (exampleJsonFile "z" ["A"]) }

/-- The shape of the tree of `exampleTreeMemory` with a new node at the
address 6 to the left of the node at 3. -/
def grownTreeShape : Gdrive_Shape :=
  .node (.node (.node .nil 1 .nil) 2 (.node (.node .nil 6 .nil) 3 .nil)) 4
    (.node .nil 5 .nil)

/-! ## The temporary file with the buffer of its stream

The source writes and reads a temporary file through its stdio stream and
resizes it through the descriptor (`ftruncate(fileno(fh), ...)`), and it
never calls `fflush`. What a read returns after a resize depends on the bytes
the stream holds in its buffer, so the chunk is embedded a second time, with
its stream as the C library holds it. -/

/-- A stdio stream on a temporary file between two calls of the source:
`disk` is the file behind the descriptor `fileno` gives, `pending` are the
bytes `fwrite` has put into the buffer of the stream and that have not
reached the descriptor, with the position in the file of the first of them.
The buffer is taken to hold the bytes written between two flushes (a stream
buffers a block of `BUFSIZ` bytes or more); bytes a read leaves in the buffer
are not kept. -/
structure FILE where
  disk : List Nat
  pending : Option (Nat × List Nat)
  deriving DecidableEq, Repr

/-- The stream `tmpfile` returns: an empty file, nothing in the buffer. -/
def tmpfile : FILE := { disk := [], pending := none }

/-- The bytes in the buffer are written to the file at their position. This
is what `fflush` does, and what `fseek`, `rewind` and `fclose` do first. -/
def FILE.flush (f : FILE) : FILE :=
  match f.pending with
  | none => f
  | some (pos, buf) => { disk := fwriteAt f.disk pos buf, pending := none }

/-- `fseek(f, pos, SEEK_SET)` followed by `fwrite` of `buf`: the seek flushes
the stream, the bytes written stay in its buffer. -/
def FILE.fseek_fwrite (f : FILE) (pos : Nat) (buf : List Nat) : FILE :=
  if buf = [] then f.flush else { disk := f.flush.disk, pending := some (pos, buf) }

/-- `fseek(f, pos, SEEK_SET)` followed by `fread` of up to `size` bytes: the
seek flushes the stream, the bytes come from the file. -/
def FILE.fseek_fread (f : FILE) (pos size : Nat) : FILE × List Nat :=
  (f.flush, freadAt f.flush.disk pos size)

/-- `ftruncate(fileno(f), len)`: the file behind the descriptor is cut, or
extended with zero bytes; the buffer of the stream is not touched. -/
def FILE.ftruncate_fileno (f : FILE) (len : Nat) : FILE :=
  { f with disk := ftruncateTo f.disk len }

namespace Buffered

/-- One chunk, with the stream of its temporary file. -/
structure Gdrive_File_Contents where
  start : Int
  end_ : Int
  fh : Option FILE
  deriving DecidableEq, Repr

def gdrive_fcontents_create : Gdrive_File_Contents :=
  { start := 0, end_ := 0, fh := some tmpfile }

/-- Downloads `size` bytes from `start` into the chunk: `rewind`, then the
transfer writes the body to the stream. -/
def gdrive_fcontents_fill_chunk (remote : Remote)
    (pContents : Gdrive_File_Contents) (fileId : String) (start : Int)
    (size : Nat) : Gdrive_File_Contents × Int :=
  let end_ : Int := start + size - 1
  match remote.download fileId start end_ with
  | some body =>
    ({ start := start, end_ := start + size - 1,
       fh := some ((pContents.fh.getD tmpfile).fseek_fwrite 0 body) }, 0)
  | none => ({ pContents with fh := some (pContents.fh.getD tmpfile).flush }, -1)

/-- Returns the chunk (its stream is flushed by the seek), the count and the
bytes placed in the buffer. With `destBuf = false` (a NULL buffer) the stream
is not used. -/
def gdrive_fcontents_read (pContents : Gdrive_File_Contents) (destBuf : Bool)
    (offset : Int) (size : Nat) : Gdrive_File_Contents × Int × List Nat :=
  if destBuf = false then
    let maxSize : Nat := ((pContents.end_ - offset + 1) % 2 ^ 64).toNat
    (pContents, ((if size > maxSize then maxSize else size : Nat) : Int), [])
  else
    let (chunkFile, data) := (pContents.fh.getD tmpfile).fseek_fread
      (offset - pContents.start).toNat size
    ({ pContents with fh := some chunkFile }, (data.length : Int), data)

def gdrive_fcontents_write (pContents : Gdrive_File_Contents)
    (buf : List Nat) (offset : Int) (size : Nat) (extendChunk : Bool) :
    Gdrive_File_Contents × Int :=
  let maxSize : Nat := ((pContents.end_ - offset) % 2 ^ 64).toNat
  let realSize : Nat := if extendChunk ∨ size ≤ maxSize then size else maxSize
  let chunkFile := (pContents.fh.getD tmpfile).fseek_fwrite
    (offset - pContents.start).toNat (buf.take size)
  let bytesWritten : Nat := size
  let newEnd : Int :=
    if offset + bytesWritten - 1 > pContents.end_ then offset + bytesWritten - 1
    else pContents.end_
  let err : Int := 0
  if bytesWritten < realSize ∧ err ≠ 0 then
    ({ pContents with end_ := newEnd, fh := some chunkFile }, -err)
  else
    ({ pContents with end_ := newEnd, fh := some chunkFile }, bytesWritten)

/-- Resizes the temporary file to `size - start` bytes through its
descriptor; the stream is not flushed before. -/
def gdrive_fcontents_truncate (pContents : Gdrive_File_Contents) (size : Nat) :
    Gdrive_File_Contents × Int :=
  let newSize : Int := size - pContents.start
  if newSize < 0 then (pContents, -EINVAL)
  else
    let chunkFile := (pContents.fh.getD tmpfile).ftruncate_fileno newSize.toNat
    let newEnd : Int :=
      if pContents.end_ - pContents.start < newSize then
        pContents.start + newSize - 1
      else pContents.end_
    ({ pContents with end_ := newEnd, fh := some chunkFile }, 0)

end Buffered

/-! # Lemmas and theorems -/

/-! ## Temporary files and permissions -/

theorem fwriteAt_nil_zero (buf : List Nat) : fwriteAt [] 0 buf = buf := by
  simp [fwriteAt]

theorem real_perms_lt_eight (info : Gdrive_Info) (pFileinfo : Gdrive_Fileinfo) :
    gdrive_finfo_real_perms info pFileinfo < 8 := by
  unfold gdrive_finfo_real_perms
  have h1 : gdrive_get_filesystem_perms info pFileinfo.type < 8 := by
    unfold gdrive_get_filesystem_perms
    simp only [S_IROTH, S_IWOTH, S_IXOTH]
    split_ifs <;> decide
  exact lt_of_le_of_lt Nat.and_le_left h1

/-- Read permission is among the permissions a read-write access needs. -/
theorem check_perm_rdonly_of_rdwr (info : Gdrive_Info) (pNode : Gdrive_Cache_Node)
    (h : gdrive_file_check_perm info pNode O_RDWR = true) :
    gdrive_file_check_perm info pNode O_RDONLY = true := by
  have hb := real_perms_lt_eight info pNode.fileinfo
  revert h
  unfold gdrive_file_check_perm
  generalize gdrive_finfo_real_perms info pNode.fileinfo = p at hb
  interval_cases p <;> decide

/-! ## The quotient rounded up and the conversion to `int` -/

/-- For a dividend that is not negative and a positive divisor,
`gdrive_divide_round_up` gives the least `d` with `dividend ≤ d * divisor`. -/
theorem divide_round_up_spec (a b : Int) (ha : 0 ≤ a) (hb : 0 < b) :
    0 ≤ gdrive_divide_round_up a b ∧ a ≤ gdrive_divide_round_up a b * b ∧
    gdrive_divide_round_up a b * b < a + b := by
  unfold gdrive_divide_round_up
  rw [Int.tdiv_eq_ediv ha hb.le, Int.tmod_eq_emod ha hb.le]
  have h1 := Int.ediv_add_emod a b
  have h2 := Int.emod_nonneg a hb.ne'
  have h3 := Int.emod_lt_of_pos a hb
  have h4 : 0 ≤ a / b := Int.ediv_nonneg ha hb.le
  have h5 : a / b * b = b * (a / b) := mul_comm _ _
  split_ifs with h
  · refine ⟨h4, ?_, ?_⟩ <;> omega
  · have h6 : (a / b + 1) * b = b * (a / b) + b := by ring
    refine ⟨by omega, ?_, ?_⟩ <;> omega

theorem divide_round_up_pos (a b : Int) (ha : 0 < a) (hb : 0 < b) :
    0 < gdrive_divide_round_up a b := by
  obtain ⟨h0, h1, _⟩ := divide_round_up_spec a b ha.le hb
  rcases h0.lt_or_eq with h | h
  · exact h
  · rw [← h] at h1
    omega

theorem divide_round_up_le (a b d : Int) (ha : 0 ≤ a) (hb : 0 < b) (h : a ≤ d * b) :
    gdrive_divide_round_up a b ≤ d := by
  obtain ⟨_, _, h2⟩ := divide_round_up_spec a b ha hb
  by_contra hlt
  have h3 : d + 1 ≤ gdrive_divide_round_up a b := by omega
  have h4 : (d + 1) * b ≤ gdrive_divide_round_up a b * b :=
    mul_le_mul_of_nonneg_right h3 hb.le
  have h5 : (d + 1) * b = d * b + b := by ring
  omega

/-- With a positive minimum chunk size and a positive maximum chunk count
the chunk size is positive. -/
theorem chunkSizeOf_pos (info : Gdrive_Info) (pNode : Gdrive_Cache_Node)
    (hm : 0 < info.minChunkSize) (hk : 0 < info.maxChunks) :
    0 < chunkSizeOf info pNode := by
  have hm' : (0 : Int) < info.minChunkSize := by exact_mod_cast hm
  have hk' : (0 : Int) < info.maxChunks := by exact_mod_cast hk
  have hS : (0 : Int) < (if pNode.fileinfo.size > 0 then (pNode.fileinfo.size : Int) else 1) := by
    split_ifs with h
    · exact_mod_cast h
    · decide
  unfold chunkSizeOf
  exact mul_pos (divide_round_up_pos _ _ (divide_round_up_pos _ _ hS hk') hm') hm'

/-- With a positive minimum chunk size and a positive maximum chunk count no
division of `gdrive_cnode_create_chunk` has the divisor 0. -/
theorem create_chunk_divisors (info : Gdrive_Info) (pNode : Gdrive_Cache_Node)
    (hm : 0 < info.minChunkSize) (hk : 0 < info.maxChunks) :
    createChunkDividesByZero info pNode = false := by
  have h := chunkSizeOf_pos info pNode hm hk
  unfold createChunkDividesByZero
  simp only [decide_eq_false_iff_not, not_or]
  exact ⟨by omega, by omega, by omega⟩

/-- A value in the range of `int` is converted to itself. -/
theorem toInt_of_range (x : Int) (h1 : -2147483648 ≤ x) (h2 : x < 2147483648) :
    toInt x = x := by
  unfold toInt
  omega

/-- The conversion to `int` always lands in the range of `int`. -/
theorem toInt_range (x : Int) : -2147483648 ≤ toInt x ∧ toInt x < 2147483648 := by
  unfold toInt
  omega

/-! ## Writing to an empty file and reading back (C1) -/

theorem write_next_chunk_empty (info : Gdrive_Info) (remote : Remote)
    (fh : Gdrive_Cache_Node) (buf : List Nat) (N : Nat) (hN : 1 ≤ N)
    (hsize : fh.fileinfo.size = 0) (hchunks : fh.pContents = []) :
    gdrive_file_write_next_chunk info remote fh buf 0 N = (writtenNode fh buf N, (N : Int)) := by
  have hN' : (0 : Int) < N := by exact_mod_cast hN
  unfold gdrive_file_write_next_chunk
  simp [hsize, hchunks, gdrive_fcontents_find_chunk, gdrive_cnode_create_chunk,
    gdrive_cnode_add_contents, gdrive_fcontents_add, gdrive_fcontents_create, chunkAt,
    gdrive_fcontents_write, fwriteAt_nil_zero, writtenNode, hN']
  intro h
  omega

/-- Writing `N ≥ 1` bytes at offset 0 of an empty file without chunks: the
node afterwards, and the return value, which is `N` converted to `int`. -/
theorem file_write_empty (info : Gdrive_Info) (remote : Remote)
    (fh : Gdrive_Cache_Node) (buf : List Nat) (N : Nat) (hN : 1 ≤ N)
    (hsize : fh.fileinfo.size = 0) (hchunks : fh.pContents = [])
    (hperm : gdrive_file_check_perm info fh O_RDWR = true) :
    gdrive_file_write info remote fh buf N 0 = (writtenNode fh buf N, toInt (N : Int)) := by
  have hread : ∀ sz, (gdrive_file_read info remote fh false sz 0).1 = fh := by
    intro sz
    unfold gdrive_file_read
    simp [hsize]
    split_ifs <;> rfl
  obtain ⟨k, rfl⟩ : ∃ k, N = k + 1 := ⟨N - 1, by omega⟩
  have hnn : ¬ (((k + 1 : Nat) : Int) < 0) := by omega
  have hoff : (if decide ((0 : Int) = (fh.fileinfo.size : Int)) = true ∧ (0 : Int) > 0
      then (0 : Int) - 1 else 0) = 0 := by simp
  unfold gdrive_file_write
  simp only [hperm, hoff, hread, gdrive_file_write_loop, List.drop_zero]
  rw [write_next_chunk_empty info remote fh _ (k + 1) hN hsize hchunks]
  simp only [hnn, if_false, Int.toNat_ofNat, Nat.sub_self]
  cases k <;> simp [gdrive_file_write_loop]

theorem read_next_chunk_written (info : Gdrive_Info) (remote : Remote)
    (fh : Gdrive_Cache_Node) (b : List Nat) (N : Nat) (hN : 1 ≤ N) (hb : b.length = N) :
    gdrive_file_read_next_chunk info remote (writtenNode fh b N) true 0 N
      = (writtenNode fh b N, (N : Int), b) := by
  have hN' : (0 : Int) ≤ (N : Int) - 1 := by omega
  have htake : List.take N b = b := List.take_of_length_le (le_of_eq hb)
  unfold gdrive_file_read_next_chunk
  simp [writtenNode, gdrive_fcontents_find_chunk, hN', chunkAt, gdrive_fcontents_read,
    freadAt, htake, hb]

/-- Reading back the `N` bytes written: the node is left as it is, the bytes
are delivered, and the return value is `N` converted to `int`. -/
theorem file_read_written (info : Gdrive_Info) (remote : Remote)
    (fh : Gdrive_Cache_Node) (b : List Nat) (N : Nat) (hN : 1 ≤ N) (hb : b.length = N)
    (hperm : gdrive_file_check_perm info (writtenNode fh b N) O_RDONLY = true) :
    gdrive_file_read info remote (writtenNode fh b N) true N 0
      = (writtenNode fh b N, toInt (N : Int), b) := by
  have hsz : (writtenNode fh b N).fileinfo.size = N := rfl
  have h1 : ¬ ((0 : Int) ≥ (N : Int)) := by omega
  have h2 : (N : Int) + 0 ≤ (N : Int) := by omega
  unfold gdrive_file_read
  simp only [hperm, hsz, h1, h2, if_true, if_false, Bool.true_eq_false]
  obtain ⟨k, rfl⟩ : ∃ k, N = k + 1 := ⟨N - 1, by omega⟩
  have hnn : ¬ (((k + 1 : Nat) : Int) < 0) := by omega
  have hnz : ¬ (((k + 1 : Nat) : Int) = 0) := by omega
  have hpos : (k + 1 > 0) := by omega
  unfold gdrive_file_read_loop
  simp only [hpos, if_true]
  rw [read_next_chunk_written info remote fh b (k + 1) hN hb]
  simp only [hnn, hnz, if_false, Int.toNat_ofNat, Nat.sub_self, List.nil_append]
  cases k <;> simp [gdrive_file_read_loop]

/-- C1 fails as stated. The functions return `int`: a write of `2^31` bytes
to an empty file puts all of them into the file and returns `-2^31`, not the
count, and the read of these bytes returns `-2^31` as well. And not every
chunk-size configuration will do: with a maximum chunk count of 0, which the
options accept, the chunk the write creates is sized by a division by zero. -/
theorem C1_count_exceeds_int :
    (gdrive_file_write exampleInfo failingRemote (exampleNode "A" 0)
      (List.replicate 2147483648 7) 2147483648 0).2 = -2147483648 ∧
    (gdrive_file_write exampleInfo failingRemote (exampleNode "A" 0)
      (List.replicate 2147483648 7) 2147483648 0).1.fileinfo.size = 2147483648 ∧
    (gdrive_file_read exampleInfo failingRemote
      (gdrive_file_write exampleInfo failingRemote (exampleNode "A" 0)
        (List.replicate 2147483648 7) 2147483648 0).1 true 2147483648 0).2.1 = -2147483648 ∧
    createChunkDividesByZero { exampleInfo with maxChunks := 0 } (exampleNode "A" 0) = true := by
  have hw := file_write_empty exampleInfo failingRemote (exampleNode "A" 0)
    (List.replicate 2147483648 7) 2147483648 (by decide) rfl rfl (by decide)
  have hr := file_read_written exampleInfo failingRemote (exampleNode "A" 0)
    (List.replicate 2147483648 7) 2147483648 (by decide) (List.length_replicate _ _)
    (by decide)
  have hc : toInt ((2147483648 : Nat) : Int) = -2147483648 := by decide
  rw [hw, hr, hc]
  exact ⟨rfl, rfl, rfl, by decide⟩

/-- C1 as amended (round trip): let the minimum chunk size and the maximum
chunk count be positive and let `1 ≤ N < 2^31`. On a handle with read-write
permission of a zero-length file without cached chunks, writing the `N` bytes
`b` at offset 0 divides by no zero and returns `N`, the following read of `N`
bytes at offset 0 returns `N` and delivers `b`, and the file size is `N`
afterwards, whatever the remote side answers. -/
theorem C1_write_then_read_round_trip (info : Gdrive_Info) (remoteW remoteR : Remote)
    (fh : Gdrive_Cache_Node) (b : List Nat) (N : Nat)
    (hm : 0 < info.minChunkSize) (hk : 0 < info.maxChunks)
    (hN : 1 ≤ N) (hint : N < 2147483648) (hb : b.length = N)
    (hsize : fh.fileinfo.size = 0) (hchunks : fh.pContents = [])
    (hperm : gdrive_file_check_perm info fh O_RDWR = true) :
    createChunkDividesByZero info fh = false ∧
    (gdrive_file_write info remoteW fh b N 0).2 = (N : Int) ∧
    (gdrive_file_read info remoteR (gdrive_file_write info remoteW fh b N 0).1 true N 0).2
      = ((N : Int), b) ∧
    (gdrive_file_read info remoteR
      (gdrive_file_write info remoteW fh b N 0).1 true N 0).1.fileinfo.size = N := by
  have hpermR : gdrive_file_check_perm info (writtenNode fh b N) O_RDONLY = true :=
    check_perm_rdonly_of_rdwr info _ hperm
  have hc : toInt (N : Int) = (N : Int) := toInt_of_range _ (by omega) (by omega)
  rw [file_write_empty info remoteW fh b N hN hsize hchunks hperm]
  rw [file_read_written info remoteR fh b N hN hb hpermR, hc]
  exact ⟨create_chunk_divisors info fh hm hk, rfl, rfl, rfl⟩

theorem C1_write_then_read_round_trip_witness :
    (0 < exampleInfo.minChunkSize ∧ 0 < exampleInfo.maxChunks ∧
      1 ≤ 5 ∧ 5 < 2147483648 ∧ [104, 101, 108, 108, 111].length = 5 ∧
      (exampleNode "A" 0).fileinfo.size = 0 ∧ (exampleNode "A" 0).pContents = [] ∧
      gdrive_file_check_perm exampleInfo (exampleNode "A" 0) O_RDWR = true) ∧
    createChunkDividesByZero exampleInfo (exampleNode "A" 0) = false ∧
    (gdrive_file_write exampleInfo failingRemote (exampleNode "A" 0)
        [104, 101, 108, 108, 111] 5 0).2 = (5 : Int) ∧
    (gdrive_file_read exampleInfo failingRemote
      (gdrive_file_write exampleInfo failingRemote (exampleNode "A" 0)
        [104, 101, 108, 108, 111] 5 0).1 true 5 0).2
      = ((5 : Int), [104, 101, 108, 108, 111]) ∧
    (gdrive_file_read exampleInfo failingRemote
      (gdrive_file_write exampleInfo failingRemote (exampleNode "A" 0)
        [104, 101, 108, 108, 111] 5 0).1 true 5 0).1.fileinfo.size = 5 :=
  ⟨⟨by decide, by decide, by decide, by decide, rfl, rfl, rfl, by decide⟩,
   C1_write_then_read_round_trip exampleInfo failingRemote failingRemote (exampleNode "A" 0)
     [104, 101, 108, 108, 111] 5 (by decide) (by decide) (by decide) (by decide) rfl rfl rfl
     (by decide)⟩

/-! ## File-level read (C9) -/

theorem fcontents_read_bounds (pContents : Gdrive_File_Contents) (destBuf : Bool)
    (offset : Int) (size : Nat) :
    0 ≤ (gdrive_fcontents_read pContents destBuf offset size).1 ∧
    (gdrive_fcontents_read pContents destBuf offset size).1 ≤ (size : Int) := by
  unfold gdrive_fcontents_read
  split_ifs with h
  · simp only
    split_ifs with h2
    · constructor
      · exact Int.natCast_nonneg _
      · exact_mod_cast le_of_lt h2
    · exact ⟨Int.natCast_nonneg _, le_refl _⟩
  · simp only [freadAt]
    constructor
    · exact Int.natCast_nonneg _
    · have := List.length_take_le size (List.drop (offset - pContents.start).toNat (pContents.fh.getD []))
      exact_mod_cast this

theorem read_next_chunk_bounds (info : Gdrive_Info) (remote : Remote)
    (pFile : Gdrive_Cache_Node) (destBuf : Bool) (offset : Int) (size : Nat) :
    (gdrive_file_read_next_chunk info remote pFile destBuf offset size).2.1 = - EIO ∨
    (0 ≤ (gdrive_file_read_next_chunk info remote pFile destBuf offset size).2.1 ∧
     (gdrive_file_read_next_chunk info remote pFile destBuf offset size).2.1 ≤ (size : Int)) := by
  unfold gdrive_file_read_next_chunk
  split
  · exact Or.inr (fcontents_read_bounds _ _ _ _)
  · split
    · exact Or.inl rfl
    · exact Or.inr (fcontents_read_bounds _ _ _ _)

/-- The result of the loop of `gdrive_file_read` in terms of the chunk-level
reads it makes: either one of them returns `-EIO` and so does the loop, or
none is negative and the loop returns the bytes counted before it plus their
sum, which is below `realSize` only when one of them returned 0. -/
theorem read_loop_bounds (info : Gdrive_Info) (remote : Remote) (destBuf : Bool)
    (realSize : Nat) :
    ∀ (turns : Nat) (fh : Gdrive_Cache_Node) (nextOffset : Int) (bytesRemaining : Nat)
      (buf : List Nat), bytesRemaining ≤ realSize → bytesRemaining ≤ turns →
      ((gdrive_file_read_loop info remote turns fh destBuf nextOffset bytesRemaining
          realSize buf).2.1 = - EIO ∧
        - EIO ∈ gdrive_file_read_loop_chunk_reads info remote turns fh destBuf nextOffset
          bytesRemaining) ∨
      ((∀ x ∈ gdrive_file_read_loop_chunk_reads info remote turns fh destBuf nextOffset
          bytesRemaining, 0 ≤ x) ∧
       (gdrive_file_read_loop info remote turns fh destBuf nextOffset bytesRemaining
          realSize buf).2.1 = (realSize : Int) - bytesRemaining +
            (gdrive_file_read_loop_chunk_reads info remote turns fh destBuf nextOffset
              bytesRemaining).sum ∧
       (gdrive_file_read_loop info remote turns fh destBuf nextOffset bytesRemaining
          realSize buf).2.1 ≤ (realSize : Int) ∧
       ((gdrive_file_read_loop info remote turns fh destBuf nextOffset bytesRemaining
          realSize buf).2.1 < (realSize : Int) →
         (0 : Int) ∈ gdrive_file_read_loop_chunk_reads info remote turns fh destBuf nextOffset
           bytesRemaining)) := by
  intro turns
  induction turns with
  | zero =>
    intro fh nextOffset bytesRemaining buf _ hz
    have h0 : bytesRemaining = 0 := by omega
    subst h0
    right
    simp [gdrive_file_read_loop, gdrive_file_read_loop_chunk_reads]
  | succ turns ih =>
    intro fh nextOffset bytesRemaining buf hle hturns
    unfold gdrive_file_read_loop gdrive_file_read_loop_chunk_reads
    by_cases hpos : bytesRemaining > 0
    · simp only [hpos, if_true]
      have hb := read_next_chunk_bounds info remote fh destBuf nextOffset bytesRemaining
      generalize gdrive_file_read_next_chunk info remote fh destBuf nextOffset
        bytesRemaining = res at hb
      obtain ⟨fh1, bytesRead, data⟩ := res
      simp only at hb ⊢
      rcases hb with hE | ⟨h0, h1⟩
      · left
        have hneg : bytesRead < 0 := by rw [hE]; decide
        simp only [hneg, if_true]
        exact ⟨hE, by rw [hE]; exact List.mem_singleton_self _⟩
      · have hnn : ¬ bytesRead < 0 := not_lt.mpr h0
        simp only [hnn, if_false]
        by_cases hz : bytesRead = 0
        · simp only [hz, if_true]
          right
          refine ⟨?_, ?_, ?_, ?_⟩
          · intro x hx
            rw [List.mem_singleton.mp hx]
          · simp
          · omega
          · intro _
            exact List.mem_singleton_self _
        · simp only [hz, if_false]
          have hrem : ((bytesRemaining - bytesRead.toNat : Nat) : Int)
              = (bytesRemaining : Int) - bytesRead := by omega
          rcases ih fh1 (nextOffset + bytesRead) (bytesRemaining - bytesRead.toNat)
              (buf ++ data) (by omega) (by omega) with ⟨hr, hm⟩ | ⟨hall, hr, hle2, hlt⟩
          · left
            exact ⟨hr, List.mem_cons_of_mem _ hm⟩
          · right
            refine ⟨?_, ?_, hle2, ?_⟩
            · intro x hx
              rcases List.mem_cons.mp hx with rfl | hx
              · exact h0
              · exact hall x hx
            · rw [hr, hrem, List.sum_cons]
              ring
            · intro h
              exact List.mem_cons_of_mem _ (hlt h)
    · simp only [hpos, if_false]
      have h0 : bytesRemaining = 0 := by omega
      subst h0
      right
      simp

/-- The turn bound of `gdrive_file_read` is never the reason the loop stops:
with at least `bytesRemaining` turns, more turns give the same result. -/
theorem read_loop_turns_suffice (info : Gdrive_Info) (remote : Remote) (destBuf : Bool)
    (realSize : Nat) :
    ∀ (turns extra : Nat) (fh : Gdrive_Cache_Node) (nextOffset : Int)
      (bytesRemaining : Nat) (buf : List Nat), bytesRemaining ≤ turns →
      gdrive_file_read_loop info remote (turns + extra) fh destBuf nextOffset bytesRemaining
          realSize buf
        = gdrive_file_read_loop info remote turns fh destBuf nextOffset bytesRemaining
          realSize buf := by
  intro turns
  induction turns with
  | zero =>
    intro extra fh nextOffset bytesRemaining buf hle
    have h0 : bytesRemaining = 0 := by omega
    subst h0
    cases extra <;> simp [gdrive_file_read_loop]
  | succ turns ih =>
    intro extra fh nextOffset bytesRemaining buf hle
    have hsucc : turns + 1 + extra = (turns + extra) + 1 := by omega
    rw [hsucc]
    unfold gdrive_file_read_loop
    by_cases hpos : bytesRemaining > 0
    · simp only [hpos, if_true]
      generalize gdrive_file_read_next_chunk info remote fh destBuf nextOffset
          bytesRemaining = res
      obtain ⟨fh1, bytesRead, data⟩ := res
      simp only
      by_cases hneg : bytesRead < 0
      · simp only [hneg, if_true]
      · simp only [hneg, if_false]
        by_cases hz : bytesRead = 0
        · simp only [hz, if_true]
        · simp only [hz, if_false]
          apply ih
          omega
    · simp only [hpos, if_false]

/-- With read permission, an offset inside the file and fewer than `2^31`
bytes asked for, `gdrive_file_read` returns what its loop returns: the
conversion to `int` changes nothing. -/
theorem file_read_eq_loop (info : Gdrive_Info) (remote : Remote)
    (fh : Gdrive_Cache_Node) (destBuf : Bool) (size : Nat) (offset : Int)
    (hperm : gdrive_file_check_perm info fh O_RDONLY = true)
    (hoff : offset < (fh.fileinfo.size : Int)) (hsize : size < 2147483648) :
    gdrive_file_read info remote fh destBuf size offset =
      gdrive_file_read_loop info remote
        (if (size : Int) + offset ≤ (fh.fileinfo.size : Int) then size
          else ((fh.fileinfo.size : Int) - offset).toNat) fh destBuf offset
        (if (size : Int) + offset ≤ (fh.fileinfo.size : Int) then size
          else ((fh.fileinfo.size : Int) - offset).toNat)
        (if (size : Int) + offset ≤ (fh.fileinfo.size : Int) then size
          else ((fh.fileinfo.size : Int) - offset).toNat) [] := by
  have hreal : (if (size : Int) + offset ≤ (fh.fileinfo.size : Int) then size
      else ((fh.fileinfo.size : Int) - offset).toNat) ≤ size := by
    split_ifs with h
    · exact le_refl _
    · omega
  unfold gdrive_file_read
  rw [if_neg (by rw [hperm]; simp), if_neg (by omega)]
  simp only
  generalize (if (size : Int) + offset ≤ (fh.fileinfo.size : Int) then size
      else ((fh.fileinfo.size : Int) - offset).toNat) = realSize at hreal ⊢
  have hid : toInt (gdrive_file_read_loop info remote realSize fh destBuf offset realSize
      realSize []).2.1 = (gdrive_file_read_loop info remote realSize fh destBuf offset
      realSize realSize []).2.1 := by
    rcases read_loop_bounds info remote destBuf realSize realSize fh offset realSize []
        (le_refl _) (le_refl _) with ⟨hr, _⟩ | ⟨hall, hr, hle, _⟩
    · rw [hr]; decide
    · have hsum := List.sum_nonneg hall
      exact toInt_of_range _ (by omega) (by omega)
  rw [hid]

/-- C9 fails as stated. With read permission and `offset` inside the file,
the read returns the negative number `-EIO = -5` when the chunk cannot be
downloaded, not a count `r ≥ 0`. The function returns `int`: the read of the
`2^31` bytes of a file returns `-2^31`. And with a maximum chunk count of 0,
which the options accept, the chunk a read creates is sized by a division by
zero. -/
theorem C9_read_returns_negative_error :
    gdrive_file_check_perm exampleInfo (exampleNode "A" 300000) O_RDONLY = true ∧
    (0 : Int) < ((exampleNode "A" 300000).fileinfo.size : Int) ∧
    (gdrive_file_read exampleInfo failingRemote (exampleNode "A" 300000) true 1 0).2.1 = -5 ∧
    ¬ (0 ≤ (gdrive_file_read exampleInfo failingRemote
        (exampleNode "A" 300000) true 1 0).2.1) ∧
    (gdrive_file_read exampleInfo failingRemote
      (writtenNode (exampleNode "A" 0) (List.replicate 2147483648 7) 2147483648)
      true 2147483648 0).2.1 = -2147483648 ∧
    createChunkDividesByZero { exampleInfo with maxChunks := 0 } (exampleNode "A" 300000)
      = true := by
  have hr := file_read_written exampleInfo failingRemote (exampleNode "A" 0)
    (List.replicate 2147483648 7) 2147483648 (by decide) (List.length_replicate _ _)
    (by decide)
  have hc : toInt ((2147483648 : Nat) : Int) = -2147483648 := by decide
  rw [hr, hc]
  exact ⟨by decide, by decide, by decide, by decide, rfl, by decide⟩

/-- C9 as amended (file-level read never crosses end-of-file): without read
permission the read returns `-EACCES`; with it, the read returns 0 when
`offset ≥` file size. Otherwise, with a positive minimum chunk size and
maximum chunk count and with `min(size, fileSize - offset) < 2^31`, no chunk
is sized by a division by zero, and the read returns either the negative
error number `-EIO`, which one of the chunk-level reads of the call has
returned, or the sum `r` of the counts its chunk-level reads returned, with
`0 ≤ r ≤ min(size, fileSize - offset)`, where `r` is below that minimum only
when one of these chunk-level reads delivered no byte. -/
theorem C9_read_count_or_error (info : Gdrive_Info) (remote : Remote)
    (fh : Gdrive_Cache_Node) (destBuf : Bool) (size : Nat) (offset : Int) :
    (gdrive_file_check_perm info fh O_RDONLY = false →
      (gdrive_file_read info remote fh destBuf size offset).2.1 = -EACCES) ∧
    (gdrive_file_check_perm info fh O_RDONLY = true → offset ≥ (fh.fileinfo.size : Int) →
      (gdrive_file_read info remote fh destBuf size offset).2.1 = 0) ∧
    (gdrive_file_check_perm info fh O_RDONLY = true → 0 ≤ offset →
      offset < (fh.fileinfo.size : Int) →
      0 < info.minChunkSize → 0 < info.maxChunks →
      min (size : Int) ((fh.fileinfo.size : Int) - offset) < 2147483648 →
      createChunkDividesByZero info fh = false ∧
      (((gdrive_file_read info remote fh destBuf size offset).2.1 = - EIO ∧
        - EIO ∈ gdrive_file_read_chunk_reads info remote fh destBuf size offset) ∨
       ((∀ x ∈ gdrive_file_read_chunk_reads info remote fh destBuf size offset, 0 ≤ x) ∧
        (gdrive_file_read info remote fh destBuf size offset).2.1
          = (gdrive_file_read_chunk_reads info remote fh destBuf size offset).sum ∧
        0 ≤ (gdrive_file_read info remote fh destBuf size offset).2.1 ∧
        (gdrive_file_read info remote fh destBuf size offset).2.1
          ≤ min (size : Int) ((fh.fileinfo.size : Int) - offset) ∧
        ((gdrive_file_read info remote fh destBuf size offset).2.1
          < min (size : Int) ((fh.fileinfo.size : Int) - offset) →
          (0 : Int) ∈ gdrive_file_read_chunk_reads info remote fh destBuf size offset)))) := by
  refine ⟨?_, ?_, ?_⟩
  · intro hperm
    simp [gdrive_file_read, hperm]
  · intro hperm hoff
    simp [gdrive_file_read, hperm, hoff]
  · intro hperm h0 hlt hm hk hint
    refine ⟨create_chunk_divisors info fh hm hk, ?_⟩
    have hnot : ¬ (offset ≥ (fh.fileinfo.size : Int)) := not_le.mpr hlt
    unfold gdrive_file_read gdrive_file_read_chunk_reads
    simp only [hperm, hnot, if_false, Bool.true_eq_false]
    have hreal : (((if (size : Int) + offset ≤ (fh.fileinfo.size : Int) then size
        else ((fh.fileinfo.size : Int) - offset).toNat : Nat)) : Int)
        = min (size : Int) ((fh.fileinfo.size : Int) - offset) := by
      split_ifs with h
      · rw [min_eq_left]; omega
      · rw [min_eq_right (by omega)]; omega
    rw [← hreal] at hint ⊢
    generalize (if (size : Int) + offset ≤ (fh.fileinfo.size : Int) then size
        else ((fh.fileinfo.size : Int) - offset).toNat : Nat) = realSize at hint ⊢
    rcases read_loop_bounds info remote destBuf realSize realSize fh offset realSize []
        (le_refl _) (le_refl _) with ⟨hr, hmem⟩ | ⟨hall, hr, hle, hz⟩
    · left
      rw [hr]
      exact ⟨by decide, hmem⟩
    · right
      have hsum : 0 ≤ (gdrive_file_read_loop_chunk_reads info remote realSize fh destBuf
          offset realSize).sum := List.sum_nonneg hall
      have hid : toInt (gdrive_file_read_loop info remote realSize fh destBuf offset realSize
          realSize []).2.1 = (gdrive_file_read_loop info remote realSize fh destBuf offset
          realSize realSize []).2.1 := toInt_of_range _ (by omega) (by omega)
      rw [hid]
      exact ⟨hall, by omega, by omega, hle, hz⟩

theorem C9_read_count_or_error_witness :
    (gdrive_file_check_perm exampleInfo twoChunkNode O_RDONLY = true ∧
      (0 : Int) ≤ 1 ∧ (1 : Int) < (twoChunkNode.fileinfo.size : Int) ∧
      0 < exampleInfo.minChunkSize ∧ 0 < exampleInfo.maxChunks ∧
      min ((4 : Nat) : Int) ((twoChunkNode.fileinfo.size : Int) - 1) < 2147483648) ∧
    (createChunkDividesByZero exampleInfo twoChunkNode = false ∧
      (((gdrive_file_read exampleInfo failingRemote twoChunkNode true 4 1).2.1 = - EIO ∧
        - EIO ∈ gdrive_file_read_chunk_reads exampleInfo failingRemote twoChunkNode true 4 1) ∨
       ((∀ x ∈ gdrive_file_read_chunk_reads exampleInfo failingRemote twoChunkNode true 4 1,
          0 ≤ x) ∧
        (gdrive_file_read exampleInfo failingRemote twoChunkNode true 4 1).2.1
          = (gdrive_file_read_chunk_reads exampleInfo failingRemote twoChunkNode true 4 1).sum ∧
        0 ≤ (gdrive_file_read exampleInfo failingRemote twoChunkNode true 4 1).2.1 ∧
        (gdrive_file_read exampleInfo failingRemote twoChunkNode true 4 1).2.1
          ≤ min ((4 : Nat) : Int) ((twoChunkNode.fileinfo.size : Int) - 1) ∧
        ((gdrive_file_read exampleInfo failingRemote twoChunkNode true 4 1).2.1
          < min ((4 : Nat) : Int) ((twoChunkNode.fileinfo.size : Int) - 1) →
          (0 : Int) ∈ gdrive_file_read_chunk_reads exampleInfo failingRemote
            twoChunkNode true 4 1)))) ∧
    (gdrive_file_read exampleInfo failingRemote twoChunkNode true 4 1).2 = (4, [8, 9, 1, 2]) ∧
    gdrive_file_read_chunk_reads exampleInfo failingRemote twoChunkNode true 4 1 = [2, 2] :=
  ⟨⟨by decide, by decide, by decide, by decide, by decide, by decide⟩,
   (C9_read_count_or_error exampleInfo failingRemote twoChunkNode true 4 1).2.2
     (by decide) (by decide) (by decide) (by decide) (by decide) (by decide),
   by decide, by decide⟩

/-- A read that stops short: the chunk that holds the offset has a temporary
file of three bytes only, so the second chunk-level read delivers no byte and
the call returns 3 of the 5 bytes asked for. -/
theorem file_read_stops_at_empty_chunk_read :
    (gdrive_file_read exampleInfo failingRemote
      { exampleNode "B" 6 with pContents := [{ start := 0, end_ := 5, fh := some [7, 8, 9] }] }
      true 5 0).2 = (3, [7, 8, 9]) ∧
    gdrive_file_read_chunk_reads exampleInfo failingRemote
      { exampleNode "B" 6 with pContents := [{ start := 0, end_ := 5, fh := some [7, 8, 9] }] }
      true 5 0 = [3, 0] := by
  decide

/-! ## Truncating to the current size (C10) -/

/-- C10 (truncate idempotence): with write permission, truncating to the
current file size returns 0 and leaves the node as it was: same chunk list
with the same ranges, same file size, same dirty flag. -/
theorem C10_truncate_to_current_size_is_noop (info : Gdrive_Info) (remote : Remote)
    (fh : Gdrive_Cache_Node)
    (hperm : gdrive_file_check_perm info fh O_RDWR = true) :
    gdrive_file_truncate info remote fh (fh.fileinfo.size : Int) = (fh, 0) := by
  simp [gdrive_file_truncate, hperm]

theorem C10_truncate_to_current_size_is_noop_witness :
    gdrive_file_check_perm exampleInfo (exampleNode "A" 300000) O_RDWR = true ∧
    gdrive_file_truncate exampleInfo failingRemote (exampleNode "A" 300000)
      (((exampleNode "A" 300000).fileinfo.size : Nat) : Int) = (exampleNode "A" 300000, 0) :=
  ⟨by decide,
   C10_truncate_to_current_size_is_noop exampleInfo failingRemote (exampleNode "A" 300000)
     (by decide)⟩

/-! ## Lookup in the cache tree (C7) -/

theorem strcmpChars_self (a : List Char) : strcmpChars a a = 0 := by
  induction a with
  | nil => rfl
  | cons x xs ih => simp [strcmpChars, ih]

theorem eq_of_strcmpChars_eq_zero : ∀ (a b : List Char), strcmpChars a b = 0 → a = b
  | [], [], _ => rfl
  | [], _ :: _, h => by simp [strcmpChars] at h
  | _ :: _, [], h => by simp [strcmpChars] at h
  | x :: xs, y :: ys, h => by
    unfold strcmpChars at h
    split_ifs at h with hxy hlt
    · rw [hxy, eq_of_strcmpChars_eq_zero xs ys h]
    · simp at h

theorem strcmp_self (a : String) : strcmp a a = 0 := strcmpChars_self _

theorem eq_of_strcmp_eq_zero (a b : String) (h : strcmp a b = 0) : a = b :=
  String.ext (eq_of_strcmpChars_eq_zero _ _ h)

theorem all_iff (p : Gdrive_Cache_Node → Bool) (t : Gdrive_Cache_Tree) :
    t.all p = true ↔ ∀ n ∈ t.nodes, p n = true := by
  induction t with
  | nil => simp [Gdrive_Cache_Tree.all, Gdrive_Cache_Tree.nodes]
  | node l n r ihl ihr =>
    simp only [Gdrive_Cache_Tree.all, Gdrive_Cache_Tree.nodes, Bool.and_eq_true, ihl, ihr,
      List.mem_append, List.mem_cons]
    constructor
    · rintro ⟨⟨h1, h2⟩, h3⟩ m (hm | rfl | hm)
      · exact h1 m hm
      · exact h2
      · exact h3 m hm
    · intro h
      exact ⟨⟨fun m hm => h m (Or.inl hm), h n (Or.inr (Or.inl rfl))⟩,
        fun m hm => h m (Or.inr (Or.inr hm))⟩

theorem cnode_get_noadd_tree (remote : Remote) (now : Int) (fileId : String) :
    ∀ t : Gdrive_Cache_Tree, (gdrive_cnode_get remote now t fileId false).1 = t := by
  intro t
  induction t with
  | nil => simp [gdrive_cnode_get]
  | node l n r ihl ihr =>
    unfold gdrive_cnode_get
    split
    · rfl
    · simp only
      split_ifs
      · rfl
      · simp only [ihl]
      · simp only [ihr]

theorem cnode_get_noadd_found (remote : Remote) (now : Int) (fileId : String) :
    ∀ (t : Gdrive_Cache_Tree), isSearchTree t = true →
      ∀ n ∈ t.nodes, n.fileinfo.id = some fileId →
      ∃ p, (gdrive_cnode_get remote now t fileId false).2 = (some p, true) ∧
        nodeAt t p = some n := by
  intro t
  induction t with
  | nil => intro _ n hn; simp [Gdrive_Cache_Tree.nodes] at hn
  | node l m r ihl ihr =>
    intro hbst n hn hid
    unfold isSearchTree at hbst
    cases hmid : m.fileinfo.id with
    | none => simp [hmid] at hbst
    | some id =>
      simp only [hmid, Bool.and_eq_true] at hbst
      obtain ⟨⟨⟨hl, hr⟩, hbl⟩, hbr⟩ := hbst
      simp only [Gdrive_Cache_Tree.nodes, List.mem_append, List.mem_cons] at hn
      unfold gdrive_cnode_get
      simp only [hmid]
      rcases hn with hn | rfl | hn
      · have hlt : strcmp fileId id < 0 := by
          have := (all_iff _ _).mp hl n hn
          simpa [idBelow, hid] using this
        have hne : ¬ strcmp fileId id = 0 := by omega
        obtain ⟨p, hp, hat⟩ := ihl hbl n hn hid
        refine ⟨false :: p, ?_, ?_⟩
        · simp only [hne, hlt, if_true, if_false]
          rw [show (gdrive_cnode_get remote now l fileId false)
              = ((gdrive_cnode_get remote now l fileId false).1,
                 (gdrive_cnode_get remote now l fileId false).2) from rfl, hp]
          rfl
        · simpa [nodeAt] using hat
      · have hEq : id = fileId := by
          rw [hmid] at hid; exact Option.some.inj hid
        subst hEq
        refine ⟨[], ?_, ?_⟩
        · simp [strcmp_self]
        · simp [nodeAt]
      · have hgt : strcmp fileId id > 0 := by
          have := (all_iff _ _).mp hr n hn
          simpa [idAbove, hid] using this
        have hne : ¬ strcmp fileId id = 0 := by omega
        have hnl : ¬ strcmp fileId id < 0 := by omega
        obtain ⟨p, hp, hat⟩ := ihr hbr n hn hid
        refine ⟨true :: p, ?_, ?_⟩
        · simp only [hne, hnl, if_false]
          rw [show (gdrive_cnode_get remote now r fileId false)
              = ((gdrive_cnode_get remote now r fileId false).1,
                 (gdrive_cnode_get remote now r fileId false).2) from rfl, hp]
          rfl
        · simpa [nodeAt] using hat

/-- What a successful search returns, in any tree: a pointer to a node that
carries the identifier searched for. -/
theorem cnode_get_noadd_some (remote : Remote) (now : Int) (fileId : String) :
    ∀ (t : Gdrive_Cache_Tree) (p : NodePtr),
      (gdrive_cnode_get remote now t fileId false).2.1 = some p →
      ∃ n, nodeAt t p = some n ∧ n.fileinfo.id = some fileId ∧ n ∈ t.nodes := by
  intro t
  induction t with
  | nil => intro p h; simp [gdrive_cnode_get] at h
  | node l m r ihl ihr =>
    intro p h
    unfold gdrive_cnode_get at h
    cases hmid : m.fileinfo.id with
    | none => simp [hmid] at h
    | some id =>
      simp only [hmid] at h
      split_ifs at h with h0 hlt
      · simp only [Option.some.injEq] at h
        subst h
        refine ⟨m, rfl, ?_, ?_⟩
        · rw [hmid, eq_of_strcmp_eq_zero _ _ h0]
        · simp [Gdrive_Cache_Tree.nodes]
      · simp only [Option.map_eq_some'] at h
        obtain ⟨q, hq, rfl⟩ := h
        obtain ⟨n, hn, hid, hmem⟩ := ihl q hq
        exact ⟨n, by simpa [nodeAt] using hn, hid, by simp [Gdrive_Cache_Tree.nodes, hmem]⟩
      · simp only [Option.map_eq_some'] at h
        obtain ⟨q, hq, rfl⟩ := h
        obtain ⟨n, hn, hid, hmem⟩ := ihr q hq
        exact ⟨n, by simpa [nodeAt] using hn, hid, by simp [Gdrive_Cache_Tree.nodes, hmem]⟩

/-- C7 (lookup): in a binary search tree under `strcmp` on the identifiers,
`gdrive_cnode_get` with `addIfDoesntExist = false` leaves the tree unchanged;
when a node of the tree carries `fileId` it returns the pointer to that very
node and sets `*pAlreadyExists` to true; when no node carries `fileId` it
returns NULL. -/
theorem C7_lookup_without_insert (remote : Remote) (now : Int) (t : Gdrive_Cache_Tree) (fileId : String)
    (hbst : isSearchTree t = true) :
    (gdrive_cnode_get remote now t fileId false).1 = t ∧
    (∀ n ∈ t.nodes, n.fileinfo.id = some fileId →
      ∃ p, (gdrive_cnode_get remote now t fileId false).2 = (some p, true) ∧
        nodeAt t p = some n) ∧
    ((∀ n ∈ t.nodes, n.fileinfo.id ≠ some fileId) →
      (gdrive_cnode_get remote now t fileId false).2.1 = none) := by
  refine ⟨cnode_get_noadd_tree remote now fileId t,
    cnode_get_noadd_found remote now fileId t hbst, ?_⟩
  intro hno
  cases hres : (gdrive_cnode_get remote now t fileId false).2.1 with
  | none => rfl
  | some p =>
    obtain ⟨n, _, hid, hmem⟩ := cnode_get_noadd_some remote now fileId t p hres
    exact absurd hid (hno n hmem)


theorem C7_lookup_without_insert_witness :
    isSearchTree exampleTree = true ∧
    ((gdrive_cnode_get failingRemote 100 exampleTree "C" false).1 = exampleTree ∧
    (∀ n ∈ exampleTree.nodes, n.fileinfo.id = some "C" →
      ∃ p, (gdrive_cnode_get failingRemote 100 exampleTree "C" false).2 = (some p, true) ∧
        nodeAt exampleTree p = some n) ∧
    ((∀ n ∈ exampleTree.nodes, n.fileinfo.id ≠ some "C") →
      (gdrive_cnode_get failingRemote 100 exampleTree "C" false).2.1 = none)) :=
  ⟨by decide, C7_lookup_without_insert failingRemote 100 exampleTree "C" (by decide)⟩

/-! ## Opening a file that is in the cache -/

theorem nodeAt_modifyAt (f : Gdrive_Cache_Node → Gdrive_Cache_Node) :
    ∀ (t : Gdrive_Cache_Tree) (p : NodePtr) (n : Gdrive_Cache_Node),
      nodeAt t p = some n → nodeAt (modifyAt f t p) p = some (f n) := by
  intro t
  induction t with
  | nil => intro p n h; simp [nodeAt] at h
  | node l m r ihl ihr =>
    intro p n h
    match p with
    | [] => simp [nodeAt] at h; simp [modifyAt, nodeAt, h]
    | false :: q => simp only [nodeAt] at h; simpa [modifyAt, nodeAt] using ihl q n h
    | true :: q => simp only [nodeAt] at h; simpa [modifyAt, nodeAt] using ihr q n h

theorem cache_get_node_noadd (remote : Remote) (now : Int) (pCache : Gdrive_Cache)
    (fileId : String) :
    gdrive_cache_get_node remote now pCache fileId false
      = (pCache, (gdrive_cnode_get remote now pCache.pCacheHead fileId false).2) := by
  unfold gdrive_cache_get_node
  have h := cnode_get_noadd_tree remote now fileId pCache.pCacheHead
  generalize gdrive_cnode_get remote now pCache.pCacheHead fileId false = res at h
  obtain ⟨t, found, ex⟩ := res
  simp only at h
  subst h
  rfl

/-- `gdrive_file_open` on a node that is in the cache: the loop that fetches
a missing node is not entered. -/
theorem file_open_cached (info : Gdrive_Info) (remote : Remote) (now : Int) (turns : Nat)
    (pCache : Gdrive_Cache) (fileId : String) (flags : Nat) (p : NodePtr)
    (n : Gdrive_Cache_Node)
    (hfound : (gdrive_cnode_get remote now pCache.pCacheHead fileId false).2.1 = some p)
    (hn : nodeAt pCache.pCacheHead p = some n) :
    gdrive_file_open info remote now (turns + 1) pCache fileId flags =
      match gdrive_file_open_node info n flags with
      | .error e => (pCache, none, some e, [])
      | .ok n1 =>
        ({ pCache with pCacheHead := modifyAt (fun _ => n1) pCache.pCacheHead p },
         some p, none, []) := by
  unfold gdrive_file_open
  rw [cache_get_node_noadd]
  generalize hres : (gdrive_cnode_get remote now pCache.pCacheHead fileId false).2 = res at hfound
  obtain ⟨found, ex⟩ := res
  simp only at hfound
  subst hfound
  simp only [hn]

/-! ## Open followed by close (C4) -/

theorem sameCounts_refl (a : Gdrive_Cache_Node) : sameCounts a a := ⟨rfl, rfl, rfl, rfl⟩

theorem sameCounts_trans {a b c : Gdrive_Cache_Node} (h1 : sameCounts a b)
    (h2 : sameCounts b c) : sameCounts a c :=
  ⟨h2.1.trans h1.1, h2.2.1.trans h1.2.1, h2.2.2.1.trans h1.2.2.1, h2.2.2.2.trans h1.2.2.2⟩

theorem create_chunk_sameCounts (info : Gdrive_Info) (remote : Remote)
    (pNode : Gdrive_Cache_Node) (offset : Int) (size : Nat) (fillChunk : Bool) :
    sameCounts pNode (gdrive_cnode_create_chunk info remote pNode offset size fillChunk).1 := by
  unfold gdrive_cnode_create_chunk
  simp only [gdrive_cnode_add_contents]
  split_ifs
  · split <;> exact ⟨rfl, rfl, rfl, rfl⟩
  · exact ⟨rfl, rfl, rfl, rfl⟩

theorem read_next_chunk_sameCounts (info : Gdrive_Info) (remote : Remote)
    (pFile : Gdrive_Cache_Node) (destBuf : Bool) (offset : Int) (size : Nat) :
    sameCounts pFile (gdrive_file_read_next_chunk info remote pFile destBuf offset size).1 := by
  unfold gdrive_file_read_next_chunk
  split
  · exact sameCounts_refl _
  · have h := create_chunk_sameCounts info remote pFile offset size true
    split <;> rename_i heq <;> rw [heq] at h <;> exact h

theorem read_loop_sameCounts (info : Gdrive_Info) (remote : Remote) (destBuf : Bool)
    (realSize : Nat) :
    ∀ (turns : Nat) (fh : Gdrive_Cache_Node) (nextOffset : Int) (bytesRemaining : Nat)
      (buf : List Nat),
      sameCounts fh (gdrive_file_read_loop info remote turns fh destBuf nextOffset
        bytesRemaining realSize buf).1 := by
  intro turns
  induction turns with
  | zero => intro fh _ _ _; exact sameCounts_refl _
  | succ turns ih =>
    intro fh nextOffset bytesRemaining buf
    unfold gdrive_file_read_loop
    have h := read_next_chunk_sameCounts info remote fh destBuf nextOffset bytesRemaining
    generalize gdrive_file_read_next_chunk info remote fh destBuf nextOffset
        bytesRemaining = res at h
    obtain ⟨fh1, bytesRead, data⟩ := res
    simp only at h ⊢
    split_ifs
    · exact h
    · exact h
    · exact sameCounts_trans h (ih _ _ _ _)
    · exact sameCounts_refl _

theorem file_read_sameCounts (info : Gdrive_Info) (remote : Remote)
    (fh : Gdrive_Cache_Node) (destBuf : Bool) (size : Nat) (offset : Int) :
    sameCounts fh (gdrive_file_read info remote fh destBuf size offset).1 := by
  unfold gdrive_file_read
  split_ifs
  · exact sameCounts_refl _
  · exact sameCounts_refl _
  · exact read_loop_sameCounts _ _ _ _ _ _ _ _ _
  · exact read_loop_sameCounts _ _ _ _ _ _ _ _ _

theorem file_sync_sameCounts (info : Gdrive_Info) (remote : Remote)
    (fh : Gdrive_Cache_Node) :
    sameCounts fh (gdrive_file_sync info remote fh).1 := by
  unfold gdrive_file_sync
  have hfold : ∀ (reqs : List (Int × Nat)) (a : Gdrive_Cache_Node),
      sameCounts a (reqs.foldl
        (fun pNode req => (gdrive_file_read info remote pNode true req.2 req.1).1) a) := by
    intro reqs
    induction reqs with
    | nil => intro a; exact sameCounts_refl _
    | cons r rs ih =>
      intro a
      simp only [List.foldl_cons]
      exact sameCounts_trans (file_read_sameCounts info remote a true r.2 r.1) (ih _)
  split_ifs
  · exact sameCounts_refl _
  · exact sameCounts_refl _
  · simp only
    have h := hfold remote.uploadReads fh
    split_ifs
    · exact ⟨h.1, h.2.1, h.2.2.1, h.2.2.2⟩
    · exact h

theorem file_sync_metadata_sameCounts (info : Gdrive_Info) (remote : Remote)
    (fh : Gdrive_Cache_Node) :
    sameCounts fh (gdrive_file_sync_metadata info remote fh).1 := by
  unfold gdrive_file_sync_metadata
  split_ifs <;> exact ⟨rfl, rfl, rfl, rfl⟩

theorem close_counts_spec (info : Gdrive_Info) (remote : Remote)
    (m : Gdrive_Cache_Node) (flags : Nat) :
    (gdrive_file_close_counts info remote m flags).openCount = m.openCount - 1 ∧
    (gdrive_file_close_counts info remote m flags).openWrites
      = m.openWrites - (if opensForWriting flags then 1 else 0) ∧
    (gdrive_file_close_counts info remote m flags).deleted = m.deleted ∧
    (gdrive_file_close_counts info remote m flags).fileinfo.id = m.fileinfo.id := by
  have hs1 := file_sync_sameCounts info remote m
  have hs2 := file_sync_metadata_sameCounts info remote (gdrive_file_sync info remote m).1
  have hs := sameCounts_trans hs1 hs2
  unfold gdrive_file_close_counts
  by_cases hw : opensForWriting flags = true
  · simp only [hw, if_true]
    exact ⟨by rw [hs.1], by rw [hs.2.1], hs.2.2.1, hs.2.2.2⟩
  · simp only [hw, if_false]
    exact ⟨rfl, by simp, rfl, rfl⟩

/-- Closing a handle on a node that is not tombstoned writes the node back
with lowered counters and frees no node. -/
theorem file_close_not_deleted (info : Gdrive_Info) (remote : Remote) (pCache : Gdrive_Cache)
    (pFile : NodePtr) (flags : Nat) (m : Gdrive_Cache_Node)
    (hm : nodeAt pCache.pCacheHead pFile = some m) (hdel : m.deleted = false) :
    ∃ m', m'.openCount = m.openCount - 1 ∧
      m'.openWrites = m.openWrites - (if opensForWriting flags then 1 else 0) ∧
      m'.deleted = false ∧ m'.fileinfo.id = m.fileinfo.id ∧
      gdrive_file_close info remote pCache pFile flags =
        ({ pCache with pCacheHead := modifyAt (fun _ => m') pCache.pCacheHead pFile }, []) := by
  obtain ⟨h1, h2, h3, h4⟩ := close_counts_spec info remote m flags
  unfold gdrive_file_close
  simp only [hm]
  generalize gdrive_file_close_counts info remote m flags = c at h1 h2 h3 h4
  generalize (if opensForWriting flags = true then (1 : Int) else 0) = k at h2
  have hcd : c.deleted = false := by rw [h3, hdel]
  by_cases h0 : c.openCount = 0
  · refine ⟨{ c with pContents := gdrive_fcontents_free_all c.pContents }, h1, h2, hcd, h4, ?_⟩
    rw [if_pos h0]
    simp only [hcd, Bool.false_eq_true, if_false]
  · rw [if_neg h0]
    exact ⟨c, h1, h2, hcd, h4, rfl⟩

theorem open_node_ok (info : Gdrive_Info) (n n1 : Gdrive_Cache_Node) (flags : Nat)
    (h : gdrive_file_open_node info n flags = .ok n1) :
    n.deleted = false ∧ n1 = openedNode n flags := by
  unfold gdrive_file_open_node at h
  split_ifs at h with hd hf hc hw
  · simp only [Except.ok.injEq] at h
    exact ⟨by simpa using hd, by rw [← h]; simp [openedNode, hw]⟩
  · simp only [Except.ok.injEq] at h
    exact ⟨by simpa using hd, by rw [← h]; simp [openedNode, hw]⟩

/-- C4 (open-count invariant): when `gdrive_file_open(fileId, flags)` succeeds
on a node `n` of the cache and returns the handle `fh`, one
`gdrive_file_close(fh, flags)` with the same flags leaves that node in the
tree with `openCount` and `openWrites` equal to their values before the open,
whatever the remote side answers to the sync that close performs. -/
theorem C4_open_then_close_restores_counts (info : Gdrive_Info) (remoteOpen remoteClose : Remote) (now : Int)
    (turns : Nat) (pCache pCache1 : Gdrive_Cache) (fileId : String) (flags : Nat)
    (p fh : NodePtr) (n : Gdrive_Cache_Node) (pError : Option Int)
    (freed : List Gdrive_Cache_Node)
    (hfound : (gdrive_cnode_get remoteOpen now pCache.pCacheHead fileId false).2.1 = some p)
    (hn : nodeAt pCache.pCacheHead p = some n)
    (hopen : gdrive_file_open info remoteOpen now (turns + 1) pCache fileId flags
      = (pCache1, some fh, pError, freed)) :
    fh = p ∧
    ∃ n', nodeAt (gdrive_file_close info remoteClose pCache1 fh flags).1.pCacheHead fh = some n' ∧
      n'.openCount = n.openCount ∧ n'.openWrites = n.openWrites := by
  rw [file_open_cached info remoteOpen now turns pCache fileId flags p n hfound hn] at hopen
  cases hnode : gdrive_file_open_node info n flags with
  | error e => rw [hnode] at hopen; simp at hopen
  | ok n1 =>
    rw [hnode] at hopen
    simp only [Prod.mk.injEq, Option.some.injEq] at hopen
    obtain ⟨hc, hp, _, _⟩ := hopen
    subst hp
    subst hc
    obtain ⟨hdel, hn1⟩ := open_node_ok info n n1 flags hnode
    refine ⟨rfl, ?_⟩
    have hat : nodeAt (modifyAt (fun _ => n1) pCache.pCacheHead p) p = some n1 :=
      nodeAt_modifyAt _ _ _ _ hn
    have hdel1 : n1.deleted = false := by rw [hn1]; exact hdel
    obtain ⟨m', hc1, hc2, _, _, hclose⟩ :=
      file_close_not_deleted info remoteClose
        { pCache with pCacheHead := modifyAt (fun _ => n1) pCache.pCacheHead p } p flags n1 hat
        hdel1
    rw [hclose]
    refine ⟨m', nodeAt_modifyAt _ _ _ _ hat, ?_, ?_⟩
    · rw [hc1, hn1]; simp [openedNode]
    · rw [hc2, hn1]; simp [openedNode]


theorem C4_open_then_close_restores_counts_witness :
    ((gdrive_cnode_get failingRemote 100 exampleCache.pCacheHead "B" false).2.1 = some [] ∧
      nodeAt exampleCache.pCacheHead [] = some (exampleNode "B" 300000) ∧
      gdrive_file_open exampleInfo failingRemote 100 (0 + 1) exampleCache "B" O_RDWR
        = ({ exampleCache with
             pCacheHead := modifyAt (fun _ => openedNode (exampleNode "B" 300000) O_RDWR)
               exampleCache.pCacheHead [] },
           some [], none, [])) ∧
    (([] : NodePtr) = [] ∧
      ∃ n', nodeAt (gdrive_file_close exampleInfo failingRemote
          { exampleCache with
            pCacheHead := modifyAt (fun _ => openedNode (exampleNode "B" 300000) O_RDWR)
              exampleCache.pCacheHead [] } [] O_RDWR).1.pCacheHead [] = some n' ∧
        n'.openCount = (exampleNode "B" 300000).openCount ∧
        n'.openWrites = (exampleNode "B" 300000).openWrites) :=
  ⟨⟨by decide, by decide, by decide⟩,
   C4_open_then_close_restores_counts exampleInfo failingRemote failingRemote 100 0
     exampleCache _ "B" O_RDWR [] [] (exampleNode "B" 300000) none [] (by decide) (by decide)
     (by decide)⟩

/-! ## The nodes of the tree under assignment and deletion -/

theorem nodes_modifyAt (f : Gdrive_Cache_Node → Gdrive_Cache_Node) :
    ∀ (t : Gdrive_Cache_Tree) (p : NodePtr) (x : Gdrive_Cache_Node),
      nodeAt t p = some x →
      ∃ A B, t.nodes = A ++ x :: B ∧ (modifyAt f t p).nodes = A ++ f x :: B := by
  intro t
  induction t with
  | nil => intro p x h; simp [nodeAt] at h
  | node l m r ihl ihr =>
    intro p x h
    match p with
    | [] =>
      simp only [nodeAt, Option.some.injEq] at h
      subst h
      exact ⟨l.nodes, r.nodes, rfl, rfl⟩
    | false :: q =>
      simp only [nodeAt] at h
      obtain ⟨A, B, h1, h2⟩ := ihl q x h
      refine ⟨A, B ++ m :: r.nodes, ?_, ?_⟩
      · simp [Gdrive_Cache_Tree.nodes, h1]
      · simp [modifyAt, Gdrive_Cache_Tree.nodes, h2]
    | true :: q =>
      simp only [nodeAt] at h
      obtain ⟨A, B, h1, h2⟩ := ihr q x h
      refine ⟨l.nodes ++ m :: A, B, ?_, ?_⟩
      · simp [Gdrive_Cache_Tree.nodes, h1]
      · simp [modifyAt, Gdrive_Cache_Tree.nodes, h2]

theorem modifyAt_none (f : Gdrive_Cache_Node → Gdrive_Cache_Node) :
    ∀ (t : Gdrive_Cache_Tree) (p : NodePtr), nodeAt t p = none → modifyAt f t p = t := by
  intro t
  induction t with
  | nil => intro p _; rfl
  | node l m r ihl ihr =>
    intro p h
    match p with
    | [] => simp [nodeAt] at h
    | false :: q => simp only [nodeAt] at h; simp [modifyAt, ihl q h]
    | true :: q => simp only [nodeAt] at h; simp [modifyAt, ihr q h]

theorem popLeftmost_nodes :
    ∀ (t : Gdrive_Cache_Tree) (s : Gdrive_Cache_Node) (t' : Gdrive_Cache_Tree),
      popLeftmost t = some (s, t') → t.nodes = s :: t'.nodes := by
  intro t
  induction t with
  | nil => intro s t' h; simp [popLeftmost] at h
  | node l m r ihl _ =>
    intro s t' h
    unfold popLeftmost at h
    cases hl : popLeftmost l with
    | none =>
      rw [hl] at h
      simp only [Option.some.injEq, Prod.mk.injEq] at h
      obtain ⟨rfl, rfl⟩ := h
      cases l with
      | nil => simp [Gdrive_Cache_Tree.nodes]
      | node a b c =>
        unfold popLeftmost at hl
        cases hh : popLeftmost a <;> rw [hh] at hl <;> simp at hl
    | some pr =>
      obtain ⟨s1, l1⟩ := pr
      rw [hl] at h
      simp only [Option.some.injEq, Prod.mk.injEq] at h
      obtain ⟨rfl, rfl⟩ := h
      simp [Gdrive_Cache_Tree.nodes, ihl _ _ hl]

theorem popRightmost_nodes :
    ∀ (t : Gdrive_Cache_Tree) (s : Gdrive_Cache_Node) (t' : Gdrive_Cache_Tree),
      popRightmost t = some (s, t') → t.nodes = t'.nodes ++ [s] := by
  intro t
  induction t with
  | nil => intro s t' h; simp [popRightmost] at h
  | node l m r _ ihr =>
    intro s t' h
    unfold popRightmost at h
    cases hr : popRightmost r with
    | none =>
      rw [hr] at h
      simp only [Option.some.injEq, Prod.mk.injEq] at h
      obtain ⟨rfl, rfl⟩ := h
      cases r with
      | nil => simp [Gdrive_Cache_Tree.nodes]
      | node a b c =>
        unfold popRightmost at hr
        cases hh : popRightmost c <;> rw [hh] at hr <;> simp at hr
    | some pr =>
      obtain ⟨s1, r1⟩ := pr
      rw [hr] at h
      simp only [Option.some.injEq, Prod.mk.injEq] at h
      obtain ⟨rfl, rfl⟩ := h
      simp [Gdrive_Cache_Tree.nodes, ihr _ _ hr]

theorem popLeftmost_node_ne_none (l : Gdrive_Cache_Tree) (m : Gdrive_Cache_Node)
    (r : Gdrive_Cache_Tree) : popLeftmost (.node l m r) ≠ none := by
  unfold popLeftmost
  cases popLeftmost l <;> simp

theorem popRightmost_node_ne_none (l : Gdrive_Cache_Tree) (m : Gdrive_Cache_Node)
    (r : Gdrive_Cache_Tree) : popRightmost (.node l m r) ≠ none := by
  unfold popRightmost
  cases popRightmost r <;> simp

/-- Structural deletion keeps the other nodes in their left-to-right order. -/
theorem delete_here_nodes (fromRight : Bool) (l : Gdrive_Cache_Tree) (m : Gdrive_Cache_Node)
    (r : Gdrive_Cache_Tree) :
    (gdrive_cnode_delete_here fromRight (.node l m r)).nodes = l.nodes ++ r.nodes := by
  cases l with
  | nil =>
    cases r with
    | nil => simp [gdrive_cnode_delete_here, Gdrive_Cache_Tree.nodes]
    | node a b c => simp [gdrive_cnode_delete_here, Gdrive_Cache_Tree.nodes]
  | node la lb lc =>
    cases r with
    | nil => simp [gdrive_cnode_delete_here, Gdrive_Cache_Tree.nodes]
    | node a b c =>
      unfold gdrive_cnode_delete_here
      cases fromRight with
      | true =>
        simp only [if_true]
        cases hp : popLeftmost (.node a b c) with
        | none => exact absurd hp (popLeftmost_node_ne_none _ _ _)
        | some pr =>
          obtain ⟨s, r1⟩ := pr
          simp only [Gdrive_Cache_Tree.nodes]
          have := popLeftmost_nodes _ _ _ hp
          simp only [Gdrive_Cache_Tree.nodes] at this
          rw [this]
      | false =>
        simp only [Bool.false_eq_true, if_false]
        cases hp : popRightmost (.node la lb lc) with
        | none => exact absurd hp (popRightmost_node_ne_none _ _ _)
        | some pr =>
          obtain ⟨s, l1⟩ := pr
          simp only [Gdrive_Cache_Tree.nodes]
          have := popRightmost_nodes _ _ _ hp
          simp only [Gdrive_Cache_Tree.nodes] at this
          rw [this]
          simp

theorem delete_from_nodes :
    ∀ (t : Gdrive_Cache_Tree) (fromRight : Bool) (p : NodePtr) (x : Gdrive_Cache_Node),
      nodeAt t p = some x →
      ∃ A B, t.nodes = A ++ x :: B ∧
        (gdrive_cnode_delete_from fromRight t p).1.nodes = A ++ B ∧
        (gdrive_cnode_delete_from fromRight t p).2 = [x] := by
  intro t
  induction t with
  | nil => intro _ p x h; simp [nodeAt] at h
  | node l m r ihl ihr =>
    intro fromRight p x h
    match p with
    | [] =>
      simp only [nodeAt, Option.some.injEq] at h
      subst h
      refine ⟨l.nodes, r.nodes, rfl, ?_, rfl⟩
      simp only [gdrive_cnode_delete_from]
      exact delete_here_nodes _ _ _ _
    | false :: q =>
      simp only [nodeAt] at h
      obtain ⟨A, B, h1, h2, h3⟩ := ihl false q x h
      refine ⟨A, B ++ m :: r.nodes, ?_, ?_, ?_⟩
      · simp [Gdrive_Cache_Tree.nodes, h1]
      · simp [gdrive_cnode_delete_from, Gdrive_Cache_Tree.nodes, h2]
      · simp [gdrive_cnode_delete_from, h3]
    | true :: q =>
      simp only [nodeAt] at h
      obtain ⟨A, B, h1, h2, h3⟩ := ihr true q x h
      refine ⟨l.nodes ++ m :: A, B, ?_, ?_, ?_⟩
      · simp [Gdrive_Cache_Tree.nodes, h1]
      · simp [gdrive_cnode_delete_from, Gdrive_Cache_Tree.nodes, h2]
      · simp [gdrive_cnode_delete_from, h3]

theorem delete_from_none :
    ∀ (t : Gdrive_Cache_Tree) (fromRight : Bool) (p : NodePtr),
      nodeAt t p = none → gdrive_cnode_delete_from fromRight t p = (t, []) := by
  intro t
  induction t with
  | nil => intro _ p _; cases p <;> rfl
  | node l m r ihl ihr =>
    intro fromRight p h
    match p with
    | [] => simp [nodeAt] at h
    | false :: q => simp only [nodeAt] at h; simp [gdrive_cnode_delete_from, ihl false q h]
    | true :: q => simp only [nodeAt] at h; simp [gdrive_cnode_delete_from, ihr true q h]

/-! ## The change feed and dirty nodes (C3) -/

theorem mem_of_mem_append_cons_ne {α : Type} {A B : List α} {x y : α}
    (h : y ∈ A ++ x :: B) (hne : y ≠ x) : y ∈ A ++ B := by
  simp only [List.mem_append, List.mem_cons] at h ⊢
  rcases h with h | h | h
  · exact Or.inl h
  · exact absurd h hne
  · exact Or.inr h

theorem cache_remove_id_keeps (remote : Remote) (now : Int) (pCache : Gdrive_Cache)
    (parentId : String) (n : Gdrive_Cache_Node) (hn : n ∈ pCache.pCacheHead.nodes)
    (hid : n.fileinfo.id ≠ some parentId) :
    n ∈ (gdrive_cache_remove_id remote now pCache parentId).1.pCacheHead.nodes := by
  unfold gdrive_cache_remove_id
  cases hres : (gdrive_cnode_get remote now pCache.pCacheHead parentId false).2.1 with
  | none =>
    generalize gdrive_cnode_get remote now pCache.pCacheHead parentId false = res at hres
    obtain ⟨t, found, ex⟩ := res
    simp only at hres
    subst hres
    exact hn
  | some p =>
    obtain ⟨x, hx, hxid, _⟩ := cnode_get_noadd_some remote now parentId pCache.pCacheHead p hres
    generalize gdrive_cnode_get remote now pCache.pCacheHead parentId false = res at hres
    obtain ⟨t, found, ex⟩ := res
    simp only at hres
    subst hres
    simp only [gdrive_cnode_delete]
    obtain ⟨A, B, h1, h2, _⟩ := delete_from_nodes pCache.pCacheHead false p x hx
    rw [h2]
    rw [h1] at hn
    exact mem_of_mem_append_cons_ne hn (fun h => hid (h ▸ hxid))

theorem cache_update_parents_keeps (remote : Remote) (now : Int) (n : Gdrive_Cache_Node) :
    ∀ (parents : List (Option String)) (pCache : Gdrive_Cache),
      n ∈ pCache.pCacheHead.nodes →
      (∀ id ∈ parents.reduceOption, n.fileinfo.id ≠ some id) →
      n ∈ (gdrive_cache_update_parents remote now pCache parents).1.pCacheHead.nodes := by
  intro parents
  induction parents with
  | nil => intro pCache hn _; exact hn
  | cons a rest ih =>
    intro pCache hn hpar
    cases a with
    | none =>
      simp only [gdrive_cache_update_parents]
      exact ih pCache hn (by simpa [List.reduceOption_cons_of_none] using hpar)
    | some parentId =>
      simp only [gdrive_cache_update_parents]
      have h1 := cache_remove_id_keeps remote now pCache parentId n hn
        (hpar parentId (by simp [List.reduceOption_cons_of_some]))
      exact ih _ h1 (fun id hid => hpar id (by
        simp [List.reduceOption_cons_of_some]; exact Or.inr (by simpa using hid)))

theorem cache_update_item_keeps (remote : Remote) (now : Int) (pCache : Gdrive_Cache)
    (pItem : Option Gdrive_Change) (n : Gdrive_Cache_Node)
    (hn : n ∈ pCache.pCacheHead.nodes) (hdirty : n.dirty = true)
    (hpar : ∀ id ∈ itemParents pItem, n.fileinfo.id ≠ some id) :
    n ∈ (gdrive_cache_update_item remote now pCache pItem).1.pCacheHead.nodes := by
  unfold gdrive_cache_update_item
  cases pItem with
  | none => exact hn
  | some item =>
    cases hfid : item.fileId with
    | none => simp only [hfid]; exact hn
    | some fileId =>
      simp only [hfid]
      apply cache_update_parents_keeps
      · -- the node survives the refresh of the changed file
        cases hres : (gdrive_cnode_get remote now pCache.pCacheHead fileId false).2.1 with
        | none =>
          generalize gdrive_cnode_get remote now pCache.pCacheHead fileId false = res at hres
          obtain ⟨t, found, ex⟩ := res
          simp only at hres
          subst hres
          exact hn
        | some p =>
          generalize gdrive_cnode_get remote now pCache.pCacheHead fileId false = res at hres
          obtain ⟨t, found, ex⟩ := res
          simp only at hres
          subst hres
          simp only
          cases hx : nodeAt pCache.pCacheHead p with
          | none => exact hn
          | some x =>
            simp only
            by_cases hxd : x.dirty = false
            · simp only [hxd, if_true]
              obtain ⟨A, B, h1, h2⟩ := nodes_modifyAt
                (fun pNode => gdrive_cnode_update_from_json pNode item.file now)
                pCache.pCacheHead p x hx
              rw [h2]
              rw [h1] at hn
              have hne : n ≠ x := by
                intro h; rw [h, hxd] at hdirty; exact absurd hdirty (by simp)
              have := mem_of_mem_append_cons_ne hn hne
              simp only [List.mem_append, List.mem_cons] at this ⊢
              rcases this with h | h
              · exact Or.inl h
              · exact Or.inr (Or.inr h)
            · simp only [hxd, if_false]
              exact hn
      · intro id hid
        apply hpar
        cases hfile : item.file with
        | none => simp [hfile] at hid
        | some file =>
          simp only [hfile] at hid
          simp [itemParents, hfid, hfile, hid]

theorem cache_update_items_keeps (remote : Remote) (now : Int) (n : Gdrive_Cache_Node)
    (hdirty : n.dirty = true) :
    ∀ (items : List (Option Gdrive_Change)) (pCache : Gdrive_Cache),
      n ∈ pCache.pCacheHead.nodes →
      (∀ id ∈ (items.map itemParents).flatten, n.fileinfo.id ≠ some id) →
      n ∈ (gdrive_cache_update_items remote now pCache items).1.pCacheHead.nodes := by
  intro items
  induction items with
  | nil => intro pCache hn _; exact hn
  | cons a rest ih =>
    intro pCache hn hpar
    simp only [gdrive_cache_update_items]
    have h1 := cache_update_item_keeps remote now pCache a n hn hdirty
      (fun id hid => hpar id (by simp [hid]))
    exact ih _ h1 (fun id hid => hpar id (by
      simp only [List.map_cons, List.flatten_cons, List.mem_append]; exact Or.inr hid))

/-- C3 fails as stated: the dirty node `"B"` is in the tree before
`gdrive_cache_update`, the change feed names `"B"` as the parent of a changed
file, and after the update no node of the tree carries the identifier `"B"`. -/
theorem C3_update_removes_dirty_parent :
    busyNode ∈ busyCache.pCacheHead.nodes ∧ busyNode.dirty = true ∧
    busyNode ∉ (gdrive_cache_update parentFeedRemote 100 busyCache).1.pCacheHead.nodes ∧
    (gdrive_cache_update parentFeedRemote 100 busyCache).1.pCacheHead.nodes
      = [exampleNode "A" 0, exampleNode "C" 5] := by
  decide

/-- C3 as amended (dirty-overwrite invariant): for every change-feed response,
a cache node that is dirty before `gdrive_cache_update` and whose identifier
the response does not name as a parent of a changed file is still in the tree
afterwards, unchanged (same Fileinfo, counters, flags and chunks). -/
theorem C3_update_keeps_dirty_node (remote : Remote) (now : Int) (pCache : Gdrive_Cache)
    (n : Gdrive_Cache_Node) (hn : n ∈ pCache.pCacheHead.nodes) (hdirty : n.dirty = true)
    (hpar : ∀ id ∈ changeParents remote.changes, n.fileinfo.id ≠ some id) :
    n ∈ (gdrive_cache_update remote now pCache).1.pCacheHead.nodes := by
  unfold gdrive_cache_update
  cases hch : remote.changes with
  | none => exact hn
  | some pObj =>
    simp only
    have h := cache_update_items_keeps remote now n hdirty pObj.items pCache hn
      (by simpa [changeParents, hch] using hpar)
    generalize gdrive_cache_update_items remote now pCache pObj.items = res at h
    obtain ⟨c, freed⟩ := res
    simp only at h ⊢
    cases pObj.largestChangeId <;> exact h


theorem C3_update_keeps_dirty_node_witness :
    (busyNode ∈ busyCache.pCacheHead.nodes ∧ busyNode.dirty = true ∧
      ∀ id ∈ changeParents siblingFeedRemote.changes, busyNode.fileinfo.id ≠ some id) ∧
    busyNode ∈ (gdrive_cache_update siblingFeedRemote 100 busyCache).1.pCacheHead.nodes :=
  ⟨⟨by decide, by decide, by decide⟩,
   C3_update_keeps_dirty_node siblingFeedRemote 100 busyCache busyNode (by decide) (by decide)
     (by decide)⟩

/-! ## Nodes are freed only without open handles (C6) -/

theorem cache_delete_node_freed (pCache : Gdrive_Cache) (pNode : NodePtr)
    (x : Gdrive_Cache_Node) (hx : nodeAt pCache.pCacheHead pNode = some x) :
    (gdrive_cache_delete_node pCache pNode).2 = [x] := by
  unfold gdrive_cache_delete_node gdrive_cnode_delete
  obtain ⟨A, B, _, _, h3⟩ := delete_from_nodes pCache.pCacheHead false pNode x hx
  generalize gdrive_cnode_delete_from false pCache.pCacheHead pNode = res at h3
  obtain ⟨t, freed⟩ := res
  exact h3

theorem file_close_freed (info : Gdrive_Info) (remote : Remote) (pCache : Gdrive_Cache)
    (pFile : NodePtr) (flags : Nat) :
    ∀ n ∈ (gdrive_file_close info remote pCache pFile flags).2, n.openCount = 0 := by
  intro n hn
  unfold gdrive_file_close at hn
  cases hm : nodeAt pCache.pCacheHead pFile with
  | none => simp [hm] at hn
  | some m =>
    simp only [hm] at hn
    by_cases h0 : (gdrive_file_close_counts info remote m flags).openCount = 0
    · rw [if_pos h0] at hn
      by_cases hd : (gdrive_file_close_counts info remote m flags).deleted = true
      · simp only [hd, if_true] at hn
        rw [cache_delete_node_freed _ pFile _ (nodeAt_modifyAt _ _ _ _ hm)] at hn
        simp only [List.mem_singleton] at hn
        rw [hn]
        exact h0
      · simp only [hd, if_false] at hn
        simp at hn
    · rw [if_neg h0] at hn
      simp at hn

theorem mark_deleted_freed (t : Gdrive_Cache_Tree) (pNode : NodePtr) :
    ∀ n ∈ (gdrive_cnode_mark_deleted t pNode).2, n.openCount = 0 := by
  intro n hn
  unfold gdrive_cnode_mark_deleted at hn
  simp only at hn
  cases hx : nodeAt (modifyAt (fun n => { n with deleted := true }) t pNode) pNode with
  | none => simp [hx] at hn
  | some x =>
    simp only [hx] at hn
    by_cases h0 : x.openCount = 0
    · rw [if_pos h0] at hn
      obtain ⟨A, B, _, _, h3⟩ := delete_from_nodes _ false pNode x hx
      unfold gdrive_cnode_delete at hn
      rw [h3] at hn
      simp only [List.mem_singleton] at hn
      rw [hn]; exact h0
    · rw [if_neg h0] at hn
      simp at hn

theorem cache_delete_id_freed (remote : Remote) (now : Int) (pCache : Gdrive_Cache)
    (fileId : String) :
    ∀ n ∈ (gdrive_cache_delete_id remote now pCache fileId).2, n.openCount = 0 := by
  intro n hn
  unfold gdrive_cache_delete_id at hn
  simp only at hn
  generalize gdrive_cnode_get remote now pCache.pCacheHead fileId false = res at hn
  obtain ⟨t, found, ex⟩ := res
  cases found with
  | none => simp at hn
  | some p =>
    simp only at hn
    have := mark_deleted_freed pCache.pCacheHead p
    generalize gdrive_cnode_mark_deleted pCache.pCacheHead p = res2 at hn this
    obtain ⟨t2, freed⟩ := res2
    exact this n hn

theorem idleIds_of_subset {ids : List String} {t : Gdrive_Cache_Tree}
    {l : List Gdrive_Cache_Node} (h : idleIds ids t)
    (hsub : ∀ n ∈ l, n ∈ t.nodes) :
    ∀ id ∈ ids, ∀ n ∈ l, n.fileinfo.id = some id → n.openCount = 0 :=
  fun id hid n hn hnid => h id hid n (hsub n hn) hnid

theorem cache_remove_id_idle (remote : Remote) (now : Int) (ids : List String)
    (pCache : Gdrive_Cache) (parentId : String)
    (hidle : idleIds ids pCache.pCacheHead) (hmem : parentId ∈ ids) :
    (∀ n ∈ (gdrive_cache_remove_id remote now pCache parentId).2, n.openCount = 0) ∧
    idleIds ids (gdrive_cache_remove_id remote now pCache parentId).1.pCacheHead := by
  unfold gdrive_cache_remove_id
  cases hres : (gdrive_cnode_get remote now pCache.pCacheHead parentId false).2.1 with
  | none =>
    generalize gdrive_cnode_get remote now pCache.pCacheHead parentId false = res at hres
    obtain ⟨t, found, ex⟩ := res
    simp only at hres
    subst hres
    exact ⟨by simp, hidle⟩
  | some p =>
    obtain ⟨x, hx, hxid, hxmem⟩ :=
      cnode_get_noadd_some remote now parentId pCache.pCacheHead p hres
    generalize gdrive_cnode_get remote now pCache.pCacheHead parentId false = res at hres
    obtain ⟨t, found, ex⟩ := res
    simp only at hres
    subst hres
    simp only [gdrive_cnode_delete]
    obtain ⟨A, B, h1, h2, h3⟩ := delete_from_nodes pCache.pCacheHead false p x hx
    generalize gdrive_cnode_delete_from false pCache.pCacheHead p = res at h2 h3
    obtain ⟨t2, freed⟩ := res
    simp only at h2 h3 ⊢
    constructor
    · intro n hn
      rw [h3] at hn
      simp only [List.mem_singleton] at hn
      rw [hn]
      exact hidle parentId hmem x hxmem hxid
    · intro id hid n hn hnid
      apply hidle id hid n _ hnid
      rw [h1]
      rw [h2] at hn
      simp only [List.mem_append, List.mem_cons] at hn ⊢
      rcases hn with h | h
      · exact Or.inl h
      · exact Or.inr (Or.inr h)

theorem cache_update_parents_idle (remote : Remote) (now : Int) (ids : List String) :
    ∀ (parents : List (Option String)) (pCache : Gdrive_Cache),
      idleIds ids pCache.pCacheHead →
      (∀ id ∈ parents.reduceOption, id ∈ ids) →
      (∀ n ∈ (gdrive_cache_update_parents remote now pCache parents).2, n.openCount = 0) ∧
      idleIds ids (gdrive_cache_update_parents remote now pCache parents).1.pCacheHead := by
  intro parents
  induction parents with
  | nil => intro pCache hidle _; exact ⟨by simp [gdrive_cache_update_parents], hidle⟩
  | cons a rest ih =>
    intro pCache hidle hsub
    cases a with
    | none =>
      simp only [gdrive_cache_update_parents]
      exact ih pCache hidle (by simpa [List.reduceOption_cons_of_none] using hsub)
    | some parentId =>
      simp only [gdrive_cache_update_parents]
      obtain ⟨hf1, hi1⟩ := cache_remove_id_idle remote now ids pCache parentId hidle
        (hsub parentId (by simp [List.reduceOption_cons_of_some]))
      generalize gdrive_cache_remove_id remote now pCache parentId = res at hf1 hi1
      obtain ⟨c1, freed1⟩ := res
      simp only at hf1 hi1 ⊢
      obtain ⟨hf2, hi2⟩ := ih c1 hi1 (fun id hid => hsub id (by
        simp [List.reduceOption_cons_of_some]; exact Or.inr (by simpa using hid)))
      generalize gdrive_cache_update_parents remote now c1 rest = res2 at hf2 hi2
      obtain ⟨c2, freed2⟩ := res2
      simp only at hf2 hi2 ⊢
      refine ⟨?_, hi2⟩
      intro n hn
      rcases List.mem_append.mp hn with h | h
      · exact hf1 n h
      · exact hf2 n h

theorem update_from_json_counts (x : Gdrive_Cache_Node) (pObj : Option Gdrive_Json_File)
    (now : Int) :
    (gdrive_cnode_update_from_json x pObj now).openCount = x.openCount ∧
    (gdrive_cnode_update_from_json x pObj now).openWrites = x.openWrites ∧
    (gdrive_cnode_update_from_json x pObj now).deleted = x.deleted := by
  cases pObj <;> exact ⟨rfl, rfl, rfl⟩

theorem update_from_json_id (x : Gdrive_Cache_Node) (pObj : Option Gdrive_Json_File)
    (now : Int) (fileId : String) (hx : x.fileinfo.id = some fileId)
    (hwf : ∀ file, pObj = some file → file.id = some fileId) :
    (gdrive_cnode_update_from_json x pObj now).fileinfo.id = some fileId := by
  cases pObj with
  | none => exact hx
  | some file =>
    have := hwf file rfl
    simp [gdrive_cnode_update_from_json, gdrive_finfo_read_json, this]

theorem cache_update_item_idle (remote : Remote) (now : Int) (ids : List String)
    (pCache : Gdrive_Cache) (pItem : Option Gdrive_Change)
    (hidle : idleIds ids pCache.pCacheHead)
    (hsub : ∀ id ∈ itemParents pItem, id ∈ ids)
    (hwf : ∀ item, pItem = some item → ∀ fileId file, item.fileId = some fileId →
      item.file = some file → file.id = some fileId) :
    (∀ n ∈ (gdrive_cache_update_item remote now pCache pItem).2, n.openCount = 0) ∧
    idleIds ids (gdrive_cache_update_item remote now pCache pItem).1.pCacheHead := by
  unfold gdrive_cache_update_item
  cases pItem with
  | none => exact ⟨by simp, hidle⟩
  | some item =>
    cases hfid : item.fileId with
    | none => simp only [hfid]; exact ⟨by simp, hidle⟩
    | some fileId =>
      simp only [hfid]
      apply cache_update_parents_idle
      · cases hres : (gdrive_cnode_get remote now pCache.pCacheHead fileId false).2.1 with
        | none =>
          generalize gdrive_cnode_get remote now pCache.pCacheHead fileId false = res at hres
          obtain ⟨t, found, ex⟩ := res
          simp only at hres
          subst hres
          exact hidle
        | some p =>
          obtain ⟨x0, hx0, hx0id, _⟩ :=
            cnode_get_noadd_some remote now fileId pCache.pCacheHead p hres
          generalize gdrive_cnode_get remote now pCache.pCacheHead fileId false = res at hres
          obtain ⟨t, found, ex⟩ := res
          simp only at hres
          subst hres
          simp only [hx0]
          by_cases hxd : x0.dirty = false
          · simp only [hxd, if_true]
            obtain ⟨A, B, h1, h2⟩ := nodes_modifyAt
              (fun pNode => gdrive_cnode_update_from_json pNode item.file now)
              pCache.pCacheHead p x0 hx0
            intro id hid n hn hnid
            rw [h2] at hn
            simp only [List.mem_append, List.mem_cons] at hn
            rcases hn with h | h | h
            · exact hidle id hid n (by rw [h1]; simp [h]) hnid
            · subst h
              rw [(update_from_json_counts x0 item.file now).1]
              have hid' := update_from_json_id x0 item.file now fileId hx0id
                (fun file hf => hwf item rfl fileId file hfid hf)
              rw [hid'] at hnid
              exact hidle id hid x0 (by rw [h1]; simp) (by rw [hx0id, hnid])
            · exact hidle id hid n (by rw [h1]; simp [h]) hnid
          · simp only [hxd, if_false]
            exact hidle
      · intro id hid
        apply hsub
        cases hfile : item.file with
        | none => simp [hfile] at hid
        | some file =>
          simp only [hfile] at hid
          simp [itemParents, hfid, hfile, hid]

theorem cache_update_items_idle (remote : Remote) (now : Int) (ids : List String) :
    ∀ (items : List (Option Gdrive_Change)) (pCache : Gdrive_Cache),
      idleIds ids pCache.pCacheHead →
      (∀ id ∈ (items.map itemParents).flatten, id ∈ ids) →
      (∀ item, some item ∈ items → ∀ fileId file, item.fileId = some fileId →
        item.file = some file → file.id = some fileId) →
      (∀ n ∈ (gdrive_cache_update_items remote now pCache items).2, n.openCount = 0) ∧
      idleIds ids (gdrive_cache_update_items remote now pCache items).1.pCacheHead := by
  intro items
  induction items with
  | nil => intro pCache hidle _ _; exact ⟨by simp [gdrive_cache_update_items], hidle⟩
  | cons a rest ih =>
    intro pCache hidle hsub hwf
    simp only [gdrive_cache_update_items]
    obtain ⟨hf1, hi1⟩ := cache_update_item_idle remote now ids pCache a hidle
      (fun id hid => hsub id (by simp [hid]))
      (fun item hitem => hwf item (by simp [hitem]))
    generalize gdrive_cache_update_item remote now pCache a = res at hf1 hi1
    obtain ⟨c1, freed1⟩ := res
    simp only at hf1 hi1 ⊢
    obtain ⟨hf2, hi2⟩ := ih c1 hi1
      (fun id hid => hsub id (by
        simp only [List.map_cons, List.flatten_cons, List.mem_append]; exact Or.inr hid))
      (fun item hitem => hwf item (List.mem_cons_of_mem _ hitem))
    generalize gdrive_cache_update_items remote now c1 rest = res2 at hf2 hi2
    obtain ⟨c2, freed2⟩ := res2
    simp only at hf2 hi2 ⊢
    refine ⟨?_, hi2⟩
    intro n hn
    rcases List.mem_append.mp hn with h | h
    · exact hf1 n h
    · exact hf2 n h

/-- A well-formed change feed that names only idle nodes as parents makes
`gdrive_cache_update` free only nodes without open handles. -/
theorem cache_update_freed (remote : Remote) (now : Int) (pCache : Gdrive_Cache)
    (hwf : feedWellFormed remote.changes)
    (hidle : parentsIdle remote.changes pCache.pCacheHead) :
    ∀ n ∈ (gdrive_cache_update remote now pCache).2.2, n.openCount = 0 := by
  unfold gdrive_cache_update
  cases hch : remote.changes with
  | none => simp
  | some pObj =>
    simp only
    obtain ⟨hf, _⟩ := cache_update_items_idle remote now (changeParents remote.changes)
      pObj.items pCache hidle
      (by intro id hid; simpa [changeParents, hch] using hid)
      (by
        intro item hitem fileId file hfid hfile
        rw [hch] at hwf
        have := hwf (some item) hitem
        simpa [itemWellFormed, hfid, hfile] using this)
    generalize gdrive_cache_update_items remote now pCache pObj.items = res at hf
    obtain ⟨c, freed⟩ := res
    simp only at hf ⊢
    cases pObj.largestChangeId <;> exact hf

/-- When the search without insertion finds nothing, the search with
insertion either fails or returns a node it has just created and filled. -/
theorem cnode_get_add_after_miss (remote : Remote) (now : Int) (fileId : String) :
    ∀ (t : Gdrive_Cache_Tree),
      (gdrive_cnode_get remote now t fileId false).2.1 = none →
      ∀ p, (gdrive_cnode_get remote now t fileId true).2.1 = some p →
      ∃ n, nodeAt (gdrive_cnode_get remote now t fileId true).1 p = some n ∧
        n.lastUpdateTime = now ∧
        (gdrive_cnode_get remote now t fileId true).2.2 = false := by
  intro t
  induction t with
  | nil =>
    intro _ p hp
    unfold gdrive_cnode_get at hp ⊢
    simp only [Bool.true_eq_false, if_false] at hp ⊢
    cases hf : remote.fileGet fileId with
    | none => simp [hf] at hp
    | some pObj =>
      simp only [hf, Option.some.injEq] at hp
      subst hp
      simp only [hf]
      exact ⟨_, rfl, rfl, trivial⟩
  | node l m r ihl ihr =>
    intro hmiss p hp
    unfold gdrive_cnode_get at hmiss hp ⊢
    cases hmid : m.fileinfo.id with
    | none => simp [hmid] at hp
    | some id =>
      simp only [hmid] at hmiss hp ⊢
      by_cases h0 : strcmp fileId id = 0
      · simp [h0] at hmiss
      · simp only [h0, if_false] at hmiss hp ⊢
        by_cases hlt : strcmp fileId id < 0
        · simp only [hlt, if_true, Option.map_eq_none', Option.map_eq_some'] at hmiss hp ⊢
          obtain ⟨q, hq, rfl⟩ := hp
          obtain ⟨n, hn, ht, hex⟩ := ihl hmiss q hq
          exact ⟨n, by simpa [nodeAt] using hn, ht, hex⟩
        · simp only [hlt, if_false, Option.map_eq_none', Option.map_eq_some'] at hmiss hp ⊢
          obtain ⟨q, hq, rfl⟩ := hp
          obtain ⟨n, hn, ht, hex⟩ := ihr hmiss q hq
          exact ⟨n, by simpa [nodeAt] using hn, ht, hex⟩

theorem cache_get_item_after_miss (remote : Remote) (now : Int) (depth : Nat)
    (pCache : Gdrive_Cache) (fileId : String)
    (hmiss : (gdrive_cnode_get remote now pCache.pCacheHead fileId false).2.1 = none)
    (httl : 0 ≤ pCache.cacheTTL) (hnow : now ≠ 0) :
    (gdrive_cache_get_item remote now depth pCache fileId true).2.2.2 = [] ∧
    (gdrive_cache_get_item remote now depth pCache fileId true).1.cacheTTL = pCache.cacheTTL := by
  cases depth with
  | zero => exact ⟨rfl, rfl⟩
  | succ depth =>
    unfold gdrive_cache_get_item
    have hadd := cnode_get_add_after_miss remote now fileId pCache.pCacheHead hmiss
    generalize gdrive_cnode_get remote now pCache.pCacheHead fileId true = res at hadd
    obtain ⟨t, found, ex⟩ := res
    cases found with
    | none => exact ⟨rfl, rfl⟩
    | some p =>
      obtain ⟨n, hn, ht, _⟩ := hadd p rfl
      simp only at hn ⊢
      simp only [hn]
      have hfresh : ¬ ((if n.lastUpdateTime > pCache.lastUpdateTime then n.lastUpdateTime
          else pCache.lastUpdateTime) + pCache.cacheTTL < now ∨ n.lastUpdateTime = 0) := by
        rw [ht]
        intro h
        rcases h with h | h
        · split_ifs at h <;> omega
        · exact hnow h
      rw [if_neg hfresh]
      exact ⟨rfl, rfl⟩

theorem finfo_get_by_id_after_miss (remote : Remote) (now : Int) (depth : Nat)
    (pCache : Gdrive_Cache) (fileId : String)
    (hmiss : (gdrive_cnode_get remote now pCache.pCacheHead fileId false).2.1 = none)
    (httl : 0 ≤ pCache.cacheTTL) (hnow : now ≠ 0) :
    (gdrive_finfo_get_by_id remote now depth pCache fileId).2.2 = [] ∧
    (gdrive_finfo_get_by_id remote now depth pCache fileId).1.cacheTTL = pCache.cacheTTL := by
  obtain ⟨h1, h2⟩ := cache_get_item_after_miss remote now depth pCache fileId hmiss httl hnow
  unfold gdrive_finfo_get_by_id
  generalize gdrive_cache_get_item remote now depth pCache fileId true = res at h1 h2
  obtain ⟨c, found, ex, freed⟩ := res
  simp only at h1 h2
  subst h1
  cases found with
  | none => exact ⟨rfl, h2⟩
  | some p =>
    simp only
    split_ifs
    · exact ⟨rfl, h2⟩
    · cases remote.fileGetFields fileId <;> exact ⟨rfl, h2⟩

/-- With a TTL that is not negative and a clock after the epoch,
`gdrive_file_open` frees no node. -/
theorem file_open_freed (info : Gdrive_Info) (remote : Remote) (now : Int)
    (fileId : String) (flags : Nat) (hnow : now ≠ 0) :
    ∀ (turns : Nat) (pCache : Gdrive_Cache), 0 ≤ pCache.cacheTTL →
      (gdrive_file_open info remote now turns pCache fileId flags).2.2.2 = [] := by
  intro turns
  induction turns with
  | zero => intro pCache _; rfl
  | succ turns ih =>
    intro pCache httl
    unfold gdrive_file_open
    rw [cache_get_node_noadd]
    cases hres : (gdrive_cnode_get remote now pCache.pCacheHead fileId false).2.1 with
    | some p =>
      generalize (gdrive_cnode_get remote now pCache.pCacheHead fileId false).2 = res at hres
      obtain ⟨found, ex⟩ := res
      simp only at hres
      subst hres
      simp only
      cases nodeAt pCache.pCacheHead p with
      | none => rfl
      | some n =>
        simp only
        cases gdrive_file_open_node info n flags <;> rfl
    | none =>
      obtain ⟨h1, h2⟩ :=
        finfo_get_by_id_after_miss remote now (turns + 1) pCache fileId hres httl hnow
      generalize (gdrive_cnode_get remote now pCache.pCacheHead fileId false).2 = res at hres
      obtain ⟨found, ex⟩ := res
      simp only at hres
      subst hres
      simp only
      generalize gdrive_finfo_get_by_id remote now (turns + 1) pCache fileId = res2 at h1 h2
      obtain ⟨c2, ok, freed⟩ := res2
      simp only at h1 h2
      subst h1
      cases ok with
      | false => rfl
      | true =>
        simp only
        have := ih c2 (by rw [h2]; exact httl)
        generalize gdrive_file_open info remote now turns c2 fileId flags = res3 at this
        obtain ⟨c3, fh, pe, freed3⟩ := res3
        simp only at this ⊢
        rw [this]
        rfl

theorem applyOp_freed (info : Gdrive_Info) (env : StepEnv) (pCache : Gdrive_Cache)
    (op : CacheOp) (h : stepAllowed pCache env op) :
    ∀ n ∈ (applyOp info env pCache op).2, n.openCount = 0 := by
  intro n hn
  cases op with
  | fileOpen fileId flags =>
    have := file_open_freed info env.remote env.now fileId flags h.2 env.turns pCache h.1
    unfold applyOp at hn
    rw [this] at hn
    simp at hn
  | fileClose pFile flags => exact file_close_freed info env.remote pCache pFile flags n hn
  | deleteId fileId => exact cache_delete_id_freed env.remote env.now pCache fileId n hn
  | update =>
    have := cache_update_freed env.remote env.now pCache h.1 h.2
    unfold applyOp at hn
    generalize gdrive_cache_update env.remote env.now pCache = res at this hn
    obtain ⟨c, ret, freed⟩ := res
    exact this n hn

/-- C6 fails on the code: a node is freed while a handle to it is open.
After `"B"` has been opened for writing, a change feed that names `"B"` as
the parent of a changed file makes `gdrive_cache_update` remove the node of
`"B"` from the tree and free it while its `openCount` is 1 (the parents loop
goes through `gdrive_cache_remove_id`, which deletes at once). The same
identifier handed to `gdrive_cache_delete_id` goes through
`gdrive_cnode_mark_deleted`: the node is kept and nothing is freed. -/
theorem C6_update_frees_open_node :
    (runOps exampleInfo exampleCache
      [(⟨failingRemote, 100, 1⟩, CacheOp.fileOpen "B" O_RDWR),
       (⟨parentFeedRemote, 101, 1⟩, CacheOp.update)]).2
      = [openedNode (exampleNode "B" 300000) O_RDWR] ∧
    (openedNode (exampleNode "B" 300000) O_RDWR).openCount = 1 ∧
    (∀ n ∈ (runOps exampleInfo exampleCache
      [(⟨failingRemote, 100, 1⟩, CacheOp.fileOpen "B" O_RDWR),
       (⟨parentFeedRemote, 101, 1⟩, CacheOp.update)]).1.pCacheHead.nodes,
      n.fileinfo.id ≠ some "B") ∧
    (runOps exampleInfo exampleCache
      [(⟨failingRemote, 100, 1⟩, CacheOp.fileOpen "B" O_RDWR),
       (⟨failingRemote, 101, 1⟩, CacheOp.deleteId "B")]).2 = [] ∧
    (∃ n ∈ (runOps exampleInfo exampleCache
      [(⟨failingRemote, 100, 1⟩, CacheOp.fileOpen "B" O_RDWR),
       (⟨failingRemote, 101, 1⟩, CacheOp.deleteId "B")]).1.pCacheHead.nodes,
      n.fileinfo.id = some "B" ∧ n.deleted = true ∧ n.openCount = 1) := by
  decide

/-- Where nodes are freed with `openCount = 0` only: in every sequence of
open, close, `gdrive_cache_delete_id` and `gdrive_cache_update` operations in
which each change feed `gdrive_cache_update` is called for is well formed and
names as parents only identifiers whose cached node has no open handle, and
in which no open pulls a change feed (in the embedding, where a call reads
the clock once, an open with a TTL that is not negative and a clock after the
epoch pulls none), every node that is removed from the tree and freed has
`openCount` 0 at that moment. -/
theorem freed_only_when_idle (info : Gdrive_Info) :
    ∀ (ops : List (StepEnv × CacheOp)) (pCache : Gdrive_Cache),
      runAllowed info pCache ops →
      ∀ n ∈ (runOps info pCache ops).2, n.openCount = 0 := by
  intro ops
  induction ops with
  | nil => intro pCache _ n hn; simp [runOps] at hn
  | cons a rest ih =>
    intro pCache hall n hn
    obtain ⟨env, op⟩ := a
    obtain ⟨hstep, hrest⟩ := hall
    have h1 := applyOp_freed info env pCache op hstep
    have h2 := ih (applyOp info env pCache op).1 hrest
    unfold runOps at hn
    generalize applyOp info env pCache op = res at h1 h2 hn
    obtain ⟨c1, freed1⟩ := res
    simp only at h1 h2 hn
    generalize runOps info c1 rest = res2 at h2 hn
    obtain ⟨c2, freed2⟩ := res2
    simp only at h2 hn
    rcases List.mem_append.mp hn with h | h
    · exact h1 n h
    · exact h2 n h

theorem freed_only_when_idle_example :
    runAllowed exampleInfo exampleCache tombstoneRun ∧
    (runOps exampleInfo exampleCache tombstoneRun).2.length = 2 ∧
    ∀ n ∈ (runOps exampleInfo exampleCache tombstoneRun).2, n.openCount = 0 :=
  ⟨⟨by decide, trivial, trivial, by decide, trivial⟩, by decide,
   freed_only_when_idle exampleInfo tombstoneRun exampleCache
     ⟨by decide, trivial, trivial, by decide, trivial⟩⟩

/-! ## The tombstone invariant (C5) -/

theorem treeOk_modifyAt (f : Gdrive_Cache_Node → Gdrive_Cache_Node)
    (hf : ∀ x, tombstoneOk x → tombstoneOk (f x)) (t : Gdrive_Cache_Tree) (p : NodePtr)
    (h : treeTombstoneOk t) : treeTombstoneOk (modifyAt f t p) := by
  cases hx : nodeAt t p with
  | none => rw [modifyAt_none f t p hx]; exact h
  | some x =>
    obtain ⟨A, B, h1, h2⟩ := nodes_modifyAt f t p x hx
    intro n hn
    rw [h2] at hn
    simp only [List.mem_append, List.mem_cons] at hn
    rcases hn with hn | hn | hn
    · exact h n (by rw [h1]; simp [hn])
    · rw [hn]; exact hf x (h x (by rw [h1]; simp))
    · exact h n (by rw [h1]; simp [hn])

theorem treeOk_modifyAt_const (y : Gdrive_Cache_Node) (hy : tombstoneOk y)
    (t : Gdrive_Cache_Tree) (p : NodePtr) (h : treeTombstoneOk t) :
    treeTombstoneOk (modifyAt (fun _ => y) t p) := by
  cases hx : nodeAt t p with
  | none => rw [modifyAt_none _ t p hx]; exact h
  | some x =>
    obtain ⟨A, B, h1, h2⟩ := nodes_modifyAt (fun _ => y) t p x hx
    intro n hn
    rw [h2] at hn
    simp only [List.mem_append, List.mem_cons] at hn
    rcases hn with hn | hn | hn
    · exact h n (by rw [h1]; simp [hn])
    · rw [hn]; exact hy
    · exact h n (by rw [h1]; simp [hn])

theorem delete_from_subset (t : Gdrive_Cache_Tree) (fromRight : Bool) (p : NodePtr) :
    ∀ n ∈ (gdrive_cnode_delete_from fromRight t p).1.nodes, n ∈ t.nodes := by
  cases hx : nodeAt t p with
  | none => rw [delete_from_none t fromRight p hx]; exact fun n hn => hn
  | some x =>
    obtain ⟨A, B, h1, h2, _⟩ := delete_from_nodes t fromRight p x hx
    intro n hn
    rw [h2] at hn
    rw [h1]
    simp only [List.mem_append, List.mem_cons] at hn ⊢
    rcases hn with hn | hn
    · exact Or.inl hn
    · exact Or.inr (Or.inr hn)

theorem treeOk_delete (t : Gdrive_Cache_Tree) (fromRight : Bool) (p : NodePtr)
    (h : treeTombstoneOk t) :
    treeTombstoneOk (gdrive_cnode_delete_from fromRight t p).1 :=
  fun n hn => h n (delete_from_subset t fromRight p n hn)

theorem tombstoneOk_create : tombstoneOk gdrive_cnode_create := by decide

theorem tombstoneOk_update_from_json (x : Gdrive_Cache_Node) (pObj : Option Gdrive_Json_File)
    (now : Int) (h : tombstoneOk x) : tombstoneOk (gdrive_cnode_update_from_json x pObj now) := by
  cases pObj <;> exact h

theorem treeOk_cnode_get (remote : Remote) (now : Int) (fileId : String) (add : Bool) :
    ∀ (t : Gdrive_Cache_Tree), treeTombstoneOk t →
      treeTombstoneOk (gdrive_cnode_get remote now t fileId add).1 := by
  intro t
  induction t with
  | nil =>
    intro _
    unfold gdrive_cnode_get
    split_ifs
    · intro n hn; simp [Gdrive_Cache_Tree.nodes] at hn
    · split
      · intro n hn
        simp only [Gdrive_Cache_Tree.nodes, List.nil_append, List.mem_singleton] at hn
        rw [hn]; exact tombstoneOk_create
      · intro n hn
        simp only [Gdrive_Cache_Tree.nodes, List.nil_append, List.mem_singleton] at hn
        rw [hn]; exact tombstoneOk_update_from_json _ _ _ tombstoneOk_create
  | node l m r ihl ihr =>
    intro h
    have hl : treeTombstoneOk l := fun n hn => h n (by simp [Gdrive_Cache_Tree.nodes, hn])
    have hr : treeTombstoneOk r := fun n hn => h n (by simp [Gdrive_Cache_Tree.nodes, hn])
    have hm : tombstoneOk m := h m (by simp [Gdrive_Cache_Tree.nodes])
    unfold gdrive_cnode_get
    split
    · exact h
    · simp only
      split_ifs
      · exact h
      · intro n hn
        simp only [Gdrive_Cache_Tree.nodes, List.mem_append, List.mem_cons] at hn
        rcases hn with hn | hn | hn
        · exact ihl hl n hn
        · rw [hn]; exact hm
        · exact hr n hn
      · intro n hn
        simp only [Gdrive_Cache_Tree.nodes, List.mem_append, List.mem_cons] at hn
        rcases hn with hn | hn | hn
        · exact hl n hn
        · rw [hn]; exact hm
        · exact ihr hr n hn

theorem treeOk_remove_id (remote : Remote) (now : Int) (pCache : Gdrive_Cache)
    (fileId : String) (h : treeTombstoneOk pCache.pCacheHead) :
    treeTombstoneOk (gdrive_cache_remove_id remote now pCache fileId).1.pCacheHead := by
  unfold gdrive_cache_remove_id
  generalize gdrive_cnode_get remote now pCache.pCacheHead fileId false = res
  obtain ⟨t, found, ex⟩ := res
  cases found with
  | none => exact h
  | some p =>
    simp only [gdrive_cnode_delete]
    have := treeOk_delete pCache.pCacheHead false p h
    generalize gdrive_cnode_delete_from false pCache.pCacheHead p = res2 at this
    obtain ⟨t2, freed⟩ := res2
    exact this

theorem treeOk_update_parents (remote : Remote) (now : Int) :
    ∀ (parents : List (Option String)) (pCache : Gdrive_Cache),
      treeTombstoneOk pCache.pCacheHead →
      treeTombstoneOk (gdrive_cache_update_parents remote now pCache parents).1.pCacheHead := by
  intro parents
  induction parents with
  | nil => intro pCache h; exact h
  | cons a rest ih =>
    intro pCache h
    cases a with
    | none => simp only [gdrive_cache_update_parents]; exact ih pCache h
    | some parentId =>
      simp only [gdrive_cache_update_parents]
      have h1 := treeOk_remove_id remote now pCache parentId h
      generalize gdrive_cache_remove_id remote now pCache parentId = res at h1
      obtain ⟨c1, freed1⟩ := res
      have h2 := ih c1 h1
      generalize gdrive_cache_update_parents remote now c1 rest = res2 at h2
      obtain ⟨c2, freed2⟩ := res2
      exact h2

theorem treeOk_update_item (remote : Remote) (now : Int) (pCache : Gdrive_Cache)
    (pItem : Option Gdrive_Change) (h : treeTombstoneOk pCache.pCacheHead) :
    treeTombstoneOk (gdrive_cache_update_item remote now pCache pItem).1.pCacheHead := by
  unfold gdrive_cache_update_item
  cases pItem with
  | none => exact h
  | some item =>
    cases hfid : item.fileId with
    | none => simp only [hfid]; exact h
    | some fileId =>
      simp only [hfid]
      apply treeOk_update_parents
      generalize gdrive_cnode_get remote now pCache.pCacheHead fileId false = res
      obtain ⟨t, found, ex⟩ := res
      cases found with
      | none => exact h
      | some p =>
        simp only
        cases nodeAt pCache.pCacheHead p with
        | none => exact h
        | some x =>
          simp only
          split_ifs
          · exact treeOk_modifyAt _
              (fun y hy => tombstoneOk_update_from_json y item.file now hy) _ _ h
          · exact h

theorem treeOk_update_items (remote : Remote) (now : Int) :
    ∀ (items : List (Option Gdrive_Change)) (pCache : Gdrive_Cache),
      treeTombstoneOk pCache.pCacheHead →
      treeTombstoneOk (gdrive_cache_update_items remote now pCache items).1.pCacheHead := by
  intro items
  induction items with
  | nil => intro pCache h; exact h
  | cons a rest ih =>
    intro pCache h
    simp only [gdrive_cache_update_items]
    have h1 := treeOk_update_item remote now pCache a h
    generalize gdrive_cache_update_item remote now pCache a = res at h1
    obtain ⟨c1, freed1⟩ := res
    have h2 := ih c1 h1
    generalize gdrive_cache_update_items remote now c1 rest = res2 at h2
    obtain ⟨c2, freed2⟩ := res2
    exact h2

theorem treeOk_update (remote : Remote) (now : Int) (pCache : Gdrive_Cache)
    (h : treeTombstoneOk pCache.pCacheHead) :
    treeTombstoneOk (gdrive_cache_update remote now pCache).1.pCacheHead := by
  unfold gdrive_cache_update
  cases remote.changes with
  | none => exact h
  | some pObj =>
    simp only
    have h1 := treeOk_update_items remote now pObj.items pCache h
    generalize gdrive_cache_update_items remote now pCache pObj.items = res at h1
    obtain ⟨c, freed⟩ := res
    cases pObj.largestChangeId <;> exact h1

theorem treeOk_get_item (remote : Remote) (now : Int) (fileId : String) (add : Bool) :
    ∀ (depth : Nat) (pCache : Gdrive_Cache), treeTombstoneOk pCache.pCacheHead →
      treeTombstoneOk (gdrive_cache_get_item remote now depth pCache fileId add).1.pCacheHead := by
  intro depth
  induction depth with
  | zero => intro pCache h; exact h
  | succ depth ih =>
    intro pCache h
    unfold gdrive_cache_get_item
    have h1 := treeOk_cnode_get remote now fileId add pCache.pCacheHead h
    generalize gdrive_cnode_get remote now pCache.pCacheHead fileId add = res at h1
    obtain ⟨t, found, ex⟩ := res
    simp only at h1
    cases found with
    | none => exact h1
    | some p =>
      simp only
      cases nodeAt t p with
      | none => exact h1
      | some n =>
        simp only
        split_ifs <;> first
          | exact h1
          | exact ih _ (treeOk_update remote now _ h1)
          | exact treeOk_update remote now _ h1

theorem treeOk_get_by_id (remote : Remote) (now : Int) (depth : Nat) (pCache : Gdrive_Cache)
    (fileId : String) (h : treeTombstoneOk pCache.pCacheHead) :
    treeTombstoneOk (gdrive_finfo_get_by_id remote now depth pCache fileId).1.pCacheHead := by
  unfold gdrive_finfo_get_by_id
  have h1 := treeOk_get_item remote now fileId true depth pCache h
  generalize gdrive_cache_get_item remote now depth pCache fileId true = res at h1
  obtain ⟨c, found, ex, freed⟩ := res
  cases found with
  | none => exact h1
  | some p =>
    simp only
    split_ifs
    · exact h1
    · cases remote.fileGetFields fileId with
      | none => exact h1
      | some pObj =>
        simp only
        apply treeOk_modifyAt _ _ _ _ h1
        intro x hx
        split_ifs
        · cases remote.folderCount fileId <;> exact hx
        · exact hx

theorem treeOk_node (t : Gdrive_Cache_Tree) (p : NodePtr) (x : Gdrive_Cache_Node)
    (h : treeTombstoneOk t) (hx : nodeAt t p = some x) : tombstoneOk x := by
  obtain ⟨A, B, h1, _⟩ := nodes_modifyAt id t p x hx
  apply h
  rw [h1]
  simp

theorem treeOk_modifyAt_at (f : Gdrive_Cache_Node → Gdrive_Cache_Node)
    (t : Gdrive_Cache_Tree) (p : NodePtr) (x : Gdrive_Cache_Node)
    (hx : nodeAt t p = some x) (hf : tombstoneOk (f x)) (h : treeTombstoneOk t) :
    treeTombstoneOk (modifyAt f t p) := by
  obtain ⟨A, B, h1, h2⟩ := nodes_modifyAt f t p x hx
  intro n hn
  rw [h2] at hn
  rcases List.mem_append.mp hn with hA | hB
  · exact h n (by rw [h1]; exact List.mem_append_left _ hA)
  · rcases List.mem_cons.mp hB with rfl | hB
    · exact hf
    · exact h n (by rw [h1]; exact List.mem_append_right _ (List.mem_cons_of_mem _ hB))

theorem delete_from_modifyAt_nodes (f : Gdrive_Cache_Node → Gdrive_Cache_Node) :
    ∀ (t : Gdrive_Cache_Tree) (fromRight : Bool) (p : NodePtr),
      (gdrive_cnode_delete_from fromRight (modifyAt f t p) p).1.nodes
        = (gdrive_cnode_delete_from fromRight t p).1.nodes := by
  intro t
  induction t with
  | nil => intro _ p; cases p <;> rfl
  | node l m r ihl ihr =>
    intro fromRight p
    match p with
    | [] =>
      simp only [modifyAt, gdrive_cnode_delete_from]
      rw [delete_here_nodes, delete_here_nodes]
    | false :: q =>
      simp [modifyAt, gdrive_cnode_delete_from, Gdrive_Cache_Tree.nodes, ihl false q]
    | true :: q =>
      simp [modifyAt, gdrive_cnode_delete_from, Gdrive_Cache_Tree.nodes, ihr true q]

/-- Replacing the node at `p` and deleting it keeps the invariant. -/
theorem treeOk_delete_modified (f : Gdrive_Cache_Node → Gdrive_Cache_Node)
    (t : Gdrive_Cache_Tree) (p : NodePtr) (h : treeTombstoneOk t) :
    treeTombstoneOk (gdrive_cnode_delete (modifyAt f t p) p).1 := by
  intro n hn
  unfold gdrive_cnode_delete at hn
  rw [delete_from_modifyAt_nodes] at hn
  exact h n (delete_from_subset t false p n hn)

theorem treeOk_file_close (info : Gdrive_Info) (remote : Remote) (pCache : Gdrive_Cache)
    (pFile : NodePtr) (flags : Nat) (h : treeTombstoneOk pCache.pCacheHead)
    (hb : stepBalanced pCache (.fileClose pFile flags)) :
    treeTombstoneOk (gdrive_file_close info remote pCache pFile flags).1.pCacheHead := by
  unfold gdrive_file_close
  cases hm : nodeAt pCache.pCacheHead pFile with
  | none => exact h
  | some m =>
    simp only [stepBalanced, hm] at hb
    obtain ⟨h1, _, h3, _⟩ := close_counts_spec info remote m flags
    simp only
    generalize gdrive_file_close_counts info remote m flags = c at h1 h3
    have hmok := treeOk_node _ _ _ h hm
    by_cases h0 : c.openCount = 0
    · rw [if_pos h0]
      by_cases hd : c.deleted = true
      · simp only [hd, if_true]
        unfold gdrive_cache_delete_node
        exact treeOk_delete_modified _ _ _ h
      · simp only [hd, if_false]
        apply treeOk_modifyAt_const _ _ _ _ h
        exact ⟨by simp [h0], fun hdel => by simp at hdel⟩
    · rw [if_neg h0]
      apply treeOk_modifyAt_const _ _ _ _ h
      refine ⟨by omega, fun _ => by omega⟩

theorem treeOk_mark_deleted (t : Gdrive_Cache_Tree) (p : NodePtr)
    (h : treeTombstoneOk t) : treeTombstoneOk (gdrive_cnode_mark_deleted t p).1 := by
  unfold gdrive_cnode_mark_deleted
  simp only
  cases hx : nodeAt t p with
  | none =>
    rw [modifyAt_none _ t p hx, hx]
    exact h
  | some x =>
    rw [nodeAt_modifyAt _ t p x hx]
    simp only
    have hxok := treeOk_node _ _ _ h hx
    by_cases h0 : x.openCount = 0
    · rw [if_pos h0]
      exact treeOk_delete_modified _ _ _ h
    · rw [if_neg h0]
      apply treeOk_modifyAt_at _ _ _ _ hx _ h
      have := hxok.1
      exact ⟨this, fun _ => by show 0 < x.openCount; omega⟩

theorem treeOk_delete_id (remote : Remote) (now : Int) (pCache : Gdrive_Cache)
    (fileId : String) (h : treeTombstoneOk pCache.pCacheHead) :
    treeTombstoneOk (gdrive_cache_delete_id remote now pCache fileId).1.pCacheHead := by
  unfold gdrive_cache_delete_id
  simp only
  generalize gdrive_cnode_get remote now pCache.pCacheHead fileId false = res
  obtain ⟨t, found, ex⟩ := res
  cases found with
  | none => exact h
  | some p =>
    simp only
    have := treeOk_mark_deleted pCache.pCacheHead p h
    generalize gdrive_cnode_mark_deleted pCache.pCacheHead p = res2 at this
    obtain ⟨t2, freed⟩ := res2
    exact this

theorem tombstoneOk_open_node (info : Gdrive_Info) (n n1 : Gdrive_Cache_Node) (flags : Nat)
    (hn : tombstoneOk n) (h : gdrive_file_open_node info n flags = .ok n1) :
    tombstoneOk n1 := by
  obtain ⟨hd, rfl⟩ := open_node_ok info n n1 flags h
  have := hn.1
  exact ⟨by simp only [openedNode]; omega, fun _ => by simp only [openedNode]; omega⟩

theorem treeOk_file_open (info : Gdrive_Info) (remote : Remote) (now : Int)
    (fileId : String) (flags : Nat) :
    ∀ (turns : Nat) (pCache : Gdrive_Cache), treeTombstoneOk pCache.pCacheHead →
      treeTombstoneOk
        (gdrive_file_open info remote now turns pCache fileId flags).1.pCacheHead := by
  intro turns
  induction turns with
  | zero => intro pCache h; exact h
  | succ turns ih =>
    intro pCache h
    unfold gdrive_file_open gdrive_cache_get_node
    have h1 := treeOk_cnode_get remote now fileId false pCache.pCacheHead h
    generalize gdrive_cnode_get remote now pCache.pCacheHead fileId false = res at h1
    obtain ⟨t, found, ex⟩ := res
    simp only at h1
    cases found with
    | some p =>
      simp only
      cases hx : nodeAt t p with
      | none => exact h1
      | some x =>
        simp only
        cases ho : gdrive_file_open_node info x flags with
        | error e => exact h1
        | ok n1 =>
          exact treeOk_modifyAt_const _
            (tombstoneOk_open_node info x n1 flags (treeOk_node _ _ _ h1 hx) ho) _ _ h1
    | none =>
      simp only
      have h2 := treeOk_get_by_id remote now (turns + 1)
        { pCache with pCacheHead := t } fileId h1
      generalize gdrive_finfo_get_by_id remote now (turns + 1)
        { pCache with pCacheHead := t } fileId = res2 at h2
      obtain ⟨c2, ok, freed⟩ := res2
      cases ok with
      | false => exact h2
      | true => exact ih c2 h2

theorem treeOk_applyOp (info : Gdrive_Info) (env : StepEnv) (pCache : Gdrive_Cache)
    (op : CacheOp) (h : treeTombstoneOk pCache.pCacheHead) (hb : stepBalanced pCache op) :
    treeTombstoneOk (applyOp info env pCache op).1.pCacheHead := by
  cases op with
  | fileOpen fileId flags =>
    exact treeOk_file_open info env.remote env.now fileId flags env.turns pCache h
  | fileClose pFile flags => exact treeOk_file_close info env.remote pCache pFile flags h hb
  | deleteId fileId => exact treeOk_delete_id env.remote env.now pCache fileId h
  | update => exact treeOk_update env.remote env.now pCache h

theorem treeOk_runOps (info : Gdrive_Info) :
    ∀ (ops : List (StepEnv × CacheOp)) (pCache : Gdrive_Cache),
      treeTombstoneOk pCache.pCacheHead → runBalanced info pCache ops →
      treeTombstoneOk (runOps info pCache ops).1.pCacheHead := by
  intro ops
  induction ops with
  | nil => intro pCache h _; exact h
  | cons a rest ih =>
    intro pCache h hb
    obtain ⟨env, op⟩ := a
    obtain ⟨hb1, hb2⟩ := hb
    have h1 := treeOk_applyOp info env pCache op h hb1
    have h2 := ih _ h1 hb2
    simp only [runOps]
    exact h2

theorem cnode_get_modifyAt (remote : Remote) (now : Int) (fileId : String)
    (f : Gdrive_Cache_Node → Gdrive_Cache_Node)
    (hf : ∀ x, (f x).fileinfo.id = x.fileinfo.id) :
    ∀ (t : Gdrive_Cache_Tree) (q : NodePtr),
      (gdrive_cnode_get remote now (modifyAt f t q) fileId false).2
        = (gdrive_cnode_get remote now t fileId false).2 := by
  intro t
  induction t with
  | nil => intro q; cases q <;> rfl
  | node l m r ihl ihr =>
    intro q
    match q with
    | [] =>
      simp only [modifyAt, gdrive_cnode_get, hf]
      cases m.fileinfo.id with
      | none => rfl
      | some id =>
        simp only
        split_ifs <;> rfl
    | false :: q =>
      simp only [modifyAt, gdrive_cnode_get]
      cases m.fileinfo.id with
      | none => rfl
      | some id =>
        simp only
        split_ifs
        · rfl
        · have e := ihl q
          rw [Prod.ext_iff] at e
          simp only [e.1, e.2]
        · rfl
    | true :: q =>
      simp only [modifyAt, gdrive_cnode_get]
      cases m.fileinfo.id with
      | none => rfl
      | some id =>
        simp only
        split_ifs
        · rfl
        · rfl
        · have e := ihr q
          rw [Prod.ext_iff] at e
          simp only [e.1, e.2]

theorem delete_id_open_node (remote : Remote) (now : Int) (pCache : Gdrive_Cache)
    (fileId : String) (p : NodePtr) (n : Gdrive_Cache_Node)
    (hp : (gdrive_cnode_get remote now pCache.pCacheHead fileId false).2.1 = some p)
    (hn : nodeAt pCache.pCacheHead p = some n) (hc : n.openCount ≠ 0) :
    (gdrive_cache_delete_id remote now pCache fileId).2 = [] ∧
    (gdrive_cnode_get remote now
      (gdrive_cache_delete_id remote now pCache fileId).1.pCacheHead fileId false).2.1 = some p ∧
    nodeAt (gdrive_cache_delete_id remote now pCache fileId).1.pCacheHead p
      = some { n with deleted := true } := by
  have hres : gdrive_cache_delete_id remote now pCache fileId =
      ({ pCache with
          pFileIdCacheHead := gdrive_fidnode_remove_by_id pCache.pFileIdCacheHead fileId,
          pCacheHead := modifyAt (fun n => { n with deleted := true }) pCache.pCacheHead p },
        []) := by
    unfold gdrive_cache_delete_id
    simp only
    generalize gdrive_cnode_get remote now pCache.pCacheHead fileId false = res at hp
    obtain ⟨t, found, ex⟩ := res
    simp only at hp
    subst hp
    simp only [gdrive_cnode_mark_deleted, nodeAt_modifyAt _ _ _ _ hn]
    rw [if_neg hc]
  rw [hres]
  refine ⟨rfl, ?_, ?_⟩
  · exact (congrArg Prod.fst (cnode_get_modifyAt remote now fileId
      (fun n => { n with deleted := true }) (fun _ => rfl) pCache.pCacheHead p)).trans hp
  · exact nodeAt_modifyAt _ _ _ _ hn

theorem delete_from_modifyAt_const (y : Gdrive_Cache_Node) :
    ∀ (t : Gdrive_Cache_Tree) (fromRight : Bool) (p : NodePtr) (x : Gdrive_Cache_Node),
      nodeAt t p = some x →
      ∃ A B, t.nodes = A ++ x :: B ∧
        (gdrive_cnode_delete_from fromRight (modifyAt (fun _ => y) t p) p).1.nodes = A ++ B ∧
        (gdrive_cnode_delete_from fromRight (modifyAt (fun _ => y) t p) p).2 = [y] := by
  intro t
  induction t with
  | nil => intro _ p x h; simp [nodeAt] at h
  | node l m r ihl ihr =>
    intro fromRight p x h
    match p with
    | [] =>
      simp only [nodeAt, Option.some.injEq] at h
      subst h
      refine ⟨l.nodes, r.nodes, rfl, ?_, rfl⟩
      simp only [modifyAt, gdrive_cnode_delete_from]
      exact delete_here_nodes _ _ _ _
    | false :: q =>
      simp only [nodeAt] at h
      obtain ⟨A, B, h1, h2, h3⟩ := ihl false q x h
      refine ⟨A, B ++ m :: r.nodes, ?_, ?_, ?_⟩
      · simp [Gdrive_Cache_Tree.nodes, h1]
      · simp [modifyAt, gdrive_cnode_delete_from, Gdrive_Cache_Tree.nodes, h2]
      · simp [modifyAt, gdrive_cnode_delete_from, h3]
    | true :: q =>
      simp only [nodeAt] at h
      obtain ⟨A, B, h1, h2, h3⟩ := ihr true q x h
      refine ⟨l.nodes ++ m :: A, B, ?_, ?_, ?_⟩
      · simp [Gdrive_Cache_Tree.nodes, h1]
      · simp [modifyAt, gdrive_cnode_delete_from, Gdrive_Cache_Tree.nodes, h2]
      · simp [modifyAt, gdrive_cnode_delete_from, h3]

theorem close_last_handle_of_tombstone (info : Gdrive_Info) (remote : Remote)
    (pCache : Gdrive_Cache) (pFile : NodePtr) (flags : Nat) (n : Gdrive_Cache_Node)
    (hn : nodeAt pCache.pCacheHead pFile = some n) (hd : n.deleted = true)
    (hc : n.openCount = 1) :
    ∃ A B n', pCache.pCacheHead.nodes = A ++ n :: B ∧
      (gdrive_file_close info remote pCache pFile flags).1.pCacheHead.nodes = A ++ B ∧
      (gdrive_file_close info remote pCache pFile flags).2 = [n'] ∧
      n'.fileinfo.id = n.fileinfo.id := by
  obtain ⟨h1, _, h3, h4⟩ := close_counts_spec info remote n flags
  unfold gdrive_file_close
  simp only [hn]
  generalize gdrive_file_close_counts info remote n flags = c at h1 h3 h4
  have h0 : c.openCount = 0 := by omega
  have hcd : c.deleted = true := by rw [h3, hd]
  rw [if_pos h0]
  have hcd2 : ({ c with pContents := gdrive_fcontents_free_all c.pContents }
      : Gdrive_Cache_Node).deleted = true := hcd
  rw [if_pos hcd2]
  obtain ⟨A, B, e1, e2, e3⟩ := delete_from_modifyAt_const
    { c with pContents := gdrive_fcontents_free_all c.pContents } pCache.pCacheHead false pFile n hn
  exact ⟨A, B, _, e1, e2, e3, h4⟩

/-- C5 (tombstone invariant). From a cache in which no node has a negative
`openCount` and every tombstoned node has open handles, every sequence of
`gdrive_file_open`, `gdrive_file_close`, `gdrive_cache_delete_id` and
`gdrive_cache_update` calls in which each close is made on a node with an open
handle leads to a cache in which every node of the tree with `deleted = true`
has `openCount > 0`. The two steps that keep it so: `gdrive_cache_delete_id`
on a node with open handles frees nothing and leaves the node, now with
`deleted` set, where the lookup of its identifier finds it; and the
`gdrive_file_close` that lowers the `openCount` of a tombstoned node from 1
to 0 takes exactly that node out of the tree and frees it. -/
theorem C5_tombstone_invariant (info : Gdrive_Info) :
    (∀ (ops : List (StepEnv × CacheOp)) (pCache : Gdrive_Cache),
      treeTombstoneOk pCache.pCacheHead → runBalanced info pCache ops →
      ∀ n ∈ (runOps info pCache ops).1.pCacheHead.nodes,
        n.deleted = true → 0 < n.openCount) ∧
    (∀ (remote : Remote) (now : Int) (pCache : Gdrive_Cache) (fileId : String)
      (p : NodePtr) (n : Gdrive_Cache_Node),
      (gdrive_cnode_get remote now pCache.pCacheHead fileId false).2.1 = some p →
      nodeAt pCache.pCacheHead p = some n → n.openCount ≠ 0 →
      (gdrive_cache_delete_id remote now pCache fileId).2 = [] ∧
      (gdrive_cnode_get remote now
        (gdrive_cache_delete_id remote now pCache fileId).1.pCacheHead fileId false).2.1
          = some p ∧
      nodeAt (gdrive_cache_delete_id remote now pCache fileId).1.pCacheHead p
        = some { n with deleted := true }) ∧
    (∀ (remote : Remote) (pCache : Gdrive_Cache) (pFile : NodePtr) (flags : Nat)
      (n : Gdrive_Cache_Node),
      nodeAt pCache.pCacheHead pFile = some n → n.deleted = true → n.openCount = 1 →
      ∃ A B n1, pCache.pCacheHead.nodes = A ++ n :: B ∧
        (gdrive_file_close info remote pCache pFile flags).1.pCacheHead.nodes = A ++ B ∧
        (gdrive_file_close info remote pCache pFile flags).2 = [n1] ∧
        n1.fileinfo.id = n.fileinfo.id) :=
  ⟨fun ops pCache h hb n hn hd => (treeOk_runOps info ops pCache h hb n hn).2 hd,
   fun remote now pCache fileId p n hp hn hc =>
     delete_id_open_node remote now pCache fileId p n hp hn hc,
   fun remote pCache pFile flags n hn hd hc =>
     close_last_handle_of_tombstone info remote pCache pFile flags n hn hd hc⟩

theorem C5_tombstone_invariant_witness :
    (treeTombstoneOk exampleCache.pCacheHead ∧
      runBalanced exampleInfo exampleCache tombstoneRun ∧
      ∀ n ∈ (runOps exampleInfo exampleCache tombstoneRun).1.pCacheHead.nodes,
        n.deleted = true → 0 < n.openCount) ∧
    ((gdrive_cnode_get failingRemote 101 busyCache.pCacheHead "B" false).2.1 = some [] ∧
      nodeAt busyCache.pCacheHead [] = some busyNode ∧ busyNode.openCount ≠ 0 ∧
      (gdrive_cnode_get failingRemote 101
        (gdrive_cache_delete_id failingRemote 101 busyCache "B").1.pCacheHead "B" false).2.1
          = some []) ∧
    (nodeAt tombstonedCache.pCacheHead [] = some { busyNode with deleted := true } ∧
      ∃ A B n1, tombstonedCache.pCacheHead.nodes = A ++ { busyNode with deleted := true } :: B ∧
        (gdrive_file_close exampleInfo failingRemote tombstonedCache [] O_RDWR).1.pCacheHead.nodes
          = A ++ B ∧
        (gdrive_file_close exampleInfo failingRemote tombstonedCache [] O_RDWR).2 = [n1] ∧
        n1.fileinfo.id = some "B") :=
  ⟨⟨by decide, ⟨trivial, trivial, by decide, trivial, trivial⟩,
     (C5_tombstone_invariant exampleInfo).1 tombstoneRun exampleCache (by decide)
       ⟨trivial, trivial, by decide, trivial, trivial⟩⟩,
   ⟨by decide, rfl, by decide,
     ((C5_tombstone_invariant exampleInfo).2.1 failingRemote 101 busyCache "B" [] busyNode
       (by decide) rfl (by decide)).2.1⟩,
   ⟨rfl,
     (C5_tombstone_invariant exampleInfo).2.2 failingRemote tombstonedCache [] O_RDWR
       { busyNode with deleted := true } rfl rfl rfl⟩⟩

/-! ## Opening a file that is not in the cache (C8) -/

/-- A file the remote side knows and the cache does not: the first turn of
the loop fetches the node, the second finds it, and the handle is returned
with the counters of the new node raised from 0 to 1. -/
theorem file_open_fetches_missing_node :
    (gdrive_file_open exampleInfo knownFileRemote 100 2 exampleCache "D" O_RDWR).2
      = (some [true, true], none, []) ∧
    nodeAt (gdrive_file_open exampleInfo knownFileRemote 100 2 exampleCache "D"
      O_RDWR).1.pCacheHead [true, true] = some (openedNode fetchedNode O_RDWR) ∧
    (gdrive_file_open exampleInfo knownFileRemote 100 2 exampleCache "D" O_RDONLY).2
      = (some [true, true], none, []) ∧
    nodeAt (gdrive_file_open exampleInfo knownFileRemote 100 2 exampleCache "D"
      O_RDONLY).1.pCacheHead [true, true]
      = some { fetchedNode with openCount := 1, openWrites := 0 } := by
  decide

/-- A file the remote side does not know: the fetch fails and the function
returns NULL with `ENOENT`; the counters of the three cached nodes are as
before. -/
theorem file_open_unknown_file :
    (gdrive_file_open exampleInfo failingRemote 100 2 exampleCache "D" O_RDWR).2
      = (none, some ENOENT, []) ∧
    ∀ id ∈ ["A", "B", "C"],
      ∀ n ∈ (gdrive_file_open exampleInfo failingRemote 100 2 exampleCache "D"
          O_RDWR).1.pCacheHead.nodes,
        n.fileinfo.id = some id → n.openCount = 0 ∧ n.openWrites = 0 := by
  decide

/-! ## Chunk ranges under reads (C2) -/

theorem find_chunk_none (offset : Int) :
    ∀ (l : List Gdrive_File_Contents), (∀ c ∈ l, c.fh ≠ none) →
      gdrive_fcontents_find_chunk l offset = none →
      ∀ c ∈ l, ¬ (c.start ≤ offset ∧ offset ≤ c.end_) := by
  intro l
  induction l with
  | nil => intro _ _ c hc; simp at hc
  | cons a rest ih =>
    intro hfh hnone c hc
    have ha := hfh a (List.mem_cons_self _ _)
    unfold gdrive_fcontents_find_chunk at hnone
    rw [if_neg ha] at hnone
    split_ifs at hnone with h1 h2
    rcases List.mem_cons.mp hc with rfl | hc
    · exact fun h => h1 ⟨h.1, h.2⟩
    · apply ih (fun c hc => hfh c (List.mem_cons_of_mem _ hc)) _ c hc
      cases hr : gdrive_fcontents_find_chunk rest offset with
      | none => rfl
      | some i => rw [hr] at hnone; simp at hnone

theorem window_of_offset (cs w offset : Int) (hw : cs ∣ w)
    (h1 : w ≤ offset) (h2 : offset < w + cs) :
    offset / cs * cs = w ∧ offset % cs = offset - w := by
  obtain ⟨k, rfl⟩ := hw
  have hmod : offset % cs = offset - cs * k := by
    have : offset = (offset - cs * k) + cs * k := by ring
    rw [this, Int.add_mul_emod_self_left]
    rw [Int.emod_eq_of_lt (by omega) (by omega)]
    ring
  refine ⟨?_, hmod⟩
  have := Int.ediv_add_emod offset cs
  rw [mul_comm]
  omega

theorem divide_round_up_small (e cs : Int) (h0 : 0 ≤ e) (h1 : e < cs) :
    gdrive_divide_round_up e cs * cs = 0 ∨ gdrive_divide_round_up e cs * cs = cs := by
  unfold gdrive_divide_round_up
  rw [Int.tdiv_eq_zero_of_lt h0 h1, Int.tmod_eq_of_lt h0 h1]
  split_ifs
  · left; simp
  · right; simp

theorem aligned_apart (cs u w : Int) (hcs : 0 < cs) (hu : cs ∣ u) (hw : cs ∣ w)
    (hne : u ≠ w) : u + cs ≤ w ∨ w + cs ≤ u := by
  obtain ⟨k, rfl⟩ := hu
  obtain ⟨j, rfl⟩ := hw
  rcases lt_trichotomy k j with h | h | h
  · left
    have : k + 1 ≤ j := h
    nlinarith
  · exact absurd (by rw [h]) hne
  · right
    have : j + 1 ≤ k := h
    nlinarith

theorem set_last {α : Type} (l : List α) (x y : α) :
    (l ++ [x]).set l.length y = l ++ [y] := by
  induction l with
  | nil => rfl
  | cons a rest ih => simp [List.set, ih]

theorem eraseIdx_last {α : Type} (l : List α) (x : α) :
    (l ++ [x]).eraseIdx l.length = l := by
  induction l with
  | nil => rfl
  | cons a rest ih => simp [List.eraseIdx, ih]

/-- A new chunk that is a window, or empty, at the window of an offset no
chunk holds keeps the chunks in windows and apart. -/
theorem chunks_add_window (cs w offset : Int) (l : List Gdrive_File_Contents)
    (c : Gdrive_File_Contents) (hcs : 0 < cs) (hw : cs ∣ w)
    (h1 : w ≤ offset) (h2 : offset < w + cs)
    (hin : chunksInWindows cs l) (hdis : chunksDisjoint l)
    (hnone : ∀ c ∈ l, ¬ (c.start ≤ offset ∧ offset ≤ c.end_))
    (hfh : c.fh ≠ none) (hstart : c.start = w)
    (hend : c.end_ = w + cs - 1 ∨ c.end_ = w - 1) :
    chunksInWindows cs (l ++ [c]) ∧ chunksDisjoint (l ++ [c]) := by
  constructor
  · intro d hd
    rcases List.mem_append.mp hd with hd | hd
    · exact hin d hd
    · simp only [List.mem_singleton] at hd
      subst hd
      exact ⟨hfh, by rw [hstart]; exact hw, by rw [hstart]; exact hend⟩
  · unfold chunksDisjoint
    rw [List.pairwise_append]
    refine ⟨hdis, List.pairwise_singleton _ _, ?_⟩
    intro a ha b hb
    simp only [List.mem_singleton] at hb
    subst hb
    obtain ⟨_, hadvd, haend⟩ := hin a ha
    have hno := hnone a ha
    rw [hstart]
    by_cases hne : a.start = w
    · rcases haend with he | he
      · exact absurd ⟨by omega, by omega⟩ hno
      · left; omega
    · rcases aligned_apart cs a.start w hcs hadvd hw hne with h | h
      · left; rcases haend with he | he <;> omega
      · right; rcases hend with he | he <;> omega

theorem create_chunk_window (info : Gdrive_Info) (remote : Remote)
    (pNode : Gdrive_Cache_Node) (offset : Int) (size : Nat) (w : Int)
    (hcs : 0 < chunkSizeOf info pNode) (hw : chunkSizeOf info pNode ∣ w)
    (h1 : w ≤ offset) (hsz : 1 ≤ size) (h2 : offset + size ≤ w + chunkSizeOf info pNode)
    (hin : chunksInWindows (chunkSizeOf info pNode) pNode.pContents)
    (hdis : chunksDisjoint pNode.pContents)
    (hnone : gdrive_fcontents_find_chunk pNode.pContents offset = none) :
    (gdrive_cnode_create_chunk info remote pNode offset size true).1.fileinfo = pNode.fileinfo ∧
    chunksInWindows (chunkSizeOf info pNode)
      (gdrive_cnode_create_chunk info remote pNode offset size true).1.pContents ∧
    chunksDisjoint (gdrive_cnode_create_chunk info remote pNode offset size true).1.pContents := by
  have hno := find_chunk_none offset pNode.pContents (fun c hc => (hin c hc).1) hnone
  obtain ⟨hws, hmod⟩ := window_of_offset (chunkSizeOf info pNode) w offset hw h1 (by omega)
  unfold gdrive_cnode_create_chunk
  simp only [gdrive_cnode_add_contents, gdrive_fcontents_add, if_true,
    gdrive_fcontents_fill_chunk, gdrive_cnode_delete_file_contents, gdrive_fcontents_delete]
  rw [hws, hmod]
  generalize chunkSizeOf info pNode = cs at *
  cases remote.download (pNode.fileinfo.id.getD "") w
      (w + ((gdrive_divide_round_up (offset - w + size - 1) cs * cs).toNat : Int) - 1) with
  | none =>
    simp only
    rw [eraseIdx_last]
    exact ⟨trivial, hin, hdis⟩
  | some body =>
    simp only
    rw [set_last]
    refine ⟨trivial, ?_⟩
    apply chunks_add_window cs w offset _ _ hcs hw h1 (by omega) hin hdis hno
    · simp
    · rfl
    · simp only
      rcases divide_round_up_small (offset - w + size - 1) cs (by omega) (by omega) with h | h
      · right; rw [h]; simp
      · left; rw [h, Int.toNat_of_nonneg (le_of_lt hcs)]

theorem chunkSizeOf_congr (info : Gdrive_Info) (a b : Gdrive_Cache_Node)
    (h : a.fileinfo = b.fileinfo) : chunkSizeOf info a = chunkSizeOf info b := by
  unfold chunkSizeOf
  rw [h]

theorem read_next_chunk_window (info : Gdrive_Info) (remote : Remote)
    (pFile : Gdrive_Cache_Node) (destBuf : Bool) (offset : Int) (size : Nat) (w : Int)
    (hcs : 0 < chunkSizeOf info pFile) (hw : chunkSizeOf info pFile ∣ w)
    (h1 : w ≤ offset) (hsz : 1 ≤ size) (h2 : offset + size ≤ w + chunkSizeOf info pFile)
    (hin : chunksInWindows (chunkSizeOf info pFile) pFile.pContents)
    (hdis : chunksDisjoint pFile.pContents) :
    (gdrive_file_read_next_chunk info remote pFile destBuf offset size).1.fileinfo
      = pFile.fileinfo ∧
    chunksInWindows (chunkSizeOf info pFile)
      (gdrive_file_read_next_chunk info remote pFile destBuf offset size).1.pContents ∧
    chunksDisjoint
      (gdrive_file_read_next_chunk info remote pFile destBuf offset size).1.pContents := by
  unfold gdrive_file_read_next_chunk
  cases hf : gdrive_fcontents_find_chunk pFile.pContents offset with
  | some i => exact ⟨rfl, hin, hdis⟩
  | none =>
    have := create_chunk_window info remote pFile offset size w hcs hw h1 hsz h2 hin hdis hf
    simp only
    generalize gdrive_cnode_create_chunk info remote pFile offset size true = res at this
    obtain ⟨pNode, found⟩ := res
    cases found <;> exact this

theorem read_loop_window (info : Gdrive_Info) (remote : Remote) (destBuf : Bool)
    (realSize : Nat) (w : Int) :
    ∀ (turns : Nat) (fh : Gdrive_Cache_Node) (nextOffset : Int) (bytesRemaining : Nat)
      (buf : List Nat), 0 < chunkSizeOf info fh → chunkSizeOf info fh ∣ w →
      w ≤ nextOffset → nextOffset + bytesRemaining ≤ w + chunkSizeOf info fh →
      chunksInWindows (chunkSizeOf info fh) fh.pContents → chunksDisjoint fh.pContents →
      (gdrive_file_read_loop info remote turns fh destBuf nextOffset bytesRemaining
        realSize buf).1.fileinfo = fh.fileinfo ∧
      chunksInWindows (chunkSizeOf info fh)
        (gdrive_file_read_loop info remote turns fh destBuf nextOffset bytesRemaining
          realSize buf).1.pContents ∧
      chunksDisjoint
        (gdrive_file_read_loop info remote turns fh destBuf nextOffset bytesRemaining
          realSize buf).1.pContents := by
  intro turns
  induction turns with
  | zero => intro fh _ _ _ _ _ _ _ hin hdis; exact ⟨rfl, hin, hdis⟩
  | succ turns ih =>
    intro fh nextOffset bytesRemaining buf hcs hw h1 h2 hin hdis
    unfold gdrive_file_read_loop
    by_cases hpos : bytesRemaining > 0
    · rw [if_pos hpos]
      have hstep := read_next_chunk_window info remote fh destBuf nextOffset bytesRemaining w
        hcs hw h1 hpos h2 hin hdis
      have hb := read_next_chunk_bounds info remote fh destBuf nextOffset bytesRemaining
      generalize gdrive_file_read_next_chunk info remote fh destBuf nextOffset
        bytesRemaining = res at hstep hb
      obtain ⟨fh1, bytesRead, data⟩ := res
      simp only at hstep hb ⊢
      obtain ⟨hfi, hin1, hdis1⟩ := hstep
      have hcsEq := chunkSizeOf_congr info fh1 fh hfi
      split_ifs with hneg hzero
      · exact ⟨hfi, hin1, hdis1⟩
      · exact ⟨hfi, hin1, hdis1⟩
      · have hrange : 0 ≤ bytesRead ∧ bytesRead ≤ (bytesRemaining : Int) := by
          rcases hb with hE | hb
          · exact absurd (by rw [hE]; decide) hneg
          · exact hb
        have := ih fh1 (nextOffset + bytesRead) (bytesRemaining - bytesRead.toNat)
          (buf ++ data) (by rw [hcsEq]; exact hcs) (by rw [hcsEq]; exact hw) (by omega)
          (by rw [hcsEq]; omega) (by rw [hcsEq]; exact hin1) hdis1
        rw [hcsEq, hfi] at this
        exact this
    · rw [if_neg hpos]
      exact ⟨rfl, hin, hdis⟩

theorem file_read_window (info : Gdrive_Info) (remote : Remote)
    (fh : Gdrive_Cache_Node) (destBuf : Bool) (size : Nat) (offset : Int)
    (hcs : 0 < chunkSizeOf info fh)
    (hwin : readInWindow (chunkSizeOf info fh) size offset)
    (hin : chunksInWindows (chunkSizeOf info fh) fh.pContents)
    (hdis : chunksDisjoint fh.pContents) :
    (gdrive_file_read info remote fh destBuf size offset).1.fileinfo = fh.fileinfo ∧
    chunksInWindows (chunkSizeOf info fh)
      (gdrive_file_read info remote fh destBuf size offset).1.pContents ∧
    chunksDisjoint (gdrive_file_read info remote fh destBuf size offset).1.pContents := by
  unfold gdrive_file_read
  split_ifs with hp ho hs
  · exact ⟨rfl, hin, hdis⟩
  · exact ⟨rfl, hin, hdis⟩
  · obtain ⟨h0, hfit⟩ := hwin
    have hm := Int.emod_nonneg offset (ne_of_gt hcs)
    have hd : chunkSizeOf info fh ∣ offset - offset % chunkSizeOf info fh :=
      Int.dvd_sub_of_emod_eq rfl
    exact read_loop_window info remote destBuf size (offset - offset % chunkSizeOf info fh)
      size fh offset size [] hcs hd (by omega) (by omega) hin hdis
  · obtain ⟨h0, hfit⟩ := hwin
    have hm := Int.emod_nonneg offset (ne_of_gt hcs)
    have hd : chunkSizeOf info fh ∣ offset - offset % chunkSizeOf info fh :=
      Int.dvd_sub_of_emod_eq rfl
    exact read_loop_window info remote destBuf _ (offset - offset % chunkSizeOf info fh)
      _ fh offset _ [] hcs hd (by omega) (by omega) hin hdis

theorem runReads_window (info : Gdrive_Info) :
    ∀ (calls : List ReadCall) (fh : Gdrive_Cache_Node), 0 < chunkSizeOf info fh →
      (∀ call ∈ calls, readInWindow (chunkSizeOf info fh) call.size call.offset) →
      chunksInWindows (chunkSizeOf info fh) fh.pContents → chunksDisjoint fh.pContents →
      chunksDisjoint (runReads info fh calls).pContents := by
  intro calls
  induction calls with
  | nil => intro fh _ _ _ hdis; exact hdis
  | cons call rest ih =>
    intro fh hcs hwin hin hdis
    obtain ⟨hfi, hin1, hdis1⟩ := file_read_window info call.remote fh call.destBuf call.size
      call.offset hcs (hwin call (List.mem_cons_self _ _)) hin hdis
    have hcsEq := chunkSizeOf_congr info _ fh hfi
    simp only [runReads]
    apply ih
    · rw [hcsEq]; exact hcs
    · rw [hcsEq]; exact fun c hc => hwin c (List.mem_cons_of_mem _ hc)
    · rw [hcsEq]; exact hin1
    · exact hdis1

/-- C2, refuted as stated: on a file of 3000000 bytes with the default chunk
settings (chunk size 1048576) and an empty chunk list, a read of one byte at
1048577 creates the chunk `[1048576, 2097151]`, and a read of three bytes at
1048575, which crosses into the next window, then creates the chunk
`[0, 2097151]`; both stay in the list and their ranges overlap. -/
theorem C2_reads_create_overlapping_chunks :
    (exampleNode "B" 3000000).pContents = [] ∧
    (runReads exampleInfo (exampleNode "B" 3000000)
      [⟨downloadingRemote, false, 1, 1048577⟩, ⟨downloadingRemote, false, 3, 1048575⟩]).pContents
      = [⟨1048576, 2097151, some []⟩, ⟨0, 2097151, some []⟩] ∧
    ¬ chunksDisjoint (runReads exampleInfo (exampleNode "B" 3000000)
      [⟨downloadingRemote, false, 1, 1048577⟩, ⟨downloadingRemote, false, 3, 1048575⟩]).pContents := by
  decide

/-- C2 (chunk coverage invariant, for reads within windows). Let the chunk
size of the file be positive and the chunk list empty. After every sequence
of `gdrive_file_read` calls, each of which asks for bytes at an offset that
is not negative and stays inside one window of chunk-size bytes, whatever
the remote side answers, no two chunks in the node's chunk list have
overlapping `[start, end]` ranges. -/
theorem C2_window_reads_keep_chunks_disjoint (info : Gdrive_Info) (fh : Gdrive_Cache_Node)
    (calls : List ReadCall) (hcs : 0 < chunkSizeOf info fh) (hempty : fh.pContents = [])
    (hwin : ∀ call ∈ calls, readInWindow (chunkSizeOf info fh) call.size call.offset) :
    chunksDisjoint (runReads info fh calls).pContents := by
  apply runReads_window info calls fh hcs hwin
  · rw [hempty]; intro c hc; simp at hc
  · rw [hempty]; exact List.Pairwise.nil

theorem C2_window_reads_keep_chunks_disjoint_witness :
    0 < chunkSizeOf exampleInfo (exampleNode "B" 3000000) ∧
    (runReads exampleInfo (exampleNode "B" 3000000)
      [⟨downloadingRemote, false, 1, 1048577⟩, ⟨downloadingRemote, false, 3, 1048570⟩]).pContents.length = 2 ∧
    chunksDisjoint (runReads exampleInfo (exampleNode "B" 3000000)
      [⟨downloadingRemote, false, 1, 1048577⟩, ⟨downloadingRemote, false, 3, 1048570⟩]).pContents :=
  ⟨by decide, by decide,
   C2_window_reads_keep_chunks_disjoint exampleInfo (exampleNode "B" 3000000)
     [⟨downloadingRemote, false, 1, 1048577⟩, ⟨downloadingRemote, false, 3, 1048570⟩] (by decide) rfl (by decide)⟩

/-! ## Shrink, then grow (C11) -/

theorem find_chunk_some (offset : Int) :
    ∀ (l : List Gdrive_File_Contents) (i : Nat),
      gdrive_fcontents_find_chunk l offset = some i →
      ∃ A c B, l = A ++ c :: B ∧ A.length = i ∧
        (∀ a ∈ A, a.fh ≠ none ∧ ¬ chunkHolds a offset) ∧
        c.fh ≠ none ∧ chunkHolds c offset := by
  intro l
  induction l with
  | nil => intro i h; simp [gdrive_fcontents_find_chunk] at h
  | cons x rest ih =>
    intro i h
    unfold gdrive_fcontents_find_chunk at h
    split_ifs at h with h0 h1 h2
    · simp only [Option.some.injEq] at h
      exact ⟨[], x, rest, rfl, h, by simp, h0, Or.inl h1⟩
    · simp only [Option.some.injEq] at h
      exact ⟨[], x, rest, rfl, h, by simp, h0, Or.inr h2⟩
    · cases hr : gdrive_fcontents_find_chunk rest offset with
      | none => rw [hr] at h; simp at h
      | some k =>
        rw [hr] at h
        simp only [Option.map_some', Option.some.injEq] at h
        obtain ⟨A, c, B, e1, e2, e3, e4, e5⟩ := ih k hr
        refine ⟨x :: A, c, B, by rw [e1]; rfl, by simp [e2, h], ?_, e4, e5⟩
        intro a ha
        rcases List.mem_cons.mp ha with rfl | ha
        · refine ⟨h0, ?_⟩
          intro hh
          rcases hh with hh | hh
          · exact h1 hh
          · exact h2 hh
        · exact e3 a ha

theorem find_chunk_of_split (offset : Int) (c : Gdrive_File_Contents)
    (B : List Gdrive_File_Contents) (hc : c.fh ≠ none) (hh : chunkHolds c offset) :
    ∀ (A : List Gdrive_File_Contents), (∀ a ∈ A, a.fh ≠ none ∧ ¬ chunkHolds a offset) →
      gdrive_fcontents_find_chunk (A ++ c :: B) offset = some A.length := by
  intro A
  induction A with
  | nil =>
    intro _
    simp only [List.nil_append, gdrive_fcontents_find_chunk, List.length_nil]
    rw [if_neg hc]
    rcases hh with hh | hh
    · rw [if_pos hh]
    · split_ifs <;> rfl
  | cons x rest ih =>
    intro hA
    obtain ⟨hx0, hx1⟩ := hA x (List.mem_cons_self _ _)
    simp only [List.cons_append, gdrive_fcontents_find_chunk, List.length_cons]
    rw [if_neg hx0, if_neg (fun h => hx1 (Or.inl h)), if_neg (fun h => hx1 (Or.inr h))]
    have := ih (fun a ha => hA a (List.mem_cons_of_mem _ ha))
    simp only [List.append_eq] at this ⊢
    rw [this]
    rfl

theorem chunkAt_split (A B : List Gdrive_File_Contents) (c : Gdrive_File_Contents) :
    chunkAt (A ++ c :: B) A.length = c := by
  unfold chunkAt
  induction A with
  | nil => rfl
  | cons a rest ih => simpa [List.getD] using ih

theorem set_split {α : Type} (A B : List α) (c d : α) :
    (A ++ c :: B).set A.length d = A ++ d :: B := by
  induction A with
  | nil => rfl
  | cons a rest ih => simp [List.set, ih]

/-- Reading one byte with a NULL buffer at an offset a resident chunk holds
leaves the node as it is and returns no error. -/
theorem file_read_null_resident (info : Gdrive_Info) (remote : Remote)
    (fh : Gdrive_Cache_Node) (offset : Int) (i : Nat)
    (hperm : gdrive_file_check_perm info fh O_RDONLY = true)
    (hoff : offset < (fh.fileinfo.size : Int))
    (hfind : gdrive_fcontents_find_chunk fh.pContents offset = some i) :
    (gdrive_file_read info remote fh false 1 offset).1 = fh ∧
    0 ≤ (gdrive_file_read info remote fh false 1 offset).2.1 := by
  rw [file_read_eq_loop info remote fh false 1 offset hperm hoff (by decide)]
  have hrs : (if ((1 : Nat) : Int) + offset ≤ (fh.fileinfo.size : Int) then 1
      else ((fh.fileinfo.size : Int) - offset).toNat) = 1 := by
    rw [if_pos (by omega)]
  simp only [hrs]
  unfold gdrive_file_read_loop
  simp only [gdrive_file_read_next_chunk, hfind, gdrive_fcontents_read, if_true,
    gdrive_file_read_loop]
  split_ifs <;> simp

theorem chunkHolds_start_le (c : Gdrive_File_Contents) (offset : Int)
    (h : chunkHolds c offset) : c.start ≤ offset := by
  rcases h with h | h <;> omega

theorem fcontents_truncate_ok (c : Gdrive_File_Contents) (size : Nat)
    (h : c.start ≤ (size : Int)) :
    gdrive_fcontents_truncate c size =
      ({ c with
          end_ := if c.end_ - c.start < (size : Int) - c.start
            then c.start + ((size : Int) - c.start) - 1 else c.end_,
          fh := some (ftruncateTo (c.fh.getD []) ((size : Int) - c.start).toNat) }, 0) := by
  unfold gdrive_fcontents_truncate
  simp only
  rw [if_neg (by omega)]

theorem delete_after_offset_split (A B : List Gdrive_File_Contents)
    (c : Gdrive_File_Contents) (offset : Int) (h : c.start ≤ offset) :
    gdrive_fcontents_delete_after_offset (A ++ c :: B) offset =
      gdrive_fcontents_delete_after_offset A offset ++
        c :: gdrive_fcontents_delete_after_offset B offset := by
  unfold gdrive_fcontents_delete_after_offset
  rw [List.filter_append, List.filter_cons_of_pos]
  simp only [gt_iff_lt, not_lt, decide_eq_true_eq]
  exact h

/-- Case D of `gdrive_file_truncate` when the caching read succeeds and leaves
the chunk that holds the new last byte in the list: the chunks that start
behind that byte go, the chunk is truncated, the size is set. -/
theorem file_truncate_shrink (info : Gdrive_Info) (remote : Remote)
    (fh fh1 : Gdrive_Cache_Node) (size : Int) (A B : List Gdrive_File_Contents)
    (c : Gdrive_File_Contents)
    (hperm : gdrive_file_check_perm info fh O_RDWR = true)
    (h0 : 0 < size) (hlt : size < (fh.fileinfo.size : Int))
    (hread : (gdrive_file_read info remote fh false 1 (size - 1)).1 = fh1)
    (hret : 0 ≤ (gdrive_file_read info remote fh false 1 (size - 1)).2.1)
    (hl : fh1.pContents = A ++ c :: B)
    (hA : ∀ a ∈ A, a.fh ≠ none ∧ ¬ chunkHolds a (size - 1))
    (hc : c.fh ≠ none) (hh : chunkHolds c (size - 1)) :
    gdrive_file_truncate info remote fh size =
      ({ fh1 with
          pContents := gdrive_fcontents_delete_after_offset A (size - 1) ++
            (gdrive_fcontents_truncate c size.toNat).1 ::
              gdrive_fcontents_delete_after_offset B (size - 1),
          fileinfo := { fh1.fileinfo with size := size.toNat },
          dirty := true }, 0) := by
  have hfind : gdrive_fcontents_find_chunk fh1.pContents (size - 1) = some A.length := by
    rw [hl]; exact find_chunk_of_split _ c B hc hh A hA
  have hstart := chunkHolds_start_le c _ hh
  unfold gdrive_file_truncate
  rw [if_neg (by rw [hperm]; simp), if_neg (by omega), if_neg (by omega), if_neg (by omega)]
  generalize gdrive_file_read info remote fh false 1 (size - 1) = res at hread hret
  obtain ⟨fh2, r, d⟩ := res
  simp only at hread hret ⊢
  subst hread
  rw [if_neg (not_lt.mpr hret), hfind]
  simp only
  have hj : (List.filter (fun pContents => decide ¬ (pContents.start > size - 1))
      (List.take A.length fh2.pContents)).length
      = (gdrive_fcontents_delete_after_offset A (size - 1)).length := by
    rw [hl, List.take_left']
    · rfl
    · rfl
  have hkept : List.filter (fun pContents => decide ¬ (pContents.start > size - 1))
      fh2.pContents = gdrive_fcontents_delete_after_offset A (size - 1) ++
        c :: gdrive_fcontents_delete_after_offset B (size - 1) := by
    rw [hl]
    exact delete_after_offset_split A B c (size - 1) hstart
  unfold gdrive_fcontents_delete_after_offset at hkept hj
  unfold gdrive_fcontents_delete_after_offset gdrive_file_truncate_final
  simp only [hj, hkept, chunkAt_split, set_split]
  rw [fcontents_truncate_ok c size.toNat (by omega)]
  simp

/-- Reading the first byte with a NULL buffer when no chunk holds it: the
chunk the download fills is a zero-length chunk at offset 0 that holds the
body of the answer. -/
theorem file_read_null_fetch_first (info : Gdrive_Info) (remote : Remote)
    (fh : Gdrive_Cache_Node) (body : List Nat)
    (hperm : gdrive_file_check_perm info fh O_RDONLY = true)
    (hsize : 0 < fh.fileinfo.size)
    (hfind : gdrive_fcontents_find_chunk fh.pContents 0 = none)
    (hdl : remote.download (fh.fileinfo.id.getD "") 0 (-1) = some body) :
    (gdrive_file_read info remote fh false 1 0).1
      = { fh with pContents := fh.pContents ++ [⟨0, -1, some body⟩] } ∧
    0 ≤ (gdrive_file_read info remote fh false 1 0).2.1 := by
  rw [file_read_eq_loop info remote fh false 1 0 hperm (by omega) (by decide)]
  have hrs : (if ((1 : Nat) : Int) + 0 ≤ (fh.fileinfo.size : Int) then 1
      else ((fh.fileinfo.size : Int) - 0).toNat) = 1 := by
    rw [if_pos (by omega)]
  simp only [hrs]
  have hzero : gdrive_divide_round_up ((0 : Int) % chunkSizeOf info fh + ((1 : Nat) : Int) - 1)
      (chunkSizeOf info fh) * chunkSizeOf info fh = 0 := by
    simp [gdrive_divide_round_up]
  have hcreate : gdrive_cnode_create_chunk info remote fh 0 1 true
      = ({ fh with pContents := fh.pContents ++ [⟨0, -1, some body⟩] },
          some fh.pContents.length) := by
    unfold gdrive_cnode_create_chunk
    simp only [gdrive_cnode_add_contents, gdrive_fcontents_add, if_true,
      gdrive_fcontents_fill_chunk, hzero]
    simp only [Int.zero_ediv, zero_mul, Int.toNat_zero, Nat.cast_zero, zero_add, zero_sub,
      Int.reduceNeg, set_last]
    simp [chunkAt, gdrive_fcontents_create, fwriteAt, hdl, set_last]
  unfold gdrive_file_read_loop
  simp only [gdrive_file_read_next_chunk, hfind, hcreate, gdrive_fcontents_read, if_true,
    gdrive_file_read_loop]
  split_ifs <;> first | (exfalso; omega) | simp

/-- Case C of `gdrive_file_truncate` on a file that is not empty, when the
chunk that holds the last byte is resident: that chunk is extended, the size
is set. -/
theorem file_truncate_grow (info : Gdrive_Info) (remote : Remote)
    (fh : Gdrive_Cache_Node) (size : Int) (A B : List Gdrive_File_Contents)
    (c : Gdrive_File_Contents)
    (hperm : gdrive_file_check_perm info fh O_RDWR = true)
    (h0 : 0 < fh.fileinfo.size) (hlt : (fh.fileinfo.size : Int) < size)
    (hl : fh.pContents = A ++ c :: B)
    (hA : ∀ a ∈ A, a.fh ≠ none ∧ ¬ chunkHolds a ((fh.fileinfo.size : Int) - 1))
    (hc : c.fh ≠ none) (hh : chunkHolds c ((fh.fileinfo.size : Int) - 1)) :
    gdrive_file_truncate info remote fh size =
      ({ fh with
          pContents := A ++ (gdrive_fcontents_truncate c size.toNat).1 :: B,
          fileinfo := { fh.fileinfo with size := size.toNat },
          dirty := true }, 0) := by
  have hfind : gdrive_fcontents_find_chunk fh.pContents ((fh.fileinfo.size : Int) - 1)
      = some A.length := by
    rw [hl]; exact find_chunk_of_split _ c B hc hh A hA
  obtain ⟨hr1, hr2⟩ := file_read_null_resident info remote fh ((fh.fileinfo.size : Int) - 1)
    A.length (check_perm_rdonly_of_rdwr info fh hperm) (by omega) hfind
  have hstart := chunkHolds_start_le c _ hh
  unfold gdrive_file_truncate
  rw [if_neg (by rw [hperm]; simp), if_neg (by omega), if_neg (by omega), if_pos hlt,
    if_pos h0]
  generalize gdrive_file_read info remote fh false 1 ((fh.fileinfo.size : Int) - 1) = res
    at hr1 hr2
  obtain ⟨fh1, r, d⟩ := res
  simp only at hr1 hr2 ⊢
  subst hr1
  rw [if_neg (not_lt.mpr hr2), hfind]
  unfold gdrive_file_truncate_final
  simp only [hl, chunkAt_split, set_split]
  rw [fcontents_truncate_ok c size.toNat (by omega)]
  simp

/-- Reading `size` bytes into a buffer at the start of a chunk whose
temporary file holds exactly `size` bytes delivers those bytes. -/
theorem file_read_whole_chunk (info : Gdrive_Info) (remote : Remote)
    (fh : Gdrive_Cache_Node) (A B : List Gdrive_File_Contents)
    (c : Gdrive_File_Contents) (data : List Nat)
    (hperm : gdrive_file_check_perm info fh O_RDONLY = true)
    (hsize : fh.fileinfo.size = data.length) (hpos : 0 < data.length)
    (hint : data.length < 2147483648)
    (hl : fh.pContents = A ++ c :: B)
    (hA : ∀ a ∈ A, a.fh ≠ none ∧ ¬ chunkHolds a 0)
    (hc : c.fh = some data) (hh : chunkHolds c 0) (hstart : c.start = 0) :
    (gdrive_file_read info remote fh true data.length 0).2
      = ((data.length : Int), data) := by
  have hfind : gdrive_fcontents_find_chunk fh.pContents 0 = some A.length := by
    rw [hl]; exact find_chunk_of_split _ c B (by rw [hc]; simp) hh A hA
  rw [file_read_eq_loop info remote fh true data.length 0 hperm (by omega) hint]
  have hrs : (if ((data.length : Nat) : Int) + 0 ≤ (fh.fileinfo.size : Int) then data.length
      else ((fh.fileinfo.size : Int) - 0).toNat) = data.length := by
    rw [if_pos (by omega)]
  simp only [hrs]
  obtain ⟨n, hn⟩ : ∃ n, data.length = n + 1 := ⟨data.length - 1, by omega⟩
  have hread : (gdrive_file_read_next_chunk info remote fh true 0 data.length)
      = (fh, (data.length : Int), data) := by
    unfold gdrive_file_read_next_chunk
    rw [hfind]
    simp only [hl, chunkAt_split, gdrive_fcontents_read, hc, hstart, freadAt]
    simp
  rw [hn]
  unfold gdrive_file_read_loop
  rw [← hn, if_pos hpos, hread]
  simp only
  rw [if_neg (by omega), if_neg (by omega)]
  cases n with
  | zero => simp [gdrive_file_read_loop]
  | succ m =>
    unfold gdrive_file_read_loop
    simp

theorem check_perm_of_fileinfo (info : Gdrive_Info) (a b : Gdrive_Cache_Node) (flags : Nat)
    (ht : a.fileinfo.type = b.fileinfo.type)
    (hp : a.fileinfo.basePermission = b.fileinfo.basePermission) :
    gdrive_file_check_perm info a flags = gdrive_file_check_perm info b flags := by
  unfold gdrive_file_check_perm gdrive_finfo_real_perms
  rw [ht, hp]

theorem mem_delete_after_offset (l : List Gdrive_File_Contents) (offset : Int)
    (x : Gdrive_File_Contents) (hx : x ∈ gdrive_fcontents_delete_after_offset l offset) :
    x ∈ l ∧ x.start ≤ offset := by
  unfold gdrive_fcontents_delete_after_offset at hx
  rw [List.mem_filter] at hx
  exact ⟨hx.1, by simpa using hx.2⟩

theorem find_chunk_none_holds (offset : Int) :
    ∀ (l : List Gdrive_File_Contents), (∀ c ∈ l, c.fh ≠ none) →
      gdrive_fcontents_find_chunk l offset = none →
      ∀ c ∈ l, ¬ chunkHolds c offset := by
  intro l
  induction l with
  | nil => intro _ _ c hc; simp at hc
  | cons a rest ih =>
    intro hfh hnone c hc
    have ha := hfh a (List.mem_cons_self _ _)
    unfold gdrive_fcontents_find_chunk at hnone
    rw [if_neg ha] at hnone
    split_ifs at hnone with h1 h2
    rcases List.mem_cons.mp hc with rfl | hc
    · intro h
      rcases h with h | h
      · exact h1 h
      · exact h2 h
    · apply ih (fun c hc => hfh c (List.mem_cons_of_mem _ hc)) _ c hc
      cases hr : gdrive_fcontents_find_chunk rest offset with
      | none => rfl
      | some i => rw [hr] at hnone; simp at hnone

/-- Shrinking to one byte and growing to `M` bytes, given the node `fhr` the
caching read of the first truncate leaves, with the chunk `c` that holds
byte 0: both calls return 0, no chunk that starts after byte 0 is left, the
range of the chunk kept ends at `M - 1` or behind, and the size is `M`. -/
theorem shrink_then_grow_core (info : Gdrive_Info) (remote1 remote2 : Remote)
    (fh fhr : Gdrive_Cache_Node) (A B : List Gdrive_File_Contents)
    (c : Gdrive_File_Contents) (M : Nat)
    (hperm : gdrive_file_check_perm info fh O_RDWR = true)
    (hS : 1 < fh.fileinfo.size) (hM : fh.fileinfo.size < M)
    (hread : (gdrive_file_read info remote1 fh false 1 0).1 = fhr)
    (hret : 0 ≤ (gdrive_file_read info remote1 fh false 1 0).2.1)
    (hfi : fhr.fileinfo = fh.fileinfo)
    (hl : fhr.pContents = A ++ c :: B)
    (hA : ∀ a ∈ A, a.fh ≠ none ∧ ¬ chunkHolds a 0)
    (hh : chunkHolds c 0) (hc0 : c.start = 0) (hc : c.fh ≠ none) :
    (gdrive_file_truncate info remote1 fh 1).2 = 0 ∧
    (gdrive_file_truncate info remote2 (gdrive_file_truncate info remote1 fh 1).1 M).2 = 0 ∧
    (∀ c ∈ (gdrive_file_truncate info remote1 fh 1).1.pContents, ¬ c.start > 0) ∧
    (∀ c ∈ (gdrive_file_truncate info remote2
        (gdrive_file_truncate info remote1 fh 1).1 M).1.pContents, ¬ c.start > 0) ∧
    (gdrive_file_truncate info remote2
      (gdrive_file_truncate info remote1 fh 1).1 M).1.fileinfo.size = M := by
  have ht1 := file_truncate_shrink info remote1 fh fhr 1 A B c hperm (by omega)
    (by exact_mod_cast hS) (by simpa using hread) (by simpa using hret) hl
    (by simpa using hA) hc (by simpa using hh)
  rw [fcontents_truncate_ok c (1 : Int).toNat (by rw [hc0]; simp)] at ht1
  simp only [hc0, sub_self, sub_zero, zero_add, Int.toNat_one, Nat.cast_one] at ht1
  have he1 : (0 : Int) ≤ (if c.end_ < 1 then 0 else c.end_) := by split_ifs <;> omega
  generalize (if c.end_ < 1 then (0 : Int) else c.end_) = e1 at ht1 he1
  generalize ftruncateTo (c.fh.getD []) 1 = f1 at ht1
  have hdA : ∀ a ∈ gdrive_fcontents_delete_after_offset A 0,
      a.fh ≠ none ∧ ¬ chunkHolds a 0 := fun a ha =>
    hA a (mem_delete_after_offset A 0 a ha).1
  have hdA0 : ∀ a ∈ gdrive_fcontents_delete_after_offset A 0, a.start ≤ 0 := fun a ha =>
    (mem_delete_after_offset A 0 a ha).2
  have hdB0 : ∀ a ∈ gdrive_fcontents_delete_after_offset B 0, a.start ≤ 0 := fun a ha =>
    (mem_delete_after_offset B 0 a ha).2
  generalize gdrive_fcontents_delete_after_offset A 0 = dA at ht1 hdA hdA0
  generalize gdrive_fcontents_delete_after_offset B 0 = dB at ht1 hdB0
  obtain ⟨fh1, hfh1⟩ : ∃ x, x = (gdrive_file_truncate info remote1 fh 1).1 := ⟨_, rfl⟩
  have hl1 : fh1.pContents = dA ++ ⟨0, e1, some f1⟩ :: dB := by rw [hfh1, ht1]
  have hs1 : fh1.fileinfo.size = 1 := by rw [hfh1, ht1]
  have hp1 : gdrive_file_check_perm info fh1 O_RDWR = true := by
    rw [← hperm]
    apply check_perm_of_fileinfo <;> rw [hfh1, ht1] <;> simp only [hfi]
  have hr1 : (gdrive_file_truncate info remote1 fh 1).2 = 0 := by rw [ht1]
  rw [← hfh1]
  clear ht1 hfh1
  have ht2 := file_truncate_grow info remote2 fh1 M dA dB ⟨0, e1, some f1⟩ hp1
    (by omega) (by rw [hs1]; exact_mod_cast (by omega : 1 < M)) hl1
    (by rw [hs1]; simpa using hdA) (by simp)
    (by rw [hs1]; exact Or.inl ⟨by simp, by simpa using he1⟩)
  rw [fcontents_truncate_ok _ (M : Int).toNat (by simp)] at ht2
  simp only [sub_zero, zero_add, Int.toNat_ofNat, Option.getD_some] at ht2
  have he2 : (M : Int) - 1 ≤ (if e1 < (M : Int) then (M : Int) - 1 else e1) := by
    split_ifs <;> omega
  generalize (if e1 < (M : Int) then (M : Int) - 1 else e1) = e2 at ht2 he2
  generalize ftruncateTo f1 M = f2 at ht2
  obtain ⟨fh2, hfh2⟩ : ∃ x, x = (gdrive_file_truncate info remote2 fh1 M).1 := ⟨_, rfl⟩
  have hl2 : fh2.pContents = dA ++ ⟨0, e2, some f2⟩ :: dB := by
    rw [hfh2, ht2]
  have hs2 : fh2.fileinfo.size = M := by rw [hfh2, ht2]
  have hr2 : (gdrive_file_truncate info remote2 fh1 M).2 = 0 := by rw [ht2]
  rw [← hfh2]
  clear ht2 hfh2
  refine ⟨hr1, hr2, ?_, ?_, hs2⟩
  · intro x hx
    rw [hl1] at hx
    rcases List.mem_append.mp hx with hx | hx
    · exact not_lt.mpr (hdA0 x hx)
    · rcases List.mem_cons.mp hx with rfl | hx
      · simp
      · exact not_lt.mpr (hdB0 x hx)
  · intro x hx
    rw [hl2] at hx
    rcases List.mem_append.mp hx with hx | hx
    · exact not_lt.mpr (hdA0 x hx)
    · rcases List.mem_cons.mp hx with rfl | hx
      · simp
      · exact not_lt.mpr (hdB0 x hx)

/-- Shrink-then-grow, sizes and ranges. Let the handle have write permission,
let the file have size `S > 1`, and let `M > S`. Let byte 0 be held by a
resident chunk that starts at 0, or let no chunk hold byte 0 and the download
made to cache it succeed. Then `gdrive_file_truncate(fh, 1)` and the
following `gdrive_file_truncate(fh, M)` both return 0, no chunk that starts
after byte 0 is left after either call, and the file size is `M` at the
end. -/
theorem shrink_then_grow_sizes (info : Gdrive_Info) (remote1 remote2 : Remote)
    (fh : Gdrive_Cache_Node) (M : Nat)
    (hperm : gdrive_file_check_perm info fh O_RDWR = true)
    (hS : 1 < fh.fileinfo.size) (hM : fh.fileinfo.size < M)
    (hfirst :
      (∃ i, gdrive_fcontents_find_chunk fh.pContents 0 = some i ∧
        (chunkAt fh.pContents i).start = 0) ∨
      (gdrive_fcontents_find_chunk fh.pContents 0 = none ∧
        (∀ c ∈ fh.pContents, c.fh ≠ none) ∧
        ∃ body, remote1.download (fh.fileinfo.id.getD "") 0 (-1) = some body)) :
    (gdrive_file_truncate info remote1 fh 1).2 = 0 ∧
    (gdrive_file_truncate info remote2 (gdrive_file_truncate info remote1 fh 1).1 M).2 = 0 ∧
    (∀ c ∈ (gdrive_file_truncate info remote1 fh 1).1.pContents, ¬ c.start > 0) ∧
    (∀ c ∈ (gdrive_file_truncate info remote2
        (gdrive_file_truncate info remote1 fh 1).1 M).1.pContents, ¬ c.start > 0) ∧
    (gdrive_file_truncate info remote2
      (gdrive_file_truncate info remote1 fh 1).1 M).1.fileinfo.size = M := by
  have hro := check_perm_rdonly_of_rdwr info fh hperm
  rcases hfirst with ⟨i, hfind, hstart⟩ | ⟨hfind, hfh, body, hdl⟩
  · obtain ⟨A, c, B, hl, hlen, hA, hc, hh⟩ := find_chunk_some 0 fh.pContents i hfind
    subst hlen
    rw [hl, chunkAt_split] at hstart
    obtain ⟨hr1, hr2⟩ := file_read_null_resident info remote1 fh 0 A.length hro
      (by exact_mod_cast (by omega : 0 < fh.fileinfo.size)) hfind
    exact shrink_then_grow_core info remote1 remote2 fh fh A B c M hperm hS hM
      hr1 hr2 rfl hl hA hh hstart hc
  · obtain ⟨hr1, hr2⟩ := file_read_null_fetch_first info remote1 fh body hro
      (by omega) hfind hdl
    exact shrink_then_grow_core info remote1 remote2 fh _ fh.pContents []
      ⟨0, -1, some body⟩ M hperm hS hM hr1 hr2 rfl rfl
      (fun a ha => ⟨hfh a ha, find_chunk_none_holds 0 fh.pContents hfh hfind a ha⟩)
      (Or.inr ⟨rfl, by show (-1 : Int) < 0; decide⟩) rfl (by simp)

/-- C11 fails on the code: the bytes behind the cut come back. On the file
of 6 bytes held in the chunks `[0,2]` (bytes 7, 8, 9) and `[3,5]`, truncating
to 1 and then to 8 returns 0 both times, discards the chunk `[3,5]`, leaves
the chunk that starts at 0 with the range `[0,7]` and sets the size to 8. But
the three bytes were written through the stream of the temporary file and
are still in its buffer when `gdrive_fcontents_truncate` resizes the file
through the descriptor: the file is cut to one byte and grown to eight zero
bytes, the next `fseek` writes the buffer over them, and the read of `[0,8)`
delivers 7, 8, 9 and five zero bytes, not 7 and seven zero bytes. -/
theorem C11_truncate_keeps_buffered_bytes :
    (gdrive_file_truncate exampleInfo failingRemote twoChunkNode 1).2 = 0 ∧
    (gdrive_file_truncate exampleInfo failingRemote twoChunkNode 1).1.pContents.map
      (fun c => (c.start, c.end_)) = [(0, 2)] ∧
    (gdrive_file_truncate exampleInfo failingRemote
      (gdrive_file_truncate exampleInfo failingRemote twoChunkNode 1).1 8).2 = 0 ∧
    (gdrive_file_truncate exampleInfo failingRemote
      (gdrive_file_truncate exampleInfo failingRemote twoChunkNode 1).1 8).1.pContents.map
      (fun c => (c.start, c.end_)) = [(0, 7)] ∧
    (gdrive_file_truncate exampleInfo failingRemote
      (gdrive_file_truncate exampleInfo failingRemote twoChunkNode 1).1 8).1.fileinfo.size = 8 ∧
    Buffered.gdrive_fcontents_write Buffered.gdrive_fcontents_create [7, 8, 9] 0 3 true
      = ({ start := 0, end_ := 2, fh := some { disk := [], pending := some (0, [7, 8, 9]) } },
         3) ∧
    Buffered.gdrive_fcontents_truncate
        { start := 0, end_ := 2, fh := some { disk := [], pending := some (0, [7, 8, 9]) } } 1
      = ({ start := 0, end_ := 2, fh := some { disk := [0], pending := some (0, [7, 8, 9]) } },
         0) ∧
    Buffered.gdrive_fcontents_truncate
        { start := 0, end_ := 2, fh := some { disk := [0], pending := some (0, [7, 8, 9]) } } 8
      = ({ start := 0, end_ := 7,
           fh := some { disk := [0, 0, 0, 0, 0, 0, 0, 0], pending := some (0, [7, 8, 9]) } },
         0) ∧
    Buffered.gdrive_fcontents_read
        { start := 0, end_ := 7,
          fh := some { disk := [0, 0, 0, 0, 0, 0, 0, 0], pending := some (0, [7, 8, 9]) } }
        true 0 8
      = ({ start := 0, end_ := 7,
           fh := some { disk := [7, 8, 9, 0, 0, 0, 0, 0], pending := none } },
         8, [7, 8, 9, 0, 0, 0, 0, 0]) := by
  decide

/-- The same three calls on a chunk whose bytes came from the download: the
transfer writes the body through the stream, and the bytes behind the cut
come back as well. -/
theorem truncate_keeps_downloaded_bytes :
    (Buffered.gdrive_fcontents_read
      (Buffered.gdrive_fcontents_truncate
        (Buffered.gdrive_fcontents_truncate
          (Buffered.gdrive_fcontents_fill_chunk
            { failingRemote with download := fun _ _ _ => some [7, 8, 9] }
            Buffered.gdrive_fcontents_create "B" 0 3).1 1).1 8).1 true 0 8).2
      = (8, [7, 8, 9, 0, 0, 0, 0, 0]) := by
  decide

/-- With the stream flushed before the resize the read delivers the first
byte and seven zero bytes, the null bytes `gdrive-file.h` promises. -/
theorem truncate_after_flush_zeroes :
    (Buffered.gdrive_fcontents_read
      (Buffered.gdrive_fcontents_truncate
        (Buffered.gdrive_fcontents_truncate
          { start := 0, end_ := 2,
            fh := some (FILE.flush { disk := [], pending := some (0, [7, 8, 9]) }) } 1).1
        8).1 true 0 8).2
      = (8, [7, 0, 0, 0, 0, 0, 0, 0]) := by
  decide

theorem buffered_truncate_at_zero (e : Int) (f : FILE) (size : Nat) :
    Buffered.gdrive_fcontents_truncate { start := 0, end_ := e, fh := some f } size
      = ({ start := 0, end_ := if e < (size : Int) then (size : Int) - 1 else e,
           fh := some (f.ftruncate_fileno size) }, 0) := by
  unfold Buffered.gdrive_fcontents_truncate
  simp

theorem buffered_write_at_zero (e : Int) (f : FILE) (buf : List Nat) (hne : buf ≠ []) :
    (Buffered.gdrive_fcontents_write { start := 0, end_ := e, fh := some f }
        buf 0 buf.length true).1
      = { start := 0, end_ := if (buf.length : Int) - 1 > e then (buf.length : Int) - 1 else e,
          fh := some { disk := f.flush.disk, pending := some (0, buf) } } := by
  unfold Buffered.gdrive_fcontents_write FILE.fseek_fwrite
  simp [hne]

/-- The bytes written through the stream come back behind the cut, whatever
the temporary file held before: after `gdrive_fcontents_write` of `buf` at
the start of a chunk, `gdrive_fcontents_truncate` to 1 and then to `M` bytes,
the read of `M` bytes returns all of `buf` followed by zero bytes, not the
first byte of `buf` followed by zero bytes. -/
theorem truncate_keeps_written_bytes (d : List Nat) (e : Int) (buf : List Nat) (M : Nat)
    (hbuf : 1 ≤ buf.length) (hM : buf.length ≤ M) :
    (Buffered.gdrive_fcontents_read
      (Buffered.gdrive_fcontents_truncate
        (Buffered.gdrive_fcontents_truncate
          (Buffered.gdrive_fcontents_write
            { start := 0, end_ := e, fh := some { disk := d, pending := none } }
            buf 0 buf.length true).1 1).1 M).1 true 0 M).2
      = ((M : Int), buf ++ List.replicate (M - buf.length) 0) := by
  have hne : buf ≠ [] := by
    intro h
    rw [h] at hbuf
    simp at hbuf
  have hd1 : (ftruncateTo d 1).length = 1 := by
    unfold ftruncateTo
    simp only [List.length_append, List.length_take, List.length_replicate]
    omega
  have hd2 : ftruncateTo (ftruncateTo d 1) M
      = ftruncateTo d 1 ++ List.replicate (M - 1) 0 := by
    generalize ftruncateTo d 1 = d1 at hd1
    unfold ftruncateTo
    rw [hd1, List.take_of_length_le (by rw [hd1]; omega)]
  have hdrop : (ftruncateTo d 1 ++ List.replicate (M - 1) 0).drop buf.length
      = List.replicate (M - buf.length) 0 := by
    generalize ftruncateTo d 1 = d1 at hd1
    rw [List.drop_append_eq_append_drop, hd1, List.drop_of_length_le (by rw [hd1]; omega),
      List.nil_append, List.drop_replicate]
    congr 1
    omega
  have hlen : (buf ++ List.replicate (M - buf.length) 0).length = M := by
    simp only [List.length_append, List.length_replicate]
    omega
  rw [buffered_write_at_zero e _ buf hne, buffered_truncate_at_zero, buffered_truncate_at_zero]
  generalize (if (if (if (buf.length : Int) - 1 > e then (buf.length : Int) - 1 else e)
      < ((1 : Nat) : Int) then ((1 : Nat) : Int) - 1
      else if (buf.length : Int) - 1 > e then (buf.length : Int) - 1 else e) < (M : Int)
      then (M : Int) - 1
      else if (if (buf.length : Int) - 1 > e then (buf.length : Int) - 1 else e)
        < ((1 : Nat) : Int) then ((1 : Nat) : Int) - 1
      else if (buf.length : Int) - 1 > e then (buf.length : Int) - 1 else e) = e3
  unfold Buffered.gdrive_fcontents_read FILE.fseek_fread
  simp only [Bool.true_eq_false, if_false, Option.getD_some, FILE.ftruncate_fileno, FILE.flush,
    hd2, sub_zero, Int.toNat_zero]
  have hw : fwriteAt (ftruncateTo d 1 ++ List.replicate (M - 1) 0) 0 buf
      = buf ++ List.replicate (M - buf.length) 0 := by
    unfold fwriteAt
    simp only [List.take_zero, List.nil_append, zero_add, hdrop]
  rw [hw]
  unfold freadAt
  simp only [List.drop_zero, List.take_of_length_le (le_of_eq hlen), hlen]

/-! ## Synchronising the content (C12) -/

theorem create_chunk_dirty (info : Gdrive_Info) (remote : Remote)
    (pNode : Gdrive_Cache_Node) (offset : Int) (size : Nat) (fillChunk : Bool) :
    (gdrive_cnode_create_chunk info remote pNode offset size fillChunk).1.dirty
      = pNode.dirty := by
  unfold gdrive_cnode_create_chunk
  simp only [gdrive_cnode_add_contents]
  split_ifs
  · split <;> rfl
  · rfl

theorem read_next_chunk_dirty (info : Gdrive_Info) (remote : Remote)
    (pFile : Gdrive_Cache_Node) (destBuf : Bool) (offset : Int) (size : Nat) :
    (gdrive_file_read_next_chunk info remote pFile destBuf offset size).1.dirty
      = pFile.dirty := by
  unfold gdrive_file_read_next_chunk
  split
  · rfl
  · have h := create_chunk_dirty info remote pFile offset size true
    split <;> rename_i heq <;> rw [heq] at h <;> exact h

theorem read_loop_dirty (info : Gdrive_Info) (remote : Remote) (destBuf : Bool)
    (realSize : Nat) :
    ∀ (turns : Nat) (fh : Gdrive_Cache_Node) (nextOffset : Int) (bytesRemaining : Nat)
      (buf : List Nat),
      (gdrive_file_read_loop info remote turns fh destBuf nextOffset
        bytesRemaining realSize buf).1.dirty = fh.dirty := by
  intro turns
  induction turns with
  | zero => intro fh _ _ _; rfl
  | succ turns ih =>
    intro fh nextOffset bytesRemaining buf
    unfold gdrive_file_read_loop
    have h := read_next_chunk_dirty info remote fh destBuf nextOffset bytesRemaining
    generalize gdrive_file_read_next_chunk info remote fh destBuf nextOffset
        bytesRemaining = res at h
    obtain ⟨fh1, bytesRead, data⟩ := res
    simp only at h ⊢
    split_ifs
    · exact h
    · exact h
    · exact (ih _ _ _ _).trans h
    · rfl

theorem file_read_dirty (info : Gdrive_Info) (remote : Remote)
    (fh : Gdrive_Cache_Node) (destBuf : Bool) (size : Nat) (offset : Int) :
    (gdrive_file_read info remote fh destBuf size offset).1.dirty = fh.dirty := by
  unfold gdrive_file_read
  split_ifs
  · rfl
  · rfl
  · exact read_loop_dirty _ _ _ _ _ _ _ _ _
  · exact read_loop_dirty _ _ _ _ _ _ _ _ _

theorem upload_reads_dirty (info : Gdrive_Info) (remote : Remote) :
    ∀ (reqs : List (Int × Nat)) (a : Gdrive_Cache_Node),
      (reqs.foldl (fun pNode req =>
        (gdrive_file_read info remote pNode true req.2 req.1).1) a).dirty = a.dirty := by
  intro reqs
  induction reqs with
  | nil => intro a; rfl
  | cons r rs ih =>
    intro a
    simp only [List.foldl_cons]
    exact (ih _).trans (file_read_dirty info remote a true r.2 r.1)

/-- C12. On a node that is not dirty `gdrive_file_sync` returns 0 and leaves
the node as it is, whatever the remote side would answer. On a dirty node the
dirty flag is clear afterwards exactly when the handle has write permission
and the upload produced a response with an HTTP status below 400; it stays
set when write permission is missing, when the transfer produced no response
and when the status is 400 or above. -/
theorem C12_sync_clears_dirty_on_success (info : Gdrive_Info) (remote : Remote)
    (fh : Gdrive_Cache_Node) :
    (fh.dirty = false → gdrive_file_sync info remote fh = (fh, 0)) ∧
    (fh.dirty = true →
      ((gdrive_file_sync info remote fh).1.dirty = false ↔
        (gdrive_file_check_perm info fh O_RDWR = true ∧
          ∃ status, remote.uploadStatus = some status ∧ status < 400)) ∧
      (gdrive_file_check_perm info fh O_RDWR = false →
        (gdrive_file_sync info remote fh).1.dirty = true) ∧
      (remote.uploadStatus = none → (gdrive_file_sync info remote fh).1.dirty = true) ∧
      (∀ status, remote.uploadStatus = some status → 400 ≤ status →
        (gdrive_file_sync info remote fh).1.dirty = true)) := by
  have hd := upload_reads_dirty info remote remote.uploadReads fh
  constructor
  · intro h
    unfold gdrive_file_sync
    rw [if_pos h]
  · intro h
    have key : (gdrive_file_sync info remote fh).1.dirty = false ↔
        (gdrive_file_check_perm info fh O_RDWR = true ∧
          ∃ status, remote.uploadStatus = some status ∧ status < 400) := by
      unfold gdrive_file_sync
      rw [if_neg (by rw [h]; simp)]
      by_cases hp : gdrive_file_check_perm info fh O_RDWR = false
      · rw [if_pos hp]
        simp [h, hp]
      · rw [if_neg hp]
        have hp1 : gdrive_file_check_perm info fh O_RDWR = true := by simpa using hp
        cases hs : remote.uploadStatus with
        | none => simp [hd, h]
        | some status =>
          by_cases h4 : status ≥ 400
          · simp [h4, hd, h]
          · simp [h4, hp1]
            omega
    refine ⟨key, ?_, ?_, ?_⟩
    · intro hp
      cases hr : (gdrive_file_sync info remote fh).1.dirty with
      | true => rfl
      | false => rw [key.mp hr |>.1] at hp; simp at hp
    · intro hs
      cases hr : (gdrive_file_sync info remote fh).1.dirty with
      | true => rfl
      | false =>
        obtain ⟨_, s, hs2, _⟩ := key.mp hr
        rw [hs] at hs2
        simp at hs2
    · intro status hs h4
      cases hr : (gdrive_file_sync info remote fh).1.dirty with
      | true => rfl
      | false =>
        obtain ⟨_, s, hs2, hlt⟩ := key.mp hr
        rw [hs] at hs2
        simp only [Option.some.injEq] at hs2
        omega

theorem C12_sync_clears_dirty_on_success_witness :
    gdrive_file_sync exampleInfo failingRemote (exampleNode "B" 5) = (exampleNode "B" 5, 0) ∧
    (gdrive_file_sync exampleInfo uploadingRemote busyNode).1.dirty = false ∧
    (gdrive_file_sync exampleInfo failingRemote busyNode).1.dirty = true ∧
    (gdrive_file_sync exampleInfo overloadedRemote busyNode).1.dirty = true :=
  ⟨(C12_sync_clears_dirty_on_success exampleInfo failingRemote (exampleNode "B" 5)).1 rfl,
   ((C12_sync_clears_dirty_on_success exampleInfo uploadingRemote busyNode).2 rfl).1.mpr
     ⟨by decide, 200, rfl, by decide⟩,
   ((C12_sync_clears_dirty_on_success exampleInfo failingRemote busyNode).2 rfl).2.2.1 rfl,
   ((C12_sync_clears_dirty_on_success exampleInfo overloadedRemote busyNode).2 rfl).2.2.2
     503 rfl (by decide)⟩

/-! ## The return value of `gdrive_file_sync` (C13) -/

/-- C13: on a dirty node with write permission, when the upload transfer
produces no response or the server answers with an HTTP status of 400 or
above, `gdrive_file_sync` returns 1, which is not a negative error number;
the node stays dirty. -/
theorem C13_sync_returns_one_on_upload_failure (info : Gdrive_Info) (remote : Remote)
    (fh : Gdrive_Cache_Node) (hdirty : fh.dirty = true)
    (hperm : gdrive_file_check_perm info fh O_RDWR = true)
    (hfail : remote.uploadStatus = none ∨
      ∃ status, remote.uploadStatus = some status ∧ 400 ≤ status) :
    (gdrive_file_sync info remote fh).2 = 1 ∧
    ¬ (gdrive_file_sync info remote fh).2 < 0 ∧
    (gdrive_file_sync info remote fh).1.dirty = true := by
  have hd := upload_reads_dirty info remote remote.uploadReads fh
  unfold gdrive_file_sync
  rw [if_neg (by rw [hdirty]; simp), if_neg (by rw [hperm]; simp)]
  rcases hfail with hs | ⟨status, hs, h4⟩
  · simp [hs, hd, hdirty]
  · simp [hs, h4, hd, hdirty]

theorem C13_sync_returns_one_on_upload_failure_witness :
    (gdrive_file_sync exampleInfo failingRemote busyNode).2 = 1 ∧
    (gdrive_file_sync exampleInfo overloadedRemote busyNode).2 = 1 :=
  ⟨(C13_sync_returns_one_on_upload_failure exampleInfo failingRemote busyNode rfl
      (by decide) (Or.inl rfl)).1,
   (C13_sync_returns_one_on_upload_failure exampleInfo overloadedRemote busyNode rfl
      (by decide) (Or.inr ⟨503, rfl, by decide⟩)).1⟩

/-! ## Transfers with retry (C14, C15) -/

theorem requestCount_cons_request (events : List Gdrive_Transfer_Event) :
    requestCount (.request :: events) = requestCount events + 1 := by
  simp [requestCount]

theorem requestCount_cons_wait (tryNum : Int) (events : List Gdrive_Transfer_Event) :
    requestCount (.wait tryNum :: events) = requestCount events := by
  simp [requestCount]

theorem requestCount_cons_auth (events : List Gdrive_Transfer_Event) :
    requestCount (.auth :: events) = requestCount events := by
  simp [requestCount]

/-- With `tryNum` at most `maxTries`, at most `maxTries - tryNum + 1` requests
are sent. -/
theorem retry_request_bound (downloads : Nat → Gdrive_Download_Result) (auths : Nat → Int)
    (retryOnAuthError : Bool) (maxTries : Int) :
    ∀ (depth k nRequests nAuths : Nat) (tryNum : Int), tryNum + k = maxTries →
      requestCount (gdrive_dlbuf_download_with_retry downloads auths retryOnAuthError depth
        nRequests nAuths tryNum maxTries).2 ≤ k + 1 := by
  intro depth
  induction depth with
  | zero => intro k _ _ _ _; simp [gdrive_dlbuf_download_with_retry, requestCount]
  | succ depth ih =>
    intro k nRequests nAuths tryNum hk
    unfold gdrive_dlbuf_download_with_retry
    simp only
    by_cases h1 : (downloads nRequests).resultCode ≠ CURLE_OK
    · rw [if_pos h1]; simp [requestCount]
    rw [if_neg h1]
    by_cases h2 : (downloads nRequests).httpResp ≥ 400
    swap
    · rw [if_neg h2]; simp [requestCount]
    rw [if_pos h2]
    by_cases h3 : tryNum = maxTries
    · rw [if_pos h3]; simp [requestCount]
    rw [if_neg h3]
    have hk1 : 1 ≤ k := by
      rcases Nat.eq_zero_or_pos k with h0 | h0
      · subst h0; exact absurd (by simpa using hk) h3
      · exact h0
    have hrec := fun a b => ih (k - 1) a b (tryNum + 1) (by omega)
    cases gdrive_dlbuf_retry_on_error (downloads nRequests) (downloads nRequests).httpResp with
    | GDRIVE_RETRY_NORETRY => simp [requestCount]
    | GDRIVE_RETRY_RETRY =>
      have := hrec (nRequests + 1) nAuths
      generalize gdrive_dlbuf_download_with_retry downloads auths retryOnAuthError depth
        (nRequests + 1) nAuths (tryNum + 1) maxTries = res at this
      obtain ⟨r, ev⟩ := res
      simp only [requestCount_cons_request, requestCount_cons_wait] at this ⊢
      omega
    | GDRIVE_RETRY_RENEWAUTH =>
      simp only
      by_cases ha : retryOnAuthError = true
      swap
      · rw [if_neg ha]; simp [requestCount]
      rw [if_pos ha]
      by_cases hz : auths nAuths = 0
      swap
      · rw [if_neg hz]; simp [requestCount]
      rw [if_pos hz]
      have := hrec (nRequests + 1) (nAuths + 1)
      generalize gdrive_dlbuf_download_with_retry downloads auths retryOnAuthError depth
        (nRequests + 1) (nAuths + 1) (tryNum + 1) maxTries = res at this
      obtain ⟨r, ev⟩ := res
      simp only [requestCount_cons_request, requestCount_cons_auth] at this ⊢
      omega

/-- When every request is answered with a status of 500 or above, requests
are sent until `tryNum` has reached `maxTries`: `maxTries - tryNum + 1` of
them. -/
theorem retry_all_server_errors (downloads : Nat → Gdrive_Download_Result)
    (auths : Nat → Int) (retryOnAuthError : Bool) (maxTries : Int)
    (h500 : ∀ n, (downloads n).resultCode = CURLE_OK ∧ 500 ≤ (downloads n).httpResp) :
    ∀ (k depth nRequests nAuths : Nat) (tryNum : Int), tryNum + k = maxTries →
      k + 1 ≤ depth →
      (gdrive_dlbuf_download_with_retry downloads auths retryOnAuthError depth
        nRequests nAuths tryNum maxTries).1 = -1 ∧
      requestCount (gdrive_dlbuf_download_with_retry downloads auths retryOnAuthError depth
        nRequests nAuths tryNum maxTries).2 = k + 1 := by
  intro k
  induction k with
  | zero =>
    intro depth nRequests nAuths tryNum hk hd
    obtain ⟨d, rfl⟩ : ∃ d, depth = d + 1 := ⟨depth - 1, by omega⟩
    obtain ⟨hok, h5⟩ := h500 nRequests
    unfold gdrive_dlbuf_download_with_retry
    simp only
    rw [if_neg (by simp [hok]), if_pos (by omega), if_pos (by simpa using hk)]
    simp [requestCount]
  | succ k ih =>
    intro depth nRequests nAuths tryNum hk hd
    obtain ⟨d, rfl⟩ : ∃ d, depth = d + 1 := ⟨depth - 1, by omega⟩
    obtain ⟨hok, h5⟩ := h500 nRequests
    have hrec := ih d (nRequests + 1) nAuths (tryNum + 1) (by push_cast at hk ⊢; omega) (by omega)
    unfold gdrive_dlbuf_download_with_retry
    simp only
    rw [if_neg (by simp [hok]), if_pos (by omega), if_neg (by push_cast at hk; omega)]
    have hm : gdrive_dlbuf_retry_on_error (downloads nRequests) (downloads nRequests).httpResp
        = .GDRIVE_RETRY_RETRY := by
      unfold gdrive_dlbuf_retry_on_error
      rw [if_pos h5]
    rw [hm]
    generalize gdrive_dlbuf_download_with_retry downloads auths retryOnAuthError d
      (nRequests + 1) nAuths (tryNum + 1) maxTries = res at hrec
    obtain ⟨r, ev⟩ := res
    simp only [requestCount_cons_request, requestCount_cons_wait] at hrec ⊢
    exact ⟨hrec.1, by omega⟩

/-- The bound on the depth of the recursion is never the reason the transfer
stops: with `tryNum` at most `maxTries`, every depth above `maxTries - tryNum`
gives the same result. -/
theorem retry_depth_suffices (downloads : Nat → Gdrive_Download_Result)
    (auths : Nat → Int) (retryOnAuthError : Bool) (maxTries : Int) :
    ∀ (k depth nRequests nAuths : Nat) (tryNum : Int), tryNum + k = maxTries →
      k + 1 ≤ depth →
      gdrive_dlbuf_download_with_retry downloads auths retryOnAuthError depth
        nRequests nAuths tryNum maxTries
      = gdrive_dlbuf_download_with_retry downloads auths retryOnAuthError (k + 1)
        nRequests nAuths tryNum maxTries := by
  intro k
  induction k with
  | zero =>
    intro depth nRequests nAuths tryNum hk hd
    obtain ⟨d, rfl⟩ : ∃ d, depth = d + 1 := ⟨depth - 1, by omega⟩
    have ht : tryNum = maxTries := by simpa using hk
    simp only [gdrive_dlbuf_download_with_retry, ht, if_true]
  | succ k ih =>
    intro depth nRequests nAuths tryNum hk hd
    obtain ⟨d, rfl⟩ : ∃ d, depth = d + 1 := ⟨depth - 1, by omega⟩
    have hrec := fun a b => ih d a b (tryNum + 1) (by push_cast at hk ⊢; omega) (by omega)
    simp only [gdrive_dlbuf_download_with_retry, hrec]

/-- C14: called with `tryNum = 0` and `maxTries = GDRIVE_RETRY_LIMIT = 5`,
`gdrive_dlbuf_download_with_retry` sends at most 6 requests, whatever the
server answers; when every answer has an HTTP status of 500 or above it
sends exactly 6 requests, one more than `maxTries`, and returns -1. -/
theorem C14_retry_sends_up_to_six_requests (downloads : Nat → Gdrive_Download_Result)
    (auths : Nat → Int) (retryOnAuthError : Bool) (depth : Nat) (hdepth : 6 ≤ depth) :
    requestCount (gdrive_dlbuf_download_with_retry downloads auths retryOnAuthError depth
      0 0 0 GDRIVE_RETRY_LIMIT).2 ≤ 6 ∧
    ((∀ n, (downloads n).resultCode = CURLE_OK ∧ 500 ≤ (downloads n).httpResp) →
      (gdrive_dlbuf_download_with_retry downloads auths retryOnAuthError depth
        0 0 0 GDRIVE_RETRY_LIMIT).1 = -1 ∧
      requestCount (gdrive_dlbuf_download_with_retry downloads auths retryOnAuthError depth
        0 0 0 GDRIVE_RETRY_LIMIT).2 = 6) :=
  ⟨retry_request_bound downloads auths retryOnAuthError GDRIVE_RETRY_LIMIT depth 5 0 0 0
      (by decide),
   fun h500 => retry_all_server_errors downloads auths retryOnAuthError GDRIVE_RETRY_LIMIT
      h500 5 depth 0 0 0 (by decide) hdepth⟩

theorem C14_retry_sends_up_to_six_requests_witness :
    (gdrive_dlbuf_download_with_retry brokenServer (fun _ => 0) true 6
      0 0 0 GDRIVE_RETRY_LIMIT).1 = -1 ∧
    requestCount (gdrive_dlbuf_download_with_retry brokenServer (fun _ => 0) true 6
      0 0 0 GDRIVE_RETRY_LIMIT).2 = 6 :=
  (C14_retry_sends_up_to_six_requests brokenServer (fun _ => 0) true 6 (by decide)).2
    (fun _ => ⟨rfl, by show (500 : Int) ≤ 500; decide⟩)

/-- Every call sends its request first. -/
theorem retry_first_event (downloads : Nat → Gdrive_Download_Result) (auths : Nat → Int)
    (retryOnAuthError : Bool) (depth nRequests nAuths : Nat) (tryNum maxTries : Int) :
    ∃ events, (gdrive_dlbuf_download_with_retry downloads auths retryOnAuthError (depth + 1)
      nRequests nAuths tryNum maxTries).2 = .request :: events := by
  unfold gdrive_dlbuf_download_with_retry
  simp only
  split_ifs <;> first | exact ⟨_, rfl⟩ | (split <;> exact ⟨_, rfl⟩)

/-- C15. Let request number `nRequests` be answered with the HTTP status 401
while `tryNum` is below `maxTries`. With `retryOnAuthError` set, `gdrive_auth`
is called once; when it returns 0 the request is sent again right after it,
with no backoff wait in between, and the transfer goes on from that request; when it
fails the transfer returns -1 and nothing follows the `gdrive_auth` call.
Without `retryOnAuthError` the transfer returns -1 after the request, without
a call of `gdrive_auth` and without another request. -/
theorem C15_auth_error_handling (downloads : Nat → Gdrive_Download_Result)
    (auths : Nat → Int) (retryOnAuthError : Bool) (depth nRequests nAuths : Nat)
    (tryNum maxTries : Int)
    (hok : (downloads nRequests).resultCode = CURLE_OK)
    (h401 : (downloads nRequests).httpResp = 401) (hcap : tryNum < maxTries) :
    (retryOnAuthError = true → auths nAuths = 0 →
      gdrive_dlbuf_download_with_retry downloads auths retryOnAuthError (depth + 2)
          nRequests nAuths tryNum maxTries
        = ((gdrive_dlbuf_download_with_retry downloads auths retryOnAuthError (depth + 1)
            (nRequests + 1) (nAuths + 1) (tryNum + 1) maxTries).1,
           .request :: .auth ::
            (gdrive_dlbuf_download_with_retry downloads auths retryOnAuthError (depth + 1)
              (nRequests + 1) (nAuths + 1) (tryNum + 1) maxTries).2) ∧
      (gdrive_dlbuf_download_with_retry downloads auths retryOnAuthError (depth + 1)
        (nRequests + 1) (nAuths + 1) (tryNum + 1) maxTries).2.head? = some .request) ∧
    (retryOnAuthError = true → auths nAuths ≠ 0 →
      gdrive_dlbuf_download_with_retry downloads auths retryOnAuthError (depth + 2)
        nRequests nAuths tryNum maxTries = (-1, [.request, .auth])) ∧
    (retryOnAuthError = false →
      gdrive_dlbuf_download_with_retry downloads auths retryOnAuthError (depth + 2)
        nRequests nAuths tryNum maxTries = (-1, [.request])) := by
  have hm : gdrive_dlbuf_retry_on_error (downloads nRequests) (downloads nRequests).httpResp
      = .GDRIVE_RETRY_RENEWAUTH := by
    unfold gdrive_dlbuf_retry_on_error
    rw [h401, if_neg (by decide), if_pos rfl]
  have hstep : gdrive_dlbuf_download_with_retry downloads auths retryOnAuthError (depth + 2)
      nRequests nAuths tryNum maxTries =
      if retryOnAuthError then
        if auths nAuths = 0 then
          ((gdrive_dlbuf_download_with_retry downloads auths retryOnAuthError (depth + 1)
              (nRequests + 1) (nAuths + 1) (tryNum + 1) maxTries).1,
            .request :: .auth ::
              (gdrive_dlbuf_download_with_retry downloads auths retryOnAuthError (depth + 1)
                (nRequests + 1) (nAuths + 1) (tryNum + 1) maxTries).2)
        else (-1, [.request, .auth])
      else (-1, [.request]) := by
    conv_lhs => unfold gdrive_dlbuf_download_with_retry
    simp only
    rw [if_neg (by simp [hok]), if_pos (by rw [h401]; decide), if_neg (by omega), hm]
  refine ⟨?_, ?_, ?_⟩
  · intro hr ha
    obtain ⟨events, he⟩ := retry_first_event downloads auths retryOnAuthError depth
      (nRequests + 1) (nAuths + 1) (tryNum + 1) maxTries
    refine ⟨?_, by rw [he]; rfl⟩
    rw [hstep, if_pos hr, if_pos ha]
  · intro hr ha
    rw [hstep, if_pos hr, if_neg ha]
  · intro hr
    rw [hstep, if_neg (by simp [hr])]

theorem C15_auth_error_handling_witness :
    gdrive_dlbuf_download_with_retry expiredTokenServer (fun _ => 0) true 6 0 0 0
      GDRIVE_RETRY_LIMIT = (0, [.request, .auth, .request]) ∧
    gdrive_dlbuf_download_with_retry expiredTokenServer (fun _ => -1) true 6 0 0 0
      GDRIVE_RETRY_LIMIT = (-1, [.request, .auth]) ∧
    gdrive_dlbuf_download_with_retry expiredTokenServer (fun _ => 0) false 6 0 0 0
      GDRIVE_RETRY_LIMIT = (-1, [.request]) :=
  ⟨by
     rw [((C15_auth_error_handling expiredTokenServer (fun _ => 0) true
       4 0 0 0 GDRIVE_RETRY_LIMIT rfl rfl (by decide)).1 rfl rfl).1]
     decide,
   (C15_auth_error_handling expiredTokenServer (fun _ => -1) true 4 0 0 0
     GDRIVE_RETRY_LIMIT rfl rfl (by decide)).2.1 rfl (by decide),
   (C15_auth_error_handling expiredTokenServer (fun _ => 0) false 4 0 0 0
     GDRIVE_RETRY_LIMIT rfl rfl (by decide)).2.2 rfl⟩

/-! ## The change cursor (C16) -/

theorem cache_remove_id_cursor (remote : Remote) (now : Int) (pCache : Gdrive_Cache)
    (fileId : String) :
    (gdrive_cache_remove_id remote now pCache fileId).1.nextChangeId = pCache.nextChangeId := by
  unfold gdrive_cache_remove_id
  split
  · rfl
  · rfl

theorem cache_update_parents_cursor (remote : Remote) (now : Int) :
    ∀ (parents : List (Option String)) (pCache : Gdrive_Cache),
      (gdrive_cache_update_parents remote now pCache parents).1.nextChangeId
        = pCache.nextChangeId := by
  intro parents
  induction parents with
  | nil => intro pCache; rfl
  | cons a rest ih =>
    intro pCache
    cases a with
    | none => simp only [gdrive_cache_update_parents]; exact ih pCache
    | some parentId =>
      simp only [gdrive_cache_update_parents]
      exact (ih _).trans (cache_remove_id_cursor remote now pCache parentId)

theorem cache_update_item_cursor (remote : Remote) (now : Int) (pCache : Gdrive_Cache)
    (pItem : Option Gdrive_Change) :
    (gdrive_cache_update_item remote now pCache pItem).1.nextChangeId
      = pCache.nextChangeId := by
  unfold gdrive_cache_update_item
  cases pItem with
  | none => rfl
  | some item =>
    cases hfid : item.fileId with
    | none => simp only [hfid]
    | some fileId =>
      simp only [hfid]
      rw [cache_update_parents_cursor]
      split
      · split
        · split_ifs <;> rfl
        · rfl
      · rfl

theorem cache_update_items_cursor (remote : Remote) (now : Int) :
    ∀ (items : List (Option Gdrive_Change)) (pCache : Gdrive_Cache),
      (gdrive_cache_update_items remote now pCache items).1.nextChangeId
        = pCache.nextChangeId := by
  intro items
  induction items with
  | nil => intro pCache; rfl
  | cons a rest ih =>
    intro pCache
    simp only [gdrive_cache_update_items]
    exact (ih _).trans (cache_update_item_cursor remote now pCache a)

/-- C16 (change cursor). When the change feed is read and its
`largestChangeId` is `L`, `gdrive_cache_update` sets `nextChangeId` to
`L + 1`, sets `lastUpdateTime` to the current time and returns 0, whatever
the items of the feed are (items that cannot be read or lack a file
identifier are skipped). When `largestChangeId` cannot be read, or there is
no feed at all, `nextChangeId` keeps its value and the call returns -1. -/
theorem C16_update_advances_cursor (remote : Remote) (now : Int) (pCache : Gdrive_Cache) :
    (∀ pObj L, remote.changes = some pObj → pObj.largestChangeId = some L →
      (gdrive_cache_update remote now pCache).1.nextChangeId = L + 1 ∧
      (gdrive_cache_update remote now pCache).1.lastUpdateTime = now ∧
      (gdrive_cache_update remote now pCache).2.1 = 0) ∧
    (∀ pObj, remote.changes = some pObj → pObj.largestChangeId = none →
      (gdrive_cache_update remote now pCache).1.nextChangeId = pCache.nextChangeId ∧
      (gdrive_cache_update remote now pCache).2.1 = -1) ∧
    (remote.changes = none →
      (gdrive_cache_update remote now pCache).1.nextChangeId = pCache.nextChangeId ∧
      (gdrive_cache_update remote now pCache).2.1 = -1) := by
  refine ⟨?_, ?_, ?_⟩
  · intro pObj L hc hl
    unfold gdrive_cache_update
    rw [hc]
    simp only [hl]
    exact ⟨trivial, trivial, trivial⟩
  · intro pObj hc hl
    unfold gdrive_cache_update
    rw [hc]
    simp only [hl]
    exact ⟨cache_update_items_cursor remote now pObj.items pCache, trivial⟩
  · intro hc
    unfold gdrive_cache_update
    rw [hc]
    exact ⟨rfl, rfl⟩

theorem C16_update_advances_cursor_witness :
    (gdrive_cache_update gappyFeedRemote 100 exampleCache).1.nextChangeId = 42 ∧
    (gdrive_cache_update gappyFeedRemote 100 exampleCache).1.lastUpdateTime = 100 ∧
    (gdrive_cache_update gappyFeedRemote 100 exampleCache).2.1 = 0 ∧
    (gdrive_cache_update cursorlessFeedRemote 100 exampleCache).1.nextChangeId = 1 ∧
    (gdrive_cache_update cursorlessFeedRemote 100 exampleCache).2.1 = -1 ∧
    (gdrive_cache_update failingRemote 100 exampleCache).2.1 = -1 :=
  have h1 := (C16_update_advances_cursor gappyFeedRemote 100 exampleCache).1 _ 41 rfl rfl
  have h2 := (C16_update_advances_cursor cursorlessFeedRemote 100 exampleCache).2.1 _ rfl rfl
  have h3 := (C16_update_advances_cursor failingRemote 100 exampleCache).2.2 rfl
  ⟨h1.1, h1.2.1, h1.2.2, h2.1, h2.2, h3.2⟩

/-! ## Staleness of the path cache (C17) -/

theorem cache_remove_id_ttl (remote : Remote) (now : Int) (pCache : Gdrive_Cache)
    (fileId : String) :
    (gdrive_cache_remove_id remote now pCache fileId).1.cacheTTL = pCache.cacheTTL := by
  unfold gdrive_cache_remove_id
  split
  · rfl
  · rfl

theorem cache_update_parents_ttl (remote : Remote) (now : Int) :
    ∀ (parents : List (Option String)) (pCache : Gdrive_Cache),
      (gdrive_cache_update_parents remote now pCache parents).1.cacheTTL
        = pCache.cacheTTL := by
  intro parents
  induction parents with
  | nil => intro pCache; rfl
  | cons a rest ih =>
    intro pCache
    cases a with
    | none => simp only [gdrive_cache_update_parents]; exact ih pCache
    | some parentId =>
      simp only [gdrive_cache_update_parents]
      exact (ih _).trans (cache_remove_id_ttl remote now pCache parentId)

theorem cache_update_item_ttl (remote : Remote) (now : Int) (pCache : Gdrive_Cache)
    (pItem : Option Gdrive_Change) :
    (gdrive_cache_update_item remote now pCache pItem).1.cacheTTL = pCache.cacheTTL := by
  unfold gdrive_cache_update_item
  cases pItem with
  | none => rfl
  | some item =>
    cases hfid : item.fileId with
    | none => simp only [hfid]
    | some fileId =>
      simp only [hfid]
      rw [cache_update_parents_ttl]
      split
      · split
        · split_ifs <;> rfl
        · rfl
      · rfl

theorem cache_update_items_ttl (remote : Remote) (now : Int) :
    ∀ (items : List (Option Gdrive_Change)) (pCache : Gdrive_Cache),
      (gdrive_cache_update_items remote now pCache items).1.cacheTTL = pCache.cacheTTL := by
  intro items
  induction items with
  | nil => intro pCache; rfl
  | cons a rest ih =>
    intro pCache
    simp only [gdrive_cache_update_items]
    exact (ih _).trans (cache_update_item_ttl remote now pCache a)

/-- After `gdrive_cache_update` the bulk-refresh time is the current time and
the TTL is what it was. -/
theorem cache_update_times (remote : Remote) (now : Int) (pCache : Gdrive_Cache) :
    (gdrive_cache_update remote now pCache).1.lastUpdateTime = now ∧
    (gdrive_cache_update remote now pCache).1.cacheTTL = pCache.cacheTTL := by
  unfold gdrive_cache_update
  cases remote.changes with
  | none => exact ⟨rfl, rfl⟩
  | some pObj =>
    simp only
    have := cache_update_items_ttl remote now pObj.items pCache
    cases pObj.largestChangeId with
    | none => exact ⟨rfl, this⟩
    | some L => exact ⟨rfl, this⟩

/-- A lookup in a cache that was refreshed at the current time, with a TTL
that is not negative, makes no update. -/
theorem get_fileid_fresh (remote : Remote) (now : Int) (depth : Nat) (pCache : Gdrive_Cache)
    (path : String) (httl : 0 ≤ pCache.cacheTTL) (hnow : pCache.lastUpdateTime = now) :
    gdrive_cache_get_fileid remote now (depth + 1) pCache path =
      (pCache,
       (match gdrive_fidnode_get_node pCache.pFileIdCacheHead path with
        | none => none
        | some pNode => gdrive_fidnode_get_fileid pNode), 0) := by
  unfold gdrive_cache_get_fileid
  cases gdrive_fidnode_get_node pCache.pFileIdCacheHead path with
  | none => rfl
  | some pNode =>
    simp only
    rw [if_neg]
    split_ifs <;> omega

/-- C17 fails as stated: with a TTL of -1 the entry of `/a` is expired again
right after the update, so the lookup that is started again pulls the change
feed once more, and so on: three levels of the recursion make three
`gdrive_cache_update` calls. -/
theorem C17_negative_ttl_updates_again :
    (gdrive_fidnode_get_node negativeTtlCache.pFileIdCacheHead "/a").isSome = true ∧
    (gdrive_cache_get_fileid failingRemote 100 3 negativeTtlCache "/a").2.2 = 3 := by
  decide

/-- C17 (path cache staleness), for a TTL that is not negative and one clock
reading during the call. A path without an entry gives NULL and no update.
An entry is expired exactly when
`now > max(entry.lastUpdateTime, cache.lastUpdateTime) + TTL`: an entry that
is not expired is returned without an update, and for an expired entry
`gdrive_cache_update` is called exactly once and the lookup that is started
again returns without a further update, with the identifier of the entry when
the path still has one after the update and NULL otherwise. -/
theorem C17_path_cache_staleness (remote : Remote) (now : Int) (depth : Nat)
    (pCache : Gdrive_Cache) (path : String) (httl : 0 ≤ pCache.cacheTTL) :
    (gdrive_fidnode_get_node pCache.pFileIdCacheHead path = none →
      gdrive_cache_get_fileid remote now (depth + 1) pCache path = (pCache, none, 0)) ∧
    (∀ pNode, gdrive_fidnode_get_node pCache.pFileIdCacheHead path = some pNode →
      (¬ now > max pNode.lastUpdateTime pCache.lastUpdateTime + pCache.cacheTTL →
        gdrive_cache_get_fileid remote now (depth + 1) pCache path
          = (pCache, pNode.fileId, 0)) ∧
      (now > max pNode.lastUpdateTime pCache.lastUpdateTime + pCache.cacheTTL →
        gdrive_cache_get_fileid remote now (depth + 2) pCache path
          = ((gdrive_cache_update remote now pCache).1,
             (match gdrive_fidnode_get_node
                (gdrive_cache_update remote now pCache).1.pFileIdCacheHead path with
              | none => none
              | some pNode1 => pNode1.fileId), 1))) := by
  have hmax : ∀ a b : Int, (if a > b then a else b) = max a b := by
    intro a b
    rcases le_total a b with h | h
    · rw [if_neg (by omega), max_eq_right h]
    · rcases eq_or_lt_of_le h with h1 | h1
      · rw [if_neg (by omega), h1, max_self]
      · rw [if_pos h1, max_eq_left h]
  refine ⟨?_, ?_⟩
  · intro hnone
    unfold gdrive_cache_get_fileid
    rw [hnone]
  · intro pNode hsome
    refine ⟨?_, ?_⟩
    · intro hfresh
      unfold gdrive_cache_get_fileid
      rw [hsome]
      simp only [hmax]
      rw [if_neg hfresh]
      rfl
    · intro hstale
      obtain ⟨ht1, ht2⟩ := cache_update_times remote now pCache
      have := get_fileid_fresh remote now depth (gdrive_cache_update remote now pCache).1 path
        (by rw [ht2]; exact httl) ht1
      conv_lhs => unfold gdrive_cache_get_fileid
      rw [hsome]
      simp only [hmax]
      rw [if_pos hstale, this]
      rfl

theorem C17_path_cache_staleness_witness :
    gdrive_cache_get_fileid failingRemote 60 1 pathCache "/a" = (pathCache, some "A", 0) ∧
    (gdrive_cache_get_fileid failingRemote 100 2 pathCache "/a").2 = (some "A", 1) ∧
    gdrive_cache_get_fileid failingRemote 100 1 pathCache "/b" = (pathCache, none, 0) :=
  have h := C17_path_cache_staleness failingRemote 60 0 pathCache "/a" (by decide)
  have h2 := C17_path_cache_staleness failingRemote 100 0 pathCache "/a" (by decide)
  have h3 := C17_path_cache_staleness failingRemote 100 0 pathCache "/b" (by decide)
  ⟨(h.2 _ rfl).1 (by decide),
   by rw [(h2.2 _ rfl).2 (by decide)]; rfl,
   h3.1 rfl⟩

/-! ## Insertion into the path cache (C18) -/

theorem strcmpChars_swap : ∀ (a b : List Char), strcmpChars b a = - strcmpChars a b
  | [], [] => rfl
  | [], _ :: _ => rfl
  | _ :: _, [] => rfl
  | x :: xs, y :: ys => by
    simp only [strcmpChars]
    by_cases h : x = y
    · subst h
      simp only [if_true]
      exact strcmpChars_swap xs ys
    · have h2 : ¬ y = x := fun e => h e.symm
      rw [if_neg h, if_neg h2]
      rcases lt_trichotomy x y with hlt | heq | hgt
      · rw [if_pos hlt, if_neg (not_lt.mpr (le_of_lt hlt))]
        rfl
      · exact absurd heq h
      · rw [if_neg (not_lt.mpr (le_of_lt hgt)), if_pos hgt]

theorem strcmpChars_trans : ∀ (a b c : List Char),
    strcmpChars a b < 0 → strcmpChars b c < 0 → strcmpChars a c < 0
  | [], [], _ => fun h _ => by simp [strcmpChars] at h
  | [], _ :: _, [] => fun _ h => by simp [strcmpChars] at h
  | [], _ :: _, _ :: _ => fun _ _ => by simp [strcmpChars]
  | _ :: _, [], _ => fun h _ => by simp [strcmpChars] at h
  | _ :: _, _ :: _, [] => fun _ h => by simp [strcmpChars] at h
  | x :: xs, y :: ys, z :: zs => by
    intro h1 h2
    simp only [strcmpChars] at h1 h2 ⊢
    by_cases hxy : x = y
    · subst hxy
      simp only [if_true] at h1
      by_cases hxz : x = z
      · subst hxz
        simp only [if_true] at h2 ⊢
        exact strcmpChars_trans xs ys zs h1 h2
      · rw [if_neg hxz] at h2 ⊢
        exact h2
    · rw [if_neg hxy] at h1
      have hlt1 : x < y := by
        by_contra hn
        rw [if_neg hn] at h1
        simp at h1
      by_cases hyz : y = z
      · subst hyz
        rw [if_neg hxy, if_pos hlt1]
        decide
      · rw [if_neg hyz] at h2
        have hlt2 : y < z := by
          by_contra hn
          rw [if_neg hn] at h2
          simp at h2
        have hlt : x < z := lt_trans hlt1 hlt2
        rw [if_neg (ne_of_lt hlt), if_pos hlt]
        decide

theorem strcmp_swap (a b : String) : strcmp b a = - strcmp a b :=
  strcmpChars_swap a.data b.data

theorem strcmp_trans (a b c : String) (h1 : strcmp a b < 0) (h2 : strcmp b c < 0) :
    strcmp a c < 0 :=
  strcmpChars_trans _ _ _ h1 h2

theorem fidnode_update_item_spec (now : Int) (pNode : Gdrive_Fileid_Cache_Node)
    (fileId : String) :
    (gdrive_fidnode_update_item now pNode fileId).2 = 0 ∧
    (gdrive_fidnode_update_item now pNode fileId).1.path = pNode.path ∧
    (gdrive_fidnode_update_item now pNode fileId).1.fileId = some fileId := by
  unfold gdrive_fidnode_update_item
  simp only
  cases hid : pNode.fileId with
  | none => exact ⟨rfl, rfl, rfl⟩
  | some oldId =>
    simp only
    by_cases h : strcmp fileId oldId = 0
    · rw [if_neg (by simp [h])]
      refine ⟨rfl, rfl, ?_⟩
      simp only [hid]
      rw [eq_of_strcmp_eq_zero fileId oldId h]
    · rw [if_pos h]
      exact ⟨rfl, rfl, rfl⟩

theorem pathBelow_congr (a a1 b : Gdrive_Fileid_Cache_Node) (h : a1.path = a.path) :
    pathBelow a1 b ↔ pathBelow a b := by
  unfold pathBelow
  rw [h]

/-- Every entry of the list after `gdrive_fidnode_add` carries the added
path or was in the list before (possibly with another identifier and
time). -/
theorem fidnode_add_mem (now : Int) (path fileId : String) :
    ∀ (l : List Gdrive_Fileid_Cache_Node), (∀ a ∈ l, a.path ≠ none) →
      ∀ x ∈ (gdrive_fidnode_add now l path fileId).1, x.path = some path ∨ x ∈ l := by
  intro l
  induction l with
  | nil =>
    intro _ x hx
    simp only [gdrive_fidnode_add, List.mem_singleton] at hx
    left; rw [hx]; rfl
  | cons pNext rest ih =>
    intro hp x hx
    have hpn := hp pNext (List.mem_cons_self _ _)
    unfold gdrive_fidnode_add at hx
    cases hpath : pNext.path with
    | none => exact absurd hpath hpn
    | some nextPath =>
      simp only [hpath] at hx
      by_cases h0 : strcmp path nextPath = 0
      · rw [if_pos h0] at hx
        rcases List.mem_cons.mp hx with rfl | hx
        · left
          rw [(fidnode_update_item_spec now pNext fileId).2.1, hpath,
            eq_of_strcmp_eq_zero path nextPath h0]
        · right; exact List.mem_cons_of_mem _ hx
      · rw [if_neg h0] at hx
        by_cases h1 : strcmp path nextPath < 0
        · rw [if_pos h1] at hx
          rcases List.mem_cons.mp hx with rfl | hx
          · left; rfl
          · right; exact hx
        · rw [if_neg h1] at hx
          rcases List.mem_cons.mp hx with rfl | hx
          · right; exact List.mem_cons_self _ _
          · rcases ih (fun a ha => hp a (List.mem_cons_of_mem _ ha)) x hx with h | h
            · left; exact h
            · right; exact List.mem_cons_of_mem _ h

theorem fidnode_add_ascending (now : Int) (path fileId : String) :
    ∀ (l : List Gdrive_Fileid_Cache_Node), pathsAscending l →
      (gdrive_fidnode_add now l path fileId).2 = 0 ∧
      pathsAscending (gdrive_fidnode_add now l path fileId).1 := by
  intro l
  induction l with
  | nil =>
    intro _
    refine ⟨rfl, ?_, ?_⟩
    · simp [gdrive_fidnode_add]
    · intro a ha
      simp only [gdrive_fidnode_add, List.mem_singleton] at ha
      rw [ha]; simp [gdrive_fidnode_create]
  | cons pNext rest ih =>
    intro hasc
    obtain ⟨hpw, hp⟩ := hasc
    rw [List.pairwise_cons] at hpw
    obtain ⟨hhead, hrest⟩ := hpw
    have hprest : ∀ a ∈ rest, a.path ≠ none := fun a ha => hp a (List.mem_cons_of_mem _ ha)
    have hpn := hp pNext (List.mem_cons_self _ _)
    unfold gdrive_fidnode_add
    cases hpath : pNext.path with
    | none => exact absurd hpath hpn
    | some nextPath =>
      simp only
      by_cases h0 : strcmp path nextPath = 0
      · rw [if_pos h0]
        obtain ⟨hr, hpa, _⟩ := fidnode_update_item_spec now pNext fileId
        refine ⟨hr, ?_, ?_⟩
        · rw [List.pairwise_cons]
          exact ⟨fun b hb => (pathBelow_congr pNext _ b hpa).mpr (hhead b hb), hrest⟩
        · intro a ha
          rcases List.mem_cons.mp ha with rfl | ha
          · rw [hpa]; exact hpn
          · exact hprest a ha
      · rw [if_neg h0]
        by_cases h1 : strcmp path nextPath < 0
        · rw [if_pos h1]
          refine ⟨rfl, ?_, ?_⟩
          · rw [List.pairwise_cons]
            refine ⟨?_, List.pairwise_cons.mpr ⟨hhead, hrest⟩⟩
            intro b hb
            rcases List.mem_cons.mp hb with rfl | hb
            · simp only [pathBelow, gdrive_fidnode_create, hpath]
              exact h1
            · have hb1 := hhead b hb
              unfold pathBelow at hb1 ⊢
              rw [hpath] at hb1
              cases hbp : b.path with
              | none => rw [hbp] at hb1; exact hb1
              | some bp =>
                rw [hbp] at hb1
                simp only [gdrive_fidnode_create] at hb1 ⊢
                exact strcmp_trans _ _ _ h1 hb1
          · intro a ha
            rcases List.mem_cons.mp ha with rfl | ha
            · simp [gdrive_fidnode_create]
            · exact hp a ha
        · rw [if_neg h1]
          obtain ⟨hr, hpw1, hp1⟩ := ih ⟨hrest, hprest⟩
          have hmem := fidnode_add_mem now path fileId rest hprest
          generalize gdrive_fidnode_add now rest path fileId = res at hr hpw1 hp1 hmem
          obtain ⟨rest1, returnVal⟩ := res
          simp only at hr hpw1 hp1 hmem ⊢
          refine ⟨hr, ?_, ?_⟩
          · rw [List.pairwise_cons]
            refine ⟨?_, hpw1⟩
            intro b hb
            rcases hmem b hb with hbp | hbr
            · unfold pathBelow
              rw [hpath, hbp]
              simp only
              have := strcmp_swap path nextPath
              omega
            · exact hhead b hbr
          · intro a ha
            rcases List.mem_cons.mp ha with rfl | ha
            · exact hpn
            · exact hp1 a ha

theorem fidnode_add_found (now : Int) (path fileId : String) :
    ∀ (l : List Gdrive_Fileid_Cache_Node), (∀ a ∈ l, a.path ≠ none) →
      ∃ entry, gdrive_fidnode_get_node (gdrive_fidnode_add now l path fileId).1 path
          = some entry ∧ entry.fileId = some fileId ∧ entry.path = some path := by
  intro l
  induction l with
  | nil =>
    intro _
    refine ⟨gdrive_fidnode_create now (some path) (some fileId), ?_, rfl, rfl⟩
    simp [gdrive_fidnode_add, gdrive_fidnode_get_node, gdrive_fidnode_create, strcmp_self]
  | cons pNext rest ih =>
    intro hp
    have hpn := hp pNext (List.mem_cons_self _ _)
    unfold gdrive_fidnode_add
    cases hpath : pNext.path with
    | none => exact absurd hpath hpn
    | some nextPath =>
      simp only
      by_cases h0 : strcmp path nextPath = 0
      · rw [if_pos h0]
        obtain ⟨_, hpa, hid⟩ := fidnode_update_item_spec now pNext fileId
        refine ⟨(gdrive_fidnode_update_item now pNext fileId).1, ?_, hid, ?_⟩
        · simp only [gdrive_fidnode_get_node, hpa, hpath, h0, if_true]
        · rw [hpa, hpath, eq_of_strcmp_eq_zero path nextPath h0]
      · rw [if_neg h0]
        by_cases h1 : strcmp path nextPath < 0
        · rw [if_pos h1]
          refine ⟨gdrive_fidnode_create now (some path) (some fileId), ?_, rfl, rfl⟩
          simp [gdrive_fidnode_get_node, gdrive_fidnode_create, strcmp_self]
        · rw [if_neg h1]
          obtain ⟨entry, he, hid, hpa⟩ := ih (fun a ha => hp a (List.mem_cons_of_mem _ ha))
          refine ⟨entry, ?_, hid, hpa⟩
          simp only [gdrive_fidnode_get_node, hpath, h0, h1, if_false]
          exact he

theorem fidnode_add_others (now : Int) (path fileId q : String) (hq : q ≠ path) :
    ∀ (l : List Gdrive_Fileid_Cache_Node), (∀ a ∈ l, a.path ≠ none) →
      gdrive_fidnode_get_node (gdrive_fidnode_add now l path fileId).1 q
        = gdrive_fidnode_get_node l q := by
  have hq0 : strcmp q path ≠ 0 := fun h => hq (eq_of_strcmp_eq_zero q path h)
  intro l
  induction l with
  | nil =>
    intro _
    simp only [gdrive_fidnode_add, gdrive_fidnode_get_node, gdrive_fidnode_create]
    rw [if_neg hq0]
    split_ifs <;> rfl
  | cons pNext rest ih =>
    intro hp
    have hpn := hp pNext (List.mem_cons_self _ _)
    unfold gdrive_fidnode_add
    cases hpath : pNext.path with
    | none => exact absurd hpath hpn
    | some nextPath =>
      simp only
      by_cases h0 : strcmp path nextPath = 0
      · rw [if_pos h0]
        obtain ⟨_, hpa, _⟩ := fidnode_update_item_spec now pNext fileId
        have hpe := eq_of_strcmp_eq_zero path nextPath h0
        simp only [gdrive_fidnode_get_node, hpa, hpath]
        rw [← hpe, if_neg hq0, if_neg hq0]
      · rw [if_neg h0]
        by_cases h1 : strcmp path nextPath < 0
        · rw [if_pos h1]
          simp only [gdrive_fidnode_get_node, gdrive_fidnode_create, hpath]
          rw [if_neg hq0]
          by_cases h2 : strcmp q path < 0
          · have h3 := strcmp_trans q path nextPath h2 h1
            rw [if_pos h2, if_neg (by omega), if_pos h3]
          · rw [if_neg h2]
        · rw [if_neg h1]
          have := ih (fun a ha => hp a (List.mem_cons_of_mem _ ha))
          simp only [gdrive_fidnode_get_node, hpath, this]

theorem fidnode_add_length (now : Int) (path fileId : String) :
    ∀ (l : List Gdrive_Fileid_Cache_Node), (∀ a ∈ l, a.path ≠ none) →
      (gdrive_fidnode_add now l path fileId).1.length
        = l.length + (if (gdrive_fidnode_get_node l path).isSome then 0 else 1) := by
  intro l
  induction l with
  | nil => intro _; simp [gdrive_fidnode_add, gdrive_fidnode_get_node]
  | cons pNext rest ih =>
    intro hp
    have hpn := hp pNext (List.mem_cons_self _ _)
    unfold gdrive_fidnode_add
    cases hpath : pNext.path with
    | none => exact absurd hpath hpn
    | some nextPath =>
      simp only
      by_cases h0 : strcmp path nextPath = 0
      · rw [if_pos h0]
        simp [gdrive_fidnode_get_node, hpath, h0]
      · rw [if_neg h0]
        by_cases h1 : strcmp path nextPath < 0
        · rw [if_pos h1]
          simp [gdrive_fidnode_get_node, hpath, h0, h1]
        · rw [if_neg h1]
          have := ih (fun a ha => hp a (List.mem_cons_of_mem _ ha))
          simp only [gdrive_fidnode_get_node, hpath, h0, h1, if_false, List.length_cons, this]
          omega

/-- C18 (path cache insert). On a path list that ascends strictly by path,
`gdrive_fidnode_add(path, fileId)` returns 0 and leaves the list strictly
ascending; afterwards `gdrive_fidnode_get_node(path)` returns an entry of
`path` whose identifier is `fileId`; the list has grown by one entry when
`path` had none and kept its length when it had one; and for every other
path `gdrive_fidnode_get_node` returns what it returned before. -/
theorem C18_path_cache_insert (now : Int) (l : List Gdrive_Fileid_Cache_Node)
    (path fileId : String) (hasc : pathsAscending l) :
    (gdrive_fidnode_add now l path fileId).2 = 0 ∧
    pathsAscending (gdrive_fidnode_add now l path fileId).1 ∧
    (∃ entry, gdrive_fidnode_get_node (gdrive_fidnode_add now l path fileId).1 path
      = some entry ∧ entry.fileId = some fileId ∧ entry.path = some path) ∧
    (gdrive_fidnode_add now l path fileId).1.length
      = l.length + (if (gdrive_fidnode_get_node l path).isSome then 0 else 1) ∧
    (∀ q, q ≠ path →
      gdrive_fidnode_get_node (gdrive_fidnode_add now l path fileId).1 q
        = gdrive_fidnode_get_node l q) :=
  ⟨(fidnode_add_ascending now path fileId l hasc).1,
   (fidnode_add_ascending now path fileId l hasc).2,
   fidnode_add_found now path fileId l hasc.2,
   fidnode_add_length now path fileId l hasc.2,
   fun q hq => fidnode_add_others now path fileId q hq l hasc.2⟩

theorem C18_path_cache_insert_witness :
    pathsAscending examplePaths ∧
    (gdrive_fidnode_add 70 examplePaths "/b" "B").1.length = 3 ∧
    (gdrive_fidnode_add 70 examplePaths "/c" "X").1.length = 2 ∧
    pathsAscending (gdrive_fidnode_add 70 examplePaths "/b" "B").1 ∧
    gdrive_fidnode_get_node (gdrive_fidnode_add 70 examplePaths "/c" "X").1 "/a"
      = gdrive_fidnode_get_node examplePaths "/a" :=
  ⟨by decide, by decide, by decide,
   (C18_path_cache_insert 70 examplePaths "/b" "B" (by decide)).2.1,
   (C18_path_cache_insert 70 examplePaths "/c" "X" (by decide)).2.2.2.2 "/a" (by decide)⟩

/-! ## Iterating over an array of file information (C19) -/

/-- With `p` below `nMax`, the iteration from slot `p` visits every slot up
to `nMax - 1`, filled or not. -/
theorem finfoarray_visit_from (pArray : Gdrive_Fileinfo_Array) :
    ∀ (k turns p : Nat), p + k + 1 = pArray.nMax → k + 1 ≤ turns →
      finfoarrayVisitFrom pArray turns (some p) = List.range' p (k + 1) := by
  intro k
  induction k with
  | zero =>
    intro turns p hp ht
    obtain ⟨t, rfl⟩ : ∃ t, turns = t + 1 := ⟨turns - 1, by omega⟩
    simp only [finfoarrayVisitFrom, gdrive_finfoarray_get_next]
    rw [if_neg (by omega)]
    cases t <;> simp [finfoarrayVisitFrom, List.range']
  | succ k ih =>
    intro turns p hp ht
    obtain ⟨t, rfl⟩ : ∃ t, turns = t + 1 := ⟨turns - 1, by omega⟩
    simp only [finfoarrayVisitFrom, gdrive_finfoarray_get_next]
    rw [if_pos (by omega), ih t (p + 1) (by omega) (by omega)]
    rfl

/-- C19: an array made for three files that holds two. The count is 2, but
`gdrive_finfoarray_get_next` compares the next slot with the end of the
allocation (`nMax`), not with the number of items: after the second item it
returns the third slot, which was never filled, and the iteration visits
three slots. -/
theorem C19_iteration_visits_unfilled_slot :
    gdrive_finfoarray_get_count partlyFilledArray = 2 ∧
    gdrive_finfoarray_get_next partlyFilledArray (some 1) = some 2 ∧
    partlyFilledArray.pArray.getD 2 (exampleFileinfo "" 0) = gdrive_cnode_create.fileinfo ∧
    finfoarrayVisit partlyFilledArray = [0, 1, 2] ∧
    (finfoarrayVisit partlyFilledArray).length ≠ gdrive_finfoarray_get_count partlyFilledArray := by
  decide

/-- Every array that holds an item and whose count does not exceed its size
is iterated over all `nMax` slots. -/
theorem finfoarray_visit_all_slots (pArray : Gdrive_Fileinfo_Array)
    (h0 : 0 < pArray.nItems) (hmax : pArray.nItems ≤ pArray.nMax) :
    finfoarrayVisit pArray = List.range pArray.nMax := by
  unfold finfoarrayVisit gdrive_finfoarray_get_first
  rw [if_pos h0, finfoarray_visit_from pArray (pArray.nMax - 1) _ 0 (by omega) (by omega),
    List.range_eq_range']
  congr 1
  omega

/-! ## The cache tree in memory: deleting a node (C20) -/

namespace Gdrive_Cache_Memory

@[simp]
theorem setParent_pParent (m : Gdrive_Cache_Memory) (a b : Nat) (v : Option Nat) :
    (m.setParent a v).pParent b = if b = a then v else m.pParent b := by
  simp [setParent, Function.update_apply]

@[simp]
theorem setParent_pLeft (m : Gdrive_Cache_Memory) (a : Nat) (v : Option Nat) :
    (m.setParent a v).pLeft = m.pLeft := rfl

@[simp]
theorem setParent_pRight (m : Gdrive_Cache_Memory) (a : Nat) (v : Option Nat) :
    (m.setParent a v).pRight = m.pRight := rfl

@[simp]
theorem setParent_pRoot (m : Gdrive_Cache_Memory) (a : Nat) (v : Option Nat) :
    (m.setParent a v).pRoot = m.pRoot := rfl

@[simp]
theorem setParent_node (m : Gdrive_Cache_Memory) (a : Nat) (v : Option Nat) :
    (m.setParent a v).node = m.node := rfl

@[simp]
theorem setParent_freed (m : Gdrive_Cache_Memory) (a : Nat) (v : Option Nat) :
    (m.setParent a v).freed = m.freed := rfl

@[simp]
theorem setLeft_pLeft (m : Gdrive_Cache_Memory) (a b : Nat) (v : Option Nat) :
    (m.setLeft a v).pLeft b = if b = a then v else m.pLeft b := by
  simp [setLeft, Function.update_apply]

@[simp]
theorem setLeft_pParent (m : Gdrive_Cache_Memory) (a : Nat) (v : Option Nat) :
    (m.setLeft a v).pParent = m.pParent := rfl

@[simp]
theorem setLeft_pRight (m : Gdrive_Cache_Memory) (a : Nat) (v : Option Nat) :
    (m.setLeft a v).pRight = m.pRight := rfl

@[simp]
theorem setLeft_pRoot (m : Gdrive_Cache_Memory) (a : Nat) (v : Option Nat) :
    (m.setLeft a v).pRoot = m.pRoot := rfl

@[simp]
theorem setLeft_node (m : Gdrive_Cache_Memory) (a : Nat) (v : Option Nat) :
    (m.setLeft a v).node = m.node := rfl

@[simp]
theorem setLeft_freed (m : Gdrive_Cache_Memory) (a : Nat) (v : Option Nat) :
    (m.setLeft a v).freed = m.freed := rfl

@[simp]
theorem setRight_pRight (m : Gdrive_Cache_Memory) (a b : Nat) (v : Option Nat) :
    (m.setRight a v).pRight b = if b = a then v else m.pRight b := by
  simp [setRight, Function.update_apply]

@[simp]
theorem setRight_pParent (m : Gdrive_Cache_Memory) (a : Nat) (v : Option Nat) :
    (m.setRight a v).pParent = m.pParent := rfl

@[simp]
theorem setRight_pLeft (m : Gdrive_Cache_Memory) (a : Nat) (v : Option Nat) :
    (m.setRight a v).pLeft = m.pLeft := rfl

@[simp]
theorem setRight_pRoot (m : Gdrive_Cache_Memory) (a : Nat) (v : Option Nat) :
    (m.setRight a v).pRoot = m.pRoot := rfl

@[simp]
theorem setRight_node (m : Gdrive_Cache_Memory) (a : Nat) (v : Option Nat) :
    (m.setRight a v).node = m.node := rfl

@[simp]
theorem setRight_freed (m : Gdrive_Cache_Memory) (a : Nat) (v : Option Nat) :
    (m.setRight a v).freed = m.freed := rfl

@[simp]
theorem writeLink_pParent (m : Gdrive_Cache_Memory) (link : Gdrive_Link)
    (v : Option Nat) : (m.writeLink link v).pParent = m.pParent := by
  cases link <;> rfl

@[simp]
theorem writeLink_pLeft (m : Gdrive_Cache_Memory) (link : Gdrive_Link)
    (v : Option Nat) (b : Nat) :
    (m.writeLink link v).pLeft b = if link = .leftOf b then v else m.pLeft b := by
  cases link <;> simp [writeLink, eq_comm]

@[simp]
theorem writeLink_pRight (m : Gdrive_Cache_Memory) (link : Gdrive_Link)
    (v : Option Nat) (b : Nat) :
    (m.writeLink link v).pRight b = if link = .rightOf b then v else m.pRight b := by
  cases link <;> simp [writeLink, eq_comm]

@[simp]
theorem writeLink_pRoot (m : Gdrive_Cache_Memory) (link : Gdrive_Link)
    (v : Option Nat) :
    (m.writeLink link v).pRoot = if link = .toRoot then v else m.pRoot := by
  cases link <;> simp [writeLink]

@[simp]
theorem writeLink_node (m : Gdrive_Cache_Memory) (link : Gdrive_Link)
    (v : Option Nat) : (m.writeLink link v).node = m.node := by
  cases link <;> rfl

@[simp]
theorem writeLink_freed (m : Gdrive_Cache_Memory) (link : Gdrive_Link)
    (v : Option Nat) : (m.writeLink link v).freed = m.freed := by
  cases link <;> rfl

@[simp]
theorem setParentOf_pParent (m : Gdrive_Cache_Memory) (c v : Option Nat) (b : Nat) :
    (m.setParentOf c v).pParent b = if c = some b then v else m.pParent b := by
  cases c <;> simp [setParentOf, eq_comm]

@[simp]
theorem setParentOf_pLeft (m : Gdrive_Cache_Memory) (c v : Option Nat) :
    (m.setParentOf c v).pLeft = m.pLeft := by
  cases c <;> rfl

@[simp]
theorem setParentOf_pRight (m : Gdrive_Cache_Memory) (c v : Option Nat) :
    (m.setParentOf c v).pRight = m.pRight := by
  cases c <;> rfl

@[simp]
theorem setParentOf_pRoot (m : Gdrive_Cache_Memory) (c v : Option Nat) :
    (m.setParentOf c v).pRoot = m.pRoot := by
  cases c <;> rfl

@[simp]
theorem setParentOf_node (m : Gdrive_Cache_Memory) (c v : Option Nat) :
    (m.setParentOf c v).node = m.node := by
  cases c <;> rfl

@[simp]
theorem setParentOf_freed (m : Gdrive_Cache_Memory) (c v : Option Nat) :
    (m.setParentOf c v).freed = m.freed := by
  cases c <;> rfl

@[simp]
theorem free_pParent (m : Gdrive_Cache_Memory) (a : Nat) :
    (m.gdrive_cnode_free a).pParent = m.pParent := rfl

@[simp]
theorem free_pLeft (m : Gdrive_Cache_Memory) (a b : Nat) :
    (m.gdrive_cnode_free a).pLeft b = if b = a then none else m.pLeft b := by
  simp [gdrive_cnode_free]

@[simp]
theorem free_pRight (m : Gdrive_Cache_Memory) (a b : Nat) :
    (m.gdrive_cnode_free a).pRight b = if b = a then none else m.pRight b := by
  simp [gdrive_cnode_free]

@[simp]
theorem free_pRoot (m : Gdrive_Cache_Memory) (a : Nat) :
    (m.gdrive_cnode_free a).pRoot = m.pRoot := rfl

@[simp]
theorem free_node (m : Gdrive_Cache_Memory) (a : Nat) :
    (m.gdrive_cnode_free a).node = m.node := rfl

@[simp]
theorem free_freed (m : Gdrive_Cache_Memory) (a : Nat) :
    (m.gdrive_cnode_free a).freed = m.freed ++ [a] := rfl

theorem readLink_eq (m : Gdrive_Cache_Memory) (link : Gdrive_Link) :
    m.readLink link =
      match link with
      | .toRoot => m.pRoot
      | .leftOf p => m.pLeft p
      | .rightOf p => m.pRight p := by
  cases link <;> rfl

end Gdrive_Cache_Memory

/-- Memories that agree on the links of the addresses of `t` hold `t` alike. -/
theorem holds_congr (m m1 : Gdrive_Cache_Memory) :
    ∀ (t : Gdrive_Shape) (parent : Option Nat),
      (∀ b ∈ t.addrs, m1.pParent b = m.pParent b ∧ m1.pLeft b = m.pLeft b ∧
        m1.pRight b = m.pRight b) →
      m.holds parent t → m1.holds parent t := by
  intro t
  induction t with
  | nil => intro _ _ _; trivial
  | node l a r ihl ihr =>
    intro parent hag h
    obtain ⟨h1, h2, h3, h4, h5⟩ := h
    obtain ⟨e1, e2, e3⟩ := hag a (by simp [Gdrive_Shape.addrs])
    refine ⟨by rw [e1, h1], by rw [e2, h2], by rw [e3, h3], ?_, ?_⟩
    · exact ihl _ (fun b hb => hag b (by simp [Gdrive_Shape.addrs, hb])) h4
    · exact ihr _ (fun b hb => hag b (by simp [Gdrive_Shape.addrs, hb])) h5

/-- The tree keeps being held when only the parent pointer of its root
changes, to the new parent. -/
theorem holds_reparent (m m1 : Gdrive_Cache_Memory) (t : Gdrive_Shape)
    (parent parent1 : Option Nat) (hnd : t.addrs.Nodup)
    (hroot : ∀ x, t.root = some x → m1.pParent x = parent1)
    (hag : ∀ b ∈ t.addrs, (t.root ≠ some b → m1.pParent b = m.pParent b) ∧
      m1.pLeft b = m.pLeft b ∧ m1.pRight b = m.pRight b)
    (h : m.holds parent t) : m1.holds parent1 t := by
  cases t with
  | nil => trivial
  | node l a r =>
    obtain ⟨h1, h2, h3, h4, h5⟩ := h
    simp only [Gdrive_Shape.addrs] at hnd hag
    have hal : a ∉ l.addrs := fun h => by
      have := List.nodup_append.mp hnd
      exact this.2.2 h (List.mem_cons_self _ _)
    have har : a ∉ r.addrs := fun h => by
      have := (List.nodup_append.mp hnd).2.1
      exact (List.nodup_cons.mp this).1 h
    obtain ⟨_, e2, e3⟩ := hag a (by simp)
    refine ⟨hroot a rfl, by rw [e2, h2], by rw [e3, h3], ?_, ?_⟩
    · apply holds_congr m m1 l _ _ h4
      intro b hb
      obtain ⟨e1, e2, e3⟩ := hag b (by simp [hb])
      refine ⟨e1 ?_, e2, e3⟩
      simp only [Gdrive_Shape.root, ne_eq, Option.some.injEq]
      rintro rfl
      exact hal hb
    · apply holds_congr m m1 r _ _ h5
      intro b hb
      obtain ⟨e1, e2, e3⟩ := hag b (by simp [hb])
      refine ⟨e1 ?_, e2, e3⟩
      simp only [Gdrive_Shape.root, ne_eq, Option.some.injEq]
      rintro rfl
      exact har hb

theorem root_mem_addrs (t : Gdrive_Shape) (x : Nat) (h : t.root = some x) : x ∈ t.addrs := by
  cases t with
  | nil => simp [Gdrive_Shape.root] at h
  | node l a r =>
    simp only [Gdrive_Shape.root, Option.some.injEq] at h
    subst h
    simp [Gdrive_Shape.addrs]

theorem child_mem_addrs (m : Gdrive_Cache_Memory) :
    ∀ (t : Gdrive_Shape) (parent : Option Nat), m.holds parent t →
      ∀ b ∈ t.addrs, ∀ c, (m.pLeft b = some c ∨ m.pRight b = some c) → c ∈ t.addrs := by
  intro t
  induction t with
  | nil => intro _ _ b hb; simp [Gdrive_Shape.addrs] at hb
  | node l a r ihl ihr =>
    intro parent h b hb c hc
    obtain ⟨_, h2, h3, h4, h5⟩ := h
    simp only [Gdrive_Shape.addrs, List.mem_append, List.mem_cons] at hb ⊢
    rcases hb with hb | rfl | hb
    · exact Or.inl (ihl _ h4 b hb c hc)
    · rcases hc with hc | hc
      · rw [h2] at hc
        exact Or.inl (root_mem_addrs l c hc)
      · rw [h3] at hc
        exact Or.inr (Or.inr (root_mem_addrs r c hc))
    · exact Or.inr (Or.inr (ihr _ h5 b hb c hc))

theorem parent_of_root (m : Gdrive_Cache_Memory) (t : Gdrive_Shape) (parent : Option Nat)
    (h : m.holds parent t) (x : Nat) (hx : t.root = some x) : m.pParent x = parent := by
  cases t with
  | nil => simp [Gdrive_Shape.root] at hx
  | node l a r =>
    simp only [Gdrive_Shape.root, Option.some.injEq] at hx
    subst hx
    exact h.1

theorem parent_mem_addrs (m : Gdrive_Cache_Memory) :
    ∀ (t : Gdrive_Shape) (parent : Option Nat), m.holds parent t → t.addrs.Nodup →
      ∀ b ∈ t.addrs, t.root ≠ some b → ∃ q ∈ t.addrs, m.pParent b = some q := by
  intro t
  induction t with
  | nil => intro _ _ _ b hb; simp [Gdrive_Shape.addrs] at hb
  | node l a r ihl ihr =>
    intro parent h hnd b hb hroot
    obtain ⟨_, _, _, h4, h5⟩ := h
    simp only [Gdrive_Shape.addrs] at hnd
    have hndl := (List.nodup_append.mp hnd).1
    have hndr := (List.nodup_cons.mp (List.nodup_append.mp hnd).2.1).2
    simp only [Gdrive_Shape.addrs, List.mem_append, List.mem_cons] at hb ⊢
    rcases hb with hb | rfl | hb
    · by_cases hr : l.root = some b
      · exact ⟨a, Or.inr (Or.inl rfl), parent_of_root m l _ h4 b hr⟩
      · obtain ⟨q, hq, e⟩ := ihl _ h4 hndl b hb hr
        exact ⟨q, Or.inl hq, e⟩
    · exact absurd rfl hroot
    · by_cases hr : r.root = some b
      · exact ⟨a, Or.inr (Or.inl rfl), parent_of_root m r _ h5 b hr⟩
      · obtain ⟨q, hq, e⟩ := ihr _ h5 hndr b hb hr
        exact ⟨q, Or.inr (Or.inr hq), e⟩

/-- What `Nodup` of the addresses of a node says. -/
theorem nodup_node (l r : Gdrive_Shape) (a : Nat)
    (h : (Gdrive_Shape.node l a r).addrs.Nodup) :
    l.addrs.Nodup ∧ r.addrs.Nodup ∧ a ∉ l.addrs ∧ a ∉ r.addrs ∧
      ∀ b, b ∈ l.addrs → b ∉ r.addrs := by
  simp only [Gdrive_Shape.addrs] at h
  obtain ⟨h1, h2, h3⟩ := List.nodup_append.mp h
  obtain ⟨h4, h5⟩ := List.nodup_cons.mp h2
  exact ⟨h1, h5, fun hx => h3 hx (List.mem_cons_self _ _), h4,
    fun b hb hr => h3 hb (List.mem_cons_of_mem _ hr)⟩

theorem findRightmost_none (m : Gdrive_Cache_Memory) (turns : Nat) (link : Gdrive_Link)
    (x : Nat) (h : m.pRight x = none) : m.findRightmost turns link x = (link, x) := by
  cases turns <;> simp [Gdrive_Cache_Memory.findRightmost, h]

theorem findLeftmost_none (m : Gdrive_Cache_Memory) (turns : Nat) (link : Gdrive_Link)
    (x : Nat) (h : m.pLeft x = none) : m.findLeftmost turns link x = (link, x) := by
  cases turns <;> simp [Gdrive_Cache_Memory.findLeftmost, h]

/-- What the swap with the left child `x` (which has no right child) and the
deletion that follows leave, read at the places that matter. -/
theorem delete_via_left_child (m : Gdrive_Cache_Memory) (link : Gdrive_Link)
    (parent lx : Option Nat) (a x y turns depth : Nat)
    (hlink : (match m.pParent a with
      | none => Gdrive_Link.toRoot
      | some p => if m.pLeft p = some a then Gdrive_Link.leftOf p else Gdrive_Link.rightOf p)
      = link)
    (hside : (match m.pParent a with
      | none => false
      | some parent => decide (m.pRight parent = some a)) = false)
    (hpa : m.pParent a = parent) (hla : m.pLeft a = some x) (hra : m.pRight a = some y)
    (hlx : m.pLeft x = lx) (hrx : m.pRight x = none)
    (hax : a ≠ x) (hay : a ≠ y) (hxy : x ≠ y)
    (hlxa : lx ≠ some a) (hlxx : lx ≠ some x) (hlxy : lx ≠ some y)
    (hl1 : link ≠ .leftOf a) (hl2 : link ≠ .rightOf a) (hl3 : link ≠ .leftOf x)
    (hl4 : link ≠ .rightOf x) :
    let m1 := m.gdrive_cnode_delete turns (depth + 2) a
    m1.pParent x = parent ∧ m1.pLeft x = lx ∧ m1.pRight x = some y ∧
    m1.pParent y = some x ∧ (∀ z, lx = some z → m1.pParent z = some x) ∧
    m1.readLink link = some x ∧ m1.node = m.node ∧ m1.freed = m.freed ++ [a] ∧
    (link ≠ .toRoot → m1.pRoot = m.pRoot) ∧
    (∀ b, b ≠ a → b ≠ x →
      (b ≠ y → lx ≠ some b → m1.pParent b = m.pParent b) ∧
      (link ≠ .leftOf b → m1.pLeft b = m.pLeft b) ∧
      (link ≠ .rightOf b → m1.pRight b = m.pRight b)) := by
  intro m1
  have hm1 : m1 = (m.gdrive_cnode_swap link a (.leftOf a) x).gdrive_cnode_delete turns
      (depth + 1) a := by
    show m.gdrive_cnode_delete turns (depth + 2) a = _
    conv_lhs => unfold Gdrive_Cache_Memory.gdrive_cnode_delete
    simp only [hlink, hla, hra, hside, findRightmost_none m turns _ x hrx]
    rfl
  rw [hm1]
  clear_value m1
  clear hm1
  cases lx with
  | none =>
    simp [Gdrive_Cache_Memory.gdrive_cnode_delete, Gdrive_Cache_Memory.gdrive_cnode_swap,
      Gdrive_Cache_Memory.readLink_eq, hla, hra, hlx, hrx, hpa,
      hax, hax.symm, hay, hay.symm, hxy, hxy.symm, hl1, hl2, hl3, hl4]
    refine ⟨?_, ?_, ?_⟩
    · (cases link <;> simp_all); omega
    · intro h1 h2; exact absurd h2 h1
    · intro b hba hbx
      refine ⟨?_, ?_, ?_⟩ <;> intros <;> (try split_ifs) <;>
        first | rfl | contradiction | (exfalso; omega)
  | some z =>
    have hza : z ≠ a := fun e => hlxa (by rw [e])
    have hzx : z ≠ x := fun e => hlxx (by rw [e])
    have hzy : z ≠ y := fun e => hlxy (by rw [e])
    simp [Gdrive_Cache_Memory.gdrive_cnode_delete, Gdrive_Cache_Memory.gdrive_cnode_swap,
      Gdrive_Cache_Memory.readLink_eq, hla, hra, hlx, hrx, hpa,
      hax, hax.symm, hay, hay.symm, hxy, hxy.symm, hl1, hl2, hl3, hl4,
      hza, hza.symm, hzx, hzx.symm, hzy, hzy.symm]
    refine ⟨?_, ?_, ?_⟩
    · (cases link <;> simp_all); omega
    · intro h1 h2; exact absurd h2 h1
    · intro b hba hbx
      refine ⟨?_, ?_, ?_⟩ <;> intros <;> (try split_ifs) <;>
        first | rfl | contradiction | (exfalso; omega)

/-- What the deletion of a node without children leaves. -/
theorem delete_leaf_reads (m : Gdrive_Cache_Memory) (link : Gdrive_Link)
    (a turns depth : Nat)
    (hlink : (match m.pParent a with
      | none => Gdrive_Link.toRoot
      | some p => if m.pLeft p = some a then Gdrive_Link.leftOf p else Gdrive_Link.rightOf p)
      = link)
    (hla : m.pLeft a = none) (hra : m.pRight a = none)
    (hl1 : link ≠ .leftOf a) (hl2 : link ≠ .rightOf a) :
    let m1 := m.gdrive_cnode_delete turns (depth + 1) a
    m1.readLink link = none ∧ m1.node = m.node ∧ m1.freed = m.freed ++ [a] ∧
    (link ≠ .toRoot → m1.pRoot = m.pRoot) ∧
    (∀ b, b ≠ a →
      m1.pParent b = m.pParent b ∧
      (link ≠ .leftOf b → m1.pLeft b = m.pLeft b) ∧
      (link ≠ .rightOf b → m1.pRight b = m.pRight b)) := by
  intro m1
  have hm1 : m1 = (m.writeLink link none).gdrive_cnode_free a := by
    show m.gdrive_cnode_delete turns (depth + 1) a = _
    simp only [Gdrive_Cache_Memory.gdrive_cnode_delete, hlink, hla, hra]
  rw [hm1]
  clear_value m1
  clear hm1
  simp [Gdrive_Cache_Memory.readLink_eq, hl1, hl2]
  refine ⟨?_, ?_, ?_⟩
  · cases link <;> simp_all
  · intro h1 h2; exact absurd h2 h1
  · intro b hba
    refine ⟨?_, ?_⟩ <;> intros <;> (try split_ifs) <;> rfl

/-- What the deletion of a node with a right child only leaves. -/
theorem delete_right_only_reads (m : Gdrive_Cache_Memory) (link : Gdrive_Link)
    (parent : Option Nat) (a y turns depth : Nat)
    (hlink : (match m.pParent a with
      | none => Gdrive_Link.toRoot
      | some p => if m.pLeft p = some a then Gdrive_Link.leftOf p else Gdrive_Link.rightOf p)
      = link)
    (hpa : m.pParent a = parent) (hla : m.pLeft a = none) (hra : m.pRight a = some y)
    (hl1 : link ≠ .leftOf a) (hl2 : link ≠ .rightOf a) :
    let m1 := m.gdrive_cnode_delete turns (depth + 1) a
    m1.pParent y = parent ∧
    m1.readLink link = some y ∧ m1.node = m.node ∧ m1.freed = m.freed ++ [a] ∧
    (link ≠ .toRoot → m1.pRoot = m.pRoot) ∧
    (∀ b, b ≠ a →
      (b ≠ y → m1.pParent b = m.pParent b) ∧
      (link ≠ .leftOf b → m1.pLeft b = m.pLeft b) ∧
      (link ≠ .rightOf b → m1.pRight b = m.pRight b)) := by
  intro m1
  have hm1 : m1 = (((m.writeLink link (some y)).setParent y
      ((m.writeLink link (some y)).pParent a)).gdrive_cnode_free a) := by
    show m.gdrive_cnode_delete turns (depth + 1) a = _
    simp only [Gdrive_Cache_Memory.gdrive_cnode_delete, hlink, hla, hra]
  rw [hm1]
  clear_value m1
  clear hm1
  simp [Gdrive_Cache_Memory.readLink_eq, hl1, hl2, hpa]
  refine ⟨?_, ?_, ?_⟩
  · cases link <;> simp_all
  · intro h1 h2; exact absurd h2 h1
  · intro b hba
    refine ⟨?_, ?_, ?_⟩ <;> intros <;> (try split_ifs) <;>
      first | rfl | contradiction

/-- What the deletion of a node with a left child only leaves. -/
theorem delete_left_only_reads (m : Gdrive_Cache_Memory) (link : Gdrive_Link)
    (parent : Option Nat) (a x turns depth : Nat)
    (hlink : (match m.pParent a with
      | none => Gdrive_Link.toRoot
      | some p => if m.pLeft p = some a then Gdrive_Link.leftOf p else Gdrive_Link.rightOf p)
      = link)
    (hpa : m.pParent a = parent) (hla : m.pLeft a = some x) (hra : m.pRight a = none)
    (hl1 : link ≠ .leftOf a) (hl2 : link ≠ .rightOf a) :
    let m1 := m.gdrive_cnode_delete turns (depth + 1) a
    m1.pParent x = parent ∧
    m1.readLink link = some x ∧ m1.node = m.node ∧ m1.freed = m.freed ++ [a] ∧
    (link ≠ .toRoot → m1.pRoot = m.pRoot) ∧
    (∀ b, b ≠ a →
      (b ≠ x → m1.pParent b = m.pParent b) ∧
      (link ≠ .leftOf b → m1.pLeft b = m.pLeft b) ∧
      (link ≠ .rightOf b → m1.pRight b = m.pRight b)) := by
  intro m1
  have hm1 : m1 = (((m.writeLink link (some x)).setParent x
      ((m.writeLink link (some x)).pParent a)).gdrive_cnode_free a) := by
    show m.gdrive_cnode_delete turns (depth + 1) a = _
    simp only [Gdrive_Cache_Memory.gdrive_cnode_delete, hlink, hla, hra]
  rw [hm1]
  clear_value m1
  clear hm1
  simp [Gdrive_Cache_Memory.readLink_eq, hl1, hl2, hpa]
  refine ⟨?_, ?_, ?_⟩
  · cases link <;> simp_all
  · intro h1 h2; exact absurd h2 h1
  · intro b hba
    refine ⟨?_, ?_, ?_⟩ <;> intros <;> (try split_ifs) <;>
      first | rfl | contradiction

/-- What the swap with the last node `s` of the left subtree, which hangs from
the right of `q`, and the deletion that follows leave. -/
theorem delete_via_left_spine (m : Gdrive_Cache_Memory) (link : Gdrive_Link)
    (parent ls : Option Nat) (a x y q s turns depth : Nat)
    (hlink : (match m.pParent a with
      | none => Gdrive_Link.toRoot
      | some p => if m.pLeft p = some a then Gdrive_Link.leftOf p else Gdrive_Link.rightOf p)
      = link)
    (hside : (match m.pParent a with
      | none => false
      | some parent => decide (m.pRight parent = some a)) = false)
    (hfind : m.findRightmost turns (.leftOf a) x = (.rightOf q, s))
    (hpa : m.pParent a = parent) (hla : m.pLeft a = some x) (hra : m.pRight a = some y)
    (hps : m.pParent s = some q) (hlq : m.pLeft q ≠ some a)
    (hls : m.pLeft s = ls) (hrs : m.pRight s = none)
    (hax : a ≠ x) (hay : a ≠ y) (hxy : x ≠ y) (has : a ≠ s) (hxs : x ≠ s) (hys : y ≠ s)
    (hqa : q ≠ a) (hqs : q ≠ s)
    (hlsa : ls ≠ some a) (hlss : ls ≠ some s) (hlsx : ls ≠ some x) (hlsy : ls ≠ some y)
    (hlsq : ls ≠ some q)
    (hl1 : link ≠ .leftOf a) (hl2 : link ≠ .rightOf a) (hl3 : link ≠ .leftOf s)
    (hl4 : link ≠ .rightOf s) (hl5 : link ≠ .leftOf q) (hl6 : link ≠ .rightOf q) :
    let m1 := m.gdrive_cnode_delete turns (depth + 2) a
    m1.pParent s = parent ∧ m1.pLeft s = some x ∧ m1.pRight s = some y ∧
    m1.pParent x = some s ∧ m1.pParent y = some s ∧ m1.pRight q = ls ∧
    (∀ z, ls = some z → m1.pParent z = some q) ∧
    m1.readLink link = some s ∧ m1.node = m.node ∧ m1.freed = m.freed ++ [a] ∧
    (link ≠ .toRoot → m1.pRoot = m.pRoot) ∧
    (∀ b, b ≠ a → b ≠ s →
      (b ≠ x → b ≠ y → ls ≠ some b → m1.pParent b = m.pParent b) ∧
      (link ≠ .leftOf b → m1.pLeft b = m.pLeft b) ∧
      (b ≠ q → link ≠ .rightOf b → m1.pRight b = m.pRight b)) := by
  intro m1
  have hm1 : m1 = (m.gdrive_cnode_swap link a (.rightOf q) s).gdrive_cnode_delete turns
      (depth + 1) a := by
    show m.gdrive_cnode_delete turns (depth + 2) a = _
    conv_lhs => unfold Gdrive_Cache_Memory.gdrive_cnode_delete
    simp only [hlink, hla, hra, hside, hfind]
    rfl
  rw [hm1]
  clear_value m1
  clear hm1 hfind
  have hxs1 : ¬ (some x = some s) := fun e => hxs (Option.some.inj e)
  have hys1 : ¬ (some y = some s) := fun e => hys (Option.some.inj e)
  cases ls with
  | none =>
    simp [Gdrive_Cache_Memory.gdrive_cnode_delete, Gdrive_Cache_Memory.gdrive_cnode_swap,
      Gdrive_Cache_Memory.readLink_eq, hla, hra, hls, hrs, hpa, hps, hlq,
      hax, hax.symm, hay, hay.symm, hxy, hxy.symm, has, has.symm, hxs, hxs.symm,
      hys, hys.symm, hqa, hqa.symm, hqs, hqs.symm,
      hl1, hl2, hl3, hl4, hl5, hl6]
    refine ⟨?_, ?_, ?_⟩
    · (cases link <;> simp_all); omega
    · intro h1 h2; exact absurd h2 h1
    · intro b hba hbs
      refine ⟨?_, ?_, ?_⟩ <;> intros <;> (try split_ifs) <;>
        first | rfl | contradiction | (exfalso; omega)
  | some z =>
    have hza : z ≠ a := fun e => hlsa (by rw [e])
    have hzs : z ≠ s := fun e => hlss (by rw [e])
    have hzx : z ≠ x := fun e => hlsx (by rw [e])
    have hzy : z ≠ y := fun e => hlsy (by rw [e])
    have hzq : z ≠ q := fun e => hlsq (by rw [e])
    simp [Gdrive_Cache_Memory.gdrive_cnode_delete, Gdrive_Cache_Memory.gdrive_cnode_swap,
      Gdrive_Cache_Memory.readLink_eq, hla, hra, hls, hrs, hpa, hps, hlq,
      hax, hax.symm, hay, hay.symm, hxy, hxy.symm, has, has.symm, hxs, hxs.symm,
      hys, hys.symm, hqa, hqa.symm, hqs, hqs.symm,
      hl1, hl2, hl3, hl4, hl5, hl6,
      hza, hza.symm, hzs, hzs.symm, hzx, hzx.symm, hzy, hzy.symm, hzq, hzq.symm]
    refine ⟨?_, ?_, ?_⟩
    · (cases link <;> simp_all); omega
    · intro h1 h2; exact absurd h2 h1
    · intro b hba hbs
      refine ⟨?_, ?_, ?_⟩ <;> intros <;> (try split_ifs) <;>
        first | rfl | contradiction | (exfalso; omega)

/-- What the swap with the right child `y` (which has no left child) and the
deletion that follows leave, read at the places that matter. -/
theorem delete_via_right_child (m : Gdrive_Cache_Memory) (link : Gdrive_Link)
    (parent ry : Option Nat) (a x y turns depth : Nat)
    (hlink : (match m.pParent a with
      | none => Gdrive_Link.toRoot
      | some p => if m.pLeft p = some a then Gdrive_Link.leftOf p else Gdrive_Link.rightOf p)
      = link)
    (hside : (match m.pParent a with
      | none => false
      | some parent => decide (m.pRight parent = some a)) = true)
    (hpa : m.pParent a = parent) (hla : m.pLeft a = some x) (hra : m.pRight a = some y)
    (hly : m.pLeft y = none) (hry : m.pRight y = ry)
    (hax : a ≠ x) (hay : a ≠ y) (hxy : x ≠ y)
    (hrya : ry ≠ some a) (hryx : ry ≠ some x) (hryy : ry ≠ some y)
    (hl1 : link ≠ .leftOf a) (hl2 : link ≠ .rightOf a) (hl3 : link ≠ .leftOf y)
    (hl4 : link ≠ .rightOf y) :
    let m1 := m.gdrive_cnode_delete turns (depth + 2) a
    m1.pParent y = parent ∧ m1.pLeft y = some x ∧ m1.pRight y = ry ∧
    m1.pParent x = some y ∧ (∀ z, ry = some z → m1.pParent z = some y) ∧
    m1.readLink link = some y ∧ m1.node = m.node ∧ m1.freed = m.freed ++ [a] ∧
    (link ≠ .toRoot → m1.pRoot = m.pRoot) ∧
    (∀ b, b ≠ a → b ≠ y →
      (b ≠ x → ry ≠ some b → m1.pParent b = m.pParent b) ∧
      (link ≠ .leftOf b → m1.pLeft b = m.pLeft b) ∧
      (link ≠ .rightOf b → m1.pRight b = m.pRight b)) := by
  intro m1
  have hm1 : m1 = (m.gdrive_cnode_swap link a (.rightOf a) y).gdrive_cnode_delete turns
      (depth + 1) a := by
    show m.gdrive_cnode_delete turns (depth + 2) a = _
    conv_lhs => unfold Gdrive_Cache_Memory.gdrive_cnode_delete
    simp only [hlink, hla, hra, hside, findLeftmost_none m turns _ y hly]
    rfl
  rw [hm1]
  clear_value m1
  clear hm1
  cases ry with
  | none =>
    simp [Gdrive_Cache_Memory.gdrive_cnode_delete, Gdrive_Cache_Memory.gdrive_cnode_swap,
      Gdrive_Cache_Memory.readLink_eq, hla, hra, hly, hry, hpa,
      hax, hax.symm, hay, hay.symm, hxy, hxy.symm, hl1, hl2, hl3, hl4]
    refine ⟨?_, ?_, ?_⟩
    · (cases link <;> simp_all); omega
    · intro h1 h2; exact absurd h2 h1
    · intro b hba hby
      refine ⟨?_, ?_, ?_⟩ <;> intros <;> (try split_ifs) <;>
        first | rfl | contradiction | (exfalso; omega)
  | some z =>
    have hza : z ≠ a := fun e => hrya (by rw [e])
    have hzx : z ≠ x := fun e => hryx (by rw [e])
    have hzy : z ≠ y := fun e => hryy (by rw [e])
    simp [Gdrive_Cache_Memory.gdrive_cnode_delete, Gdrive_Cache_Memory.gdrive_cnode_swap,
      Gdrive_Cache_Memory.readLink_eq, hla, hra, hly, hry, hpa,
      hax, hax.symm, hay, hay.symm, hxy, hxy.symm, hl1, hl2, hl3, hl4,
      hza, hza.symm, hzx, hzx.symm, hzy, hzy.symm]
    refine ⟨?_, ?_, ?_⟩
    · (cases link <;> simp_all); omega
    · intro h1 h2; exact absurd h2 h1
    · intro b hba hby
      refine ⟨?_, ?_, ?_⟩ <;> intros <;> (try split_ifs) <;>
        first | rfl | contradiction | (exfalso; omega)

/-- What the swap with the first node `s` of the right subtree, which hangs
from the left of `q`, and the deletion that follows leave. -/
theorem delete_via_right_spine (m : Gdrive_Cache_Memory) (link : Gdrive_Link)
    (parent rs : Option Nat) (a x y q s turns depth : Nat)
    (hlink : (match m.pParent a with
      | none => Gdrive_Link.toRoot
      | some p => if m.pLeft p = some a then Gdrive_Link.leftOf p else Gdrive_Link.rightOf p)
      = link)
    (hside : (match m.pParent a with
      | none => false
      | some parent => decide (m.pRight parent = some a)) = true)
    (hfind : m.findLeftmost turns (.rightOf a) y = (.leftOf q, s))
    (hpa : m.pParent a = parent) (hla : m.pLeft a = some x) (hra : m.pRight a = some y)
    (hps : m.pParent s = some q)
    (hls : m.pLeft s = none) (hrs : m.pRight s = rs)
    (hax : a ≠ x) (hay : a ≠ y) (hxy : x ≠ y) (has : a ≠ s) (hxs : x ≠ s) (hys : y ≠ s)
    (hqa : q ≠ a) (hqs : q ≠ s)
    (hrsa : rs ≠ some a) (hrss : rs ≠ some s) (hrsx : rs ≠ some x) (hrsy : rs ≠ some y)
    (hrsq : rs ≠ some q)
    (hl1 : link ≠ .leftOf a) (hl2 : link ≠ .rightOf a) (hl3 : link ≠ .leftOf s)
    (hl4 : link ≠ .rightOf s) (hl5 : link ≠ .leftOf q) (hl6 : link ≠ .rightOf q) :
    let m1 := m.gdrive_cnode_delete turns (depth + 2) a
    m1.pParent s = parent ∧ m1.pLeft s = some x ∧ m1.pRight s = some y ∧
    m1.pParent x = some s ∧ m1.pParent y = some s ∧ m1.pLeft q = rs ∧
    (∀ z, rs = some z → m1.pParent z = some q) ∧
    m1.readLink link = some s ∧ m1.node = m.node ∧ m1.freed = m.freed ++ [a] ∧
    (link ≠ .toRoot → m1.pRoot = m.pRoot) ∧
    (∀ b, b ≠ a → b ≠ s →
      (b ≠ x → b ≠ y → rs ≠ some b → m1.pParent b = m.pParent b) ∧
      (b ≠ q → link ≠ .leftOf b → m1.pLeft b = m.pLeft b) ∧
      (link ≠ .rightOf b → m1.pRight b = m.pRight b)) := by
  intro m1
  have hm1 : m1 = (m.gdrive_cnode_swap link a (.leftOf q) s).gdrive_cnode_delete turns
      (depth + 1) a := by
    show m.gdrive_cnode_delete turns (depth + 2) a = _
    conv_lhs => unfold Gdrive_Cache_Memory.gdrive_cnode_delete
    simp only [hlink, hla, hra, hside, hfind]
    rfl
  rw [hm1]
  clear_value m1
  clear hm1 hfind
  have hxs1 : ¬ (some x = some s) := fun e => hxs (Option.some.inj e)
  have hys1 : ¬ (some y = some s) := fun e => hys (Option.some.inj e)
  cases rs with
  | none =>
    simp [Gdrive_Cache_Memory.gdrive_cnode_delete, Gdrive_Cache_Memory.gdrive_cnode_swap,
      Gdrive_Cache_Memory.readLink_eq, hla, hra, hls, hrs, hpa, hps,
      hax, hax.symm, hay, hay.symm, hxy, hxy.symm, has, has.symm, hxs, hxs.symm,
      hys, hys.symm, hqa, hqa.symm, hqs, hqs.symm,
      hl1, hl2, hl3, hl4, hl5, hl6]
    refine ⟨?_, ?_, ?_⟩
    · (cases link <;> simp_all); omega
    · intro h1 h2; exact absurd h2 h1
    · intro b hba hbs
      refine ⟨?_, ?_, ?_⟩ <;> intros <;> (try split_ifs) <;>
        first | rfl | contradiction | (exfalso; omega)
  | some z =>
    have hza : z ≠ a := fun e => hrsa (by rw [e])
    have hzs : z ≠ s := fun e => hrss (by rw [e])
    have hzx : z ≠ x := fun e => hrsx (by rw [e])
    have hzy : z ≠ y := fun e => hrsy (by rw [e])
    have hzq : z ≠ q := fun e => hrsq (by rw [e])
    simp [Gdrive_Cache_Memory.gdrive_cnode_delete, Gdrive_Cache_Memory.gdrive_cnode_swap,
      Gdrive_Cache_Memory.readLink_eq, hla, hra, hls, hrs, hpa, hps,
      hax, hax.symm, hay, hay.symm, hxy, hxy.symm, has, has.symm, hxs, hxs.symm,
      hys, hys.symm, hqa, hqa.symm, hqs, hqs.symm,
      hl1, hl2, hl3, hl4, hl5, hl6,
      hza, hza.symm, hzs, hzs.symm, hzx, hzx.symm, hzy, hzy.symm, hzq, hzq.symm]
    refine ⟨?_, ?_, ?_⟩
    · (cases link <;> simp_all); omega
    · intro h1 h2; exact absurd h2 h1
    · intro b hba hbs
      refine ⟨?_, ?_, ?_⟩ <;> intros <;> (try split_ifs) <;>
        first | rfl | contradiction | (exfalso; omega)

/-- The loop that walks to the right ends at the last node of the tree. -/
theorem findRightmost_last (m : Gdrive_Cache_Memory) :
    ∀ (xr xl : Gdrive_Shape) (x : Nat) (par : Option Nat) (link : Gdrive_Link) (turns : Nat),
      m.holds par (.node xl x xr) → xr.addrs.length ≤ turns →
      m.findRightmost turns link x = (xr.lastLink link x, xr.last x) := by
  intro xr
  induction xr with
  | nil =>
    intro xl x par link turns h _
    exact findRightmost_none m turns link x h.2.2.1
  | node zl z zr _ ih =>
    intro xl x par link turns h hturns
    obtain ⟨_, _, h3, _, h5⟩ := h
    simp only [Gdrive_Shape.root] at h3
    simp only [Gdrive_Shape.addrs, List.length_append, List.length_cons] at hturns
    obtain ⟨t, rfl⟩ : ∃ t, turns = t + 1 := ⟨turns - 1, by omega⟩
    simp only [Gdrive_Cache_Memory.findRightmost, h3, Gdrive_Shape.lastLink, Gdrive_Shape.last]
    exact ih zl z (some x) (.rightOf x) t h5 (by omega)

/-- Where the last node `s` of a tree whose root has a right child sits: it
hangs from the right of a node `q` of the tree, has no right child, and its
left subtree lies below it. -/
theorem spine_last (m : Gdrive_Cache_Memory) :
    ∀ (zr xl zl : Gdrive_Shape) (x z : Nat) (par : Option Nat),
      m.holds par (.node xl x (.node zl z zr)) →
      (Gdrive_Shape.node xl x (.node zl z zr)).addrs.Nodup →
      ∃ q s, (∀ link, (Gdrive_Shape.node zl z zr).lastLink link x = .rightOf q) ∧
        (Gdrive_Shape.node zl z zr).last x = s ∧
        q ∈ x :: (Gdrive_Shape.node zl z zr).addrs ∧
        s ∈ (Gdrive_Shape.node zl z zr).addrs ∧
        q ≠ s ∧ m.pParent s = some q ∧ m.pRight q = some s ∧ m.pRight s = none ∧
        m.pLeft s ≠ some q ∧ m.pLeft s ≠ some s ∧
        (∀ c, m.pLeft s = some c → c ∈ (Gdrive_Shape.node zl z zr).addrs) ∧
        (Gdrive_Shape.node xl x (.node zl z zr)).addrs =
          (Gdrive_Shape.node xl x (.node zl z zr)).dropLast.addrs ++ [s] := by
  intro zr
  induction zr with
  | nil =>
    intro xl zl x z par h hnd
    obtain ⟨_, _, h3, _, h5⟩ := h
    obtain ⟨g1, g2, g3, _, _⟩ := h5
    obtain ⟨_, n2, _, n4, _⟩ := nodup_node _ _ _ hnd
    obtain ⟨_, _, n7, _, _⟩ := nodup_node _ _ _ n2
    have hxz : x ≠ z := by
      rintro rfl
      exact n4 (by simp [Gdrive_Shape.addrs])
    refine ⟨x, z, fun _ => rfl, rfl, by simp, by simp [Gdrive_Shape.addrs], hxz, g1, h3, g3,
      ?_, ?_, ?_, ?_⟩
    · rw [g2]
      intro e
      exact n4 (by simp [Gdrive_Shape.addrs, root_mem_addrs zl x e])
    · rw [g2]
      intro e
      exact n7 (root_mem_addrs zl z e)
    · intro c hc
      rw [g2] at hc
      simp [Gdrive_Shape.addrs, root_mem_addrs zl c hc]
    · simp [Gdrive_Shape.addrs, Gdrive_Shape.dropLast]
  | node wl w wr _ ih =>
    intro xl zl x z par h hnd
    obtain ⟨_, _, h3, _, h5⟩ := h
    obtain ⟨_, n2, _, n4, _⟩ := nodup_node _ _ _ hnd
    obtain ⟨q, s, e1, e2, e3, e4, e5, e6, e7, e8, e9, e10, e11, e12⟩ := ih zl wl z w (some x) h5 n2
    refine ⟨q, s, fun _ => e1 (.rightOf x), e2, ?_, ?_, e5, e6, e7, e8, e9, e10, ?_, ?_⟩
    · simp only [List.mem_cons] at e3 ⊢
      rcases e3 with rfl | e3
      · exact Or.inr (by simp [Gdrive_Shape.addrs])
      · exact Or.inr (by
          simp only [Gdrive_Shape.addrs, List.mem_append, List.mem_cons] at e3 ⊢
          tauto)
    · simp only [Gdrive_Shape.addrs, List.mem_append, List.mem_cons] at e4 ⊢
      tauto
    · intro c hc
      have := e11 c hc
      simp only [Gdrive_Shape.addrs, List.mem_append, List.mem_cons] at this ⊢
      tauto
    · have e12' : (Gdrive_Shape.node zl z (.node wl w wr)).addrs =
          (Gdrive_Shape.node zl z (.node wl w wr)).dropLast.addrs ++ [s] := e12
      show xl.addrs ++ x :: (Gdrive_Shape.node zl z (.node wl w wr)).addrs =
        (xl.addrs ++ x :: (Gdrive_Shape.node zl z (.node wl w wr)).dropLast.addrs) ++ [s]
      rw [e12']
      simp

/-- A memory that differs from `m` only by the removal of the last node `s`
of the tree, whose left subtree now hangs from the right of `q` in its place,
holds the tree without its last node. -/
theorem holds_dropLast (m m1 : Gdrive_Cache_Memory) :
    ∀ (zr xl zl : Gdrive_Shape) (x z q : Nat) (par par1 : Option Nat),
      m.holds par (.node xl x (.node zl z zr)) →
      (Gdrive_Shape.node xl x (.node zl z zr)).addrs.Nodup →
      (Gdrive_Shape.node zl z zr).lastLink .toRoot x = .rightOf q →
      m1.pParent x = par1 →
      m1.pRight q = m.pLeft ((Gdrive_Shape.node zl z zr).last x) →
      (∀ c, m.pLeft ((Gdrive_Shape.node zl z zr).last x) = some c → m1.pParent c = some q) →
      (∀ b ∈ (Gdrive_Shape.node xl x (.node zl z zr)).addrs,
        b ≠ (Gdrive_Shape.node zl z zr).last x →
        (b ≠ x → m.pLeft ((Gdrive_Shape.node zl z zr).last x) ≠ some b →
          m1.pParent b = m.pParent b) ∧
        m1.pLeft b = m.pLeft b ∧ (b ≠ q → m1.pRight b = m.pRight b)) →
      m1.holds par1 (Gdrive_Shape.node xl x (.node zl z zr)).dropLast := by
  intro zr
  induction zr with
  | nil =>
    intro xl zl x z q par par1 h hnd hq hp hrq hc hfr
    obtain ⟨_, h2, h3, h4, h5⟩ := h
    obtain ⟨g1, g2, g3, g4, _⟩ := h5
    obtain ⟨_, n2, n3, n4, n5⟩ := nodup_node _ _ _ hnd
    obtain ⟨n6, _, n7, _, _⟩ := nodup_node _ _ _ n2
    simp only [Gdrive_Shape.lastLink, Gdrive_Link.rightOf.injEq] at hq
    subst hq
    simp only [Gdrive_Shape.last] at hrq hc hfr
    have hxz : x ≠ z := by
      rintro rfl
      exact n4 (by simp [Gdrive_Shape.addrs])
    have hzl : ∀ b ∈ zl.addrs, b ≠ z ∧ b ≠ x := fun b hb =>
      ⟨fun e => n7 (e ▸ hb), fun e => n4 (by simp [Gdrive_Shape.addrs, e ▸ hb])⟩
    have hxl : ∀ b ∈ xl.addrs, b ≠ z ∧ b ≠ x ∧ b ∉ zl.addrs := fun b hb =>
      ⟨fun e => n5 b hb (by simp [Gdrive_Shape.addrs, e]), fun e => n3 (e ▸ hb),
        fun e => n5 b hb (by simp [Gdrive_Shape.addrs, e])⟩
    show m1.holds par1 (.node xl x zl)
    refine ⟨hp, ?_, ?_, ?_, ?_⟩
    · rw [(hfr x (by simp [Gdrive_Shape.addrs]) hxz).2.1, h2]
    · rw [hrq, g2]
    · apply holds_congr m m1 xl _ _ h4
      intro b hb
      obtain ⟨b1, b2, b3⟩ := hxl b hb
      obtain ⟨f1, f2, f3⟩ := hfr b (by simp [Gdrive_Shape.addrs, hb]) b1
      refine ⟨f1 b2 ?_, f2, f3 b2⟩
      rw [g2]
      intro e
      exact b3 (root_mem_addrs zl b e)
    · apply holds_reparent m m1 zl (some z) (some x) n6 _ _ g4
      · intro c hcr
        exact hc c (by rw [g2, hcr])
      · intro b hb
        obtain ⟨b1, b2⟩ := hzl b hb
        obtain ⟨f1, f2, f3⟩ := hfr b (by simp [Gdrive_Shape.addrs, hb]) b1
        refine ⟨fun hr => f1 b2 (by rw [g2]; exact hr), f2, f3 b2⟩
  | node wl w wr _ ih =>
    intro xl zl x z q par par1 h hnd hq hp hrq hc hfr
    obtain ⟨_, h2, h3, h4, h5⟩ := h
    obtain ⟨_, n2, n3, n4, n5⟩ := nodup_node _ _ _ hnd
    obtain ⟨q1, s, e1, e2, e3, e4, e5, e6, e7, e8, e9, e10, e11, _⟩ :=
      spine_last m wr zl wl z w (some x) h5 n2
    have hq1 : q1 = q := by
      have := e1 (.rightOf x)
      simp only [Gdrive_Shape.lastLink] at hq this
      rw [this] at hq
      exact Gdrive_Link.rightOf.inj hq
    subst hq1
    have hs : (Gdrive_Shape.node zl z (.node wl w wr)).last x = s := e2
    rw [hs] at hrq hc hfr
    have hsub : ∀ b, b ∈ (Gdrive_Shape.node wl w wr).addrs →
        b ∈ (Gdrive_Shape.node zl z (.node wl w wr)).addrs := by
      intro b hb
      simp only [Gdrive_Shape.addrs, List.mem_append, List.mem_cons] at hb ⊢
      tauto
    have hzin : z ∈ (Gdrive_Shape.node zl z (.node wl w wr)).addrs := by
      simp [Gdrive_Shape.addrs]
    have hqin : q1 ∈ (Gdrive_Shape.node zl z (.node wl w wr)).addrs := by
      simp only [List.mem_cons] at e3
      rcases e3 with rfl | e3
      · exact hzin
      · exact hsub _ e3
    have hxq : x ≠ q1 := fun e => n4 (e ▸ hqin)
    have hxs : x ≠ s := fun e => n4 (e ▸ hsub _ e4)
    obtain ⟨_, n22, _, n24, _⟩ := nodup_node _ _ _ n2
    have hzs : z ≠ s := fun e => n24 (e ▸ e4)
    have hcx : ∀ b, b ∉ (Gdrive_Shape.node wl w wr).addrs → m.pLeft s ≠ some b :=
      fun b hb e => hb (e11 b e)
    show m1.holds par1 (.node xl x (Gdrive_Shape.node zl z (.node wl w wr)).dropLast)
    refine ⟨hp, ?_, ?_, ?_, ?_⟩
    · rw [(hfr x (by simp [Gdrive_Shape.addrs]) hxs).2.1, h2]
    · rw [(hfr x (by simp [Gdrive_Shape.addrs]) hxs).2.2 hxq, h3]
      rfl
    · apply holds_congr m m1 xl _ _ h4
      intro b hb
      have b0 := n5 b hb
      have b1 : b ≠ s := fun e => b0 (e ▸ hsub _ e4)
      have b2 : b ≠ x := fun e => n3 (e ▸ hb)
      have b3 : b ≠ q1 := fun e => b0 (e ▸ hqin)
      obtain ⟨f1, f2, f3⟩ := hfr b (by simp [Gdrive_Shape.addrs, hb]) b1
      exact ⟨f1 b2 (hcx b (fun e => b0 (hsub _ e))), f2, f3 b3⟩
    · apply ih zl wl z w q1 (some x) (some x) h5 n2 (e1 _) _ (by rw [e2]; exact hrq)
        (by rw [e2]; exact hc)
      · rw [e2]
        intro b hb hbs
        have hbx : b ≠ x := fun e => n4 (e ▸ hb)
        obtain ⟨f1, f2, f3⟩ := hfr b (by
          simp only [Gdrive_Shape.addrs, List.mem_append, List.mem_cons] at hb ⊢
          tauto) hbs
        exact ⟨fun _ => f1 hbx, f2, f3⟩
      · have hxz : z ≠ x := fun e => n4 (e ▸ hzin)
        rw [(hfr z (by simp [Gdrive_Shape.addrs]) hzs).1 hxz (hcx z n24)]
        exact h5.1

/-- The loop that walks to the left ends at the first node of the tree. -/
theorem findLeftmost_first (m : Gdrive_Cache_Memory) :
    ∀ (xl xr : Gdrive_Shape) (x : Nat) (par : Option Nat) (link : Gdrive_Link) (turns : Nat),
      m.holds par (.node xl x xr) → xl.addrs.length ≤ turns →
      m.findLeftmost turns link x = (xl.firstLink link x, xl.first x) := by
  intro xl
  induction xl with
  | nil =>
    intro xr x par link turns h _
    exact findLeftmost_none m turns link x h.2.1
  | node zl z zr ih _ =>
    intro xr x par link turns h hturns
    obtain ⟨_, h2, _, h4, _⟩ := h
    simp only [Gdrive_Shape.root] at h2
    simp only [Gdrive_Shape.addrs, List.length_append, List.length_cons] at hturns
    obtain ⟨t, rfl⟩ : ∃ t, turns = t + 1 := ⟨turns - 1, by omega⟩
    simp only [Gdrive_Cache_Memory.findLeftmost, h2, Gdrive_Shape.firstLink, Gdrive_Shape.first]
    exact ih zr z (some x) (.leftOf x) t h4 (by omega)

/-- Where the first node `s` of a tree whose root has a left child sits: it
hangs from the left of a node `q` of the tree, has no left child, and its
right subtree lies below it. -/
theorem spine_first (m : Gdrive_Cache_Memory) :
    ∀ (zl xr zr : Gdrive_Shape) (x z : Nat) (par : Option Nat),
      m.holds par (.node (.node zl z zr) x xr) →
      (Gdrive_Shape.node (.node zl z zr) x xr).addrs.Nodup →
      ∃ q s, (∀ link, (Gdrive_Shape.node zl z zr).firstLink link x = .leftOf q) ∧
        (Gdrive_Shape.node zl z zr).first x = s ∧
        q ∈ x :: (Gdrive_Shape.node zl z zr).addrs ∧
        s ∈ (Gdrive_Shape.node zl z zr).addrs ∧
        q ≠ s ∧ m.pParent s = some q ∧ m.pLeft q = some s ∧ m.pLeft s = none ∧
        m.pRight s ≠ some q ∧ m.pRight s ≠ some s ∧
        (∀ c, m.pRight s = some c → c ∈ (Gdrive_Shape.node zl z zr).addrs) ∧
        (Gdrive_Shape.node (.node zl z zr) x xr).addrs =
          s :: (Gdrive_Shape.node (.node zl z zr) x xr).dropFirst.addrs := by
  intro zl
  induction zl with
  | nil =>
    intro xr zr x z par h hnd
    obtain ⟨_, h2, _, h4, _⟩ := h
    obtain ⟨g1, g2, g3, _, _⟩ := h4
    obtain ⟨n1, _, n3, _, _⟩ := nodup_node _ _ _ hnd
    obtain ⟨_, _, _, n8, _⟩ := nodup_node _ _ _ n1
    have hxz : x ≠ z := by
      rintro rfl
      exact n3 (by simp [Gdrive_Shape.addrs])
    refine ⟨x, z, fun _ => rfl, rfl, by simp, by simp [Gdrive_Shape.addrs], hxz, g1, h2, g2,
      ?_, ?_, ?_, ?_⟩
    · rw [g3]
      intro e
      exact n3 (by simp [Gdrive_Shape.addrs, root_mem_addrs zr x e])
    · rw [g3]
      intro e
      exact n8 (root_mem_addrs zr z e)
    · intro c hc
      rw [g3] at hc
      simp [Gdrive_Shape.addrs, root_mem_addrs zr c hc]
    · simp [Gdrive_Shape.addrs, Gdrive_Shape.dropFirst]
  | node wl w wr ih _ =>
    intro xr zr x z par h hnd
    obtain ⟨_, h2, _, h4, _⟩ := h
    obtain ⟨n1, _, n3, _, _⟩ := nodup_node _ _ _ hnd
    obtain ⟨q, s, e1, e2, e3, e4, e5, e6, e7, e8, e9, e10, e11, e12⟩ := ih zr wr z w (some x) h4 n1
    refine ⟨q, s, fun _ => e1 (.leftOf x), e2, ?_, ?_, e5, e6, e7, e8, e9, e10, ?_, ?_⟩
    · simp only [List.mem_cons] at e3 ⊢
      rcases e3 with rfl | e3
      · exact Or.inr (by simp [Gdrive_Shape.addrs])
      · exact Or.inr (by
          simp only [Gdrive_Shape.addrs, List.mem_append, List.mem_cons] at e3 ⊢
          tauto)
    · simp only [Gdrive_Shape.addrs, List.mem_append, List.mem_cons] at e4 ⊢
      tauto
    · intro c hc
      have := e11 c hc
      simp only [Gdrive_Shape.addrs, List.mem_append, List.mem_cons] at this ⊢
      tauto
    · have e12' : (Gdrive_Shape.node (.node wl w wr) z zr).addrs =
          s :: (Gdrive_Shape.node (.node wl w wr) z zr).dropFirst.addrs := e12
      show (Gdrive_Shape.node (.node wl w wr) z zr).addrs ++ x :: xr.addrs =
        s :: ((Gdrive_Shape.node (.node wl w wr) z zr).dropFirst.addrs ++ x :: xr.addrs)
      rw [e12']
      simp

/-- A memory that differs from `m` only by the removal of the first node `s`
of the tree, whose right subtree now hangs from the left of `q` in its place,
holds the tree without its first node. -/
theorem holds_dropFirst (m m1 : Gdrive_Cache_Memory) :
    ∀ (zl xr zr : Gdrive_Shape) (x z q : Nat) (par par1 : Option Nat),
      m.holds par (.node (.node zl z zr) x xr) →
      (Gdrive_Shape.node (.node zl z zr) x xr).addrs.Nodup →
      (Gdrive_Shape.node zl z zr).firstLink .toRoot x = .leftOf q →
      m1.pParent x = par1 →
      m1.pLeft q = m.pRight ((Gdrive_Shape.node zl z zr).first x) →
      (∀ c, m.pRight ((Gdrive_Shape.node zl z zr).first x) = some c → m1.pParent c = some q) →
      (∀ b ∈ (Gdrive_Shape.node (.node zl z zr) x xr).addrs,
        b ≠ (Gdrive_Shape.node zl z zr).first x →
        (b ≠ x → m.pRight ((Gdrive_Shape.node zl z zr).first x) ≠ some b →
          m1.pParent b = m.pParent b) ∧
        (b ≠ q → m1.pLeft b = m.pLeft b) ∧ m1.pRight b = m.pRight b) →
      m1.holds par1 (Gdrive_Shape.node (.node zl z zr) x xr).dropFirst := by
  intro zl
  induction zl with
  | nil =>
    intro xr zr x z q par par1 h hnd hq hp hlq hc hfr
    obtain ⟨_, h2, h3, h4, h5⟩ := h
    obtain ⟨g1, g2, g3, _, g5⟩ := h4
    obtain ⟨n1, _, n3, n4, n5⟩ := nodup_node _ _ _ hnd
    obtain ⟨_, n6, _, n8, _⟩ := nodup_node _ _ _ n1
    simp only [Gdrive_Shape.firstLink, Gdrive_Link.leftOf.injEq] at hq
    subst hq
    simp only [Gdrive_Shape.first] at hlq hc hfr
    have hxz : x ≠ z := by
      rintro rfl
      exact n3 (by simp [Gdrive_Shape.addrs])
    have hzr : ∀ b ∈ zr.addrs, b ≠ z ∧ b ≠ x := fun b hb =>
      ⟨fun e => n8 (e ▸ hb), fun e => n3 (by simp [Gdrive_Shape.addrs, e ▸ hb])⟩
    have hxr : ∀ b ∈ xr.addrs, b ≠ z ∧ b ≠ x ∧ b ∉ zr.addrs := fun b hb =>
      ⟨fun e => n5 b (by simp [Gdrive_Shape.addrs, e]) hb, fun e => n4 (e ▸ hb),
        fun e => n5 b (by simp [Gdrive_Shape.addrs, e]) hb⟩
    show m1.holds par1 (.node zr x xr)
    refine ⟨hp, ?_, ?_, ?_, ?_⟩
    · rw [hlq, g3]
    · rw [(hfr x (by simp [Gdrive_Shape.addrs]) hxz).2.2, h3]
    · apply holds_reparent m m1 zr (some z) (some x) n6 _ _ g5
      · intro c hcr
        exact hc c (by rw [g3, hcr])
      · intro b hb
        obtain ⟨b1, b2⟩ := hzr b hb
        obtain ⟨f1, f2, f3⟩ := hfr b (by simp [Gdrive_Shape.addrs, hb]) b1
        refine ⟨fun hr => f1 b2 (by rw [g3]; exact hr), f2 b2, f3⟩
    · apply holds_congr m m1 xr _ _ h5
      intro b hb
      obtain ⟨b1, b2, b3⟩ := hxr b hb
      obtain ⟨f1, f2, f3⟩ := hfr b (by simp [Gdrive_Shape.addrs, hb]) b1
      refine ⟨f1 b2 ?_, f2 b2, f3⟩
      rw [g3]
      intro e
      exact b3 (root_mem_addrs zr b e)
  | node wl w wr ih _ =>
    intro xr zr x z q par par1 h hnd hq hp hlq hc hfr
    obtain ⟨_, h2, h3, h4, h5⟩ := h
    obtain ⟨n1, _, n3, n4, n5⟩ := nodup_node _ _ _ hnd
    obtain ⟨q1, s, e1, e2, e3, e4, e5, e6, e7, e8, e9, e10, e11, _⟩ :=
      spine_first m wl zr wr z w (some x) h4 n1
    have hq1 : q1 = q := by
      have := e1 (.leftOf x)
      simp only [Gdrive_Shape.firstLink] at hq this
      rw [this] at hq
      exact Gdrive_Link.leftOf.inj hq
    subst hq1
    have hs : (Gdrive_Shape.node (.node wl w wr) z zr).first x = s := e2
    rw [hs] at hlq hc hfr
    have hsub : ∀ b, b ∈ (Gdrive_Shape.node wl w wr).addrs →
        b ∈ (Gdrive_Shape.node (.node wl w wr) z zr).addrs := by
      intro b hb
      simp only [Gdrive_Shape.addrs, List.mem_append, List.mem_cons] at hb ⊢
      tauto
    have hzin : z ∈ (Gdrive_Shape.node (.node wl w wr) z zr).addrs := by
      simp [Gdrive_Shape.addrs]
    have hqin : q1 ∈ (Gdrive_Shape.node (.node wl w wr) z zr).addrs := by
      simp only [List.mem_cons] at e3
      rcases e3 with rfl | e3
      · exact hzin
      · exact hsub _ e3
    have hxq : x ≠ q1 := fun e => n3 (e ▸ hqin)
    have hxs : x ≠ s := fun e => n3 (e ▸ hsub _ e4)
    obtain ⟨n21, _, n23, _, _⟩ := nodup_node _ _ _ n1
    have hzs : z ≠ s := fun e => n23 (e ▸ e4)
    have hcx : ∀ b, b ∉ (Gdrive_Shape.node wl w wr).addrs → m.pRight s ≠ some b :=
      fun b hb e => hb (e11 b e)
    show m1.holds par1 (.node (Gdrive_Shape.node (.node wl w wr) z zr).dropFirst x xr)
    refine ⟨hp, ?_, ?_, ?_, ?_⟩
    · rw [(hfr x (by simp [Gdrive_Shape.addrs]) hxs).2.1 hxq, h2]
      rfl
    · rw [(hfr x (by simp [Gdrive_Shape.addrs]) hxs).2.2, h3]
    · apply ih zr wr z w q1 (some x) (some x) h4 n1 (e1 _) _ (by rw [e2]; exact hlq)
        (by rw [e2]; exact hc)
      · rw [e2]
        intro b hb hbs
        have hbx : b ≠ x := fun e => n3 (e ▸ hb)
        obtain ⟨f1, f2, f3⟩ := hfr b (by
          simp only [Gdrive_Shape.addrs, List.mem_append, List.mem_cons] at hb ⊢
          tauto) hbs
        exact ⟨fun _ => f1 hbx, f2, f3⟩
      · have hxz : z ≠ x := fun e => n3 (e ▸ hzin)
        rw [(hfr z (by simp [Gdrive_Shape.addrs]) hzs).1 hxz (hcx z n23)]
        exact h4.1
    · apply holds_congr m m1 xr _ _ h5
      intro b hb
      have b0 : b ∉ (Gdrive_Shape.node (.node wl w wr) z zr).addrs := fun e => n5 b e hb
      have b1 : b ≠ s := fun e => b0 (e ▸ hsub _ e4)
      have b2 : b ≠ x := fun e => n4 (e ▸ hb)
      have b3 : b ≠ q1 := fun e => b0 (e ▸ hqin)
      obtain ⟨f1, f2, f3⟩ := hfr b (by simp [Gdrive_Shape.addrs, hb]) b1
      exact ⟨f1 b2 (hcx b (fun e => b0 (hsub _ e))), f2 b3, f3⟩

theorem link_of_hangsFrom (m : Gdrive_Cache_Memory) (link : Gdrive_Link)
    (parent : Option Nat) (a : Nat) (hp : m.pParent a = parent)
    (hh : m.hangsFrom link parent a) :
    (match m.pParent a with
      | none => Gdrive_Link.toRoot
      | some p => if m.pLeft p = some a then Gdrive_Link.leftOf p else Gdrive_Link.rightOf p)
      = link := by
  rw [hp]
  unfold Gdrive_Cache_Memory.hangsFrom at hh
  cases parent with
  | none => exact hh.1.symm
  | some p =>
    simp only at hh ⊢
    rcases hh with ⟨h1, h2, _⟩ | ⟨h1, _, h3⟩
    · rw [if_pos h2, h1]
    · rw [if_neg h3, h1]

theorem link_outside (m : Gdrive_Cache_Memory) (link : Gdrive_Link)
    (parent : Option Nat) (a : Nat) (S : List Nat)
    (hh : m.hangsFrom link parent a) (hpar : ∀ p, parent = some p → p ∉ S) :
    ∀ b ∈ S, link ≠ .leftOf b ∧ link ≠ .rightOf b := by
  intro b hb
  unfold Gdrive_Cache_Memory.hangsFrom at hh
  cases parent with
  | none =>
    obtain ⟨rfl, _⟩ := hh
    simp
  | some p =>
    have hpb : p ≠ b := fun e => hpar p rfl (e ▸ hb)
    rcases hh with ⟨rfl, _, _⟩ | ⟨rfl, _, _⟩ <;> simp [hpb]

theorem readLink_of_hangsFrom (m : Gdrive_Cache_Memory) (link : Gdrive_Link)
    (parent : Option Nat) (a : Nat) (hh : m.hangsFrom link parent a) :
    m.readLink link = some a := by
  unfold Gdrive_Cache_Memory.hangsFrom at hh
  cases parent with
  | none =>
    obtain ⟨rfl, h⟩ := hh
    exact h
  | some p =>
    rcases hh with ⟨rfl, h, _⟩ | ⟨rfl, h, _⟩ <;> exact h

/-- Deleting a node without children leaves the empty tree in its place. -/
theorem delete_leaf (m : Gdrive_Cache_Memory) (link : Gdrive_Link) (parent : Option Nat)
    (a turns depth : Nat)
    (hlink : (match m.pParent a with
      | none => Gdrive_Link.toRoot
      | some p => if m.pLeft p = some a then Gdrive_Link.leftOf p else Gdrive_Link.rightOf p)
      = link)
    (hout : ∀ b ∈ (Gdrive_Shape.node .nil a .nil).addrs, link ≠ .leftOf b ∧ link ≠ .rightOf b)
    (h : m.holds parent (.node .nil a .nil)) :
    m.deletedFrom (m.gdrive_cnode_delete turns (depth + 1) a) link parent
      (.node .nil a .nil) .nil a := by
  obtain ⟨_, h2, h3, _, _⟩ := h
  obtain ⟨o1, o2⟩ := hout a (by simp [Gdrive_Shape.addrs])
  obtain ⟨r1, r2, r3, r4, r5⟩ := delete_leaf_reads m link a turns depth hlink h2 h3 o1 o2
  refine ⟨trivial, r1, ⟨[], [], rfl, rfl⟩, r2, r3, ?_, r4⟩
  intro b hb
  exact r5 b (fun e => hb (by simp [Gdrive_Shape.addrs, e]))

/-- Deleting a node that has a right child only leaves its right subtree in
its place. -/
theorem delete_right_only (m : Gdrive_Cache_Memory) (link : Gdrive_Link)
    (parent : Option Nat) (a y turns depth : Nat) (rl rr : Gdrive_Shape)
    (hlink : (match m.pParent a with
      | none => Gdrive_Link.toRoot
      | some p => if m.pLeft p = some a then Gdrive_Link.leftOf p else Gdrive_Link.rightOf p)
      = link)
    (hout : ∀ b ∈ (Gdrive_Shape.node .nil a (.node rl y rr)).addrs,
      link ≠ .leftOf b ∧ link ≠ .rightOf b)
    (hnd : (Gdrive_Shape.node .nil a (.node rl y rr)).addrs.Nodup)
    (h : m.holds parent (.node .nil a (.node rl y rr))) :
    m.deletedFrom (m.gdrive_cnode_delete turns (depth + 1) a) link parent
      (.node .nil a (.node rl y rr)) (.node rl y rr) a := by
  obtain ⟨h1, h2, h3, _, h5⟩ := h
  obtain ⟨_, n2, _, n4, _⟩ := nodup_node _ _ _ hnd
  obtain ⟨o1, o2⟩ := hout a (by simp [Gdrive_Shape.addrs])
  obtain ⟨r0, r1, r2, r3, r4, r5⟩ :=
    delete_right_only_reads m link parent a y turns depth hlink h1 h2 h3 o1 o2
  refine ⟨?_, r1, ⟨[], (Gdrive_Shape.node rl y rr).addrs, rfl, rfl⟩, r2, r3, ?_, r4⟩
  · apply holds_reparent m _ (.node rl y rr) (some a) parent n2 _ _ h5
    · intro c hc
      obtain rfl : y = c := Option.some.inj hc
      exact r0
    · intro b hb
      have hba : b ≠ a := fun e => n4 (e ▸ hb)
      obtain ⟨f1, f2, f3⟩ := r5 b hba
      obtain ⟨o3, o4⟩ := hout b (by simp [Gdrive_Shape.addrs] at hb ⊢; tauto)
      exact ⟨fun hr => f1 (fun e => hr (by rw [e]; rfl)), f2 o3, f3 o4⟩
  · intro b hb
    have hba : b ≠ a := fun e => hb (by simp [Gdrive_Shape.addrs, e])
    have hby : b ≠ y := fun e => hb (by simp [Gdrive_Shape.addrs, e])
    obtain ⟨f1, f2, f3⟩ := r5 b hba
    exact ⟨f1 hby, f2, f3⟩

/-- Deleting a node that has a left child only leaves its left subtree in its
place. -/
theorem delete_left_only (m : Gdrive_Cache_Memory) (link : Gdrive_Link)
    (parent : Option Nat) (a x turns depth : Nat) (ll lr : Gdrive_Shape)
    (hlink : (match m.pParent a with
      | none => Gdrive_Link.toRoot
      | some p => if m.pLeft p = some a then Gdrive_Link.leftOf p else Gdrive_Link.rightOf p)
      = link)
    (hout : ∀ b ∈ (Gdrive_Shape.node (.node ll x lr) a .nil).addrs,
      link ≠ .leftOf b ∧ link ≠ .rightOf b)
    (hnd : (Gdrive_Shape.node (.node ll x lr) a .nil).addrs.Nodup)
    (h : m.holds parent (.node (.node ll x lr) a .nil)) :
    m.deletedFrom (m.gdrive_cnode_delete turns (depth + 1) a) link parent
      (.node (.node ll x lr) a .nil) (.node ll x lr) a := by
  obtain ⟨h1, h2, h3, h4, _⟩ := h
  obtain ⟨n1, _, n3, _, _⟩ := nodup_node _ _ _ hnd
  obtain ⟨o1, o2⟩ := hout a (by simp [Gdrive_Shape.addrs])
  obtain ⟨r0, r1, r2, r3, r4, r5⟩ :=
    delete_left_only_reads m link parent a x turns depth hlink h1 h2 h3 o1 o2
  refine ⟨?_, r1, ⟨(Gdrive_Shape.node ll x lr).addrs, [], rfl, by simp⟩, r2, r3, ?_, r4⟩
  · apply holds_reparent m _ (.node ll x lr) (some a) parent n1 _ _ h4
    · intro c hc
      obtain rfl : x = c := Option.some.inj hc
      exact r0
    · intro b hb
      have hba : b ≠ a := fun e => n3 (e ▸ hb)
      obtain ⟨f1, f2, f3⟩ := r5 b hba
      obtain ⟨o3, o4⟩ := hout b (by simp [Gdrive_Shape.addrs] at hb ⊢; tauto)
      exact ⟨fun hr => f1 (fun e => hr (by rw [e]; rfl)), f2 o3, f3 o4⟩
  · intro b hb
    have hba : b ≠ a := fun e => hb (by simp [Gdrive_Shape.addrs, e])
    have hbx : b ≠ x := fun e => hb (by simp [Gdrive_Shape.addrs, e])
    obtain ⟨f1, f2, f3⟩ := r5 b hba
    exact ⟨f1 hbx, f2, f3⟩

/-- Deleting a node with two children that does not hang from the right of
its parent puts the last node of its left subtree in its place. -/
theorem delete_two_left (m : Gdrive_Cache_Memory) (link : Gdrive_Link)
    (parent : Option Nat) (a x y turns depth : Nat) (xl xr rl rr : Gdrive_Shape)
    (hlink : (match m.pParent a with
      | none => Gdrive_Link.toRoot
      | some p => if m.pLeft p = some a then Gdrive_Link.leftOf p else Gdrive_Link.rightOf p)
      = link)
    (hside : (match m.pParent a with
      | none => false
      | some parent => decide (m.pRight parent = some a)) = false)
    (hout : ∀ b ∈ (Gdrive_Shape.node (.node xl x xr) a (.node rl y rr)).addrs,
      link ≠ .leftOf b ∧ link ≠ .rightOf b)
    (hnd : (Gdrive_Shape.node (.node xl x xr) a (.node rl y rr)).addrs.Nodup)
    (hturns : xr.addrs.length ≤ turns)
    (h : m.holds parent (.node (.node xl x xr) a (.node rl y rr))) :
    m.deletedFrom (m.gdrive_cnode_delete turns (depth + 2) a) link parent
      (.node (.node xl x xr) a (.node rl y rr))
      (.node (Gdrive_Shape.node xl x xr).dropLast (xr.last x) (.node rl y rr)) a := by
  obtain ⟨h1, h2, h3, h4, h5⟩ := h
  obtain ⟨n1, n2, n3, n4, n5⟩ := nodup_node _ _ _ hnd
  have hLt : ∀ b ∈ (Gdrive_Shape.node xl x xr).addrs,
      b ∈ (Gdrive_Shape.node (.node xl x xr) a (.node rl y rr)).addrs := fun b hb => by
    simp only [Gdrive_Shape.addrs, List.mem_append, List.mem_cons] at hb ⊢
    tauto
  have hRt : ∀ b ∈ (Gdrive_Shape.node rl y rr).addrs,
      b ∈ (Gdrive_Shape.node (.node xl x xr) a (.node rl y rr)).addrs := fun b hb => by
    simp only [Gdrive_Shape.addrs, List.mem_append, List.mem_cons] at hb ⊢
    tauto
  have hat : a ∈ (Gdrive_Shape.node (.node xl x xr) a (.node rl y rr)).addrs := by
    simp [Gdrive_Shape.addrs]
  have hxL : x ∈ (Gdrive_Shape.node xl x xr).addrs := by simp [Gdrive_Shape.addrs]
  have hyR : y ∈ (Gdrive_Shape.node rl y rr).addrs := by simp [Gdrive_Shape.addrs]
  have hax : a ≠ x := fun e => n3 (e ▸ hxL)
  have hay : a ≠ y := fun e => n4 (e ▸ hyR)
  have hxy : x ≠ y := fun e => n5 x hxL (e ▸ hyR)
  obtain ⟨oa1, oa2⟩ := hout a hat
  cases xr with
  | nil =>
    obtain ⟨g1, g2, g3, g4, _⟩ := h4
    obtain ⟨n6, _, n8, _, _⟩ := nodup_node _ _ _ n1
    have hxlL : ∀ b ∈ xl.addrs, b ∈ (Gdrive_Shape.node xl x .nil).addrs := fun b hb => by
      simp [Gdrive_Shape.addrs, hb]
    obtain ⟨ox1, ox2⟩ := hout x (hLt x hxL)
    have hlx : ∀ b, b ∉ xl.addrs → xl.root ≠ some b := fun b hb e => hb (root_mem_addrs xl b e)
    obtain ⟨r1, r2, r3, r4, r5, r6, r7, r8, r9, r10⟩ :=
      delete_via_left_child m link parent xl.root a x y turns depth hlink hside h1 h2 h3 g2 g3
        hax hay hxy (hlx a (fun e => n3 (hxlL a e))) (hlx x n8)
        (hlx y (fun e => n5 y (hxlL y e) hyR)) oa1 oa2 ox1 ox2
    refine ⟨⟨r1, r2, r3, ?_, ?_⟩, r6, ⟨xl.addrs ++ [x], (Gdrive_Shape.node rl y rr).addrs,
      by simp [Gdrive_Shape.addrs], by simp [Gdrive_Shape.addrs, Gdrive_Shape.dropLast,
        Gdrive_Shape.last]⟩, r7, r8, ?_, r9⟩
    · apply holds_reparent m _ xl (some x) (some x) n6 (fun c hc => r5 c hc) _ g4
      intro b hb
      have hbL := hxlL b hb
      obtain ⟨f1, f2, f3⟩ := r10 b (fun e => n3 (e ▸ hbL)) (fun e => n8 (e ▸ hb))
      obtain ⟨o3, o4⟩ := hout b (hLt b hbL)
      exact ⟨fun hr => f1 (fun e => n5 b hbL (e ▸ hyR)) hr, f2 o3, f3 o4⟩
    · apply holds_reparent m _ (.node rl y rr) (some a) (some x) n2 _ _ h5
      · intro c hc
        obtain rfl : y = c := Option.some.inj hc
        exact r4
      · intro b hb
        obtain ⟨f1, f2, f3⟩ := r10 b (fun e => n4 (e ▸ hb)) (fun e => n5 x hxL (e ▸ hb))
        obtain ⟨o3, o4⟩ := hout b (hRt b hb)
        exact ⟨fun hr => f1 (fun e => hr (by rw [e]; rfl))
          (hlx b (fun e => n5 b (hxlL b e) hb)), f2 o3, f3 o4⟩
    · intro b hb
      obtain ⟨f1, f2, f3⟩ := r10 b (fun e => hb (e ▸ hat)) (fun e => hb (e ▸ hLt x hxL))
      exact ⟨f1 (fun e => hb (e ▸ hRt y hyR)) (hlx b (fun e => hb (hLt b (hxlL b e)))), f2, f3⟩
  | node zl z zr =>
    obtain ⟨q, s, e1, e2, e3, e4, e5, e6, e7, e8, e9, e10, e11, e12⟩ :=
      spine_last m zr xl zl x z (some a) h4 n1
    rw [e2]
    have hfind := findRightmost_last m (.node zl z zr) xl x (some a) (.leftOf a) turns h4 hturns
    rw [e1, e2] at hfind
    have hxrL : ∀ b ∈ (Gdrive_Shape.node zl z zr).addrs,
        b ∈ (Gdrive_Shape.node xl x (.node zl z zr)).addrs := fun b hb => by
      simp only [Gdrive_Shape.addrs, List.mem_append, List.mem_cons] at hb ⊢
      tauto
    have hqL : q ∈ (Gdrive_Shape.node xl x (.node zl z zr)).addrs := by
      simp only [List.mem_cons] at e3
      rcases e3 with rfl | e3
      · exact hxL
      · exact hxrL q e3
    have hsL := hxrL s e4
    obtain ⟨_, _, _, n9, _⟩ := nodup_node _ _ _ n1
    obtain ⟨os1, os2⟩ := hout s (hLt s hsL)
    obtain ⟨oq1, oq2⟩ := hout q (hLt q hqL)
    have hls : ∀ b, b ∉ (Gdrive_Shape.node zl z zr).addrs → m.pLeft s ≠ some b :=
      fun b hb e => hb (e11 b e)
    have hlq : m.pLeft q ≠ some a := fun e =>
      n3 (child_mem_addrs m _ _ h4 q hqL a (Or.inl e))
    obtain ⟨r1, r2, r3, r4, r5, r6, r7, r8, r9, r10, r11, r12⟩ :=
      delete_via_left_spine m link parent (m.pLeft s) a x y q s turns depth hlink hside hfind
        h1 h2 h3 e6 hlq rfl e8 hax hay hxy (fun e => n3 (e ▸ hsL)) (fun e => n9 (e ▸ e4))
        (fun e => n5 s hsL (e ▸ hyR)) (fun e => n3 (e ▸ hqL)) e5
        (hls a (fun e => n3 (hxrL a e))) e10 (hls x n9) (hls y (fun e => n5 y (hxrL y e) hyR))
        e9 oa1 oa2 os1 os2 oq1 oq2
    refine ⟨⟨r1, ?_, r3, ?_, ?_⟩, r8, ⟨(Gdrive_Shape.node xl x (.node zl z zr)).dropLast.addrs
      ++ [s], (Gdrive_Shape.node rl y rr).addrs, ?_, ?_⟩, r9, r10, ?_, r11⟩
    · rw [r2]
      rfl
    · apply holds_dropLast m _ zr xl zl x z q (some a) (some s) h4 n1 (e1 _) r4
        (by rw [e2]; exact r6) (by rw [e2]; exact r7)
      rw [e2]
      intro b hb hbs
      obtain ⟨f1, f2, f3⟩ := r12 b (fun e => n3 (e ▸ hb)) hbs
      obtain ⟨o3, o4⟩ := hout b (hLt b hb)
      exact ⟨fun hbx hlb => f1 hbx (fun e => n5 b hb (e ▸ hyR)) hlb, f2 o3,
        fun hbq => f3 hbq o4⟩
    · apply holds_reparent m _ (.node rl y rr) (some a) (some s) n2 _ _ h5
      · intro c hc
        obtain rfl : y = c := Option.some.inj hc
        exact r5
      · intro b hb
        obtain ⟨f1, f2, f3⟩ := r12 b (fun e => n4 (e ▸ hb)) (fun e => n5 s hsL (e ▸ hb))
        obtain ⟨o3, o4⟩ := hout b (hRt b hb)
        exact ⟨fun hr => f1 (fun e => n5 x hxL (e ▸ hb)) (fun e => hr (by rw [e]; rfl))
          (hls b (fun e => n5 b (hxrL b e) hb)), f2 o3, f3 (fun e => n5 q hqL (e ▸ hb)) o4⟩
    · show (Gdrive_Shape.node xl x (.node zl z zr)).addrs ++ a :: (Gdrive_Shape.node rl y rr).addrs
        = _
      rw [e12]
    · show (Gdrive_Shape.node xl x (.node zl z zr)).dropLast.addrs ++
        s :: (Gdrive_Shape.node rl y rr).addrs = _
      simp
    · intro b hb
      obtain ⟨f1, f2, f3⟩ := r12 b (fun e => hb (e ▸ hat)) (fun e => hb (e ▸ hLt s hsL))
      exact ⟨f1 (fun e => hb (e ▸ hLt x hxL)) (fun e => hb (e ▸ hRt y hyR))
        (hls b (fun e => hb (hLt b (hxrL b e)))), f2, f3 (fun e => hb (e ▸ hLt q hqL))⟩

/-- Deleting a node with two children that hangs from the right of its parent
puts the first node of its right subtree in its place. -/
theorem delete_two_right (m : Gdrive_Cache_Memory) (link : Gdrive_Link)
    (parent : Option Nat) (a x y turns depth : Nat) (ll lr yl yr : Gdrive_Shape)
    (hlink : (match m.pParent a with
      | none => Gdrive_Link.toRoot
      | some p => if m.pLeft p = some a then Gdrive_Link.leftOf p else Gdrive_Link.rightOf p)
      = link)
    (hside : (match m.pParent a with
      | none => false
      | some parent => decide (m.pRight parent = some a)) = true)
    (hout : ∀ b ∈ (Gdrive_Shape.node (.node ll x lr) a (.node yl y yr)).addrs,
      link ≠ .leftOf b ∧ link ≠ .rightOf b)
    (hnd : (Gdrive_Shape.node (.node ll x lr) a (.node yl y yr)).addrs.Nodup)
    (hturns : yl.addrs.length ≤ turns)
    (h : m.holds parent (.node (.node ll x lr) a (.node yl y yr))) :
    m.deletedFrom (m.gdrive_cnode_delete turns (depth + 2) a) link parent
      (.node (.node ll x lr) a (.node yl y yr))
      (.node (.node ll x lr) (yl.first y) (Gdrive_Shape.node yl y yr).dropFirst) a := by
  obtain ⟨h1, h2, h3, h4, h5⟩ := h
  obtain ⟨n1, n2, n3, n4, n5⟩ := nodup_node _ _ _ hnd
  have hLt : ∀ b ∈ (Gdrive_Shape.node ll x lr).addrs,
      b ∈ (Gdrive_Shape.node (.node ll x lr) a (.node yl y yr)).addrs := fun b hb => by
    simp only [Gdrive_Shape.addrs, List.mem_append, List.mem_cons] at hb ⊢
    tauto
  have hRt : ∀ b ∈ (Gdrive_Shape.node yl y yr).addrs,
      b ∈ (Gdrive_Shape.node (.node ll x lr) a (.node yl y yr)).addrs := fun b hb => by
    simp only [Gdrive_Shape.addrs, List.mem_append, List.mem_cons] at hb ⊢
    tauto
  have hat : a ∈ (Gdrive_Shape.node (.node ll x lr) a (.node yl y yr)).addrs := by
    simp [Gdrive_Shape.addrs]
  have hxL : x ∈ (Gdrive_Shape.node ll x lr).addrs := by simp [Gdrive_Shape.addrs]
  have hyR : y ∈ (Gdrive_Shape.node yl y yr).addrs := by simp [Gdrive_Shape.addrs]
  have hax : a ≠ x := fun e => n3 (e ▸ hxL)
  have hay : a ≠ y := fun e => n4 (e ▸ hyR)
  have hxy : x ≠ y := fun e => n5 x hxL (e ▸ hyR)
  obtain ⟨oa1, oa2⟩ := hout a hat
  cases yl with
  | nil =>
    obtain ⟨g1, g2, g3, _, g5⟩ := h5
    obtain ⟨_, n7, _, n9, _⟩ := nodup_node _ _ _ n2
    have hyrR : ∀ b ∈ yr.addrs, b ∈ (Gdrive_Shape.node .nil y yr).addrs := fun b hb => by
      simp [Gdrive_Shape.addrs, hb]
    obtain ⟨oy1, oy2⟩ := hout y (hRt y hyR)
    have hry : ∀ b, b ∉ yr.addrs → yr.root ≠ some b := fun b hb e => hb (root_mem_addrs yr b e)
    obtain ⟨r1, r2, r3, r4, r5, r6, r7, r8, r9, r10⟩ :=
      delete_via_right_child m link parent yr.root a x y turns depth hlink hside h1 h2 h3 g2 g3
        hax hay hxy (hry a (fun e => n4 (hyrR a e))) (hry x (fun e => n5 x hxL (hyrR x e)))
        (hry y n9) oa1 oa2 oy1 oy2
    refine ⟨⟨r1, r2, r3, ?_, ?_⟩, r6, ⟨(Gdrive_Shape.node ll x lr).addrs, y :: yr.addrs,
      by simp [Gdrive_Shape.addrs], by simp [Gdrive_Shape.addrs, Gdrive_Shape.dropFirst,
        Gdrive_Shape.first]⟩, r7, r8, ?_, r9⟩
    · apply holds_reparent m _ (.node ll x lr) (some a) (some y) n1 _ _ h4
      · intro c hc
        obtain rfl : x = c := Option.some.inj hc
        exact r4
      · intro b hb
        obtain ⟨f1, f2, f3⟩ := r10 b (fun e => n3 (e ▸ hb)) (fun e => n5 b hb (e ▸ hyR))
        obtain ⟨o3, o4⟩ := hout b (hLt b hb)
        exact ⟨fun hr => f1 (fun e => hr (by rw [e]; rfl))
          (hry b (fun e => n5 b hb (hyrR b e))), f2 o3, f3 o4⟩
    · apply holds_reparent m _ yr (some y) (some y) n7 (fun c hc => r5 c hc) _ g5
      intro b hb
      have hbR := hyrR b hb
      obtain ⟨f1, f2, f3⟩ := r10 b (fun e => n4 (e ▸ hbR)) (fun e => n9 (e ▸ hb))
      obtain ⟨o3, o4⟩ := hout b (hRt b hbR)
      exact ⟨fun hr => f1 (fun e => n5 x hxL (e ▸ hbR)) hr, f2 o3, f3 o4⟩
    · intro b hb
      obtain ⟨f1, f2, f3⟩ := r10 b (fun e => hb (e ▸ hat)) (fun e => hb (e ▸ hRt y hyR))
      exact ⟨f1 (fun e => hb (e ▸ hLt x hxL)) (hry b (fun e => hb (hRt b (hyrR b e)))), f2, f3⟩
  | node zl z zr =>
    obtain ⟨q, s, e1, e2, e3, e4, e5, e6, e7, e8, e9, e10, e11, e12⟩ :=
      spine_first m zl yr zr y z (some a) h5 n2
    rw [e2]
    have hfind := findLeftmost_first m (.node zl z zr) yr y (some a) (.rightOf a) turns h5 hturns
    rw [e1, e2] at hfind
    have hylR : ∀ b ∈ (Gdrive_Shape.node zl z zr).addrs,
        b ∈ (Gdrive_Shape.node (.node zl z zr) y yr).addrs := fun b hb => by
      simp only [Gdrive_Shape.addrs, List.mem_append, List.mem_cons] at hb ⊢
      tauto
    have hqR : q ∈ (Gdrive_Shape.node (.node zl z zr) y yr).addrs := by
      simp only [List.mem_cons] at e3
      rcases e3 with rfl | e3
      · exact hyR
      · exact hylR q e3
    have hsR := hylR s e4
    obtain ⟨_, _, n8, _, _⟩ := nodup_node _ _ _ n2
    obtain ⟨os1, os2⟩ := hout s (hRt s hsR)
    obtain ⟨oq1, oq2⟩ := hout q (hRt q hqR)
    have hrs : ∀ b, b ∉ (Gdrive_Shape.node zl z zr).addrs → m.pRight s ≠ some b :=
      fun b hb e => hb (e11 b e)
    obtain ⟨r1, r2, r3, r4, r5, r6, r7, r8, r9, r10, r11, r12⟩ :=
      delete_via_right_spine m link parent (m.pRight s) a x y q s turns depth hlink hside hfind
        h1 h2 h3 e6 e8 rfl hax hay hxy (fun e => n4 (e ▸ hsR)) (fun e => n5 x hxL (e ▸ hsR))
        (fun e => n8 (e ▸ e4)) (fun e => n4 (e ▸ hqR)) e5
        (hrs a (fun e => n4 (hylR a e))) e10 (hrs x (fun e => n5 x hxL (hylR x e))) (hrs y n8)
        e9 oa1 oa2 os1 os2 oq1 oq2
    refine ⟨⟨r1, r2, ?_, ?_, ?_⟩, r8, ⟨(Gdrive_Shape.node ll x lr).addrs,
      s :: (Gdrive_Shape.node (.node zl z zr) y yr).dropFirst.addrs, ?_, rfl⟩,
      r9, r10, ?_, r11⟩
    · rw [r3]
      rfl
    · apply holds_reparent m _ (.node ll x lr) (some a) (some s) n1 _ _ h4
      · intro c hc
        obtain rfl : x = c := Option.some.inj hc
        exact r4
      · intro b hb
        obtain ⟨f1, f2, f3⟩ := r12 b (fun e => n3 (e ▸ hb)) (fun e => n5 b hb (e ▸ hsR))
        obtain ⟨o3, o4⟩ := hout b (hLt b hb)
        exact ⟨fun hr => f1 (fun e => hr (by rw [e]; rfl)) (fun e => n5 b hb (e ▸ hyR))
          (hrs b (fun e => n5 b hb (hylR b e))), f2 (fun e => n5 b hb (e ▸ hqR)) o3, f3 o4⟩
    · apply holds_dropFirst m _ zl yr zr y z q (some a) (some s) h5 n2 (e1 _) r5
        (by rw [e2]; exact r6) (by rw [e2]; exact r7)
      rw [e2]
      intro b hb hbs
      obtain ⟨f1, f2, f3⟩ := r12 b (fun e => n4 (e ▸ hb)) hbs
      obtain ⟨o3, o4⟩ := hout b (hRt b hb)
      exact ⟨fun hby hrb => f1 (fun e => n5 x hxL (e ▸ hb)) hby hrb,
        fun hbq => f2 hbq o3, f3 o4⟩
    · show (Gdrive_Shape.node ll x lr).addrs ++
        a :: (Gdrive_Shape.node (.node zl z zr) y yr).addrs = _
      rw [e12]
    · intro b hb
      obtain ⟨f1, f2, f3⟩ := r12 b (fun e => hb (e ▸ hat)) (fun e => hb (e ▸ hRt s hsR))
      exact ⟨f1 (fun e => hb (e ▸ hLt x hxL)) (fun e => hb (e ▸ hRt y hyR))
        (hrs b (fun e => hb (hRt b (hylR b e)))), f2 (fun e => hb (e ▸ hRt q hqR)), f3⟩

theorem readLink_kept (m m1 : Gdrive_Cache_Memory) (link : Gdrive_Link)
    (parent : Option Nat) (x : Nat) (hh : m.hangsFrom link parent x)
    (hroot : m1.pRoot = m.pRoot)
    (hfr : ∀ p, parent = some p → m1.pLeft p = m.pLeft p ∧ m1.pRight p = m.pRight p) :
    m1.readLink link = some x := by
  unfold Gdrive_Cache_Memory.hangsFrom at hh
  cases parent with
  | none =>
    obtain ⟨rfl, h⟩ := hh
    exact hroot.trans h
  | some p =>
    obtain ⟨f1, f2⟩ := hfr p rfl
    rcases hh with ⟨rfl, h, _⟩ | ⟨rfl, h, _⟩
    · exact f1.trans h
    · exact f2.trans h

/-- Deleting the node `a` from a subtree in memory: with enough turns for the
loops, `gdrive_cnode_delete` leaves a subtree with the addresses of the old
one without `a`, in the same order, and touches nothing outside the subtree
but the link it hangs from. -/
theorem delete_in_subtree (turns depth : Nat) :
    ∀ (t : Gdrive_Shape) (m : Gdrive_Cache_Memory) (link : Gdrive_Link)
      (parent : Option Nat) (a : Nat),
      m.holds parent t → t.addrs.Nodup → a ∈ t.addrs →
      (∀ x, t.root = some x → m.hangsFrom link parent x) →
      (∀ p, parent = some p → p ∉ t.addrs) → t.addrs.length ≤ turns →
      ∃ t1, m.deletedFrom (m.gdrive_cnode_delete turns (depth + 2) a) link parent t t1 a := by
  intro t
  induction t with
  | nil =>
    intro m link parent a _ _ ha
    simp [Gdrive_Shape.addrs] at ha
  | node l x r ihl ihr =>
    intro m link parent a h hnd ha hh hpar hturns
    obtain ⟨n1, n2, n3, n4, n5⟩ := nodup_node _ _ _ hnd
    have hxt : x ∈ (Gdrive_Shape.node l x r).addrs := by simp [Gdrive_Shape.addrs]
    have hlt : ∀ b ∈ l.addrs, b ∈ (Gdrive_Shape.node l x r).addrs := fun b hb => by
      simp [Gdrive_Shape.addrs, hb]
    have hrt : ∀ b ∈ r.addrs, b ∈ (Gdrive_Shape.node l x r).addrs := fun b hb => by
      simp [Gdrive_Shape.addrs, hb]
    have hlen : l.addrs.length ≤ turns ∧ r.addrs.length ≤ turns := by
      simp only [Gdrive_Shape.addrs, List.length_append, List.length_cons] at hturns
      omega
    have ha' : a ∈ l.addrs ∨ a = x ∨ a ∈ r.addrs := by
      simpa [Gdrive_Shape.addrs] using ha
    rcases ha' with hal | rfl | har
    · obtain ⟨h1, h2, h3, h4, h5⟩ := h
      have hh1 : ∀ c, l.root = some c → m.hangsFrom (.leftOf x) (some x) c := fun c hc =>
        Or.inl ⟨rfl, by rw [h2, hc], by
          rw [h3]
          intro e
          exact n5 c (root_mem_addrs l c hc) (root_mem_addrs r c e)⟩
      obtain ⟨t1, d1, d2, ⟨A, B, d3, d4⟩, d5, d6, d7, d8⟩ :=
        ihl m (.leftOf x) (some x) a h4 n1 hal hh1
          (fun p hp => by
            obtain rfl : x = p := Option.some.inj hp
            exact n3) hlen.1
      obtain ⟨fx1, _, fx3⟩ := d7 x n3
      refine ⟨.node t1 x r, ⟨fx1.trans h1, d2, (fx3 (by simp)).trans h3, d1, ?_⟩, ?_,
        ⟨A, B ++ x :: r.addrs, ?_, ?_⟩, d5, d6, ?_, fun _ => d8 (by simp)⟩
      · apply holds_congr m _ r _ _ h5
        intro b hb
        obtain ⟨f1, f2, f3⟩ := d7 b (fun e => n5 b e hb)
        exact ⟨f1, f2 (by
          simp only [ne_eq, Gdrive_Link.leftOf.injEq]
          exact fun e => n4 (e ▸ hb)), f3 (by simp)⟩
      · apply readLink_kept m _ link parent x (hh x rfl) (d8 (by simp))
        intro p hp
        have hpt := hpar p hp
        obtain ⟨_, f2, f3⟩ := d7 p (fun e => hpt (hlt p e))
        exact ⟨f2 (by
          simp only [ne_eq, Gdrive_Link.leftOf.injEq]
          exact fun e => hpt (e ▸ hxt)), f3 (by simp)⟩
      · simp [Gdrive_Shape.addrs, d3]
      · simp [Gdrive_Shape.addrs, d4]
      · intro b hb
        obtain ⟨f1, f2, f3⟩ := d7 b (fun e => hb (hlt b e))
        exact ⟨f1, fun _ => f2 (by
          simp only [ne_eq, Gdrive_Link.leftOf.injEq]
          exact fun e => hb (e ▸ hxt)), fun _ => f3 (by simp)⟩
    · have hp := h.1
      have hlink := link_of_hangsFrom m link parent a hp (hh a rfl)
      have hout := link_outside m link parent a _ (hh a rfl) hpar
      cases l with
      | nil =>
        cases r with
        | nil => exact ⟨_, delete_leaf m link parent a turns (depth + 1) hlink hout h⟩
        | node rl y rr =>
          exact ⟨_, delete_right_only m link parent a y turns (depth + 1) rl rr hlink hout hnd h⟩
      | node xl x xr =>
        cases r with
        | nil =>
          exact ⟨_, delete_left_only m link parent a x turns (depth + 1) xl xr hlink hout hnd h⟩
        | node yl y yr =>
          cases hs : (match m.pParent a with
            | none => false
            | some parent => decide (m.pRight parent = some a)) with
          | false =>
            refine ⟨_, delete_two_left m link parent a x y turns depth xl xr yl yr hlink hs hout
              hnd ?_ h⟩
            have := hlen.1
            simp only [Gdrive_Shape.addrs, List.length_append, List.length_cons] at this
            omega
          | true =>
            refine ⟨_, delete_two_right m link parent a x y turns depth xl xr yl yr hlink hs hout
              hnd ?_ h⟩
            have := hlen.2
            simp only [Gdrive_Shape.addrs, List.length_append, List.length_cons] at this
            omega
    · obtain ⟨h1, h2, h3, h4, h5⟩ := h
      have hh1 : ∀ c, r.root = some c → m.hangsFrom (.rightOf x) (some x) c := fun c hc =>
        Or.inr ⟨rfl, by rw [h3, hc], by
          rw [h2]
          intro e
          exact n5 c (root_mem_addrs l c e) (root_mem_addrs r c hc)⟩
      obtain ⟨t1, d1, d2, ⟨A, B, d3, d4⟩, d5, d6, d7, d8⟩ :=
        ihr m (.rightOf x) (some x) a h5 n2 har hh1
          (fun p hp => by
            obtain rfl : x = p := Option.some.inj hp
            exact n4) hlen.2
      obtain ⟨fx1, fx2, _⟩ := d7 x n4
      refine ⟨.node l x t1, ⟨fx1.trans h1, (fx2 (by simp)).trans h2, d2, ?_, d1⟩, ?_,
        ⟨l.addrs ++ x :: A, B, ?_, ?_⟩, d5, d6, ?_, fun _ => d8 (by simp)⟩
      · apply holds_congr m _ l _ _ h4
        intro b hb
        obtain ⟨f1, f2, f3⟩ := d7 b (fun e => n5 b hb e)
        exact ⟨f1, f2 (by simp), f3 (by
          simp only [ne_eq, Gdrive_Link.rightOf.injEq]
          exact fun e => n3 (e ▸ hb))⟩
      · apply readLink_kept m _ link parent x (hh x rfl) (d8 (by simp))
        intro p hp
        have hpt := hpar p hp
        obtain ⟨_, f2, f3⟩ := d7 p (fun e => hpt (hrt p e))
        exact ⟨f2 (by simp), f3 (by
          simp only [ne_eq, Gdrive_Link.rightOf.injEq]
          exact fun e => hpt (e ▸ hxt))⟩
      · simp [Gdrive_Shape.addrs, d3]
      · simp [Gdrive_Shape.addrs, d4]
      · intro b hb
        obtain ⟨f1, f2, f3⟩ := d7 b (fun e => hb (hrt b e))
        exact ⟨f1, fun _ => f2 (by simp), fun _ => f3 (by
          simp only [ne_eq, Gdrive_Link.rightOf.injEq]
          exact fun e => hb (e ▸ hxt))⟩

theorem idLess_trans (a b c : Gdrive_Cache_Node) (h1 : idLess a b) (h2 : idLess b c) :
    idLess a c := by
  unfold idLess at h1 h2 ⊢
  cases ha : a.fileinfo.id with
  | none => simp [ha] at h1
  | some x =>
    cases hb : b.fileinfo.id with
    | none => simp [ha, hb] at h1
    | some y =>
      cases hc : c.fileinfo.id with
      | none => simp [hb, hc] at h2
      | some z =>
        simp only [ha, hb, hc] at h1 h2 ⊢
        exact strcmp_trans x y z h1 h2

theorem idLess_ne (a b : Gdrive_Cache_Node) (h : idLess a b) :
    a.fileinfo.id ≠ b.fileinfo.id := by
  unfold idLess at h
  intro e
  cases ha : a.fileinfo.id with
  | none => simp [ha] at h
  | some x =>
    rw [← e, ha] at h
    simp only at h
    have := strcmp_swap x x
    omega

/-- A search tree lists its nodes in ascending order of identifier. -/
theorem searchTree_pairwise (m : Gdrive_Cache_Memory) :
    ∀ (t : Gdrive_Shape), m.isSearchTree t →
      t.addrs.Pairwise (fun a b => idLess (m.node a) (m.node b)) := by
  intro t
  induction t with
  | nil => intro _; exact List.Pairwise.nil
  | node l x r ihl ihr =>
    intro h
    obtain ⟨h1, h2, h3, h4⟩ := h
    simp only [Gdrive_Shape.addrs]
    rw [List.pairwise_append]
    refine ⟨ihl h3, ?_, ?_⟩
    · rw [List.pairwise_cons]
      exact ⟨h2, ihr h4⟩
    · intro a ha b hb
      rw [List.mem_cons] at hb
      rcases hb with rfl | hb
      · exact h1 a ha
      · exact idLess_trans _ _ _ (h1 a ha) (h2 b hb)

/-- A tree that lists its nodes in ascending order of identifier is a search
tree. -/
theorem searchTree_of_pairwise (m : Gdrive_Cache_Memory) :
    ∀ (t : Gdrive_Shape), t.addrs.Pairwise (fun a b => idLess (m.node a) (m.node b)) →
      m.isSearchTree t := by
  intro t
  induction t with
  | nil => intro _; trivial
  | node l x r ihl ihr =>
    intro h
    simp only [Gdrive_Shape.addrs] at h
    rw [List.pairwise_append] at h
    obtain ⟨h1, h2, h3⟩ := h
    rw [List.pairwise_cons] at h2
    exact ⟨fun a ha => h3 a ha x (List.mem_cons_self _ _), h2.1, ihl h1, ihr h2.2⟩

theorem mem_of_removed (A B : List Nat) (a : Nat) (hnd : (A ++ a :: B).Nodup) (b : Nat) :
    b ∈ A ++ B ↔ b ∈ A ++ a :: B ∧ b ≠ a := by
  have h1 := List.nodup_append.mp hnd
  have h2 := List.nodup_cons.mp h1.2.1
  simp only [List.mem_append, List.mem_cons]
  constructor
  · rintro (h | h)
    · exact ⟨Or.inl h, fun e => h1.2.2 h (e ▸ List.mem_cons_self _ _)⟩
    · exact ⟨Or.inr (Or.inr h), fun e => h2.1 (e ▸ h)⟩
  · rintro ⟨h | h | h, hne⟩
    · exact Or.inl h
    · exact absurd h hne
    · exact Or.inr h

/-- C20: structural deletion. When the memory holds a tree with consistent
parent pointers, every address once, that is a binary search tree by
identifier, and `a` is a node of it (with or without children, root or not),
`gdrive_cnode_delete`, given enough turns for its loops, leaves a tree with
consistent parent pointers that is again a binary search tree; its nodes are
the old nodes without `a`, its identifiers the old identifiers without the
one of `a`, and every other node keeps its Fileinfo, counts and flags. -/
theorem C20_delete_keeps_search_tree (m : Gdrive_Cache_Memory) (t : Gdrive_Shape)
    (a turns depth : Nat) (htree : m.isTree t) (hbst : m.isSearchTree t) (ha : a ∈ t.addrs)
    (hturns : t.addrs.length ≤ turns) :
    ∃ t1, (m.gdrive_cnode_delete turns (depth + 2) a).isTree t1 ∧
      (m.gdrive_cnode_delete turns (depth + 2) a).isSearchTree t1 ∧
      (∀ b, b ∈ t1.addrs ↔ b ∈ t.addrs ∧ b ≠ a) ∧
      (∀ i, i ∈ (m.gdrive_cnode_delete turns (depth + 2) a).ids t1 ↔
        i ∈ m.ids t ∧ i ≠ (m.node a).fileinfo.id) ∧
      (∀ b, b ≠ a → (m.gdrive_cnode_delete turns (depth + 2) a).node b = m.node b) := by
  obtain ⟨hroot, hholds, hnd⟩ := htree
  obtain ⟨t1, d1, d2, ⟨A, B, d3, d4⟩, d5, _, _, _⟩ :=
    delete_in_subtree turns depth t m .toRoot none a hholds hnd ha
      (fun x hx => ⟨rfl, hroot.trans hx⟩) (fun p hp => by cases hp) hturns
  have hsub : (A ++ B).Sublist (A ++ a :: B) := (List.sublist_cons_self a B).append_left A
  have hnd1 : t1.addrs.Nodup := by
    rw [d4]
    rw [d3] at hnd
    exact hnd.sublist hsub
  have hmem : ∀ b, b ∈ t1.addrs ↔ b ∈ t.addrs ∧ b ≠ a := by
    intro b
    rw [d3, d4]
    exact mem_of_removed A B a (d3 ▸ hnd) b
  have hpw := searchTree_pairwise m t hbst
  have hne : ∀ b ∈ t.addrs, b ≠ a → (m.node b).fileinfo.id ≠ (m.node a).fileinfo.id := by
    intro b hb hba
    exact List.Pairwise.forall (fun _ _ h => Ne.symm h)
      (hpw.imp (fun h => idLess_ne _ _ h)) hb ha hba
  refine ⟨t1, ⟨d2, d1, hnd1⟩, ?_, hmem, ?_, fun b _ => by rw [d5]⟩
  · apply searchTree_of_pairwise
    rw [d5, d4]
    rw [d3] at hpw
    exact hpw.sublist hsub
  · intro i
    simp only [Gdrive_Cache_Memory.ids, List.mem_map, d5]
    constructor
    · rintro ⟨b, hb, rfl⟩
      obtain ⟨hbt, hba⟩ := (hmem b).mp hb
      exact ⟨⟨b, hbt, rfl⟩, hne b hbt hba⟩
    · rintro ⟨⟨b, hb, rfl⟩, hi⟩
      have hba : b ≠ a := fun e => hi (by rw [e])
      exact ⟨b, (hmem b).mpr ⟨hb, hba⟩, rfl⟩

theorem C20_delete_keeps_search_tree_witness :
    exampleTreeMemory.isTree exampleTreeShape ∧
    exampleTreeMemory.isSearchTree exampleTreeShape ∧
    ∃ t1, (exampleTreeMemory.gdrive_cnode_delete 5 2 4).isTree t1 ∧
      (exampleTreeMemory.gdrive_cnode_delete 5 2 4).isSearchTree t1 ∧
      (∀ b, b ∈ t1.addrs ↔ b ∈ exampleTreeShape.addrs ∧ b ≠ 4) ∧
      (∀ i, i ∈ (exampleTreeMemory.gdrive_cnode_delete 5 2 4).ids t1 ↔
        i ∈ exampleTreeMemory.ids exampleTreeShape ∧
          i ≠ (exampleTreeMemory.node 4).fileinfo.id) ∧
      (∀ b, b ≠ 4 → (exampleTreeMemory.gdrive_cnode_delete 5 2 4).node b =
        exampleTreeMemory.node b) :=
  ⟨by decide, by decide,
    C20_delete_keeps_search_tree exampleTreeMemory exampleTreeShape 4 5 0 (by decide)
      (by decide) (by decide) (by decide)⟩

/-! ## The chunk size of a file (C21) -/

/-- C21: chunk sizing. For a positive minimum chunk size `m` and a positive
maximum chunk count `k`, the chunk size `c` that `gdrive_cnode_create_chunk`
computes for a file of size `S` (a size of 0 counted as 1) is a positive
multiple of `m`, the file has at most `k` chunks of that size
(`ceil(S / c) ≤ k`), and no smaller positive multiple of `m` keeps the file
within `k` chunks. The chunk size stays below `S + m`. -/
theorem C21_chunk_size_is_least_multiple (info : Gdrive_Info) (pNode : Gdrive_Cache_Node)
    (hm : 0 < info.minChunkSize) (hk : 0 < info.maxChunks) :
    (∃ j : Int, 0 < j ∧ chunkSizeOf info pNode = j * info.minChunkSize) ∧
    gdrive_divide_round_up (if pNode.fileinfo.size > 0 then pNode.fileinfo.size else 1)
      (chunkSizeOf info pNode) ≤ info.maxChunks ∧
    (∀ j : Int, 0 < j →
      gdrive_divide_round_up (if pNode.fileinfo.size > 0 then pNode.fileinfo.size else 1)
        (j * info.minChunkSize) ≤ info.maxChunks →
      chunkSizeOf info pNode ≤ j * info.minChunkSize) ∧
    chunkSizeOf info pNode <
      (if pNode.fileinfo.size > 0 then (pNode.fileinfo.size : Int) else 1)
        + info.minChunkSize := by
  have hm' : (0 : Int) < info.minChunkSize := by exact_mod_cast hm
  have hk' : (0 : Int) < info.maxChunks := by exact_mod_cast hk
  have hS : (0 : Int) < (if pNode.fileinfo.size > 0 then (pNode.fileinfo.size : Int) else 1) := by
    split_ifs with h
    · exact_mod_cast h
    · decide
  unfold chunkSizeOf
  simp only
  generalize (if pNode.fileinfo.size > 0 then (pNode.fileinfo.size : Int) else 1) = S at hS
  generalize (info.minChunkSize : Int) = m at hm'
  generalize (info.maxChunks : Int) = k at hk'
  obtain ⟨p0, p1, p2⟩ := divide_round_up_spec S k hS.le hk'
  have ppos := divide_round_up_pos S k hS hk'
  obtain ⟨q0, q1, q2⟩ := divide_round_up_spec (gdrive_divide_round_up S k) m p0 hm'
  have qpos := divide_round_up_pos (gdrive_divide_round_up S k) m ppos hm'
  have cpos : 0 < gdrive_divide_round_up (gdrive_divide_round_up S k) m * m :=
    mul_pos qpos hm'
  refine ⟨⟨_, qpos, rfl⟩, ?_, ?_, ?_⟩
  · apply divide_round_up_le S _ k hS.le cpos
    have : gdrive_divide_round_up S k * k ≤
        gdrive_divide_round_up (gdrive_divide_round_up S k) m * m * k :=
      mul_le_mul_of_nonneg_right q1 hk'.le
    calc S ≤ gdrive_divide_round_up S k * k := p1
      _ ≤ gdrive_divide_round_up (gdrive_divide_round_up S k) m * m * k := this
      _ = k * (gdrive_divide_round_up (gdrive_divide_round_up S k) m * m) := by ring
  · intro j hj hle
    have hjm : 0 < j * m := mul_pos hj hm'
    obtain ⟨_, r1, _⟩ := divide_round_up_spec S (j * m) hS.le hjm
    have r2 : gdrive_divide_round_up S (j * m) * (j * m) ≤ k * (j * m) :=
      mul_le_mul_of_nonneg_right hle hjm.le
    have r3 : S ≤ (j * m) * k := by
      calc S ≤ gdrive_divide_round_up S (j * m) * (j * m) := r1
        _ ≤ k * (j * m) := r2
        _ = (j * m) * k := by ring
    have r4 : gdrive_divide_round_up S k ≤ j * m := divide_round_up_le S k (j * m) hS.le hk' r3
    have r5 : gdrive_divide_round_up (gdrive_divide_round_up S k) m ≤ j :=
      divide_round_up_le _ m j p0 hm' r4
    exact mul_le_mul_of_nonneg_right r5 hm'.le
  · have : gdrive_divide_round_up S k ≤ S := by
      apply divide_round_up_le S k S hS.le hk'
      nlinarith
    omega

theorem C21_chunk_size_is_least_multiple_witness :
    (∃ j : Int, 0 < j ∧
      chunkSizeOf exampleInfo (exampleNode "B" 40000000) = j * exampleInfo.minChunkSize) ∧
    gdrive_divide_round_up
      (if (exampleNode "B" 40000000).fileinfo.size > 0 then
        (exampleNode "B" 40000000).fileinfo.size else 1)
      (chunkSizeOf exampleInfo (exampleNode "B" 40000000)) ≤ exampleInfo.maxChunks ∧
    (∀ j : Int, 0 < j →
      gdrive_divide_round_up
        (if (exampleNode "B" 40000000).fileinfo.size > 0 then
          (exampleNode "B" 40000000).fileinfo.size else 1)
        (j * exampleInfo.minChunkSize) ≤ exampleInfo.maxChunks →
      chunkSizeOf exampleInfo (exampleNode "B" 40000000) ≤ j * exampleInfo.minChunkSize) ∧
    chunkSizeOf exampleInfo (exampleNode "B" 40000000) <
      (if (exampleNode "B" 40000000).fileinfo.size > 0 then
        ((exampleNode "B" 40000000).fileinfo.size : Int) else 1)
        + exampleInfo.minChunkSize :=
  C21_chunk_size_is_least_multiple exampleInfo (exampleNode "B" 40000000) (by decide)
    (by decide)

/-! ## The window of a new chunk (C22) -/

/-- The window `[chunkStart, chunkStart + realChunkSize - 1]` of
`gdrive_cnode_create_chunk` holds the range `[offset, offset + size - 1]`
exactly when `endChunkOffset` is not a multiple of the chunk size. -/
theorem chunk_window_covers_iff (c offset : Int) (size : Nat) (hc : 0 < c)
    (hsize : 1 ≤ size) :
    offset / c * c ≤ offset ∧
    (offset + size - 1 ≤
        offset / c * c + gdrive_divide_round_up (offset % c + size - 1) c * c - 1
      ↔ ¬ c ∣ (offset % c + size - 1)) := by
  have h1 := Int.ediv_add_emod offset c
  have h2 := Int.emod_nonneg offset hc.ne'
  have h5 : offset / c * c = c * (offset / c) := mul_comm _ _
  have hs : (1 : Int) ≤ size := by exact_mod_cast hsize
  obtain ⟨_, e1, e2⟩ := divide_round_up_spec (offset % c + size - 1) c (by omega) hc
  refine ⟨by omega, ?_⟩
  constructor
  · intro h hdvd
    obtain ⟨j, hj⟩ := hdvd
    have h7 : gdrive_divide_round_up (offset % c + size - 1) c * c
        = c * gdrive_divide_round_up (offset % c + size - 1) c := mul_comm _ _
    have h8 : j ≤ gdrive_divide_round_up (offset % c + size - 1) c :=
      le_of_mul_le_mul_left (by omega) hc
    have h9 : gdrive_divide_round_up (offset % c + size - 1) c < j + 1 :=
      lt_of_mul_lt_mul_left (by rw [mul_add]; omega) hc.le
    have h10 : gdrive_divide_round_up (offset % c + size - 1) c = j := by omega
    rw [h10] at h7 h
    omega
  · intro hdvd
    have h6 : gdrive_divide_round_up (offset % c + size - 1) c * c ≠ offset % c + size - 1 := by
      intro e
      exact hdvd ⟨gdrive_divide_round_up (offset % c + size - 1) c, by
        rw [mul_comm]
        exact e.symm⟩
    omega

/-- C22: the window of a read of one byte at offset 0 is empty. On a file of
300000 bytes (one chunk of 1048576 bytes) `gdrive_cnode_create_chunk(pNode, 0,
1, true)` computes `endChunkOffset = 0` and from it `realChunkSize = 0`, which
is not a positive multiple of the chunk size: it requests the bytes 0 to -1
and the chunk it leaves, `[0, -1]`, does not hold byte 0. A read of 1048577
bytes at offset 0 of a file of 3000000 bytes gets the window `[0, 1048575]`,
one byte short of the range `[0, 1048576]` it was created for. -/
theorem C22_window_misses_last_byte :
    chunkSizeOf exampleInfo (exampleNode "B" 300000) = 1048576 ∧
    gdrive_cnode_create_chunk exampleInfo downloadingRemote (exampleNode "B" 300000) 0 1 true
      = ({ exampleNode "B" 300000 with
            pContents := [{ start := 0, end_ := -1, fh := some [] }] }, some 0) ∧
    chunkSizeOf exampleInfo (exampleNode "B" 3000000) = 1048576 ∧
    gdrive_cnode_create_chunk exampleInfo downloadingRemote (exampleNode "B" 3000000) 0
        1048577 true
      = ({ exampleNode "B" 3000000 with
            pContents := [{ start := 0, end_ := 1048575, fh := some [] }] }, some 0) := by
  decide

/-! ## The number of chunks of a file (C23) -/

/-- The number of slots the first loop of
`gdrive_fcontents_delete_after_offset` writes is the number of chunks the
function deletes. -/
theorem deleteArrayIndex_eq (offset : Int) :
    ∀ (l : List Gdrive_File_Contents) (index : Nat),
      deleteArrayIndex l offset index + (gdrive_fcontents_delete_after_offset l offset).length
        = index + l.length := by
  intro l
  induction l with
  | nil => intro index; simp [deleteArrayIndex, gdrive_fcontents_delete_after_offset]
  | cons c rest ih =>
    intro index
    unfold gdrive_fcontents_delete_after_offset at ih ⊢
    unfold deleteArrayIndex
    by_cases h : c.start > offset
    · rw [if_pos h, List.filter_cons_of_neg (by simpa using h)]
      have := ih (index + 1)
      simp only [List.length_cons]
      omega
    · rw [if_neg h, List.filter_cons_of_pos (by simpa using h)]
      have := ih index
      simp only [List.length_cons]
      omega

/-- C23: four reads exceed a maximum of three chunks. With a chunk size of
262144 bytes and at most 3 chunks per file, on a file of 786432 bytes whose
downloads succeed, reads of one byte at the offsets 262144, 262145, 524288
and 524289 leave four chunks in the list: each read at the start of a window
creates a chunk of length zero there, which the read of the next byte does
not find, so that a second chunk is created for the same window. The
`gdrive_file_truncate(fh, 1)` that follows reads byte 0 and then calls
`gdrive_fcontents_delete_after_offset` with the offset 0, whose first loop
writes 4 slots of a `deleteArray` of 3. -/
theorem C23_reads_exceed_max_chunks :
    chunkSizeOf threeChunksInfo (exampleNode "B" 786432) = 262144 ∧
    (runReads threeChunksInfo (exampleNode "B" 786432) windowStartReads).pContents
      = [{ start := 262144, end_ := 262143, fh := some [] },
         { start := 262144, end_ := 524287, fh := some [] },
         { start := 524288, end_ := 524287, fh := some [] },
         { start := 524288, end_ := 786431, fh := some [] }] ∧
    threeChunksInfo.maxChunks <
      (runReads threeChunksInfo (exampleNode "B" 786432) windowStartReads).pContents.length ∧
    deleteArrayIndex
      (gdrive_file_read threeChunksInfo downloadingRemote
        (runReads threeChunksInfo (exampleNode "B" 786432) windowStartReads)
        false 1 0).1.pContents 0 0 = 4 ∧
    (gdrive_file_truncate threeChunksInfo downloadingRemote
      (runReads threeChunksInfo (exampleNode "B" 786432) windowStartReads) 1).2 = 0 := by
  decide

/-! ## Writing into a chunk (C24) -/

/-- On the reliable store `gdrive_fcontents_write` writes all `size` bytes
and moves the end of the chunk to the last byte written when that lies behind
it, whatever `extendChunk` says: `realSize` is computed but `fwrite` is
called with `size`. -/
theorem fcontents_write_ignores_extendChunk (pContents : Gdrive_File_Contents)
    (buf : List Nat) (offset : Int) (size : Nat) (extendChunk : Bool) :
    (gdrive_fcontents_write pContents buf offset size extendChunk).2 = size ∧
    (gdrive_fcontents_write pContents buf offset size extendChunk).1.end_
      = max pContents.end_ (offset + size - 1) ∧
    gdrive_fcontents_write pContents buf offset size extendChunk
      = gdrive_fcontents_write pContents buf offset size true := by
  unfold gdrive_fcontents_write
  simp only [ne_eq, not_true_eq_false, and_false, if_false]
  refine ⟨trivial, ?_, trivial⟩
  split_ifs with h
  · rw [max_eq_right (by omega)]
  · rw [max_eq_left (by omega)]

/-- C24: a write of 10 bytes at offset 5 into a chunk that holds the bytes 0
to 9, with `extendChunk = false`. Only 5 bytes fit in front of the end of the
chunk, but `gdrive_fcontents_write` writes all 10 bytes to the temporary
file, returns 10 and moves the end of the chunk from 9 to 14. -/
theorem C24_write_runs_past_chunk_end :
    gdrive_fcontents_write tenByteChunk [1, 2, 3, 4, 5, 6, 7, 8, 9, 10] 5 10 false
      = ({ start := 0, end_ := 14,
           fh := some [0, 0, 0, 0, 0, 1, 2, 3, 4, 5, 6, 7, 8, 9, 10] }, 10) ∧
    tenByteChunk.end_ - 5 + 1 = 5 := by
  decide

/-! ## Finding the chunk of an offset (C25) -/

/-- The scan stops at a chunk without a temporary file: the chunk `[3, 5]`
behind it is not found. -/
theorem find_chunk_stops_without_file :
    gdrive_fcontents_find_chunk chunksWithoutFile 4 = none := by
  decide

/-- Chunk lists made by `gdrive_fcontents_add` keep the property that every
chunk has a temporary file: `gdrive_fcontents_create` links no chunk whose
`tmpfile` failed. -/
theorem fcontents_add_has_file (l : List Gdrive_File_Contents)
    (h : ∀ c ∈ l, c.fh ≠ none) : ∀ c ∈ gdrive_fcontents_add l, c.fh ≠ none := by
  intro c hc
  unfold gdrive_fcontents_add at hc
  rcases List.mem_append.mp hc with hc | hc
  · exact h c hc
  · simp only [List.mem_singleton] at hc
    subst hc
    simp [gdrive_fcontents_create]

/-- C25: in a chunk list whose chunks all have their temporary file (every
list the module builds), `gdrive_fcontents_find_chunk` returns a chunk
exactly when some chunk of the list holds `offset`, that is
`start ≤ offset ≤ end`, or is of length zero (`end < start`) with
`offset = start`; the chunk returned is the first one in list order that
does, and NULL is returned when none does. -/
theorem C25_find_chunk_first_match (l : List Gdrive_File_Contents) (offset : Int)
    (hfh : ∀ c ∈ l, c.fh ≠ none) :
    ((gdrive_fcontents_find_chunk l offset).isSome ↔ ∃ c ∈ l, chunkHolds c offset) ∧
    (∀ i, gdrive_fcontents_find_chunk l offset = some i →
      ∃ A c B, l = A ++ c :: B ∧ A.length = i ∧ chunkHolds c offset ∧
        ∀ a ∈ A, ¬ chunkHolds a offset) ∧
    ((∀ c ∈ l, ¬ chunkHolds c offset) → gdrive_fcontents_find_chunk l offset = none) := by
  have hsome : ∀ i, gdrive_fcontents_find_chunk l offset = some i →
      ∃ A c B, l = A ++ c :: B ∧ A.length = i ∧ chunkHolds c offset ∧
        ∀ a ∈ A, ¬ chunkHolds a offset := by
    intro i hi
    obtain ⟨A, c, B, e1, e2, e3, _, e5⟩ := find_chunk_some offset l i hi
    exact ⟨A, c, B, e1, e2, e5, fun a ha => (e3 a ha).2⟩
  have hnone : (∀ c ∈ l, ¬ chunkHolds c offset) → gdrive_fcontents_find_chunk l offset = none := by
    intro hno
    cases hr : gdrive_fcontents_find_chunk l offset with
    | none => rfl
    | some i =>
      obtain ⟨A, c, B, e1, _, e3, _⟩ := hsome i hr
      exact absurd e3 (hno c (by rw [e1]; simp))
  refine ⟨⟨?_, ?_⟩, hsome, hnone⟩
  · intro h
    obtain ⟨i, hi⟩ := Option.isSome_iff_exists.mp h
    obtain ⟨A, c, B, e1, _, e3, _⟩ := hsome i hi
    exact ⟨c, by rw [e1]; simp, e3⟩
  · rintro ⟨c, hc, hh⟩
    cases hr : gdrive_fcontents_find_chunk l offset with
    | some i => rfl
    | none => exact absurd hh (find_chunk_none_holds offset l hfh hr c hc)

theorem C25_find_chunk_first_match_witness :
    (∀ c ∈ twoChunkNode.pContents, c.fh ≠ none) ∧
    (((gdrive_fcontents_find_chunk twoChunkNode.pContents 4).isSome ↔
      ∃ c ∈ twoChunkNode.pContents, chunkHolds c 4) ∧
    (∀ i, gdrive_fcontents_find_chunk twoChunkNode.pContents 4 = some i →
      ∃ A c B, twoChunkNode.pContents = A ++ c :: B ∧ A.length = i ∧ chunkHolds c 4 ∧
        ∀ a ∈ A, ¬ chunkHolds a 4) ∧
    ((∀ c ∈ twoChunkNode.pContents, ¬ chunkHolds c 4) →
      gdrive_fcontents_find_chunk twoChunkNode.pContents 4 = none)) :=
  ⟨by decide, C25_find_chunk_first_match twoChunkNode.pContents 4 (by decide)⟩

/-! ## Answers that tell of an exceeded rate limit (C26) -/

/-- C26: a 403 answer with the reason `rateLimitExceeded` or
`userRateLimitExceeded` is not handled like a 5xx answer. For both reasons
`gdrive_dlbuf_retry_on_error` returns `GDRIVE_RETRY_RENEWAUTH`, the method of
the 401 answer, where a 5xx answer gets `GDRIVE_RETRY_RETRY`. So with
`retryOnAuthError = false` the transfer fails after the first request, with
no wait and no retry; with `retryOnAuthError = true` it calls `gdrive_auth`
and sends the request again at once, with no backoff wait. A server that
answers 500 once is waited for and asked again in both settings. -/
theorem C26_rate_limit_takes_auth_path :
    gdrive_dlbuf_retry_on_error (forbiddenOnceServer "rateLimitExceeded" 0) 403
      = .GDRIVE_RETRY_RENEWAUTH ∧
    gdrive_dlbuf_retry_on_error (forbiddenOnceServer "userRateLimitExceeded" 0) 403
      = .GDRIVE_RETRY_RENEWAUTH ∧
    gdrive_dlbuf_retry_on_error (failingOnceServer 0) 500 = .GDRIVE_RETRY_RETRY ∧
    gdrive_dlbuf_download_with_retry (forbiddenOnceServer "rateLimitExceeded") (fun _ => 0)
      false 6 0 0 0 GDRIVE_RETRY_LIMIT = (-1, [.request]) ∧
    gdrive_dlbuf_download_with_retry (forbiddenOnceServer "userRateLimitExceeded")
      (fun _ => 0) false 6 0 0 0 GDRIVE_RETRY_LIMIT = (-1, [.request]) ∧
    gdrive_dlbuf_download_with_retry (forbiddenOnceServer "rateLimitExceeded") (fun _ => 0)
      true 6 0 0 0 GDRIVE_RETRY_LIMIT = (0, [.request, .auth, .request]) ∧
    gdrive_dlbuf_download_with_retry failingOnceServer (fun _ => 0)
      false 6 0 0 0 GDRIVE_RETRY_LIMIT = (0, [.request, .wait 0, .request]) ∧
    gdrive_dlbuf_download_with_retry failingOnceServer (fun _ => 0)
      true 6 0 0 0 GDRIVE_RETRY_LIMIT = (0, [.request, .wait 0, .request]) := by
  decide

/-- A 403 answer with any other reason is not retried. -/
theorem forbidden_other_reason_not_retried (pBuf : Gdrive_Download_Result)
    (h1 : pBuf.reason ≠ GDRIVE_403_RATELIMIT) (h2 : pBuf.reason ≠ GDRIVE_403_USERRATELIMIT) :
    gdrive_dlbuf_retry_on_error pBuf 403 = .GDRIVE_RETRY_NORETRY := by
  unfold gdrive_dlbuf_retry_on_error
  have e1 : ¬ strcmp pBuf.reason GDRIVE_403_RATELIMIT = 0 :=
    fun e => h1 (eq_of_strcmp_eq_zero _ _ e)
  have e2 : ¬ strcmp pBuf.reason GDRIVE_403_USERRATELIMIT = 0 :=
    fun e => h2 (eq_of_strcmp_eq_zero _ _ e)
  simp [e1, e2]

/-! ## The backoff wait (C27) -/

theorem exponentialWaitLoop_eq : ∀ (turns : Nat) (waitTime : Int),
    exponentialWaitLoop turns waitTime = waitTime * 2 ^ turns := by
  intro turns
  induction turns with
  | zero => intro w; simp [exponentialWaitLoop]
  | succ n ih =>
    intro w
    rw [exponentialWaitLoop, ih, pow_succ]
    ring

/-- The wait of attempt `n` in milliseconds: `1000 * 2^n` plus a jitter of 1
to 1000. -/
theorem exponential_wait_millis (rand n : Nat) :
    timespecMillis (gdrive_exponential_wait rand n) = 1000 * 2 ^ n + (rand % 1000 + 1 : Nat) ∧
    0 ≤ (gdrive_exponential_wait rand n).tv_nsec ∧
    (gdrive_exponential_wait rand n).tv_nsec < 1000000000 := by
  unfold gdrive_exponential_wait timespecMillis
  simp only [Int.toNat_ofNat, exponentialWaitLoop_eq]
  have hr : Int.tmod (rand : Int) 1000 = ((rand % 1000 : Nat) : Int) := by
    rw [Int.tmod_eq_emod (by omega) (by omega)]
    omega
  rw [hr]
  have hp : (0 : Int) < 2 ^ n := by positivity
  generalize (2 : Int) ^ n = p at hp
  have hw : (0 : Int) ≤ 1000 * p + ((rand % 1000 : Nat) + 1) := by omega
  rw [Int.tdiv_eq_ediv hw (by omega), Int.tmod_eq_emod hw (by omega)]
  have h1 := Int.ediv_add_emod (1000 * p + ((rand % 1000 : Nat) + 1)) 1000
  have h2 := Int.emod_nonneg (1000 * p + ((rand % 1000 : Nat) + 1)) (by omega : (1000 : Int) ≠ 0)
  have h3 := Int.emod_lt_of_pos (1000 * p + ((rand % 1000 : Nat) + 1)) (by omega : (0 : Int) < 1000)
  have h4 : (1000 * p + ((rand % 1000 : Nat) + 1)) % 1000 * 1000000 / 1000000
      = (1000 * p + ((rand % 1000 : Nat) + 1)) % 1000 :=
    Int.mul_ediv_cancel _ (by omega)
  rw [h4]
  push_cast
  refine ⟨by omega, by omega, by omega⟩

/-- C27: backoff. For every attempt number `n` from 0 to 5 and every value of
`rand()`, `gdrive_exponential_wait(n)` sleeps `1000 * 2^n` milliseconds plus
a jitter `j` with `1 ≤ j ≤ 1000`; the base delay of attempt `n + 1` is twice
that of attempt `n`, and the wait before attempt `n + 1` is longer than the
wait before attempt `n` whatever the two jitters are. All values stay far
inside the range of `long`. -/
theorem C27_backoff_doubles (n : Nat) (hn : n ≤ 5) (rand rand1 : Nat) :
    (∃ j : Int, 1 ≤ j ∧ j ≤ 1000 ∧
      timespecMillis (gdrive_exponential_wait rand n) = 1000 * 2 ^ n + j) ∧
    exponentialWaitLoop (n + 1) 1000 = 2 * exponentialWaitLoop n 1000 ∧
    timespecMillis (gdrive_exponential_wait rand n)
      < timespecMillis (gdrive_exponential_wait rand1 (n + 1 : Nat)) ∧
    timespecMillis (gdrive_exponential_wait rand1 (n + 1 : Nat)) < 2 ^ 63 := by
  obtain ⟨e1, _, _⟩ := exponential_wait_millis rand n
  obtain ⟨e2, _, _⟩ := exponential_wait_millis rand1 (n + 1)
  rw [e1, e2]
  have hp : (0 : Int) < 2 ^ n := by positivity
  have hp5 : (2 : Int) ^ n ≤ 2 ^ 5 := pow_le_pow_right₀ (by norm_num) hn
  have h2 : (2 : Int) ^ (n + 1) = 2 * 2 ^ n := by rw [pow_succ]; ring
  have hr := Nat.mod_lt rand (by norm_num : 0 < 1000)
  have hr1 := Nat.mod_lt rand1 (by norm_num : 0 < 1000)
  refine ⟨⟨(rand % 1000 + 1 : Nat), by omega, by omega, rfl⟩, ?_, ?_, ?_⟩
  · rw [exponentialWaitLoop_eq, exponentialWaitLoop_eq, h2]
    ring
  · rw [h2]
    omega
  · rw [h2]
    norm_num at hp5 ⊢
    omega

theorem C27_backoff_doubles_witness :
    (∃ j : Int, 1 ≤ j ∧ j ≤ 1000 ∧
      timespecMillis (gdrive_exponential_wait 999 3) = 1000 * 2 ^ 3 + j) ∧
    exponentialWaitLoop (3 + 1) 1000 = 2 * exponentialWaitLoop 3 1000 ∧
    timespecMillis (gdrive_exponential_wait 999 3)
      < timespecMillis (gdrive_exponential_wait 0 (3 + 1 : Nat)) ∧
    timespecMillis (gdrive_exponential_wait 0 (3 + 1 : Nat)) < 2 ^ 63 :=
  C27_backoff_doubles 3 (by decide) 999 0

/-! ## Removing an identifier from the path list (C28) -/

/-- On entries that all have an identifier the loop ends: it keeps the
entries in front of `*ppFromPrev` and adds to them the entries behind whose
identifier differs from `fileId`; the entries freed are those whose
identifier is `fileId`. -/
theorem fidnode_remove_walk_eq (fileId : String) :
    ∀ (rest kept : List Gdrive_Fileid_Cache_Node), (∀ e ∈ rest, e.fileId ≠ none) →
      gdrive_fidnode_remove_walk fileId kept rest
        = some (kept ++ rest.filter (fun e => decide (e.fileId ≠ some fileId)),
           rest.filter (fun e => decide (e.fileId = some fileId))) := by
  intro rest
  induction rest with
  | nil => intro kept _; simp [gdrive_fidnode_remove_walk]
  | cons e rest ih =>
    intro kept hids
    have hrest : ∀ x ∈ rest, x.fileId ≠ none := fun x hx =>
      hids x (List.mem_cons_of_mem _ hx)
    unfold gdrive_fidnode_remove_walk
    cases hid : e.fileId with
    | none => exact absurd hid (hids e (List.mem_cons_self _ _))
    | some id =>
      simp only
      by_cases hc : strcmp fileId id = 0
      · have heq : fileId = id := eq_of_strcmp_eq_zero _ _ hc
        rw [if_pos hc, ih kept hrest]
        simp [hid, heq]
      · have hne : id ≠ fileId := fun e => hc (by rw [e]; exact strcmp_self _)
        rw [if_neg hc, ih _ hrest]
        simp [hid, hne]

/-- The loop has no result when it reaches an entry without identifier: the
entries in front of it are compared, then NULL is handed to `strcmp`. -/
theorem fidnode_remove_walk_null (fileId : String) :
    ∀ (front kept : List Gdrive_Fileid_Cache_Node) (e : Gdrive_Fileid_Cache_Node)
      (rest : List Gdrive_Fileid_Cache_Node), (∀ x ∈ front, x.fileId ≠ none) →
      e.fileId = none →
      gdrive_fidnode_remove_walk fileId kept (front ++ e :: rest) = none := by
  intro front
  induction front with
  | nil =>
    intro kept e rest _ he
    simp [gdrive_fidnode_remove_walk, he]
  | cons a front ih =>
    intro kept e rest hfront he
    have hrest : ∀ x ∈ front, x.fileId ≠ none := fun x hx =>
      hfront x (List.mem_cons_of_mem _ hx)
    rw [List.cons_append]
    unfold gdrive_fidnode_remove_walk
    cases hid : a.fileId with
    | none => rfl
    | some id =>
      simp only
      by_cases hc : strcmp fileId id = 0
      · rw [if_pos hc, ih kept e rest hrest he]
      · rw [if_neg hc, ih _ e rest hrest he]

/-- On a list whose entries all have an identifier, the walk gives the list
the model `gdrive_fidnode_remove_by_id` of the cache operations gives. -/
theorem fidnode_remove_walk_fst (fileId : String) (l : List Gdrive_Fileid_Cache_Node)
    (hids : ∀ e ∈ l, e.fileId ≠ none) :
    (gdrive_fidnode_remove_walk fileId [] l).map Prod.fst
      = some (gdrive_fidnode_remove_by_id l fileId) := by
  rw [fidnode_remove_walk_eq fileId l [] hids]
  unfold gdrive_fidnode_remove_by_id
  simp only [List.nil_append, Option.map_some', Option.some.injEq]
  apply List.filter_congr
  intro e _
  cases hid : e.fileId with
  | none => simp
  | some id =>
    by_cases hc : strcmp fileId id = 0
    · have heq : fileId = id := eq_of_strcmp_eq_zero _ _ hc
      subst heq
      simp [hc]
    · have hne : id ≠ fileId := fun e => hc (by rw [e]; exact strcmp_self _)
      simp [hc, hne]

/-- C28: on a path list whose entries all have an identifier,
`gdrive_fidnode_remove_by_id` ends and takes out of the list every entry
whose identifier is `fileId`, however many paths lead to it, and frees
exactly those; every other entry stays, unchanged and in the same order (the
list left is a sublist of the old one), so a list that ascends strictly by
path still does. -/
theorem C28_remove_by_id (l : List Gdrive_Fileid_Cache_Node) (fileId : String)
    (hids : ∀ e ∈ l, e.fileId ≠ none) :
    ∃ pHead freed, gdrive_fidnode_remove_walk fileId [] l = some (pHead, freed) ∧
      (∀ e, e ∈ pHead ↔ e ∈ l ∧ e.fileId ≠ some fileId) ∧
      (∀ e, e ∈ freed ↔ e ∈ l ∧ e.fileId = some fileId) ∧
      pHead.Sublist l ∧
      pHead.length + freed.length = l.length ∧
      (pathsAscending l → pathsAscending pHead) := by
  refine ⟨_, _, fidnode_remove_walk_eq fileId l [] hids, ?_⟩
  simp only [List.nil_append]
  refine ⟨?_, ?_, List.filter_sublist l, ?_, ?_⟩
  · intro e
    simp [List.mem_filter]
  · intro e
    simp [List.mem_filter]
  · clear hids
    induction l with
    | nil => simp
    | cons e rest ih =>
      by_cases h : e.fileId = some fileId
      · simp [h] at ih ⊢
        omega
      · simp [h] at ih ⊢
        omega
  · rintro ⟨h1, h2⟩
    exact ⟨h1.sublist (List.filter_sublist l),
      fun a ha => h2 a (List.mem_of_mem_filter ha)⟩

theorem C28_remove_by_id_witness :
    (∀ e ∈ sharedIdPaths, e.fileId ≠ none) ∧
    ∃ pHead freed, gdrive_fidnode_remove_walk "A" [] sharedIdPaths = some (pHead, freed) ∧
      (∀ e, e ∈ pHead ↔ e ∈ sharedIdPaths ∧ e.fileId ≠ some "A") ∧
      (∀ e, e ∈ freed ↔ e ∈ sharedIdPaths ∧ e.fileId = some "A") ∧
      pHead.Sublist sharedIdPaths ∧
      pHead.length + freed.length = sharedIdPaths.length ∧
      (pathsAscending sharedIdPaths → pathsAscending pHead) :=
  ⟨by decide, C28_remove_by_id sharedIdPaths "A" (by decide)⟩

/-- The list with two paths to `"A"`: both entries go, `/b` stays. -/
theorem remove_by_id_shared :
    gdrive_fidnode_remove_walk "A" [] sharedIdPaths
      = some ([{ lastUpdateTime := 51, path := some "/b", fileId := some "B" }],
         [{ lastUpdateTime := 50, path := some "/a", fileId := some "A" },
          { lastUpdateTime := 52, path := some "/c/a", fileId := some "A" }]) := by
  decide

/-- A path list with an entry that has no identifier, as `gdrive_file_new`
stores it when the file could not be created on the remote side: the walk
has no result. -/
theorem remove_by_id_null_entry :
    gdrive_fidnode_remove_walk "A" []
      [{ lastUpdateTime := 50, path := some "/a", fileId := some "A" },
       { lastUpdateTime := 51, path := some "/new", fileId := none }] = none := by
  decide

/-! ## The cache tree in memory: adding a node (C29, C30) -/

namespace Gdrive_Cache_Memory

@[simp]
theorem setNode_pParent (m : Gdrive_Cache_Memory) (a : Nat) (v : Gdrive_Cache_Node) :
    (m.setNode a v).pParent = m.pParent := rfl

@[simp]
theorem setNode_pLeft (m : Gdrive_Cache_Memory) (a : Nat) (v : Gdrive_Cache_Node) :
    (m.setNode a v).pLeft = m.pLeft := rfl

@[simp]
theorem setNode_pRight (m : Gdrive_Cache_Memory) (a : Nat) (v : Gdrive_Cache_Node) :
    (m.setNode a v).pRight = m.pRight := rfl

@[simp]
theorem setNode_pRoot (m : Gdrive_Cache_Memory) (a : Nat) (v : Gdrive_Cache_Node) :
    (m.setNode a v).pRoot = m.pRoot := rfl

@[simp]
theorem setNode_freed (m : Gdrive_Cache_Memory) (a : Nat) (v : Gdrive_Cache_Node) :
    (m.setNode a v).freed = m.freed := rfl

@[simp]
theorem setNode_node (m : Gdrive_Cache_Memory) (a b : Nat) (v : Gdrive_Cache_Node) :
    (m.setNode a v).node b = if b = a then v else m.node b := by
  simp [setNode, Function.update_apply]

theorem setNode_readLink (m : Gdrive_Cache_Memory) (a : Nat) (v : Gdrive_Cache_Node)
    (link : Gdrive_Link) : (m.setNode a v).readLink link = m.readLink link := by
  cases link <;> rfl

theorem writeLink_readLink (m : Gdrive_Cache_Memory) (link : Gdrive_Link) (v : Option Nat) :
    (m.writeLink link v).readLink link = v := by
  cases link <;> simp [readLink_eq]

end Gdrive_Cache_Memory

/-- What creating the node at a NULL link leaves, read at the places that
matter: the new node hangs from the link with its parent pointer set and no
children, and nothing else has changed. -/
theorem create_at_link_reads (m : Gdrive_Cache_Memory) (pNew : Nat) (parent : Option Nat)
    (link : Gdrive_Link) (hl1 : link ≠ .leftOf pNew) (hl2 : link ≠ .rightOf pNew) :
    ((m.gdrive_cnode_create pNew parent).writeLink link (some pNew)).pParent pNew = parent ∧
    ((m.gdrive_cnode_create pNew parent).writeLink link (some pNew)).pLeft pNew = none ∧
    ((m.gdrive_cnode_create pNew parent).writeLink link (some pNew)).pRight pNew = none ∧
    ((m.gdrive_cnode_create pNew parent).writeLink link (some pNew)).readLink link
      = some pNew ∧
    ((m.gdrive_cnode_create pNew parent).writeLink link (some pNew)).node pNew
      = gdrive_cnode_create ∧
    ((m.gdrive_cnode_create pNew parent).writeLink link (some pNew)).freed = m.freed ∧
    (∀ b, b ≠ pNew →
      ((m.gdrive_cnode_create pNew parent).writeLink link (some pNew)).node b = m.node b ∧
      ((m.gdrive_cnode_create pNew parent).writeLink link (some pNew)).pParent b
        = m.pParent b ∧
      (link ≠ .leftOf b →
        ((m.gdrive_cnode_create pNew parent).writeLink link (some pNew)).pLeft b
          = m.pLeft b) ∧
      (link ≠ .rightOf b →
        ((m.gdrive_cnode_create pNew parent).writeLink link (some pNew)).pRight b
          = m.pRight b)) ∧
    (link ≠ .toRoot →
      ((m.gdrive_cnode_create pNew parent).writeLink link (some pNew)).pRoot = m.pRoot) := by
  refine ⟨?_, ?_, ?_, Gdrive_Cache_Memory.writeLink_readLink _ _ _, ?_, ?_, ?_, ?_⟩
  · simp [Gdrive_Cache_Memory.gdrive_cnode_create]
  · simp [Gdrive_Cache_Memory.gdrive_cnode_create, hl1]
  · simp [Gdrive_Cache_Memory.gdrive_cnode_create, hl2]
  · simp [Gdrive_Cache_Memory.gdrive_cnode_create]
  · simp [Gdrive_Cache_Memory.gdrive_cnode_create]
  · intro b hb
    refine ⟨?_, ?_, ?_, ?_⟩
    · simp [Gdrive_Cache_Memory.gdrive_cnode_create, hb]
    · simp [Gdrive_Cache_Memory.gdrive_cnode_create, hb]
    · intro h
      simp [Gdrive_Cache_Memory.gdrive_cnode_create, hb, h]
    · intro h
      simp [Gdrive_Cache_Memory.gdrive_cnode_create, hb, h]
  · intro h
    cases link with
    | toRoot => exact absurd rfl h
    | leftOf p => rfl
    | rightOf p => rfl

theorem idLess_above (m : Gdrive_Cache_Memory) (x b : Nat) (fileId : String)
    (hx : m.idAbove x fileId) (hxb : idLess (m.node x) (m.node b)) : m.idAbove b fileId := by
  unfold Gdrive_Cache_Memory.idAbove at hx ⊢
  unfold idLess at hxb
  cases hix : (m.node x).fileinfo.id with
  | none => simp [hix] at hx
  | some ix =>
    cases hib : (m.node b).fileinfo.id with
    | none => simp [hix, hib] at hxb
    | some ib =>
      simp only [hix, hib] at hx hxb ⊢
      exact strcmp_trans _ _ _ hx hxb

theorem idLess_below (m : Gdrive_Cache_Memory) (x a : Nat) (fileId : String)
    (hx : m.idBelow x fileId) (hax : idLess (m.node a) (m.node x)) : m.idBelow a fileId := by
  unfold Gdrive_Cache_Memory.idBelow at hx ⊢
  unfold idLess at hax
  cases hix : (m.node x).fileinfo.id with
  | none => simp [hix] at hx
  | some ix =>
    cases hia : (m.node a).fileinfo.id with
    | none => simp [hix, hia] at hax
    | some ia =>
      simp only [hix, hia] at hx hax ⊢
      exact strcmp_trans _ _ _ hax hx

/-- Adding a node for `fileId` below a link of the tree: with enough depth
for the recursion, `gdrive_cnode_get` walks down the search tree to a NULL
link and hangs the new node at `pNew` there, with its parent pointer set.
The addresses in front of `pNew` have identifiers below `fileId`, those
behind it identifiers above. The new node is linked before the metadata
request is made, so it is there whether the request succeeds or not. -/
theorem insert_in_subtree (remote : Remote) (now : Int) (pNew : Nat) (fileId : String)
    (m : Gdrive_Cache_Memory) :
    ∀ (t : Gdrive_Shape) (depth : Nat) (parent : Option Nat) (link : Gdrive_Link),
      m.holds parent t → t.addrs.Nodup → m.isSearchTree t → m.readLink link = t.root →
      pNew ∉ t.addrs →
      (∀ b, b ∈ t.addrs ∨ b = pNew → link ≠ .leftOf b ∧ link ≠ .rightOf b) →
      (∀ b ∈ t.addrs, ∃ id, (m.node b).fileinfo.id = some id ∧ id ≠ fileId) →
      t.addrs.length < depth →
      ∃ t1 A B, t.addrs = A ++ B ∧ t1.addrs = A ++ pNew :: B ∧
        (∀ a ∈ A, m.idBelow a fileId) ∧ (∀ b ∈ B, m.idAbove b fileId) ∧
        (m.gdrive_cnode_get remote now pNew depth parent link fileId true).1.holds parent t1 ∧
        (m.gdrive_cnode_get remote now pNew depth parent link fileId true).1.readLink link
          = t1.root ∧
        (m.gdrive_cnode_get remote now pNew depth parent link fileId true).1.freed = m.freed ∧
        (∀ b, b ≠ pNew →
          (m.gdrive_cnode_get remote now pNew depth parent link fileId true).1.node b
            = m.node b) ∧
        (remote.fileGet fileId = none →
          (m.gdrive_cnode_get remote now pNew depth parent link fileId true).2 = (none, false) ∧
          (m.gdrive_cnode_get remote now pNew depth parent link fileId true).1.node pNew
            = gdrive_cnode_create) ∧
        (∀ pObj, remote.fileGet fileId = some pObj →
          (m.gdrive_cnode_get remote now pNew depth parent link fileId true).2
            = (some pNew, false) ∧
          (m.gdrive_cnode_get remote now pNew depth parent link fileId true).1.node pNew
            = gdrive_cnode_update_from_json gdrive_cnode_create (some pObj) now) ∧
        (∀ b, b ∉ t.addrs → b ≠ pNew →
          (m.gdrive_cnode_get remote now pNew depth parent link fileId true).1.pParent b
            = m.pParent b ∧
          (link ≠ .leftOf b →
            (m.gdrive_cnode_get remote now pNew depth parent link fileId true).1.pLeft b
              = m.pLeft b) ∧
          (link ≠ .rightOf b →
            (m.gdrive_cnode_get remote now pNew depth parent link fileId true).1.pRight b
              = m.pRight b)) ∧
        (link ≠ .toRoot →
          (m.gdrive_cnode_get remote now pNew depth parent link fileId true).1.pRoot
            = m.pRoot) := by
  intro t
  induction t with
  | nil =>
    intro depth parent link _ _ _ hlink _ hout _ hdepth
    obtain ⟨d, rfl⟩ : ∃ d, depth = d + 1 := ⟨depth - 1, by
      simp only [Gdrive_Shape.addrs, List.length_nil] at hdepth
      omega⟩
    obtain ⟨o1, o2⟩ := hout pNew (Or.inr rfl)
    simp only [Gdrive_Shape.root] at hlink
    obtain ⟨c1, c2, c3, c4, c5, c6, c7, c8⟩ := create_at_link_reads m pNew parent link o1 o2
    refine ⟨.node .nil pNew .nil, [], [], rfl, rfl, by simp, by simp, ?_⟩
    unfold Gdrive_Cache_Memory.gdrive_cnode_get
    simp only [hlink, Bool.true_eq_false, if_false]
    cases hget : remote.fileGet fileId with
    | none =>
      simp only
      refine ⟨⟨c1, c2, c3, trivial, trivial⟩, c4, c6, fun b hb => (c7 b hb).1,
        fun _ => ⟨trivial, c5⟩, fun pObj h => by simp at h, ?_, c8⟩
      intro b _ hb
      exact (c7 b hb).2
    | some pObj =>
      simp only
      refine ⟨⟨c1, c2, c3, trivial, trivial⟩, ?_, c6, ?_, fun h => by simp at h, ?_, ?_, c8⟩
      · rw [Gdrive_Cache_Memory.setNode_readLink]
        exact c4
      · intro b hb
        simp [hb, (c7 b hb).1]
      · intro pObj1 h
        simp only [Option.some.injEq] at h
        subst h
        refine ⟨trivial, ?_⟩
        simp [c5]
      · intro b _ hb
        exact (c7 b hb).2
  | node l x r ihl ihr =>
    intro depth parent link hholds hnd hbst hlink hnew hout hids hdepth
    obtain ⟨d, rfl⟩ : ∃ d, depth = d + 1 := ⟨depth - 1, by omega⟩
    obtain ⟨h1, h2, h3, h4, h5⟩ := hholds
    obtain ⟨n1, n2, n3, n4, n5⟩ := nodup_node _ _ _ hnd
    obtain ⟨b1, b2, b3, b4⟩ := hbst
    have hxt : x ∈ (Gdrive_Shape.node l x r).addrs := by simp [Gdrive_Shape.addrs]
    have hlt : ∀ b ∈ l.addrs, b ∈ (Gdrive_Shape.node l x r).addrs := fun b hb => by
      simp [Gdrive_Shape.addrs, hb]
    have hrt : ∀ b ∈ r.addrs, b ∈ (Gdrive_Shape.node l x r).addrs := fun b hb => by
      simp [Gdrive_Shape.addrs, hb]
    have hxn : x ≠ pNew := fun e => hnew (e ▸ hxt)
    have hlen : l.addrs.length < d ∧ r.addrs.length < d := by
      simp only [Gdrive_Shape.addrs, List.length_append, List.length_cons] at hdepth
      omega
    obtain ⟨idx, hidx, hne⟩ := hids x hxt
    have hcmp : strcmp fileId idx ≠ 0 := fun e => hne (eq_of_strcmp_eq_zero _ _ e).symm
    simp only [Gdrive_Shape.root] at hlink
    by_cases hlt0 : strcmp fileId idx < 0
    · have hstep : m.gdrive_cnode_get remote now pNew (d + 1) parent link fileId true
          = m.gdrive_cnode_get remote now pNew d (some x) (.leftOf x) fileId true := by
        conv_lhs => unfold Gdrive_Cache_Memory.gdrive_cnode_get
        simp only [hlink, hidx, if_neg hcmp, if_pos hlt0]
      rw [hstep]
      obtain ⟨t1, A, B, e1, e2, e3, e4, e5, e6, e7, e8, e9, e10, e11, e12⟩ :=
        ihl d (some x) (.leftOf x) h4 n1 b3 h2 (fun e => hnew (hlt _ e))
          (fun b hb => by
            have hbx : x ≠ b := by
              rcases hb with hb | hb
              · exact fun e => n3 (e ▸ hb)
              · exact fun e => hxn (e.trans hb)
            simp [hbx])
          (fun b hb => hids b (hlt b hb)) hlen.1
      have hxa : m.idAbove x fileId := by
        unfold Gdrive_Cache_Memory.idAbove
        simp only [hidx]
        exact hlt0
      obtain ⟨fx1, _, fx3⟩ := e11 x n3 hxn
      refine ⟨.node t1 x r, A, B ++ x :: r.addrs, by simp [Gdrive_Shape.addrs, e1],
        by simp [Gdrive_Shape.addrs, e2], e3, ?_, ⟨fx1.trans h1, e6, (fx3 (by simp)).trans h3,
          e5, ?_⟩, ?_, e7, e8, e9, e10, ?_, fun _ => e12 (by simp)⟩
      · intro b hb
        rcases List.mem_append.mp hb with hb | hb
        · exact e4 b hb
        · rcases List.mem_cons.mp hb with rfl | hb
          · exact hxa
          · exact idLess_above m x b fileId hxa (b2 b hb)
      · apply holds_congr m _ r _ _ h5
        intro b hb
        obtain ⟨f1, f2, f3⟩ := e11 b (fun e => n5 b e hb) (fun e => hnew (e ▸ hrt b hb))
        exact ⟨f1, f2 (by
          simp only [ne_eq, Gdrive_Link.leftOf.injEq]
          exact fun e => n4 (e ▸ hb)), f3 (by simp)⟩
      · cases link with
        | toRoot => exact (e12 (by simp)).trans hlink
        | leftOf p =>
          have hp : p ∉ (Gdrive_Shape.node l x r).addrs := fun e => (hout p (Or.inl e)).1 rfl
          have hpn : p ≠ pNew := fun e => (hout p (Or.inr e)).1 rfl
          obtain ⟨_, f2, _⟩ := e11 p (fun e => hp (hlt p e)) hpn
          exact (f2 (by
            simp only [ne_eq, Gdrive_Link.leftOf.injEq]
            exact fun e => hp (e ▸ hxt))).trans hlink
        | rightOf p =>
          have hp : p ∉ (Gdrive_Shape.node l x r).addrs := fun e => (hout p (Or.inl e)).2 rfl
          have hpn : p ≠ pNew := fun e => (hout p (Or.inr e)).2 rfl
          obtain ⟨_, _, f3⟩ := e11 p (fun e => hp (hlt p e)) hpn
          exact (f3 (by simp)).trans hlink
      · intro b hb hbn
        obtain ⟨f1, f2, f3⟩ := e11 b (fun e => hb (hlt b e)) hbn
        exact ⟨f1, fun _ => f2 (by
          simp only [ne_eq, Gdrive_Link.leftOf.injEq]
          exact fun e => hb (e ▸ hxt)), fun _ => f3 (by simp)⟩
    · have hstep : m.gdrive_cnode_get remote now pNew (d + 1) parent link fileId true
          = m.gdrive_cnode_get remote now pNew d (some x) (.rightOf x) fileId true := by
        conv_lhs => unfold Gdrive_Cache_Memory.gdrive_cnode_get
        simp only [hlink, hidx, if_neg hcmp, if_neg hlt0]
      rw [hstep]
      obtain ⟨t1, A, B, e1, e2, e3, e4, e5, e6, e7, e8, e9, e10, e11, e12⟩ :=
        ihr d (some x) (.rightOf x) h5 n2 b4 h3 (fun e => hnew (hrt _ e))
          (fun b hb => by
            have hbx : x ≠ b := by
              rcases hb with hb | hb
              · exact fun e => n4 (e ▸ hb)
              · exact fun e => hxn (e.trans hb)
            simp [hbx])
          (fun b hb => hids b (hrt b hb)) hlen.2
      have hxb : m.idBelow x fileId := by
        unfold Gdrive_Cache_Memory.idBelow
        simp only [hidx]
        have := strcmp_swap fileId idx
        omega
      obtain ⟨fx1, fx2, _⟩ := e11 x n4 hxn
      refine ⟨.node l x t1, l.addrs ++ x :: A, B, by simp [Gdrive_Shape.addrs, e1],
        by simp [Gdrive_Shape.addrs, e2], ?_, e4, ⟨fx1.trans h1, (fx2 (by simp)).trans h2, e6,
          ?_, e5⟩, ?_, e7, e8, e9, e10, ?_, fun _ => e12 (by simp)⟩
      · intro a ha
        rcases List.mem_append.mp ha with ha | ha
        · exact idLess_below m x a fileId hxb (b1 a ha)
        · rcases List.mem_cons.mp ha with rfl | ha
          · exact hxb
          · exact e3 a ha
      · apply holds_congr m _ l _ _ h4
        intro b hb
        obtain ⟨f1, f2, f3⟩ := e11 b (fun e => n5 b hb e) (fun e => hnew (e ▸ hlt b hb))
        exact ⟨f1, f2 (by simp), f3 (by
          simp only [ne_eq, Gdrive_Link.rightOf.injEq]
          exact fun e => n3 (e ▸ hb))⟩
      · cases link with
        | toRoot => exact (e12 (by simp)).trans hlink
        | leftOf p =>
          have hp : p ∉ (Gdrive_Shape.node l x r).addrs := fun e => (hout p (Or.inl e)).1 rfl
          have hpn : p ≠ pNew := fun e => (hout p (Or.inr e)).1 rfl
          obtain ⟨_, f2, _⟩ := e11 p (fun e => hp (hrt p e)) hpn
          exact (f2 (by simp)).trans hlink
        | rightOf p =>
          have hp : p ∉ (Gdrive_Shape.node l x r).addrs := fun e => (hout p (Or.inl e)).2 rfl
          have hpn : p ≠ pNew := fun e => (hout p (Or.inr e)).2 rfl
          obtain ⟨_, _, f3⟩ := e11 p (fun e => hp (hrt p e)) hpn
          exact (f3 (by
            simp only [ne_eq, Gdrive_Link.rightOf.injEq]
            exact fun e => hp (e ▸ hxt))).trans hlink
      · intro b hb hbn
        obtain ⟨f1, f2, f3⟩ := e11 b (fun e => hb (hrt b e)) hbn
        exact ⟨f1, fun _ => f2 (by simp), fun _ => f3 (by
          simp only [ne_eq, Gdrive_Link.rightOf.injEq]
          exact fun e => hb (e ▸ hxt))⟩

/-- Looking up an identifier that a node of the search tree carries: with
enough depth for the recursion `gdrive_cnode_get` returns that node, sets
`*pAlreadyExists` and leaves the memory as it is, whatever
`addIfDoesntExist` says. -/
theorem lookup_in_subtree (remote : Remote) (now : Int) (pNew : Nat) (fileId : String)
    (addIfDoesntExist : Bool) (m : Gdrive_Cache_Memory) (x0 : Nat)
    (hx0 : (m.node x0).fileinfo.id = some fileId) :
    ∀ (t : Gdrive_Shape) (depth : Nat) (parent : Option Nat) (link : Gdrive_Link),
      m.holds parent t → m.isSearchTree t → m.readLink link = t.root → x0 ∈ t.addrs →
      t.addrs.length ≤ depth →
      m.gdrive_cnode_get remote now pNew depth parent link fileId addIfDoesntExist
        = (m, some x0, true) := by
  intro t
  induction t with
  | nil => intro _ _ _ _ _ _ h; simp [Gdrive_Shape.addrs] at h
  | node l x r ihl ihr =>
    intro depth parent link hholds hbst hlink hmem hdepth
    obtain ⟨_, h2, h3, h4, h5⟩ := hholds
    obtain ⟨b1, b2, b3, b4⟩ := hbst
    simp only [Gdrive_Shape.addrs, List.length_append, List.length_cons] at hdepth
    obtain ⟨d, rfl⟩ : ∃ d, depth = d + 1 := ⟨depth - 1, by omega⟩
    simp only [Gdrive_Shape.root] at hlink
    have hmem1 : x0 ∈ l.addrs ∨ x0 = x ∨ x0 ∈ r.addrs := by
      simpa [Gdrive_Shape.addrs] using hmem
    rcases hmem1 with hm | rfl | hm
    · have hless := b1 x0 hm
      unfold idLess at hless
      rw [hx0] at hless
      cases hidx : (m.node x).fileinfo.id with
      | none => simp [hidx] at hless
      | some idx =>
        simp only [hidx] at hless
        conv_lhs => unfold Gdrive_Cache_Memory.gdrive_cnode_get
        simp only [hlink, hidx, if_neg (by omega : ¬ strcmp fileId idx = 0), if_pos hless]
        exact ihl d (some x) (.leftOf x) h4 b3 h2 hm (by omega)
    · conv_lhs => unfold Gdrive_Cache_Memory.gdrive_cnode_get
      simp only [hlink, hx0, strcmp_self, if_true]
    · have hless := b2 x0 hm
      unfold idLess at hless
      rw [hx0] at hless
      cases hidx : (m.node x).fileinfo.id with
      | none => simp [hidx] at hless
      | some idx =>
        simp only [hidx] at hless
        have hsw := strcmp_swap fileId idx
        conv_lhs => unfold Gdrive_Cache_Memory.gdrive_cnode_get
        simp only [hlink, hidx, if_neg (by omega : ¬ strcmp fileId idx = 0),
          if_neg (by omega : ¬ strcmp fileId idx < 0)]
        exact ihr d (some x) (.rightOf x) h5 b4 h3 hm (by omega)

/-- A memory holds one shape only below a pointer. -/
theorem holds_unique (m : Gdrive_Cache_Memory) :
    ∀ (t t1 : Gdrive_Shape) (parent : Option Nat),
      m.holds parent t → m.holds parent t1 → t.root = t1.root → t = t1 := by
  intro t
  induction t with
  | nil =>
    intro t1 _ _ _ hr
    cases t1 with
    | nil => rfl
    | node _ _ _ => simp [Gdrive_Shape.root] at hr
  | node l x r ihl ihr =>
    intro t1 parent h h1 hr
    cases t1 with
    | nil => simp [Gdrive_Shape.root] at hr
    | node l1 x1 r1 =>
      simp only [Gdrive_Shape.root, Option.some.injEq] at hr
      subst hr
      obtain ⟨_, h2, h3, h4, h5⟩ := h
      obtain ⟨_, g2, g3, g4, g5⟩ := h1
      rw [ihl l1 (some x) h4 g4 (h2.symm.trans g2), ihr r1 (some x) h5 g5 (h3.symm.trans g3)]

/-- The order of the identifiers after a node was put in its place. -/
theorem pairwise_inserted (m m1 : Gdrive_Cache_Memory) (A B : List Nat) (pNew : Nat)
    (fileId : String) (hpw : (A ++ B).Pairwise (fun a b => idLess (m.node a) (m.node b)))
    (hnode : ∀ b ∈ A ++ B, m1.node b = m.node b)
    (hnew : (m1.node pNew).fileinfo.id = some fileId)
    (hA : ∀ a ∈ A, m.idBelow a fileId) (hB : ∀ b ∈ B, m.idAbove b fileId) :
    (A ++ pNew :: B).Pairwise (fun a b => idLess (m1.node a) (m1.node b)) := by
  have hpw1 : (A ++ B).Pairwise (fun a b => idLess (m1.node a) (m1.node b)) := by
    apply List.Pairwise.imp_of_mem _ hpw
    intro a b ha hb h
    rw [hnode a ha, hnode b hb]
    exact h
  rw [List.pairwise_append] at hpw1 ⊢
  obtain ⟨p1, p2, p3⟩ := hpw1
  refine ⟨p1, ?_, ?_⟩
  · rw [List.pairwise_cons]
    refine ⟨?_, p2⟩
    intro b hb
    have := hB b hb
    unfold Gdrive_Cache_Memory.idAbove at this
    unfold idLess
    rw [hnew, hnode b (List.mem_append_right _ hb)]
    cases hib : (m.node b).fileinfo.id with
    | none => simp [hib] at this
    | some ib =>
      simp only [hib] at this ⊢
      exact this
  · intro a ha b hb
    rcases List.mem_cons.mp hb with rfl | hb
    · have := hA a ha
      unfold Gdrive_Cache_Memory.idBelow at this
      unfold idLess
      rw [hnew, hnode a (List.mem_append_left _ ha)]
      cases hia : (m.node a).fileinfo.id with
      | none => simp [hia] at this
      | some ia =>
        simp only [hia] at this ⊢
        exact this
    · exact p3 a ha b hb

theorem update_from_json_new_id (pObj : Gdrive_Json_File) (now : Int) :
    (gdrive_cnode_update_from_json gdrive_cnode_create (some pObj) now).fileinfo.id
      = pObj.id := by
  simp only [gdrive_cnode_update_from_json, gdrive_finfo_read_json, gdrive_finfo_cleanup,
    gdrive_cnode_create]
  cases pObj.id <;> rfl

/-- C29 fails as stated: the identifier of the new node is the one the
metadata response carries, which `gdrive_cnode_get` does not compare with
`fileId`. Asked for `"bb"`, a remote side that answers with the file resource
of `"z"` makes the call succeed with a new node whose identifier is `"z"`,
hung where `"bb"` belongs: the tree is no search tree any more and the
lookup of `"bb"` that follows finds nothing. -/
theorem C29_response_with_other_identifier :
    exampleTreeMemory.isTree exampleTreeShape ∧
    exampleTreeMemory.isSearchTree exampleTreeShape ∧
    (exampleTreeMemory.gdrive_cnode_get otherFileRemote 100 6 6 none .toRoot "bb" true).2
      = (some 6, false) ∧
    ((exampleTreeMemory.gdrive_cnode_get otherFileRemote 100 6 6 none .toRoot "bb" true).1.node
      6).fileinfo.id = some "z" ∧
    (exampleTreeMemory.gdrive_cnode_get otherFileRemote 100 6 6 none .toRoot "bb" true).1.isTree
      grownTreeShape ∧
    ¬ (exampleTreeMemory.gdrive_cnode_get otherFileRemote 100 6 6 none .toRoot "bb"
      true).1.isSearchTree grownTreeShape ∧
    ((exampleTreeMemory.gdrive_cnode_get otherFileRemote 100 6 6 none .toRoot "bb"
      true).1.gdrive_cnode_get failingRemote 101 7 7 none .toRoot "bb" false).2
      = (none, false) := by
  decide

/-- C29 (insert on miss), for a metadata response that carries `fileId` as
its identifier. The memory holds a binary search tree by identifier with
consistent parent pointers, no node of which carries `fileId`, and `malloc`
returns an address `pNew` not in use. Then `gdrive_cnode_get` with
`addIfDoesntExist = true`, given enough depth for its recursion, returns the
new node and leaves false in `*pAlreadyExists`; the memory holds a tree with
consistent parent pointers that is again a binary search tree, with the
addresses of the old tree and `pNew`, added once; the identifier of the new
node is `fileId`, every other node is as before, and a lookup of `fileId`
that follows returns the new node. -/
theorem C29_insert_on_miss (remote remote1 : Remote) (now now1 : Int) (pNew pNew1 : Nat)
    (fileId : String) (m : Gdrive_Cache_Memory) (t : Gdrive_Shape) (depth : Nat)
    (pObj : Gdrive_Json_File) (htree : m.isTree t) (hbst : m.isSearchTree t)
    (hids : ∀ b ∈ t.addrs, ∃ id, (m.node b).fileinfo.id = some id ∧ id ≠ fileId)
    (hnew : pNew ∉ t.addrs) (hget : remote.fileGet fileId = some pObj)
    (hid : pObj.id = some fileId) (hdepth : t.addrs.length < depth) :
    (m.gdrive_cnode_get remote now pNew depth none .toRoot fileId true).2
      = (some pNew, false) ∧
    ∃ t1, (m.gdrive_cnode_get remote now pNew depth none .toRoot fileId true).1.isTree t1 ∧
      (m.gdrive_cnode_get remote now pNew depth none .toRoot fileId true).1.isSearchTree t1 ∧
      (∃ A B, t.addrs = A ++ B ∧ t1.addrs = A ++ pNew :: B) ∧
      ((m.gdrive_cnode_get remote now pNew depth none .toRoot fileId true).1.node
        pNew).fileinfo.id = some fileId ∧
      (∀ b, b ≠ pNew →
        (m.gdrive_cnode_get remote now pNew depth none .toRoot fileId true).1.node b
          = m.node b) ∧
      (m.gdrive_cnode_get remote now pNew depth none .toRoot fileId
        true).1.gdrive_cnode_get remote1 now1 pNew1 depth none .toRoot fileId false
        = ((m.gdrive_cnode_get remote now pNew depth none .toRoot fileId true).1,
           some pNew, true) := by
  obtain ⟨hroot, hholds, hnd⟩ := htree
  obtain ⟨t1, A, B, e1, e2, e3, e4, e5, e6, _, e8, _, e10, _, _⟩ :=
    insert_in_subtree remote now pNew fileId m t depth none .toRoot hholds hnd hbst hroot hnew
      (fun b _ => by simp) hids hdepth
  obtain ⟨r1, r2⟩ := e10 pObj hget
  have hidn : ((m.gdrive_cnode_get remote now pNew depth none .toRoot fileId true).1.node
      pNew).fileinfo.id = some fileId := by
    rw [r2, update_from_json_new_id, hid]
  have hne : ∀ b ∈ A ++ B, b ≠ pNew := fun b hb e => hnew (by rw [e1, ← e]; exact hb)
  have hpw := pairwise_inserted m _ A B pNew fileId (e1 ▸ searchTree_pairwise m t hbst)
    (fun b hb => e8 b (hne b hb)) hidn e3 e4
  have hbst1 := searchTree_of_pairwise _ t1 (e2 ▸ hpw)
  have hnd1 : t1.addrs.Nodup := by
    rw [e2]
    rw [e1] at hnd hnew
    have h1 := List.nodup_append.mp hnd
    simp only [List.mem_append, not_or] at hnew
    rw [List.nodup_append]
    refine ⟨h1.1, List.nodup_cons.mpr ⟨hnew.2, h1.2.1⟩, ?_⟩
    intro a ha hb
    rcases List.mem_cons.mp hb with rfl | hb
    · exact hnew.1 ha
    · exact h1.2.2 ha hb
  refine ⟨r1, t1, ⟨e6, e5, hnd1⟩, hbst1, ⟨A, B, e1, e2⟩, hidn, e8, ?_⟩
  apply lookup_in_subtree remote1 now1 pNew1 fileId false _ pNew hidn t1 depth none .toRoot e5
    hbst1 e6 (by rw [e2]; simp)
  rw [e2]
  rw [e1] at hdepth
  simp only [List.length_append, List.length_cons] at hdepth ⊢
  omega

theorem C29_insert_on_miss_witness :
    (exampleTreeMemory.gdrive_cnode_get metadataRemote 100 6 6 none .toRoot "bb" true).2
      = (some 6, false) ∧
    ∃ t1, (exampleTreeMemory.gdrive_cnode_get metadataRemote 100 6 6 none .toRoot "bb"
        true).1.isTree t1 ∧
      (exampleTreeMemory.gdrive_cnode_get metadataRemote 100 6 6 none .toRoot "bb"
        true).1.isSearchTree t1 ∧
      (∃ A B, exampleTreeShape.addrs = A ++ B ∧ t1.addrs = A ++ 6 :: B) ∧
      ((exampleTreeMemory.gdrive_cnode_get metadataRemote 100 6 6 none .toRoot "bb"
        true).1.node 6).fileinfo.id = some "bb" ∧
      (∀ b, b ≠ 6 →
        (exampleTreeMemory.gdrive_cnode_get metadataRemote 100 6 6 none .toRoot "bb"
          true).1.node b = exampleTreeMemory.node b) ∧
      (exampleTreeMemory.gdrive_cnode_get metadataRemote 100 6 6 none .toRoot "bb"
        true).1.gdrive_cnode_get failingRemote 101 7 6 none .toRoot "bb" false
        = ((exampleTreeMemory.gdrive_cnode_get metadataRemote 100 6 6 none .toRoot "bb"
            true).1, some 6, true) :=
  C29_insert_on_miss metadataRemote failingRemote 100 101 6 7 "bb" exampleTreeMemory
    exampleTreeShape 6 (exampleJsonFile "bb" ["A"]) (by decide) (by decide) (by decide)
    (by decide) rfl rfl (by decide)

/-- C30: a failed metadata request leaves the new node in the tree. The
memory holds a binary search tree by identifier, no node of which carries
`fileId`, and `malloc` returns an address `pNew` not in use. When the
metadata request fails, `gdrive_cnode_get` with `addIfDoesntExist = true`
returns NULL, but the node it created and linked before the request is still
there: the memory holds a tree with one node more than before, the node at
`pNew`, whose identifier is NULL, and no longer holds the tree it held. -/
theorem C30_failed_insert_leaves_node (remote : Remote) (now : Int) (pNew : Nat)
    (fileId : String) (m : Gdrive_Cache_Memory) (t : Gdrive_Shape) (depth : Nat)
    (htree : m.isTree t) (hbst : m.isSearchTree t)
    (hids : ∀ b ∈ t.addrs, ∃ id, (m.node b).fileinfo.id = some id ∧ id ≠ fileId)
    (hnew : pNew ∉ t.addrs) (hget : remote.fileGet fileId = none)
    (hdepth : t.addrs.length < depth) :
    (m.gdrive_cnode_get remote now pNew depth none .toRoot fileId true).2 = (none, false) ∧
    (∃ t1, (m.gdrive_cnode_get remote now pNew depth none .toRoot fileId true).1.isTree t1 ∧
      (∃ A B, t.addrs = A ++ B ∧ t1.addrs = A ++ pNew :: B)) ∧
    ((m.gdrive_cnode_get remote now pNew depth none .toRoot fileId true).1.node
      pNew).fileinfo.id = none ∧
    ¬ (m.gdrive_cnode_get remote now pNew depth none .toRoot fileId true).1.isTree t := by
  obtain ⟨hroot, hholds, hnd⟩ := htree
  obtain ⟨t1, A, B, e1, e2, _, _, e5, e6, _, _, e9, _, _, _⟩ :=
    insert_in_subtree remote now pNew fileId m t depth none .toRoot hholds hnd hbst hroot hnew
      (fun b _ => by simp) hids hdepth
  obtain ⟨r1, r2⟩ := e9 hget
  have hnd1 : t1.addrs.Nodup := by
    rw [e2]
    rw [e1] at hnd hnew
    have h1 := List.nodup_append.mp hnd
    simp only [List.mem_append, not_or] at hnew
    rw [List.nodup_append]
    refine ⟨h1.1, List.nodup_cons.mpr ⟨hnew.2, h1.2.1⟩, ?_⟩
    intro a ha hb
    rcases List.mem_cons.mp hb with rfl | hb
    · exact hnew.1 ha
    · exact h1.2.2 ha hb
  refine ⟨r1, ⟨t1, ⟨e6, e5, hnd1⟩, A, B, e1, e2⟩, by rw [r2]; rfl, ?_⟩
  rintro ⟨g1, g2, _⟩
  have heq := holds_unique _ t1 t none e5 g2 (e6.symm.trans g1)
  rw [heq] at e2
  exact hnew (by rw [e2]; simp)

theorem C30_failed_insert_leaves_node_witness :
    (exampleTreeMemory.gdrive_cnode_get failingRemote 100 6 6 none .toRoot "bb" true).2
      = (none, false) ∧
    (∃ t1, (exampleTreeMemory.gdrive_cnode_get failingRemote 100 6 6 none .toRoot "bb"
        true).1.isTree t1 ∧
      (∃ A B, exampleTreeShape.addrs = A ++ B ∧ t1.addrs = A ++ 6 :: B)) ∧
    ((exampleTreeMemory.gdrive_cnode_get failingRemote 100 6 6 none .toRoot "bb"
      true).1.node 6).fileinfo.id = none ∧
    ¬ (exampleTreeMemory.gdrive_cnode_get failingRemote 100 6 6 none .toRoot "bb"
      true).1.isTree exampleTreeShape :=
  C30_failed_insert_leaves_node failingRemote 100 6 "bb" exampleTreeMemory exampleTreeShape 6
    (by decide) (by decide) (by decide) (by decide) rfl (by decide)

/-- After a failed metadata request for `"bb"` the node without identifier
sits where `"bb"` belongs: the tree is `grownTreeShape`,
and the next `gdrive_cnode_get` for `"bb"`, now with a remote side that
answers, reaches that node, whose NULL identifier the source hands to
`strcmp`; here the search ends without a result. -/
theorem failed_insert_blocks_identifier :
    (exampleTreeMemory.gdrive_cnode_get failingRemote 100 6 6 none .toRoot "bb"
      true).1.isTree grownTreeShape ∧
    ((exampleTreeMemory.gdrive_cnode_get failingRemote 100 6 6 none .toRoot "bb"
      true).1.gdrive_cnode_get metadataRemote 101 7 7 none .toRoot "bb" true).2
      = (none, false) := by
  decide

end FuseDrive
